import Mathlib

/-! ChronoDB storage engine: slotted pages, record codec, table files.

A shallow embedding of `src/storage/storage.cpp`.  Byte buffers
(`vector<uint8_t>`) are lists of naturals, fixed-width machine integers are
naturals or integers with the wrap-around of each cast written out, a data file
is the list of its bytes (`none` when the file does not exist), and a call that
throws or indexes a missing element returns a `Fault`.  The header `storage.h`
is not among the sources: its two constants are the parameters `Layout`, and
its constructor `Page()`, `usedDataBytes()` and the two `sizeof` values are
modelled from the specification.  File operations succeed, vectors and `size_t`
positions are unbounded, and the host is little-endian.
-/

set_option autoImplicit false

namespace ChronoDB

/-! ## Bytes -/

/-- The `k` low-order bytes of `n`, least significant first: what
`memcpy(dst, &n, k)` stores for an unsigned integer on the (little-endian)
host. -/
def toBytesLE : Nat → Nat → List Nat
  | 0, _ => []
  | k + 1, n => n % 256 :: toBytesLE k (n / 256)

/-- The unsigned integer that `memcpy(&n, src, k)` loads from `k` bytes
(each byte is a `uint8_t`). -/
def fromBytesLE : List Nat → Nat
  | [] => 0
  | b :: bs => b % 256 + 256 * fromBytesLE bs

/-- The `n` bytes of `buf` starting at `pos` (those that exist). -/
def readAt (buf : List Nat) (pos n : Nat) : List Nat :=
  (buf.drop pos).take n

/-- Overwrite `buf` from `pos` on with `src`: `memcpy(buf.data() + pos, src, |src|)`. -/
def memcpy (buf : List Nat) (pos : Nat) (src : List Nat) : List Nat :=
  buf.take pos ++ src ++ buf.drop (pos + src.length)

/-- Reinterpret a 32-bit pattern as a two's-complement `int32_t`. -/
def toInt32 (n : Nat) : Int :=
  if n % 4294967296 < 2147483648 then (n % 4294967296 : Nat) else ((n % 4294967296 : Nat) : Int) - 4294967296

/-! ## Records -/

/-- A field value, `std::variant<int, float, std::string>`.  A float is kept as
its 32-bit pattern, a string as its bytes. -/
inductive RecordValue where
  | Integer (x : Int)
  | Float (bits : Nat)
  | Text (s : List Nat)
  deriving DecidableEq, Repr

/-- A record: `struct Record { vector<RecordValue> fields; }`. -/
structure Record where
  fields : List RecordValue
  deriving DecidableEq, Repr

/-- One iteration of the field loop of `serializeRecord`: append the type tag
and the payload of `v` to `out`. -/
def serializeField (out : List Nat) (v : RecordValue) : List Nat :=
  match v with
  | .Integer x => out ++ [0] ++ toBytesLE 4 (x % 4294967296).toNat
  | .Float f => out ++ [1] ++ toBytesLE 4 f
  | .Text s =>
    let len := s.length % 65536
    out ++ [2] ++ (toBytesLE 2 len ++ s.take len)

/-- Embeds `StorageEngine::serializeRecord`. -/
def serializeRecord (r : Record) : List Nat :=
  let fieldCount := r.fields.length % 65536
  r.fields.foldl serializeField (toBytesLE 2 fieldCount)

/-- The field loop of `deserializeRecord`: `n` fields are still to be read,
`pos` is the read position, `fields` is `out.fields` so far. -/
def deserializeFields (inp : List Nat) : Nat → Nat → List RecordValue → Option (List RecordValue)
  | 0, _, fields => some fields
  | n + 1, pos, fields =>
    if pos ≥ inp.length then none
    else
      let typeTag := inp.getD pos 0
      let pos := pos + 1
      if typeTag = 0 then
        if pos + 4 > inp.length then none
        else
          let x := toInt32 (fromBytesLE (readAt inp pos 4))
          deserializeFields inp n (pos + 4) (fields ++ [.Integer x])
      else if typeTag = 1 then
        if pos + 4 > inp.length then none
        else
          let f := fromBytesLE (readAt inp pos 4)
          deserializeFields inp n (pos + 4) (fields ++ [.Float f])
      else
        if pos + 2 > inp.length then none
        else
          let len := fromBytesLE (readAt inp pos 2)
          let pos := pos + 2
          if pos + len > inp.length then none
          else deserializeFields inp n (pos + len) (fields ++ [.Text (readAt inp pos len)])

/-- Embeds `StorageEngine::deserializeRecord`: `none` is the `false` return. -/
def deserializeRecord (inp : List Nat) : Option Record :=
  if inp.length < 2 then none
  else
    let fieldCount := fromBytesLE (readAt inp 0 2)
    (deserializeFields inp fieldCount 2 []).map Record.mk

/-- A field value lies in the range of its C++ type: `int` is 32-bit signed,
a `float` pattern has 32 bits. -/
def RecordValue.InRange : RecordValue → Prop
  | .Integer x => -2147483648 ≤ x ∧ x < 2147483648
  | .Float f => f < 4294967296
  | .Text _ => True

/-- A text field short enough for its 16-bit length prefix. -/
def RecordValue.TextFits : RecordValue → Prop
  | .Text s => s.length ≤ 65535
  | _ => True

/-- A record the wire format can represent: every field in the range of its
type, at most 65535 fields, every text of at most 65535 bytes. -/
def Record.Encodable (r : Record) : Prop :=
  r.fields.length ≤ 65535 ∧ ∀ v ∈ r.fields, v.InRange ∧ v.TextFits

/-! ## Pages -/

/-- Modelled from the spec: `PAGE_SIZE` and `PAGE_HEADER_RESERVED` are constants
of `storage.h`, which is not among the sources; the spec names them without a
value, so the page geometry is a parameter of every definition that uses it. -/
structure Layout where
  PAGE_SIZE : Nat
  PAGE_HEADER_RESERVED : Nat
  deriving DecidableEq, Repr

/-- The geometries the page format supports: the reserved header holds the
twelve bytes of `pageID`, `slotCount` and `freeSpaceOffset`, it lies inside the
page, and every page offset fits the 16-bit fields that store offsets. -/
def Layout.Valid (c : Layout) : Prop :=
  12 ≤ c.PAGE_HEADER_RESERVED ∧ c.PAGE_HEADER_RESERVED ≤ c.PAGE_SIZE ∧ c.PAGE_SIZE ≤ 65535

/-- A slot directory entry, built as `SlotEntry(offset, length, active)`. -/
structure SlotEntry where
  offset : Nat
  length : Nat
  active : Bool
  deriving DecidableEq, Repr

/-- Modelled from the spec: `sizeof(SlotEntry)`, declared in `storage.h`; the
spec gives "slotEntrySize (5 bytes)". -/
def sizeofSlotEntry : Nat := 5

/-- Modelled from the spec: `sizeof(pageID)`, declared in `storage.h`; the spec
stores pageID in bytes `[0,8)`. -/
def sizeofPageID : Nat := 8

/-- The fields of `class Page`. -/
structure Page where
  pageID : Nat
  slotCount : Nat
  freeSpaceOffset : Nat
  slots : List SlotEntry
  data : List Nat
  deriving DecidableEq, Repr

/-- Modelled from the spec: the constructor `Page()` of `storage.h`: page ID 0,
no slots, a zeroed buffer of `PAGE_SIZE` bytes and the data region starting
right after the reserved header. -/
def Page.empty (c : Layout) : Page :=
  { pageID := 0, slotCount := 0, freeSpaceOffset := c.PAGE_HEADER_RESERVED, slots := [],
    data := List.replicate c.PAGE_SIZE 0 }

/-- Modelled from the spec: `Page::usedDataBytes()` of `storage.h`; the spec
bounds `freeSpaceOffset + slotCount × 5` by `PAGE_SIZE`, so the bytes in use are
those below `freeSpaceOffset`. -/
def Page.usedDataBytes (p : Page) : Nat := p.freeSpaceOffset

/-- Embeds `Page::freeSpace`. -/
def Page.freeSpace (c : Layout) (p : Page) : Nat :=
  let slotDirBytes := (p.slots.length % 4294967296 * sizeofSlotEntry) % 4294967296
  if p.usedDataBytes + slotDirBytes ≥ c.PAGE_SIZE then 0
  else (c.PAGE_SIZE - p.usedDataBytes - slotDirBytes) % 65536

/-- Embeds `Page::insertRawRecord`: the page afterwards and the returned slot ID
(`none` for `nullopt`). -/
def Page.insertRawRecord (c : Layout) (p : Page) (rec : List Nat) : Page × Option Nat :=
  let need := rec.length % 65536
  let slotOverhead := sizeofSlotEntry % 65536
  if p.freeSpace c < need + slotOverhead then (p, none)
  else
    let data := memcpy p.data p.freeSpaceOffset (rec.take need)
    let slots := p.slots ++ [{ offset := p.freeSpaceOffset, length := need, active := true }]
    let slotID := (slots.length - 1) % 65536
    ({ p with data := data, slots := slots,
              freeSpaceOffset := (p.freeSpaceOffset + need) % 65536,
              slotCount := slots.length % 65536 }, some slotID)

/-- Embeds `Page::deleteSlot`: the page afterwards and the returned flag. -/
def Page.deleteSlot (p : Page) (slotID : Nat) : Page × Bool :=
  match p.slots[slotID]? with
  | none => (p, false)
  | some s =>
    if !s.active then (p, false)
    else ({ p with slots := p.slots.set slotID { s with active := false } }, true)

/-- Embeds `Page::readRawRecord`: `some out` when it returns `true`. -/
def Page.readRawRecord (c : Layout) (p : Page) (slotID : Nat) : Option (List Nat) :=
  match p.slots[slotID]? with
  | none => none
  | some s =>
    if !s.active then none
    else if s.offset + s.length > c.PAGE_SIZE then none
    else some (readAt p.data s.offset s.length)

/-- The body of the slot loop of `serializeToBuffer` after `pos -= 5`: the
active flag at `pos`, the length at `pos + 1`, the offset at `pos + 3`. -/
def writeSlotEntry (buffer : List Nat) (pos : Nat) (s : SlotEntry) : List Nat :=
  let buffer := buffer.set pos (if s.active then 1 else 0)
  let buffer := memcpy buffer (pos + 1) (toBytesLE 2 s.length)
  memcpy buffer (pos + 3) (toBytesLE 2 s.offset)

/-- The slot loop of `serializeToBuffer`; the slots come in the order the loop
visits them (last slot first), `pos` is the write position before the step. -/
def serializeSlots : List SlotEntry → Nat → List Nat → List Nat
  | [], _, buffer => buffer
  | s :: rest, pos, buffer => serializeSlots rest (pos - 5) (writeSlotEntry buffer (pos - 5) s)

/-- Embeds `Page::serializeToBuffer`. -/
def Page.serializeToBuffer (c : Layout) (p : Page) : List Nat :=
  let buffer := List.replicate c.PAGE_SIZE 0
  let buffer := memcpy buffer 0 (toBytesLE sizeofPageID p.pageID)
  let buffer := memcpy buffer 8 (toBytesLE 2 p.slotCount)
  let buffer := memcpy buffer 10 (toBytesLE 2 p.freeSpaceOffset)
  let buffer :=
    if p.freeSpaceOffset > c.PAGE_HEADER_RESERVED then
      memcpy buffer c.PAGE_HEADER_RESERVED
        (readAt p.data c.PAGE_HEADER_RESERVED (p.freeSpaceOffset - c.PAGE_HEADER_RESERVED))
    else buffer
  serializeSlots p.slots.reverse c.PAGE_SIZE buffer

/-- The body of the slot loop of `deserializeFromBuffer` after `pos -= 5`: the
entry stored at `pos`. -/
def readSlotEntry (buffer : List Nat) (pos : Nat) : SlotEntry :=
  let active := buffer.getD pos 0 != 0
  let len := fromBytesLE (readAt buffer (pos + 1) 2)
  let off := fromBytesLE (readAt buffer (pos + 3) 2)
  { offset := off, length := len, active := active }

/-- The slot loop of `deserializeFromBuffer`: `n` iterations are left, `pos` is
the read position, `slots` the entries read so far (last slot first). -/
def deserializeSlots (buffer : List Nat) : Nat → Nat → List SlotEntry → List SlotEntry
  | 0, _, slots => slots
  | n + 1, pos, slots =>
    if pos < 5 then slots
    else deserializeSlots buffer n (pos - 5) (slots ++ [readSlotEntry buffer (pos - 5)])

/-- Embeds `Page::deserializeFromBuffer`, called on the page `p`.  The copy of
the data region takes its length from the stored `freeSpaceOffset`; here it
copies the bytes that exist.  This is what the C++ `memcpy` does for a stored
`freeSpaceOffset` of at most `PAGE_SIZE`; for a larger one the `memcpy` leaves
the buffer and the page's data (`Page.deserializeFromBufferChecked`). -/
def Page.deserializeFromBuffer (c : Layout) (p : Page) (buffer : List Nat) : Page :=
  if buffer.length < c.PAGE_SIZE then p
  else
    let pageID := fromBytesLE (readAt buffer 0 sizeofPageID)
    let slotCount := fromBytesLE (readAt buffer 8 2)
    let freeSpaceOffset := fromBytesLE (readAt buffer 10 2)
    let data :=
      if freeSpaceOffset > c.PAGE_HEADER_RESERVED then
        memcpy p.data c.PAGE_HEADER_RESERVED
          (readAt buffer c.PAGE_HEADER_RESERVED (freeSpaceOffset - c.PAGE_HEADER_RESERVED))
      else p.data
    let slots := deserializeSlots buffer slotCount c.PAGE_SIZE []
    { pageID := pageID, slotCount := slotCount, freeSpaceOffset := freeSpaceOffset,
      slots := slots.reverse, data := data }

/-! ## Storage engine -/

/-- A data file: its bytes, or `none` when no file of that path exists. -/
abbrev DataFile := Option (List Nat)

/-- The two files of one table. -/
structure TableFiles where
  data : DataFile
  metaFile : Option String
  deriving DecidableEq, Repr

/-- The ways a call can end without returning. -/
inductive Fault where
  /-- Thrown: `std::get<int>` on a field holding a float or a string throws
  `std::bad_variant_access`. -/
  | badVariantAccess
  /-- Undefined behaviour: `fields[0]` on a record without fields. -/
  | noSuchField
  deriving DecidableEq, Repr

/-- The expression `get<int>(r.fields[0])`. -/
def getId (r : Record) : Except Fault Int :=
  match r.fields with
  | [] => .error .noSuchField
  | .Integer x :: _ => .ok x
  | _ :: _ => .error .badVariantAccess

/-- Embeds `StorageEngine::createTable` on the files of the table `tableName`. -/
def createTable (c : Layout) (tableName : String) (t : TableFiles) : Bool × TableFiles :=
  match t.data with
  | some _ => (false, t)
  | none =>
    let p := { Page.empty c with pageID := 0 }
    (true, { data := some (p.serializeToBuffer c),
             metaFile := some ("table=" ++ tableName ++ "\n") })

/-- Embeds `StorageEngine::pageCount`. -/
def pageCount (c : Layout) (file : DataFile) : Nat :=
  match file with
  | none => 0
  | some bytes => ((bytes.length + c.PAGE_SIZE - 1) / c.PAGE_SIZE) % 4294967296

/-- Embeds `StorageEngine::readPageFromFile`: the buffer starts zeroed and receives the
bytes the file has at page `pageIndex`. -/
def readPageFromFile (c : Layout) (bytes : List Nat) (pageIndex : Nat) (outPage : Page) : Page :=
  let chunk := readAt bytes (pageIndex * c.PAGE_SIZE) c.PAGE_SIZE
  let buffer := chunk ++ List.replicate (c.PAGE_SIZE - chunk.length) 0
  outPage.deserializeFromBuffer c buffer

/-- The slot loop of `selectAll`: the records of the active slots of `p`, in
slot order; the result of `readRawRecord` is not looked at.  The loop index is a
`uint16_t`; a decoded page has at most 65535 slots. -/
def Page.selectRecords (c : Layout) (p : Page) : List Record :=
  (List.range p.slots.length).filterMap fun s =>
    match p.slots[s]? with
    | none => none
    | some slot =>
      if !slot.active then none
      else deserializeRecord ((p.readRawRecord c s).getD [])

/-- Embeds `StorageEngine::selectAll` on the data file of the table. -/
def selectAll (c : Layout) (file : DataFile) : List Record :=
  (List.range (pageCount c file)).flatMap fun i =>
    (readPageFromFile c (file.getD []) i (Page.empty c)).selectRecords c

/-- The slot loop of `loadAllRecords`: a record is decoded only when
`readRawRecord` succeeds.  The loop index is a `uint16_t`; a decoded page has at
most 65535 slots. -/
def Page.loadRecords (c : Layout) (p : Page) : List Record :=
  (List.range p.slots.length).filterMap fun s =>
    match p.slots[s]? with
    | none => none
    | some slot =>
      if !slot.active then none
      else (p.readRawRecord c s).bind deserializeRecord

/-- The page loop of `loadAllRecords`: `n` full pages are left to read in
`rest`; the loop ends at the first page whose `slotCount` is zero. -/
def loadPages (c : Layout) : Nat → List Nat → List Record
  | 0, _ => []
  | n + 1, rest =>
    let buffer := rest.take c.PAGE_SIZE
    let p := (Page.empty c).deserializeFromBuffer c buffer
    if p.slotCount = 0 then []
    else p.loadRecords c ++ loadPages c n (rest.drop c.PAGE_SIZE)

/-- Embeds `StorageEngine::loadAllRecords`: a read succeeds as long as a full page is
left, that is `length / PAGE_SIZE` times. -/
def loadAllRecords (c : Layout) (file : DataFile) : List Record :=
  match file with
  | none => []
  | some bytes => loadPages c (bytes.length / c.PAGE_SIZE) bytes

/-- The `remove_if`/`erase` of `insertRecord` and `deleteRecord`: drop every
record whose `get<int>(fields[0])` is `id`; the predicate runs on each record in
turn, and its first fault ends the call. -/
def eraseById (id : Int) : List Record → Except Fault (List Record)
  | [] => .ok []
  | r :: rs =>
    match getId r with
    | .error e => .error e
    | .ok k =>
      match eraseById id rs with
      | .error e => .error e
      | .ok rest => .ok (if k = id then rest else r :: rest)

/-- One iteration of the rewrite loop of `insertRecord` and `updateRecord` (the
two loops are the same text): `out` is what was written so far, `p` the current
page. -/
def writeStep (c : Layout) (st : List Nat × Page) (r : Record) : List Nat × Page :=
  let bytes := serializeRecord r
  match st.2.insertRawRecord c bytes with
  | (p, some _) => (st.1, p)
  | (p, none) =>
    let out := st.1 ++ p.serializeToBuffer c
    let p := Page.empty c
    let p := { p with pageID := (p.pageID + 1) % 18446744073709551616 }
    (out, (p.insertRawRecord c bytes).1)

/-- The rewrite loop started with the current page `p` and nothing written:
the bytes written by the loop and by the final page write after it. -/
def writeFrom (c : Layout) (p : Page) (records : List Record) : List Nat :=
  let st := records.foldl (writeStep c) ([], p)
  st.1 ++ st.2.serializeToBuffer c

/-- The rewrite of `insertRecord` and `updateRecord`: the bytes of the file
after the truncation, the loop and the final page write. -/
def writeAllRecords (c : Layout) (records : List Record) : List Nat :=
  writeFrom c { Page.empty c with pageID := 0 } records

/-- Embeds `StorageEngine::insertRecord` on the data file of the table: the returned
flag and the file afterwards.  Opening the file for writing succeeds. -/
def insertRecord (c : Layout) (file : DataFile) (rec : Record) :
    Except Fault (Bool × DataFile) :=
  let records := loadAllRecords c file
  match getId rec with
  | .error e => .error e
  | .ok id =>
    match eraseById id records with
    | .error e => .error e
    | .ok records =>
      let records := records ++ [rec]
      .ok (true, some (writeAllRecords c records))

/-- The search loop of `updateRecord`: replace the first record whose id is
`id`; the flag is `updated`. -/
def replaceFirst (id : Int) (newRecord : Record) : List Record → Except Fault (List Record × Bool)
  | [] => .ok ([], false)
  | r :: rs =>
    match getId r with
    | .error e => .error e
    | .ok k =>
      if k = id then .ok (newRecord :: rs, true)
      else
        match replaceFirst id newRecord rs with
        | .error e => .error e
        | .ok (rs', updated) => .ok (r :: rs', updated)

/-- Embeds `StorageEngine::updateRecord` on the data file of the table.  Opening
the file for writing succeeds. -/
def updateRecord (c : Layout) (file : DataFile) (id : Int) (newRecord : Record) :
    Except Fault (Bool × DataFile) :=
  let records := loadAllRecords c file
  match replaceFirst id newRecord records with
  | .error e => .error e
  | .ok (records, updated) =>
    if !updated then .ok (false, file)
    else .ok (true, some (writeAllRecords c records))

/-- One iteration of the rewrite loop of `deleteRecord`: a new page 0 for each
record, written when the record went in. -/
def deleteStep (c : Layout) (out : List Nat) (rec : Record) : List Nat :=
  let bytes := serializeRecord rec
  let newPage := { Page.empty c with pageID := 0 }
  match newPage.insertRawRecord c bytes with
  | (newPage, some _) => out ++ newPage.serializeToBuffer c
  | (_, none) => out

/-- Embeds `StorageEngine::deleteRecord` on the data file of the table. -/
def deleteRecord (c : Layout) (file : DataFile) (id : Int) : Except Fault (Bool × DataFile) :=
  let records := loadAllRecords c file
  let before := records.length
  match eraseById id records with
  | .error e => .error e
  | .ok records =>
    if records.length = before then .ok (false, file)
    else .ok (true, some (records.foldl (deleteStep c) []))

/-! ## Notions the properties are stated with -/

/-- The pages obtained from an empty page (with any 64-bit page ID) by calls of
`insertRawRecord` and `deleteSlot`. -/
inductive Page.Reachable (c : Layout) : Page → Prop
  | empty (pageID : Nat) (h : pageID < 18446744073709551616) :
      Page.Reachable c { Page.empty c with pageID := pageID }
  | insert (p : Page) (rec : List Nat) :
      Page.Reachable c p → Page.Reachable c (p.insertRawRecord c rec).1
  | delete (p : Page) (slotID : Nat) :
      Page.Reachable c p → Page.Reachable c (p.deleteSlot slotID).1

/-- The page after calling `insertRawRecord` with `recs 0`, ..., `recs (n - 1)`
in turn, whatever the calls return. -/
def insertMany (c : Layout) (p : Page) (recs : Nat → List Nat) : Nat → Page
  | 0 => p
  | n + 1 => ((insertMany c p recs n).insertRawRecord c (recs n)).1

/-- Slots laid out back to back: the first starts at `start`, each next one
where the previous one ends, the last one ends at `stop`. -/
def Contiguous : Nat → List SlotEntry → Nat → Prop
  | start, [], stop => start = stop
  | start, s :: rest, stop => s.offset = start ∧ Contiguous (start + s.length) rest stop

/-- The invariant of the pages the engine builds. -/
structure Page.Inv (c : Layout) (p : Page) : Prop where
  data_length : p.data.length = c.PAGE_SIZE
  slotCount_eq : p.slotCount = p.slots.length
  contiguous : Contiguous c.PAGE_HEADER_RESERVED p.slots p.freeSpaceOffset
  room : p.freeSpaceOffset + 5 * p.slots.length ≤ c.PAGE_SIZE
  pageID_lt : p.pageID < 18446744073709551616

/-- What the slot loop of `selectAll` makes of one slot entry over the page
bytes `data`. -/
def selectSlot (c : Layout) (data : List Nat) (slot : SlotEntry) : Option Record :=
  if !slot.active then none
  else
    deserializeRecord
      ((if slot.offset + slot.length > c.PAGE_SIZE then none
        else some (readAt data slot.offset slot.length)).getD [])

/-- What the slot loop of `loadAllRecords` makes of one slot entry over the page
bytes `data`. -/
def loadSlot (c : Layout) (data : List Nat) (slot : SlotEntry) : Option Record :=
  if !slot.active then none
  else
    (if slot.offset + slot.length > c.PAGE_SIZE then none
     else some (readAt data slot.offset slot.length)).bind deserializeRecord

/-- A record that fits an empty page: `insertRawRecord` of its bytes into a
new page has room for the bytes and the 5-byte slot entry. -/
def Record.FitsEmptyPage (c : Layout) (r : Record) : Prop :=
  (serializeRecord r).length + 5 ≤ c.PAGE_SIZE - c.PAGE_HEADER_RESERVED

/-- A record the engine can store and give back: representable on the wire and
small enough for an empty page. -/
def Record.Storable (c : Layout) (r : Record) : Prop :=
  r.Encodable ∧ r.FitsEmptyPage c

/-- The test `get<int>(r.fields[0]) == id` on a record that has an Integer
`fields[0]`; `false` on any other record. -/
def Record.idIs (r : Record) (id : Int) : Bool :=
  match getId r with
  | .ok k => decide (k = id)
  | .error _ => false

/-- A record that follows the identifier convention: `fields[0]` exists and holds
an `int`. -/
def Record.HasId (r : Record) : Prop := ∃ id, getId r = .ok id

/-- The consistency of a data file: both scans return the same records, each of
them storable and with an Integer `fields[0]`, and there are fewer than
2^32 − 1 of them. -/
def TableInv (c : Layout) (f : DataFile) : Prop :=
  loadAllRecords c f = selectAll c f ∧
  (∀ r ∈ selectAll c f, r.Storable c ∧ r.HasId) ∧
  (selectAll c f).length + 1 < 4294967296

/-- The data files the engine produces from records it can store: a table is
created empty, and changed by successful `insertRecord`, `updateRecord` and
`deleteRecord` calls whose argument records are storable and carry an Integer
`fields[0]`; an insert is made while the table has fewer than 2^32 − 2
records, so that the 32-bit page count of `selectAll` does not wrap. -/
inductive EngineTable (c : Layout) : DataFile → Prop
  | create (tableName : String) (m : Option String) :
      EngineTable c (createTable c tableName { data := none, metaFile := m }).2.data
  | insert (f f' : DataFile) (rec : Record) :
      EngineTable c f → rec.Storable c → rec.HasId →
      (selectAll c f).length + 2 < 4294967296 →
      insertRecord c f rec = .ok (true, f') → EngineTable c f'
  | update (f f' : DataFile) (id : Int) (newRecord : Record) :
      EngineTable c f → newRecord.Storable c → newRecord.HasId →
      updateRecord c f id newRecord = .ok (true, f') → EngineTable c f'
  | delete (f f' : DataFile) (id : Int) :
      EngineTable c f → deleteRecord c f id = .ok (true, f') → EngineTable c f'

/-- A geometry for concrete runs: 4096-byte pages with a 16-byte reserved
header.  The values of `storage.h` are not among the sources; the general
statements below hold for every valid geometry. -/
def layout4K : Layout := { PAGE_SIZE := 4096, PAGE_HEADER_RESERVED := 16 }

/-- The file after inserting the records of a list one after another with
`insertRecord`; `none` as soon as a call faults or returns `false`. -/
def insertAll (c : Layout) : DataFile → List Record → Option DataFile
  | f, [] => some f
  | f, r :: rs =>
    match insertRecord c f r with
    | .ok (true, f') => insertAll c f' rs
    | _ => none

/-- The data file a call leaves behind: the file it returns, or the file as it
was when the call faulted. -/
def fileAfter (f : DataFile) (res : Except Fault (Bool × DataFile)) : DataFile :=
  match res with
  | .ok (_, f') => f'
  | .error _ => f

/-- The flag a call returned, if it returned. -/
def flagOf (res : Except Fault (Bool × DataFile)) : Option Bool :=
  match res with
  | .ok (b, _) => some b
  | .error _ => none

/-- The record `{1, "Alice", 3.8}` of the command list in `main.cpp`. -/
def alice : Record :=
  { fields := [.Integer 1, .Text [65, 108, 105, 99, 101], .Float 1081291571] }

/-- The record `{2, "Bob", 3.5}` of the command list in `main.cpp`. -/
def bob : Record :=
  { fields := [.Integer 2, .Text [66, 111, 98], .Float 1080033280] }

/-- A record whose text has 65536 bytes, one more than a 16-bit length holds. -/
def longTextRecord (id : Int) : Record :=
  { fields := [.Integer id, .Text (List.replicate 65536 0)] }

/-- The record `longTextRecord id` with its text emptied. -/
def emptyTextRecord (id : Int) : Record :=
  { fields := [.Integer id, .Text []] }

/-- A record whose `fields[0]` is a Float. -/
def floatIdRecord : Record := { fields := [.Float 0] }

/-- A record too long for a 4096-byte page: id 1 and a text of 5000 bytes. -/
def oversizeRecord : Record :=
  { fields := [.Integer 1, .Text (List.replicate 5000 0)] }

/-- The data file right after `createTable("students")`. -/
def newTable (c : Layout) : DataFile :=
  (createTable c "students" { data := none, metaFile := none }).2.data

/-- The table `students` after `createTable` and the inserts of `alice` and
`bob`, at the 4096-byte geometry. -/
def students : DataFile :=
  fileAfter none (insertRecord layout4K
    (fileAfter none (insertRecord layout4K (newTable layout4K) alice)) bob)

/-- The table `students` after a further `updateRecord(1, r)` whose record `r`
has a Float as `fields[0]`. -/
def floatIdTable : DataFile :=
  fileAfter none (updateRecord layout4K students 1 floatIdRecord)

/-- The table `students` after a further `updateRecord(1, oversizeRecord)`. -/
def oversizeTable : DataFile :=
  fileAfter none (updateRecord layout4K students 1 oversizeRecord)

/-- A call on a page: `insertRawRecord(rec)` or `deleteSlot(slotID)`. -/
inductive PageOp where
  | insert (rec : List Nat)
  | delete (slotID : Nat)
  deriving DecidableEq, Repr

/-- The page after a sequence of calls, whatever the calls return. -/
def applyOps (c : Layout) : Page → List PageOp → Page
  | p, [] => p
  | p, .insert rec :: ops => applyOps c (p.insertRawRecord c rec).1 ops
  | p, .delete slotID :: ops => applyOps c (p.deleteSlot slotID).1 ops

/-- A page object as the class keeps it: a buffer of `PAGE_SIZE` bytes and a slot
table that its 16-bit `slotCount` can count. -/
def Page.WellFormed (c : Layout) (p : Page) : Prop :=
  p.data.length = c.PAGE_SIZE ∧ p.slots.length ≤ 65535

/-- The serialized form of a slot entry: the active flag, the length and the
offset, five bytes. -/
def slotEntryBytes (s : SlotEntry) : List Nat :=
  (if s.active then 1 else 0) :: (toBytesLE 2 s.length ++ toBytesLE 2 s.offset)

/-- A read or write outside the bytes of a buffer. -/
inductive MemFault where
  | readOutOfBounds
  | writeOutOfBounds
  deriving DecidableEq, Repr

/-- The read of `n` bytes at `pos` that faults when it leaves the buffer, as
`memcpy(dst, buf.data() + pos, n)` and `buf[pos]` do. -/
def readChecked (buf : List Nat) (pos n : Nat) : Except MemFault (List Nat) :=
  if pos + n ≤ buf.length then .ok (readAt buf pos n) else .error .readOutOfBounds

/-- The field loop of `deserializeRecord` with every read of the input checked:
the same control flow as `deserializeFields`, the bytes taken by `readChecked`. -/
def deserializeFieldsChecked (inp : List Nat) :
    Nat → Nat → List RecordValue → Except MemFault (Option (List RecordValue))
  | 0, _, fields => .ok (some fields)
  | n + 1, pos, fields =>
    if pos ≥ inp.length then .ok none
    else
      match readChecked inp pos 1 with
      | .error e => .error e
      | .ok tagByte =>
        let typeTag := tagByte.getD 0 0
        let pos := pos + 1
        if typeTag = 0 then
          if pos + 4 > inp.length then .ok none
          else
            match readChecked inp pos 4 with
            | .error e => .error e
            | .ok bytes =>
              deserializeFieldsChecked inp n (pos + 4)
                (fields ++ [.Integer (toInt32 (fromBytesLE bytes))])
        else if typeTag = 1 then
          if pos + 4 > inp.length then .ok none
          else
            match readChecked inp pos 4 with
            | .error e => .error e
            | .ok bytes =>
              deserializeFieldsChecked inp n (pos + 4) (fields ++ [.Float (fromBytesLE bytes)])
        else
          if pos + 2 > inp.length then .ok none
          else
            match readChecked inp pos 2 with
            | .error e => .error e
            | .ok lenBytes =>
              let len := fromBytesLE lenBytes
              let pos := pos + 2
              if pos + len > inp.length then .ok none
              else
                match readChecked inp pos len with
                | .error e => .error e
                | .ok s => deserializeFieldsChecked inp n (pos + len) (fields ++ [.Text s])

/-- The function `StorageEngine::deserializeRecord` with every read of the input
checked: `.ok none` is the `false` return, `.error` a read outside the input. -/
def deserializeRecordChecked (inp : List Nat) : Except MemFault (Option Record) :=
  if inp.length < 2 then .ok none
  else
    match readChecked inp 0 2 with
    | .error e => .error e
    | .ok countBytes =>
      match deserializeFieldsChecked inp (fromBytesLE countBytes) 2 [] with
      | .error e => .error e
      | .ok res => .ok (res.map Record.mk)

/-- The page IDs stored in the pages of a data file, in file order, read the way
`selectAll` reads the pages. -/
def pageIDs (c : Layout) (file : DataFile) : List Nat :=
  (List.range (pageCount c file)).map fun i =>
    (readPageFromFile c (file.getD []) i (Page.empty c)).pageID

/-- A record of id `id` with a text of 3000 bytes: one fits a 4096-byte page,
two do not. -/
def bigRecord (id : Int) : Record :=
  { fields := [.Integer id, .Text (List.replicate 3000 0)] }

/-- A third record for `students`: `{3, "Carol", 4.0}`. -/
def carol : Record :=
  { fields := [.Integer 3, .Text [67, 97, 114, 111, 108], .Float 1082130432] }

/-- The page that holds the one record `r`: a new page of ID `pageID` after
`insertRawRecord` of the bytes of `r`, as the rewrite loops build it when they
start a page. -/
def pageWith (c : Layout) (pageID : Nat) (r : Record) : Page :=
  (({ Page.empty c with pageID := pageID } : Page).insertRawRecord c (serializeRecord r)).1

/-- The `deleteRecord` of the spec's words, to compare `deleteRecord` with: the
records that remain are laid out by the rewrite of `insertRecord` and
`updateRecord` (packed into the current page, a new page only when
`insertRawRecord` reports no room). -/
def deleteRecordPacked (c : Layout) (file : DataFile) (id : Int) :
    Except Fault (Bool × DataFile) :=
  let records := loadAllRecords c file
  let before := records.length
  match eraseById id records with
  | .error e => .error e
  | .ok records =>
    if records.length = before then .ok (false, file)
    else .ok (true, some (writeAllRecords c records))

/-! ## The wire format in the spec's words -/

/-- The wire form of a field in the spec's words: the tag byte 0 and the 4-byte
int32, the tag byte 1 and the 4-byte float, or the tag byte 2, the 16-bit
length and that many raw bytes. -/
def wireField : RecordValue → List Nat
  | .Integer x => 0 :: toBytesLE 4 (x % 4294967296).toNat
  | .Float f => 1 :: toBytesLE 4 f
  | .Text s => 2 :: (toBytesLE 2 s.length ++ s)

/-- The size of a field on the wire in the spec's words: 5, 5 or 3 + text
length. -/
def wireSize : RecordValue → Nat
  | .Integer _ => 5
  | .Float _ => 5
  | .Text s => 3 + s.length

/-- The wire form of a record in the spec's words: the 16-bit field count, then
the fields in order. -/
def wireRecord (r : Record) : List Nat :=
  toBytesLE 2 r.fields.length ++ r.fields.flatMap wireField

/-! ## Page decoding with checked memory accesses -/

/-- The write of `src` at `pos` that faults when it leaves the buffer, as
`memcpy(buf.data() + pos, src, n)` does. -/
def writeChecked (buf : List Nat) (pos : Nat) (src : List Nat) : Except MemFault (List Nat) :=
  if pos + src.length ≤ buf.length then .ok (memcpy buf pos src) else .error .writeOutOfBounds

/-- The slot loop of `deserializeFromBuffer` with every read of the buffer
checked: the same control flow as `deserializeSlots`, the bytes taken by
`readChecked`. -/
def deserializeSlotsChecked (buffer : List Nat) :
    Nat → Nat → List SlotEntry → Except MemFault (List SlotEntry)
  | 0, _, slots => .ok slots
  | n + 1, pos, slots =>
    if pos < 5 then .ok slots
    else
      let pos := pos - 5
      match readChecked buffer pos 1 with
      | .error e => .error e
      | .ok flag =>
        match readChecked buffer (pos + 1) 2 with
        | .error e => .error e
        | .ok lenBytes =>
          match readChecked buffer (pos + 3) 2 with
          | .error e => .error e
          | .ok offBytes =>
            deserializeSlotsChecked buffer n pos
              (slots ++ [{ offset := fromBytesLE offBytes, length := fromBytesLE lenBytes,
                           active := flag.getD 0 0 != 0 }])

/-- The copy of the data region in `deserializeFromBuffer`,
`memcpy(data.data() + H, buffer.data() + H, freeSpaceOffset - H)`, with the read
of the buffer and the write into the page's data checked. -/
def copyDataChecked (c : Layout) (data buffer : List Nat) (freeSpaceOffset : Nat) :
    Except MemFault (List Nat) :=
  if freeSpaceOffset > c.PAGE_HEADER_RESERVED then
    match readChecked buffer c.PAGE_HEADER_RESERVED
        (freeSpaceOffset - c.PAGE_HEADER_RESERVED) with
    | .error e => .error e
    | .ok bytes => writeChecked data c.PAGE_HEADER_RESERVED bytes
  else .ok data

/-- The function `Page::deserializeFromBuffer` with every read of the buffer and
every write into the page's data checked: `.error` is an access outside the
buffer or outside the data. -/
def Page.deserializeFromBufferChecked (c : Layout) (p : Page) (buffer : List Nat) :
    Except MemFault Page :=
  if buffer.length < c.PAGE_SIZE then .ok p
  else
    match readChecked buffer 0 sizeofPageID with
    | .error e => .error e
    | .ok idBytes =>
      match readChecked buffer 8 2 with
      | .error e => .error e
      | .ok countBytes =>
        match readChecked buffer 10 2 with
        | .error e => .error e
        | .ok offsetBytes =>
          match copyDataChecked c p.data buffer (fromBytesLE offsetBytes) with
          | .error e => .error e
          | .ok data =>
            match deserializeSlotsChecked buffer (fromBytesLE countBytes) c.PAGE_SIZE [] with
            | .error e => .error e
            | .ok slots =>
              .ok { pageID := fromBytesLE idBytes, slotCount := fromBytesLE countBytes,
                    freeSpaceOffset := fromBytesLE offsetBytes, slots := slots.reverse,
                    data := data }

/-- A page buffer of 4096 bytes whose stored `freeSpaceOffset` (bytes 10 and 11)
is 65535; all other bytes are zero. -/
def corruptBuffer : List Nat :=
  List.replicate 10 0 ++ ([255, 255] ++ List.replicate 4084 0)

/-! ## The command layer: undo and redo -/

/-- A reverse action: one of the lambdas the handlers push on the undo stack,
with the values it captured. -/
inductive ReverseAction where
  /-- Pushed by `handleCreate`: prints a line, the drop is "Simulated". -/
  | dropTable
  /-- Pushed by `handleInsert`: `storage.deleteRecord(tableName, get<int>(r.fields[0]))`. -/
  | deleteInserted (r : Record)
  /-- Pushed by `handleUpdate`:
  `storage.updateRecord(tableName, get<int>(oldRec.fields[0]), oldRec)`. -/
  | revertUpdate (oldRec : Record)
  /-- Pushed by `handleDelete`: `storage.insertRecord(tableName, deletedRecord)`. -/
  | restoreDeleted (deletedRecord : Record)
  deriving DecidableEq, Repr

/-- The state of `class Parser` together with the files of the table its
commands name (the commands of a run name one table). -/
structure Parser where
  files : TableFiles
  undoStack : List ReverseAction
  redoStack : List ReverseAction
  deriving DecidableEq, Repr

/-- Run a reverse action on the files of the table; the value the storage call
returns is not looked at. -/
def ReverseAction.run (c : Layout) (a : ReverseAction) (files : TableFiles) :
    Except Fault TableFiles :=
  match a with
  | .dropTable => .ok files
  | .deleteInserted r =>
    match getId r with
    | .error e => .error e
    | .ok id =>
      match deleteRecord c files.data id with
      | .error e => .error e
      | .ok (_, data) => .ok { files with data := data }
  | .revertUpdate oldRec =>
    match getId oldRec with
    | .error e => .error e
    | .ok id =>
      match updateRecord c files.data id oldRec with
      | .error e => .error e
      | .ok (_, data) => .ok { files with data := data }
  | .restoreDeleted deletedRecord =>
    match insertRecord c files.data deletedRecord with
    | .error e => .error e
    | .ok (_, data) => .ok { files with data := data }

/-- Embeds `Parser::undo`: the top of the undo stack goes to the redo stack and is
run. -/
def Parser.undo (c : Layout) (s : Parser) : Except Fault Parser :=
  match s.undoStack with
  | [] => .ok s
  | reverseAction :: rest =>
    match reverseAction.run c s.files with
    | .error e => .error e
    | .ok files =>
      .ok { files := files, undoStack := rest, redoStack := reverseAction :: s.redoStack }

/-- Embeds `Parser::redo`: the top of the redo stack is run and goes back to the
undo stack. -/
def Parser.redo (c : Layout) (s : Parser) : Except Fault Parser :=
  match s.redoStack with
  | [] => .ok s
  | redoAction :: rest =>
    match redoAction.run c s.files with
    | .error e => .error e
    | .ok files =>
      .ok { files := files, undoStack := redoAction :: s.undoStack, redoStack := rest }

/-- The field an UPDATE command sets: `tokens[3]` in upper case with the value of
`tokens[4]`. -/
inductive UpdateField where
  | name (value : List Nat)
  | gpa (bits : Nat)
  | unknown
  deriving DecidableEq, Repr

/-- Modelled from the spec: the lexer (`lexer.h`) and the helpers
(`utils/helpers.h`) are not among the sources; the spec describes the command
layer as simple keyword matching.  A command is a line that passes the syntax
check of its handler, given by the values the handler takes from the tokens. -/
inductive Command where
  | undo
  | redo
  | createTable (tableName : String)
  | insert (id : Int) (name : List Nat) (gpa : Nat)
  | select
  | update (field : UpdateField) (id : Int)
  | delete (id : Int)
  deriving DecidableEq, Repr

/-- Embeds `Parser::handleCreate`. -/
def Parser.handleCreate (c : Layout) (s : Parser) (tableName : String) : Parser :=
  match createTable c tableName s.files with
  | (true, files) => { s with files := files, undoStack := .dropTable :: s.undoStack }
  | (false, files) => { s with files := files }

/-- Embeds `Parser::handleInsert`: the handler catches `std::exception`, so a
`std::bad_variant_access` thrown by `insertRecord` ends the command with the
files as they were. -/
def Parser.handleInsert (c : Layout) (s : Parser) (id : Int) (name : List Nat) (gpa : Nat) :
    Except Fault Parser :=
  let r : Record := { fields := [.Integer id, .Text name, .Float gpa] }
  match insertRecord c s.files.data r with
  | .error .badVariantAccess => .ok s
  | .error e => .error e
  | .ok (true, data) =>
    .ok { s with files := { s.files with data := data },
                 undoStack := .deleteInserted r :: s.undoStack }
  | .ok (false, data) => .ok { s with files := { s.files with data := data } }

/-- The search loops of `handleDelete` and `handleUpdate`: the first record whose
`get<int>(fields[0])` is `id`. -/
def findById (id : Int) : List Record → Except Fault (Option Record)
  | [] => .ok none
  | r :: rs =>
    match getId r with
    | .error e => .error e
    | .ok k => if k = id then .ok (some r) else findById id rs

/-- The assignment `rec.fields[i] = v`; an index outside the vector is
undefined behaviour. -/
def setField (r : Record) (i : Nat) (v : RecordValue) : Except Fault Record :=
  if i < r.fields.length then .ok { fields := r.fields.set i v } else .error .noSuchField

/-- Embeds `Parser::handleUpdate`. -/
def Parser.handleUpdate (c : Layout) (s : Parser) (field : UpdateField) (id : Int) :
    Except Fault Parser :=
  match findById id (selectAll c s.files.data) with
  | .error e => .error e
  | .ok none => .ok s
  | .ok (some oldRec) =>
    let changed : Option (Except Fault Record) :=
      match field with
      | .name value => some (setField oldRec 1 (.Text value))
      | .gpa bits => some (setField oldRec 2 (.Float bits))
      | .unknown => none
    match changed with
    | none => .ok s
    | some (.error e) => .error e
    | some (.ok rec) =>
      match updateRecord c s.files.data id rec with
      | .error e => .error e
      | .ok (_, data) =>
        .ok { s with files := { s.files with data := data },
                     undoStack := .revertUpdate oldRec :: s.undoStack }

/-- Embeds `Parser::handleDelete`. -/
def Parser.handleDelete (c : Layout) (s : Parser) (id : Int) : Except Fault Parser :=
  match findById id (selectAll c s.files.data) with
  | .error e => .error e
  | .ok none => .ok s
  | .ok (some deletedRecord) =>
    match deleteRecord c s.files.data id with
    | .error e => .error e
    | .ok (true, data) =>
      .ok { s with files := { s.files with data := data },
                   undoStack := .restoreDeleted deletedRecord :: s.undoStack }
    | .ok (false, data) => .ok { s with files := { s.files with data := data } }

/-- Embeds `Parser::parseAndExecute`: UNDO and REDO are served first; any other
command clears the redo stack and goes to its handler. -/
def Parser.parseAndExecute (c : Layout) (s : Parser) (command : Command) :
    Except Fault Parser :=
  match command with
  | .undo => s.undo c
  | .redo => s.redo c
  | .createTable tableName => .ok (Parser.handleCreate c { s with redoStack := [] } tableName)
  | .insert id name gpa => Parser.handleInsert c { s with redoStack := [] } id name gpa
  | .select => .ok { s with redoStack := [] }
  | .update field id => Parser.handleUpdate c { s with redoStack := [] } field id
  | .delete id => Parser.handleDelete c { s with redoStack := [] } id

/-- The loop of `main` over a list of commands. -/
def Parser.runAll (c : Layout) (s : Parser) : List Command → Except Fault Parser
  | [] => .ok s
  | command :: rest =>
    match s.parseAndExecute c command with
    | .error e => .error e
    | .ok s' => Parser.runAll c s' rest

/-- The records `selectAll` returns after a run, if the run ended. -/
def recordsAfter (c : Layout) (res : Except Fault Parser) : Option (List Record) :=
  match res with
  | .ok s => some (selectAll c s.files.data)
  | .error _ => none

/-- The parser `main` starts with: no table, empty stacks. -/
def freshParser : Parser :=
  { files := { data := none, metaFile := none }, undoStack := [], redoStack := [] }

/-- The record `{1, "Alice", 3.9}`: `alice` after `UPDATE students SET GPA 3.9`. -/
def alice39 : Record :=
  { fields := [.Integer 1, .Text [65, 108, 105, 99, 101], .Float 1081711002] }

/-- The storage commands of `testCommands` in `main.cpp` up to the DELETE. -/
def commandsToDelete : List Command :=
  [.createTable "students",
   .insert 1 [65, 108, 105, 99, 101] 1081291571,
   .insert 2 [66, 111, 98] 1080033280,
   .select,
   .update (.gpa 1081711002) 1,
   .select,
   .delete 2,
   .select]

/-- The parser on the table `students` (created by `CREATE TABLE students`) with
the given data file and stacks. -/
def studentsParser (data : DataFile) (undoStack redoStack : List ReverseAction) : Parser :=
  { files := { data := data, metaFile := some ("table=" ++ "students" ++ "\n") },
    undoStack := undoStack, redoStack := redoStack }

/-- The undo stack after the commands of `commandsToDelete`, top first. -/
def undoStackAtDelete : List ReverseAction :=
  [.restoreDeleted bob, .revertUpdate alice, .deleteInserted bob, .deleteInserted alice,
   .dropTable]

/-- The first three commands of `testCommands` in `main.cpp`: the table is
created and Alice and Bob are inserted. -/
def commandsToInsert : List Command :=
  [.createTable "students",
   .insert 1 [65, 108, 105, 99, 101] 1081291571,
   .insert 2 [66, 111, 98] 1080033280]

/-! ## Records as the file keeps them -/

/-- The bytes `insertRawRecord` stores for a record: the first `size mod 65536`
bytes of its encoding (`need = static_cast<uint16_t>(rec.size())`). -/
def storedBytes (r : Record) : List Nat :=
  (serializeRecord r).take ((serializeRecord r).length % 65536)

/-- What a scan makes of the bytes stored for a record. -/
def storedRecord (r : Record) : Option Record :=
  deserializeRecord (storedBytes r)

/-- A field value as the wire format keeps it: an Integer as a 32-bit signed
value, a Float as a 32-bit pattern, a Text cut to the length its 16-bit prefix
can tell. -/
def RecordValue.canon : RecordValue → RecordValue
  | .Integer x => .Integer (toInt32 (x % 4294967296).toNat)
  | .Float f => .Float (f % 4294967296)
  | .Text s => .Text (s.take (s.length % 65536))

/-- A record as the wire format keeps its fields. -/
def Record.canon (r : Record) : Record :=
  { fields := r.fields.map RecordValue.canon }

/-- A record of C++ values: every Integer is an `int`, every Float a 32-bit
pattern. -/
def Record.InRange (r : Record) : Prop :=
  ∀ v ∈ r.fields, v.InRange

/-- The data files reachable from `createTable` by successful `insertRecord`,
`updateRecord` and `deleteRecord` calls whose argument records have an Integer
`fields[0]` and an encoding that fits in an empty page; an insert is made while
the table has fewer than 2^32 − 2 records, so that the 32-bit page count of
`selectAll` does not wrap. -/
inductive FitTable (c : Layout) : DataFile → Prop
  | create (tableName : String) (m : Option String) :
      FitTable c (createTable c tableName { data := none, metaFile := m }).2.data
  | insert (f f' : DataFile) (rec : Record) :
      FitTable c f → rec.FitsEmptyPage c → rec.HasId →
      (selectAll c f).length + 2 < 4294967296 →
      insertRecord c f rec = .ok (true, f') → FitTable c f'
  | update (f f' : DataFile) (id : Int) (newRecord : Record) :
      FitTable c f → newRecord.FitsEmptyPage c → newRecord.HasId →
      updateRecord c f id newRecord = .ok (true, f') → FitTable c f'
  | delete (f f' : DataFile) (id : Int) :
      FitTable c f → deleteRecord c f id = .ok (true, f') → FitTable c f'

/-- The records a scan finds in what the rewrite loop of `insertRecord` and
`updateRecord` writes from the current page `p` on: a record that goes into the
current page or into the new page started for it is found as `storedRecord`
gives it; a record that finds no room in the new page either is not in the
file. -/
def keptFrom (c : Layout) : Page → List Record → List Record
  | _, [] => []
  | p, r :: rs =>
    match p.insertRawRecord c (serializeRecord r) with
    | (p1, some _) => (storedRecord r).toList ++ keptFrom c p1 rs
    | (_, none) =>
      match ({ Page.empty c with pageID := 1 } : Page).insertRawRecord c (serializeRecord r) with
      | (q, some _) => (storedRecord r).toList ++ keptFrom c q rs
      | (q, none) => keptFrom c q rs

/-- The records a scan finds in what the rewrite loop of `deleteRecord` writes
for one record: the record as stored when it went into its page, nothing
otherwise. -/
def keptByDelete (c : Layout) (r : Record) : List Record :=
  match ({ Page.empty c with pageID := 0 } : Page).insertRawRecord c (serializeRecord r) with
  | (_, some _) => (storedRecord r).toList
  | (_, none) => []

/-- Records that follow the identifier convention: each has an Integer
`fields[0]`, and these are pairwise distinct. -/
def UniqueIds (rs : List Record) : Prop :=
  (∀ r ∈ rs, r.HasId) ∧ rs.Pairwise (fun a b => getId a ≠ getId b)

/-- A data file whose page count fits the 32 bits `pageCount` returns. -/
def FewPages (c : Layout) (f : DataFile) : Prop :=
  ∀ bytes, f = some bytes → (bytes.length + c.PAGE_SIZE - 1) / c.PAGE_SIZE < 4294967296

/-- A record of 65536 fields, one more than the 16-bit field count holds; its
`fields[0]` is the Integer 7. -/
def wideRecord : Record :=
  { fields := List.replicate 65536 (.Integer 7) }

/-! ## The graph engine -/

/-- The constant `std::numeric_limits<int>::max()`. -/
def INT_MAX : Int := 2147483647

/-- The C++ `int` addition `a + b`.  Signed overflow is undefined in C++; it is
kept here as the two's-complement wrap-around of the usual targets. -/
def addInt (a b : Int) : Int :=
  toInt32 ((a + b) % 4294967296).toNat

/-- Embeds `Graph`: `adjacencyList` maps a vertex name to its vector of
`(neighbor, weight)` pairs.  The `unordered_map` is kept as an association list
in which the first entry of a key counts; its iteration order is not used. -/
structure Graph where
  adjacencyList : List (String × List (String × Int))

/-- The lookup `adjacencyList.find(name) != adjacencyList.end()`. -/
def Graph.contains (g : Graph) (name : String) : Bool :=
  g.adjacencyList.any (fun p => p.1 == name)

/-- The value of the first entry of `name` in an association list of
adjacency vectors, empty when there is none. -/
def lookupNeighbors : List (String × List (String × Int)) → String → List (String × Int)
  | [], _ => []
  | p :: rest, name => if p.1 = name then p.2 else lookupNeighbors rest name

/-- The read `adjacencyList[name]`: the vector of the vertex, empty for a name
that is not a key. -/
def Graph.neighbors (g : Graph) (name : String) : List (String × Int) :=
  lookupNeighbors g.adjacencyList name

/-- Embeds `Graph::addVertex`. -/
def Graph.addVertex (g : Graph) (name : String) : Graph :=
  if g.contains name then g
  else { adjacencyList := g.adjacencyList ++ [(name, [])] }

/-- The statement `adjacencyList[u].push_back(e)` for a vertex `u` of the graph. -/
def Graph.pushEdge (g : Graph) (u : String) (e : String × Int) : Graph :=
  { adjacencyList := g.adjacencyList.map (fun p => if p.1 = u then (p.1, p.2 ++ [e]) else p) }

/-- Embeds `Graph::addEdge`. -/
def Graph.addEdge (g : Graph) (u v : String) (weight : Int) (isDirected : Bool) : Graph :=
  let g1 := if g.contains u then g else g.addVertex u
  let g2 := if g1.contains v then g1 else g1.addVertex v
  let g3 := g2.pushEdge u (v, weight)
  if !isDirected then g3.pushEdge v (u, weight) else g3

/-- The graphs a program can hold: `Graph()` followed by calls of `addVertex`
and `addEdge`. -/
inductive Graph.Built : Graph → Prop where
  | empty : Graph.Built { adjacencyList := [] }
  | addVertex (g : Graph) (name : String) : g.Built → (g.addVertex name).Built
  | addEdge (g : Graph) (u v : String) (weight : Int) (isDirected : Bool) :
      g.Built → (g.addEdge u v weight isDirected).Built

/-- The read `distances[key]` of the `unordered_map<string, int>`, kept as an
association list in which the newest entry of a key counts; a key never
written reads as the value-initialised 0. -/
def lookupDistance : List (String × Int) → String → Int
  | [], _ => 0
  | (k, v) :: m, key => if k = key then v else lookupDistance m key

/-- The read `parent[key]`; a key never written reads as the empty string. -/
def lookupParent : List (String × String) → String → String
  | [], _ => ""
  | (k, v) :: m, key => if k = key then v else lookupParent m key

/-- Lexicographic comparison of two sequences of character codes. -/
def codesLess : List Nat → List Nat → Bool
  | _, [] => false
  | [], _ :: _ => true
  | a :: as, b :: bs => decide (a < b) || (!(decide (b < a)) && codesLess as bs)

/-- The comparison `a < b` of `std::string`, lexicographic in the bytes; kept
as the comparison of the character codes, the same order for UTF-8 text. -/
def stringLess (a b : String) : Bool :=
  codesLess (a.data.map Char.toNat) (b.data.map Char.toNat)

/-- The comparison `a < b` of `std::pair<int, std::string>`. -/
def pairLess (a b : Int × String) : Bool :=
  decide (a.1 < b.1) || (!(decide (b.1 < a.1)) && stringLess a.2 b.2)

/-- The element `pq.top()` of the min-queue (`std::greater`): a least pair of
the queue, `none` when `pq.empty()`. -/
def pqTop : List (Int × String) → Option (Int × String)
  | [] => none
  | e :: rest => some (rest.foldl (fun best x => if pairLess x best then x else best) e)

/-- The variables of the loop of `dijkstra`. -/
structure DijkstraState where
  distances : List (String × Int)
  parent : List (String × String)
  pq : List (Int × String)

/-- The body of the loop over `adjacencyList[current]`. -/
def relax (current : String) (st : DijkstraState) (neighbor : String × Int) : DijkstraState :=
  let nextNode := neighbor.1
  let weight := neighbor.2
  if addInt (lookupDistance st.distances current) weight < lookupDistance st.distances nextNode then
    let distances := (nextNode, addInt (lookupDistance st.distances current) weight) :: st.distances
    { distances := distances,
      parent := (nextNode, current) :: st.parent,
      pq := (lookupDistance distances nextNode, nextNode) :: st.pq }
  else st

/-- The loop `while (!pq.empty())` of `dijkstra`; `none` when the fuel runs out
before the loop ends. -/
def dijkstraLoop (g : Graph) (endNode : String) : Nat → DijkstraState → Option DijkstraState
  | 0, _ => none
  | fuel + 1, st =>
    match pqTop st.pq with
    | none => some st
    | some (currentDist, current) =>
      let st1 : DijkstraState := { st with pq := st.pq.erase (currentDist, current) }
      if current = endNode then some st1
      else if currentDist > lookupDistance st1.distances current then
        dijkstraLoop g endNode fuel st1
      else dijkstraLoop g endNode fuel ((g.neighbors current).foldl (relax current) st1)

/-- The loop `while (curr != startNode)` that collects the path backwards;
`none` when the fuel runs out before the loop ends. -/
def collectPath (parent : List (String × String)) (startNode : String) :
    Nat → String → List String → Option (List String)
  | 0, _, _ => none
  | fuel + 1, curr, path =>
    if curr = startNode then some path
    else collectPath parent startNode fuel (lookupParent parent curr) (path ++ [curr])

/-- What `dijkstra` prints. -/
inductive DijkstraOutput where
  | startNotFound
  | endNotFound
  | noPathFound
  | pathFound (path : List String) (totalCost : Int)
  deriving DecidableEq

/-- Embeds `Graph::dijkstra`; `fuel` bounds the iterations of each of its two
`while` loops. -/
def Graph.dijkstra (g : Graph) (fuel : Nat) (startNode endNode : String) :
    Option DijkstraOutput :=
  if !g.contains startNode then some .startNotFound
  else if !g.contains endNode then some .endNotFound
  else
    let distances := (startNode, 0) :: g.adjacencyList.map (fun p => (p.1, INT_MAX))
    match dijkstraLoop g endNode fuel
        { distances := distances, parent := [], pq := [(0, startNode)] } with
    | none => none
    | some st =>
      if lookupDistance st.distances endNode = INT_MAX then some .noPathFound
      else
        match collectPath st.parent startNode fuel endNode [] with
        | none => none
        | some path =>
          some (.pathFound (path ++ [startNode]).reverse (lookupDistance st.distances endNode))

/-- The graph `CityMap` of `graph/main.cpp`. -/
def cityMap : Graph :=
  ((((Graph.mk []).addEdge "A" "B" 5 true).addEdge "B" "C" 10 true).addEdge "A" "C" 20 true).addEdge
    "C" "D" 5 true

/-- A graph with the one edge A → B, of weight `INT_MAX`. -/
def maxEdgeGraph : Graph :=
  (Graph.mk []).addEdge "A" "B" 2147483647 true

/-- An edge `u → v` of weight `w`. -/
def Graph.Edge (g : Graph) (u v : String) (w : Int) : Prop :=
  (v, w) ∈ g.neighbors u

/-- A path of the graph as the list of its vertices, with its total weight. -/
inductive Graph.IsPath (g : Graph) : List String → Int → Prop where
  | single (v : String) : Graph.IsPath g [v] 0
  | cons (u v : String) (rest : List String) (w d : Int) :
      g.Edge u v w → Graph.IsPath g (v :: rest) d → Graph.IsPath g (u :: v :: rest) (w + d)

/-- A path from `s` to `t` of total weight `d`. -/
def Graph.PathFromTo (g : Graph) (s t : String) (p : List String) (d : Int) : Prop :=
  p.head? = some s ∧ p.getLast? = some t ∧ g.IsPath p d

/-- Every stored edge weight is non-negative. -/
def Graph.NonNegative (g : Graph) : Prop :=
  ∀ p ∈ g.adjacencyList, ∀ e ∈ p.2, 0 ≤ e.2

/-- The value `d` is the least total weight of a path from `s` to `v`. -/
def Graph.LeastWeight (g : Graph) (s v : String) (d : Int) : Prop :=
  (∃ p, g.PathFromTo s v p d) ∧ ∀ p d', g.PathFromTo s v p d' → d ≤ d'

/-- Every sum the search from `s` can form stays below `INT_MAX`: the least
path weight to a vertex plus the weight of an edge that leaves it. -/
def Graph.SumsBelowMax (g : Graph) (s : String) : Prop :=
  ∀ u d, g.LeastWeight s u d → ∀ v w, g.Edge u v w → d + w < INT_MAX
/-- There is a walk from `s` to `v` of total weight `d`, grown at its end. -/
inductive Graph.Reach (g : Graph) (s : String) : String → Int → Prop where
  | refl : Graph.Reach g s s 0
  | step (u v : String) (d w : Int) :
      Graph.Reach g s u d → g.Edge u v w → Graph.Reach g s v (d + w)

/-- The parent links of the settled vertices `T` (newest first) form a tree
rooted at `s`: the parent of a settled vertex was settled before it, and the
distance of the vertex is that of its parent plus the weight of an edge. -/
def ParentTree (g : Graph) (s : String) (D : String → Int) (P : String → String) :
    List String → Prop
  | [] => True
  | u :: T =>
    (u = s ∨ (P u ∈ T ∧ ∃ w, g.Edge (P u) u w ∧ D u = D (P u) + w)) ∧ ParentTree g s D P T

/-- The part of the loop invariant of `dijkstra` about `distances` (`D`) and
`parent` (`P`), for the settled vertices `T`. -/
structure Sound (g : Graph) (s : String) (T : List String) (D : String → Int)
    (P : String → String) : Prop where
  start : D s = 0
  startKey : g.contains s = true
  dist : ∀ v, g.contains v = true →
    D v = INT_MAX ∨ (0 ≤ D v ∧ D v < INT_MAX ∧ g.Reach s v (D v))
  settled : ∀ x ∈ T, g.contains x = true ∧ D x < INT_MAX ∧ ∀ d, g.Reach s x d → D x ≤ d
  tree : ParentTree g s D P T
  parent : ∀ v, g.contains v = true → v ∉ T → v ≠ s → D v < INT_MAX →
    P v ∈ T ∧ ∃ w, g.Edge (P v) v w ∧ D v = D (P v) + w

/-- The part of the loop invariant of `dijkstra` about the queue `Q`. -/
structure QueueOK (g : Graph) (T : List String) (D : String → Int)
    (Q : List (Int × String)) : Prop where
  pending : ∀ v, g.contains v = true → D v < INT_MAX → v ∈ T ∨ (D v, v) ∈ Q
  entries : ∀ e ∈ Q, g.contains e.2 = true ∧ D e.2 ≤ e.1 ∧ e.1 < INT_MAX

/-- No edge that leaves a vertex of `X` can lower a distance any more. -/
def Relaxed (g : Graph) (D : String → Int) (X : List String) : Prop :=
  ∀ x ∈ X, ∀ v w, g.Edge x v w → D v ≤ D x + w

/-- The measure that bounds the iterations of the loop of `dijkstra`: the
length of the queue plus the sum of the distances of the vertices. -/
def loopMeasure (g : Graph) (st : DijkstraState) : Nat :=
  st.pq.length + (g.adjacencyList.map (fun p => (lookupDistance st.distances p.1).toNat)).sum

/-! ## A table of 2^32 records -/

/-- One record `bigRecord id` for every `int` value `id`, from the least on:
2^32 records, each of which takes a 4096-byte page for itself. -/
def allIdRecords : List Record :=
  ((List.range 4294967296).map (fun i : Nat => (i : Int) - 2147483648)).map bigRecord

/-! ## Data files whose pages decode in bounds -/

/-- Every page of the data file, as `readPageFromFile` reads it (the last one
filled up with zeros), stores a `freeSpaceOffset` of at most `PAGE_SIZE`.
`Page::deserializeFromBuffer` copies `freeSpaceOffset - PAGE_HEADER_RESERVED`
bytes with that stored value unchecked; on these files the copy stays inside
the page buffer and the page's data, on any other file the scan of the page
leaves them. -/
def PagesInBounds (c : Layout) (f : DataFile) : Prop :=
  ∀ bytes, f = some bytes → ∀ i : Nat,
    (readPageFromFile c bytes i (Page.empty c)).freeSpaceOffset ≤ c.PAGE_SIZE

/-! ## Byte lemmas -/

theorem length_toBytesLE (k n : Nat) : (toBytesLE k n).length = k := by
  induction k generalizing n with
  | zero => rfl
  | succ k ih => simp [toBytesLE, ih]

theorem fromBytesLE_toBytesLE (k n : Nat) : fromBytesLE (toBytesLE k n) = n % 256 ^ k := by
  induction k generalizing n with
  | zero => simp [toBytesLE, fromBytesLE, Nat.mod_one]
  | succ k ih =>
    simp only [toBytesLE, fromBytesLE, ih, Nat.mod_mod]
    rw [pow_succ, Nat.mul_comm (256 ^ k) 256, Nat.mod_mul]

theorem fromBytesLE_toBytesLE_two (n : Nat) (h : n < 65536) :
    fromBytesLE (toBytesLE 2 n) = n := by
  rw [fromBytesLE_toBytesLE]; exact Nat.mod_eq_of_lt (by simpa using h)

theorem fromBytesLE_toBytesLE_four (n : Nat) (h : n < 4294967296) :
    fromBytesLE (toBytesLE 4 n) = n := by
  rw [fromBytesLE_toBytesLE]; exact Nat.mod_eq_of_lt (by simpa using h)

theorem readAt_append_left (pre xs post : List Nat) :
    readAt (pre ++ (xs ++ post)) pre.length xs.length = xs := by
  simp [readAt]

theorem toInt32_roundtrip (x : Int) (h1 : -2147483648 ≤ x) (h2 : x < 2147483648) :
    toInt32 (x % 4294967296).toNat = x := by
  unfold toInt32
  have h3 : ((x % 4294967296).toNat : Int) = x % 4294967296 :=
    Int.toNat_of_nonneg (Int.emod_nonneg _ (by decide))
  have h4 : (x % 4294967296).toNat < 4294967296 := by omega
  rw [Nat.mod_eq_of_lt h4]
  split <;> omega

theorem getElem?_readAt (buf : List Nat) (pos n i : Nat) :
    (readAt buf pos n)[i]? = if i < n then buf[pos + i]? else none := by
  simp [readAt, List.getElem?_take, List.getElem?_drop]

theorem length_readAt (buf : List Nat) (pos n : Nat) (h : pos + n ≤ buf.length) :
    (readAt buf pos n).length = n := by
  simp [readAt]; omega

theorem length_memcpy (buf : List Nat) (pos : Nat) (src : List Nat)
    (h : pos + src.length ≤ buf.length) : (memcpy buf pos src).length = buf.length := by
  simp [memcpy]; omega

theorem getElem?_memcpy (buf : List Nat) (pos : Nat) (src : List Nat) (i : Nat)
    (h : pos + src.length ≤ buf.length) :
    (memcpy buf pos src)[i]? =
      if i < pos then buf[i]? else if i < pos + src.length then src[i - pos]? else buf[i]? := by
  unfold memcpy
  have hp : (List.take pos buf).length = pos := by simp; omega
  rw [List.append_assoc, List.getElem?_append, hp]
  split
  · rw [List.getElem?_take_of_lt (by assumption)]
  · rw [List.getElem?_append]
    split
    · rw [if_pos (by omega)]
    · rw [if_neg (by omega), List.getElem?_drop]
      congr 1; omega

theorem readAt_congr (b1 b2 : List Nat) (pos n : Nat)
    (h : ∀ i, pos ≤ i → i < pos + n → b1[i]? = b2[i]?) : readAt b1 pos n = readAt b2 pos n := by
  apply List.ext_getElem?
  intro i
  rw [getElem?_readAt, getElem?_readAt]
  split
  · exact h _ (by omega) (by omega)
  · rfl

theorem readAt_memcpy_same (buf : List Nat) (pos : Nat) (src : List Nat)
    (h : pos + src.length ≤ buf.length) : readAt (memcpy buf pos src) pos src.length = src := by
  apply List.ext_getElem?
  intro i
  rw [getElem?_readAt]
  split
  · rw [getElem?_memcpy _ _ _ _ h, if_neg (by omega), if_pos (by omega)]
    congr 1; omega
  · rw [List.getElem?_eq_none (by omega)]

theorem getD_congr (b1 b2 : List Nat) (i : Nat) (h : b1[i]? = b2[i]?) :
    b1.getD i 0 = b2.getD i 0 := by
  simp [List.getD_eq_getElem?_getD, h]

/-! ## Record codec -/

theorem foldl_serializeField (fs : List RecordValue) (out : List Nat) :
    fs.foldl serializeField out = out ++ fs.foldl serializeField [] := by
  induction fs generalizing out with
  | nil => simp
  | cons v fs ih =>
    rw [List.foldl_cons, ih, List.foldl_cons, ih (serializeField [] v)]
    cases v <;> simp [serializeField]

theorem getD_append_cons (pre : List Nat) (t : Nat) (xs : List Nat) :
    (pre ++ t :: xs).getD pre.length 0 = t := by
  rw [List.getD_eq_getElem?_getD, List.getElem?_append_right (Nat.le_refl _)]
  simp

theorem readAt_after_prefix (pre : List Nat) (ys xs post : List Nat) (k j : Nat)
    (hj : j = pre.length + ys.length) (hk : k = xs.length) :
    readAt (pre ++ (ys ++ (xs ++ post))) j k = xs := by
  subst hk hj
  have h : pre ++ (ys ++ (xs ++ post)) = (pre ++ ys) ++ (xs ++ post) := by simp
  rw [h]
  have h2 : pre.length + ys.length = (pre ++ ys).length := by simp
  rw [h2]
  exact readAt_append_left _ _ _

theorem readAt_after_tag (pre : List Nat) (t : Nat) (xs post : List Nat) (k : Nat)
    (hk : k = xs.length) :
    readAt (pre ++ t :: (xs ++ post)) (pre.length + 1) k = xs :=
  readAt_after_prefix pre [t] xs post k (pre.length + 1) rfl hk

theorem deserializeFields_integer (inp : List Nat) (n pos : Nat) (fields : List RecordValue)
    (htag : inp.getD pos 0 = 0) (hlen : pos + 5 ≤ inp.length) :
    deserializeFields inp (n + 1) pos fields
      = deserializeFields inp n (pos + 5)
          (fields ++ [.Integer (toInt32 (fromBytesLE (readAt inp (pos + 1) 4)))]) := by
  rw [deserializeFields, if_neg (by omega)]
  simp only [htag, if_true]
  rw [if_neg (by omega)]

theorem deserializeFields_float (inp : List Nat) (n pos : Nat) (fields : List RecordValue)
    (htag : inp.getD pos 0 = 1) (hlen : pos + 5 ≤ inp.length) :
    deserializeFields inp (n + 1) pos fields
      = deserializeFields inp n (pos + 5)
          (fields ++ [.Float (fromBytesLE (readAt inp (pos + 1) 4))]) := by
  rw [deserializeFields, if_neg (by omega)]
  simp only [htag, if_true, Nat.succ_ne_zero, if_false]
  rw [if_neg (by omega)]

theorem deserializeFields_text (inp : List Nat) (n pos : Nat) (fields : List RecordValue)
    (h0 : inp.getD pos 0 ≠ 0) (h1 : inp.getD pos 0 ≠ 1) (hlen : pos + 3 ≤ inp.length)
    (hlen2 : pos + 3 + fromBytesLE (readAt inp (pos + 1) 2) ≤ inp.length) :
    deserializeFields inp (n + 1) pos fields
      = deserializeFields inp n (pos + 3 + fromBytesLE (readAt inp (pos + 1) 2))
          (fields ++ [.Text (readAt inp (pos + 3) (fromBytesLE (readAt inp (pos + 1) 2)))]) := by
  rw [deserializeFields, if_neg (by omega)]
  simp only [h0, h1, if_false]
  rw [if_neg (by omega), if_neg (by omega)]

/-- Reading back the fields that `serializeField` wrote, wherever they sit in
the input. -/
theorem deserializeFields_serialize (fs : List RecordValue)
    (hfs : ∀ v ∈ fs, v.InRange ∧ v.TextFits) (pre post : List Nat)
    (acc : List RecordValue) :
    deserializeFields (pre ++ (fs.foldl serializeField [] ++ post)) fs.length pre.length acc
      = some (acc ++ fs) := by
  induction fs generalizing pre acc with
  | nil => simp [deserializeFields]
  | cons v fs ih =>
    have hv := hfs v (List.mem_cons_self _ _)
    have hrest : ∀ w ∈ fs, w.InRange ∧ w.TextFits :=
      fun w hw => hfs w (List.mem_cons_of_mem _ hw)
    rw [List.foldl_cons, foldl_serializeField, List.length_cons]
    cases v with
    | Integer x =>
      obtain ⟨⟨h1, h2⟩, -⟩ := hv
      have hb : (toBytesLE 4 (x % 4294967296).toNat).length = 4 := length_toBytesLE _ _
      have key := ih hrest (pre ++ 0 :: toBytesLE 4 (x % 4294967296).toNat) (acc ++ [.Integer x])
      have hx : (x % 4294967296).toNat < 4294967296 := by omega
      simp only [serializeField, List.nil_append, List.singleton_append, List.cons_append,
        List.append_assoc]
      simp only [List.append_assoc, List.cons_append, List.length_append, List.length_cons, hb]
        at key
      rw [deserializeFields_integer _ _ _ _ (getD_append_cons _ _ _)
        (by simp only [List.length_append, List.length_cons, hb]; omega)]
      rw [readAt_after_tag pre 0 _ _ 4 hb.symm,
        fromBytesLE_toBytesLE_four _ hx, toInt32_roundtrip x h1 h2]
      simpa [Nat.add_assoc] using key
    | Float f =>
      obtain ⟨hf, -⟩ := hv
      have hf : f < 4294967296 := hf
      have hb : (toBytesLE 4 f).length = 4 := length_toBytesLE _ _
      have key := ih hrest (pre ++ 1 :: toBytesLE 4 f) (acc ++ [.Float f])
      simp only [serializeField, List.nil_append, List.singleton_append, List.cons_append,
        List.append_assoc]
      simp only [List.append_assoc, List.cons_append, List.length_append, List.length_cons, hb]
        at key
      rw [deserializeFields_float _ _ _ _ (getD_append_cons _ _ _)
        (by simp only [List.length_append, List.length_cons, hb]; omega)]
      rw [readAt_after_tag pre 1 _ _ 4 hb.symm,
        fromBytesLE_toBytesLE_four _ hf]
      simpa [Nat.add_assoc] using key
    | Text s =>
      obtain ⟨-, hs⟩ := hv
      have hs : s.length ≤ 65535 := hs
      have hlen : s.length % 65536 = s.length := Nat.mod_eq_of_lt (by omega)
      have hb : (toBytesLE 2 s.length).length = 2 := length_toBytesLE _ _
      have key := ih hrest (pre ++ 2 :: (toBytesLE 2 s.length ++ s)) (acc ++ [.Text s])
      simp only [serializeField, List.nil_append, List.singleton_append, List.cons_append,
        List.append_assoc, hlen, List.take_length]
      simp only [List.append_assoc, List.cons_append, List.length_append, List.length_cons, hb]
        at key
      have hr2 : fromBytesLE (readAt (pre ++ 2 :: (toBytesLE 2 s.length ++ (s ++
          (List.foldl serializeField [] fs ++ post)))) (pre.length + 1) 2) = s.length := by
        rw [readAt_after_tag pre 2 _ _ 2 hb.symm,
          fromBytesLE_toBytesLE_two _ (by omega)]
      have hr : readAt (pre ++ 2 :: (toBytesLE 2 s.length ++ (s ++
          (List.foldl serializeField [] fs ++ post)))) (pre.length + 3) s.length = s := by
        have := readAt_after_prefix pre (2 :: toBytesLE 2 s.length) s
          (List.foldl serializeField [] fs ++ post) s.length (pre.length + 3)
          (by simp [hb]) rfl
        simpa using this
      rw [deserializeFields_text _ _ _ _ (by rw [getD_append_cons]; decide)
        (by rw [getD_append_cons]; decide)
        (by simp only [List.length_append, List.length_cons, hb]; omega)
        (by rw [hr2]; simp only [List.length_append, List.length_cons, hb]; omega)]
      rw [hr2, hr]
      have e : pre.length + 3 + s.length = pre.length + (2 + s.length + 1) := by omega
      rw [e]
      simpa [Nat.add_assoc] using key

theorem serializeRecord_eq (r : Record) :
    serializeRecord r
      = toBytesLE 2 (r.fields.length % 65536) ++ r.fields.foldl serializeField [] := by
  simp only [serializeRecord]; rw [foldl_serializeField]

/-- Round trip of the codec on representable records. -/
theorem deserialize_serialize (r : Record) (h : r.Encodable) :
    deserializeRecord (serializeRecord r) = some r := by
  obtain ⟨hn, hf⟩ := h
  have hlen : r.fields.length % 65536 = r.fields.length := Nat.mod_eq_of_lt (by omega)
  have hb : (toBytesLE 2 r.fields.length).length = 2 := length_toBytesLE _ _
  have key := deserializeFields_serialize r.fields hf (toBytesLE 2 r.fields.length) [] []
  rw [serializeRecord_eq, hlen]
  unfold deserializeRecord
  have hr : readAt (toBytesLE 2 r.fields.length ++ List.foldl serializeField [] r.fields) 0 2
      = toBytesLE 2 r.fields.length := by
    have := readAt_append_left [] (toBytesLE 2 r.fields.length)
      (List.foldl serializeField [] r.fields)
    simpa [hb] using this
  simp only [hr, fromBytesLE_toBytesLE_two _ (show r.fields.length < 65536 by omega)]
  rw [if_neg (by simp [hb])]
  simp only [List.append_nil, hb, List.nil_append] at key
  rw [key]
  rfl

/-- A text of exactly 65536 bytes is written as an empty text. -/
theorem serializeRecord_text_wrap (s : List Nat) (hs : s.length = 65536) :
    serializeRecord { fields := [.Text s] } = [1, 0, 2, 0, 0] := by
  simp [serializeRecord, serializeField, toBytesLE, hs]

theorem text_wrap_ne (s : List Nat) (hs : s.length = 65536) :
    (some { fields := [.Text []] } : Option Record) ≠ some { fields := [.Text s] } := by
  intro h
  simp only [Option.some.injEq, Record.mk.injEq, List.cons.injEq, RecordValue.Text.injEq,
    and_true] at h
  subst h
  simp at hs

/-- C1 as stated fails: a text of 65536 bytes is written with the 16-bit length
0 and no bytes, so the record comes back with an empty text. -/
theorem C1_counterexample :
    deserializeRecord (serializeRecord { fields := [.Text (List.replicate 65536 0)] })
      = some { fields := [.Text []] } ∧
    deserializeRecord (serializeRecord { fields := [.Text (List.replicate 65536 0)] })
      ≠ some { fields := [.Text (List.replicate 65536 0)] } := by
  have d : deserializeRecord [1, 0, 2, 0, 0] = some { fields := [.Text []] } := by decide
  rw [serializeRecord_text_wrap _ (List.length_replicate _ _), d]
  exact ⟨rfl, text_wrap_ne _ (List.length_replicate _ _)⟩

/-- C1 (amended): for every record with at most 65535 fields whose texts have at
most 65535 bytes (field values in the range of their C++ types, floats as bit
patterns), `deserializeRecord` applied to the bytes of `serializeRecord`
succeeds and returns the record itself, field by field and in the same order. -/
theorem C1_record_round_trip (r : Record) (h : r.Encodable) :
    deserializeRecord (serializeRecord r) = some r :=
  deserialize_serialize r h

theorem C1_record_round_trip_witness :
    Record.Encodable { fields := [.Integer 1, .Text [65, 108, 105, 99, 101], .Float 1081291571] } ∧
    deserializeRecord
        (serializeRecord { fields := [.Integer 1, .Text [65, 108, 105, 99, 101], .Float 1081291571] })
      = some { fields := [.Integer 1, .Text [65, 108, 105, 99, 101], .Float 1081291571] } :=
  ⟨by simp [Record.Encodable, RecordValue.InRange, RecordValue.TextFits],
   C1_record_round_trip _ (by simp [Record.Encodable, RecordValue.InRange, RecordValue.TextFits])⟩

/-! ## Slot directory on the wire -/

theorem length_writeSlotEntry (buffer : List Nat) (q : Nat) (s : SlotEntry)
    (h : q + 5 ≤ buffer.length) : (writeSlotEntry buffer q s).length = buffer.length := by
  unfold writeSlotEntry
  have h1 : (memcpy (buffer.set q (if s.active then 1 else 0)) (q + 1)
      (toBytesLE 2 s.length)).length = buffer.length := by
    rw [length_memcpy _ _ _ (by simp [length_toBytesLE]; omega)]; simp
  rw [length_memcpy _ _ _ (by rw [h1]; simp [length_toBytesLE]; omega), h1]

theorem getElem?_writeSlotEntry (buffer : List Nat) (q : Nat) (s : SlotEntry) (i : Nat)
    (h : q + 5 ≤ buffer.length) :
    (writeSlotEntry buffer q s)[i]? =
      if i < q then buffer[i]?
      else if i = q then some (if s.active then 1 else 0)
      else if i < q + 3 then (toBytesLE 2 s.length)[i - (q + 1)]?
      else if i < q + 5 then (toBytesLE 2 s.offset)[i - (q + 3)]?
      else buffer[i]? := by
  unfold writeSlotEntry
  have h1 : (memcpy (buffer.set q (if s.active then 1 else 0)) (q + 1)
      (toBytesLE 2 s.length)).length = buffer.length := by
    rw [length_memcpy _ _ _ (by simp [length_toBytesLE]; omega)]; simp
  rw [getElem?_memcpy _ _ _ _ (by rw [h1]; simp [length_toBytesLE]; omega),
    getElem?_memcpy _ _ _ _ (by simp [length_toBytesLE]; omega), List.getElem?_set]
  simp only [length_toBytesLE]
  split_ifs <;> first | rfl | omega

theorem readSlotEntry_congr (b1 b2 : List Nat) (q : Nat)
    (h : ∀ i, q ≤ i → i < q + 5 → b1[i]? = b2[i]?) : readSlotEntry b1 q = readSlotEntry b2 q := by
  unfold readSlotEntry
  rw [getD_congr b1 b2 q (h q (by omega) (by omega)),
    readAt_congr b1 b2 (q + 1) 2 (fun i h1 h2 => h i (by omega) (by omega)),
    readAt_congr b1 b2 (q + 3) 2 (fun i h1 h2 => h i (by omega) (by omega))]

theorem readSlotEntry_writeSlotEntry (buffer : List Nat) (q : Nat) (s : SlotEntry)
    (h : q + 5 ≤ buffer.length) (hl : s.length < 65536) (ho : s.offset < 65536) :
    readSlotEntry (writeSlotEntry buffer q s) q = s := by
  have e1 : readAt (writeSlotEntry buffer q s) (q + 1) 2 = toBytesLE 2 s.length := by
    apply List.ext_getElem?
    intro i
    rw [getElem?_readAt]
    split
    · rw [getElem?_writeSlotEntry _ _ _ _ h, if_neg (by omega), if_neg (by omega),
        if_pos (by omega)]
      congr 1; omega
    · rw [List.getElem?_eq_none (by rw [length_toBytesLE]; omega)]
  have e2 : readAt (writeSlotEntry buffer q s) (q + 3) 2 = toBytesLE 2 s.offset := by
    apply List.ext_getElem?
    intro i
    rw [getElem?_readAt]
    split
    · rw [getElem?_writeSlotEntry _ _ _ _ h, if_neg (by omega), if_neg (by omega),
        if_neg (by omega), if_pos (by omega)]
      congr 1; omega
    · rw [List.getElem?_eq_none (by rw [length_toBytesLE]; omega)]
  have e3 : (writeSlotEntry buffer q s).getD q 0 = if s.active then 1 else 0 := by
    rw [List.getD_eq_getElem?_getD, getElem?_writeSlotEntry _ _ _ _ h, if_neg (by omega),
      if_pos rfl]
    rfl
  unfold readSlotEntry
  rw [e1, e2, e3, fromBytesLE_toBytesLE_two _ hl, fromBytesLE_toBytesLE_two _ ho]
  cases s with
  | mk o l a => cases a <;> simp

theorem length_serializeSlots (rev : List SlotEntry) (pos : Nat) (buffer : List Nat)
    (h1 : 5 * rev.length ≤ pos) (h2 : pos ≤ buffer.length) :
    (serializeSlots rev pos buffer).length = buffer.length := by
  induction rev generalizing pos buffer with
  | nil => rfl
  | cons s rest ih =>
    simp only [List.length_cons] at h1
    have hw := length_writeSlotEntry buffer (pos - 5) s (by omega)
    rw [serializeSlots, ih _ _ (by omega) (by rw [hw]; omega), hw]

theorem getElem?_serializeSlots (rev : List SlotEntry) (pos : Nat) (buffer : List Nat) (i : Nat)
    (h1 : 5 * rev.length ≤ pos) (h2 : pos ≤ buffer.length)
    (hi : i < pos - 5 * rev.length ∨ pos ≤ i) :
    (serializeSlots rev pos buffer)[i]? = buffer[i]? := by
  induction rev generalizing pos buffer with
  | nil => rfl
  | cons s rest ih =>
    simp only [List.length_cons] at h1 hi
    have hw := length_writeSlotEntry buffer (pos - 5) s (by omega)
    rw [serializeSlots, ih _ _ (by omega) (by rw [hw]; omega) (by omega),
      getElem?_writeSlotEntry _ _ _ _ (by omega)]
    rcases hi with hi | hi
    · rw [if_pos (by omega)]
    · rw [if_neg (by omega), if_neg (by omega), if_neg (by omega), if_neg (by omega)]

theorem deserializeSlots_serializeSlots (rev : List SlotEntry) (pos : Nat) (buffer : List Nat)
    (acc : List SlotEntry) (h1 : 5 * rev.length ≤ pos) (h2 : pos ≤ buffer.length)
    (hs : ∀ s ∈ rev, s.length < 65536 ∧ s.offset < 65536) :
    deserializeSlots (serializeSlots rev pos buffer) rev.length pos acc = acc ++ rev := by
  induction rev generalizing pos buffer acc with
  | nil => simp [deserializeSlots]
  | cons s rest ih =>
    simp only [List.length_cons] at h1
    have hw := length_writeSlotEntry buffer (pos - 5) s (by omega)
    have hs0 := hs s (List.mem_cons_self _ _)
    have hrest : ∀ t ∈ rest, t.length < 65536 ∧ t.offset < 65536 :=
      fun t ht => hs t (List.mem_cons_of_mem _ ht)
    rw [List.length_cons, deserializeSlots, if_neg (by omega), serializeSlots]
    have hread : readSlotEntry (serializeSlots rest (pos - 5) (writeSlotEntry buffer (pos - 5) s))
        (pos - 5) = s := by
      rw [readSlotEntry_congr _ (writeSlotEntry buffer (pos - 5) s) _ (fun i hi1 hi2 =>
        getElem?_serializeSlots rest (pos - 5) _ i (by omega) (by rw [hw]; omega) (Or.inr hi1))]
      exact readSlotEntry_writeSlotEntry _ _ _ (by omega) hs0.1 hs0.2
    rw [hread, ih _ _ _ (by omega) (by rw [hw]; omega) hrest]
    simp

/-! ## Page invariant -/

theorem Contiguous.le {a b : Nat} {slots : List SlotEntry} (h : Contiguous a slots b) : a ≤ b := by
  induction slots generalizing a with
  | nil => exact Nat.le_of_eq h
  | cons s rest ih => have := ih h.2; omega

theorem Contiguous.within {a b : Nat} {slots : List SlotEntry} (h : Contiguous a slots b) :
    ∀ s ∈ slots, a ≤ s.offset ∧ s.offset + s.length ≤ b := by
  induction slots generalizing a with
  | nil => intro s hs; cases hs
  | cons t rest ih =>
    intro s hs
    rcases List.mem_cons.1 hs with rfl | hs
    · have := Contiguous.le h.2; have := h.1; omega
    · have := ih h.2 s hs; omega

theorem Contiguous.append {a b : Nat} {slots : List SlotEntry} (h : Contiguous a slots b)
    (n : Nat) (act : Bool) :
    Contiguous a (slots ++ [{ offset := b, length := n, active := act }]) (b + n) := by
  induction slots generalizing a with
  | nil => cases h; exact ⟨rfl, rfl⟩
  | cons t rest ih => exact ⟨h.1, ih h.2⟩

theorem Contiguous.set {a b : Nat} {slots : List SlotEntry} (h : Contiguous a slots b)
    (i : Nat) (s : SlotEntry) (hs : slots[i]? = some s) (act : Bool) :
    Contiguous a (slots.set i { s with active := act }) b := by
  induction slots generalizing a i with
  | nil => exact h
  | cons t rest ih =>
    cases i with
    | zero =>
      simp only [List.getElem?_cons_zero, Option.some.injEq] at hs
      subst hs
      exact ⟨h.1, h.2⟩
    | succ i =>
      simp only [List.getElem?_cons_succ] at hs
      exact ⟨h.1, ih h.2 i hs⟩

theorem Contiguous.pairwise {a b : Nat} {slots : List SlotEntry} (h : Contiguous a slots b) :
    slots.Pairwise (fun s t => s.offset + s.length ≤ t.offset) := by
  induction slots generalizing a with
  | nil => exact List.Pairwise.nil
  | cons t rest ih =>
    refine List.Pairwise.cons ?_ (ih h.2)
    intro u hu
    have := Contiguous.within h.2 u hu
    have := h.1
    omega

theorem Page.Inv.freeSpace_eq {c : Layout} {p : Page} (hc : c.Valid) (h : p.Inv c) :
    p.freeSpace c = c.PAGE_SIZE - p.freeSpaceOffset - 5 * p.slots.length := by
  obtain ⟨h12, hle, h16⟩ := hc
  have hr := h.room
  unfold Page.freeSpace Page.usedDataBytes sizeofSlotEntry
  simp only
  have e1 : p.slots.length % 4294967296 = p.slots.length := Nat.mod_eq_of_lt (by omega)
  have e2 : p.slots.length * 5 % 4294967296 = p.slots.length * 5 := Nat.mod_eq_of_lt (by omega)
  rw [e1, e2]
  split
  · omega
  · rw [Nat.mod_eq_of_lt (by omega)]; omega

theorem Page.Inv.empty (c : Layout) (hc : c.Valid) (pageID : Nat)
    (h : pageID < 18446744073709551616) : ({ Page.empty c with pageID := pageID } : Page).Inv c := by
  obtain ⟨h12, hle, h16⟩ := hc
  refine ⟨?_, rfl, rfl, ?_, h⟩
  · simp [Page.empty]
  · simp [Page.empty]; omega

/-- What a successful `insertRawRecord` does, in closed form. -/
theorem Page.insertRawRecord_of_room {c : Layout} {p : Page} (hc : c.Valid) (h : p.Inv c)
    (rec : List Nat)
    (hroom : rec.length % 65536 + 5 ≤ c.PAGE_SIZE - p.freeSpaceOffset - 5 * p.slots.length) :
    p.insertRawRecord c rec =
      ({ p with
          data := memcpy p.data p.freeSpaceOffset (rec.take (rec.length % 65536)),
          slots := p.slots ++ [{ offset := p.freeSpaceOffset, length := rec.length % 65536,
                                 active := true }],
          freeSpaceOffset := p.freeSpaceOffset + rec.length % 65536,
          slotCount := p.slots.length + 1 }, some p.slots.length) := by
  obtain ⟨h12, hle, h16⟩ := hc
  have hr := h.room
  unfold Page.insertRawRecord
  simp only [h.freeSpace_eq ⟨h12, hle, h16⟩, sizeofSlotEntry]
  rw [if_neg (by omega)]
  simp only [List.length_append, List.length_singleton, Nat.add_sub_cancel]
  rw [Nat.mod_eq_of_lt (show p.freeSpaceOffset + rec.length % 65536 < 65536 by omega),
    Nat.mod_eq_of_lt (show p.slots.length + 1 < 65536 by omega),
    Nat.mod_eq_of_lt (show p.slots.length < 65536 by omega)]

theorem Page.insertRawRecord_of_no_room {c : Layout} {p : Page} (hc : c.Valid) (h : p.Inv c)
    (rec : List Nat)
    (hroom : c.PAGE_SIZE - p.freeSpaceOffset - 5 * p.slots.length < rec.length % 65536 + 5) :
    p.insertRawRecord c rec = (p, none) := by
  unfold Page.insertRawRecord
  simp only [h.freeSpace_eq hc, sizeofSlotEntry]
  rw [if_pos (by omega)]

theorem Page.Inv.insertRawRecord {c : Layout} {p : Page} (hc : c.Valid) (h : p.Inv c)
    (rec : List Nat) : (p.insertRawRecord c rec).1.Inv c := by
  by_cases hroom : rec.length % 65536 + 5 ≤ c.PAGE_SIZE - p.freeSpaceOffset - 5 * p.slots.length
  · rw [Page.insertRawRecord_of_room hc h rec hroom]
    have hr := h.room
    have hd := h.data_length
    refine ⟨?_, ?_, ?_, ?_, h.pageID_lt⟩
    · simp only
      rw [length_memcpy _ _ _ (by rw [List.length_take]; omega)]
      exact hd
    · simp
    · exact h.contiguous.append _ _
    · simp only [List.length_append, List.length_singleton]; omega
  · rw [Page.insertRawRecord_of_no_room hc h rec (by omega)]
    exact h

theorem Page.Inv.deleteSlot {c : Layout} {p : Page} (h : p.Inv c) (slotID : Nat) :
    (p.deleteSlot slotID).1.Inv c := by
  unfold Page.deleteSlot
  cases hs : p.slots[slotID]? with
  | none => exact h
  | some s =>
    simp only
    split
    · exact h
    · refine ⟨h.data_length, ?_, ?_, ?_, h.pageID_lt⟩
      · simp [h.slotCount_eq]
      · exact h.contiguous.set slotID s hs false
      · simp only [List.length_set]; exact h.room

theorem Page.Reachable.inv {c : Layout} {p : Page} (hc : c.Valid) (h : Page.Reachable c p) :
    p.Inv c := by
  induction h with
  | empty pageID h => exact Page.Inv.empty c hc pageID h
  | insert p rec _ ih => exact ih.insertRawRecord hc rec
  | delete p slotID _ ih => exact ih.deleteSlot slotID

theorem layout4K_valid : layout4K.Valid := by
  simp [Layout.Valid, layout4K]

theorem Page.freeSpace_empty (c : Layout) (hc : c.Valid) (pageID : Nat) :
    ({ Page.empty c with pageID := pageID } : Page).freeSpace c
      = c.PAGE_SIZE - c.PAGE_HEADER_RESERVED := by
  obtain ⟨h12, hle, h16⟩ := hc
  simp only [Page.freeSpace, Page.usedDataBytes, Page.empty, sizeofSlotEntry, List.length_nil,
    Nat.zero_mod, Nat.zero_mul, Nat.add_zero, Nat.sub_zero]
  split
  · omega
  · exact Nat.mod_eq_of_lt (by omega)

/-- C8 as stated fails: a record of 65536 bytes is taken for an empty one, so
the insert into an empty 4096-byte page succeeds although the free space is far
below `len + 5`. -/
theorem C8_counterexample :
    Page.Reachable layout4K (Page.empty layout4K) ∧
    (Page.empty layout4K).freeSpace layout4K < (List.replicate 65536 0).length + 5 ∧
    ((Page.empty layout4K).insertRawRecord layout4K (List.replicate 65536 0)).2 = some 0 := by
  refine ⟨Page.Reachable.empty 0 (by decide), ?_, ?_⟩
  · show ({ Page.empty layout4K with pageID := 0 } : Page).freeSpace layout4K < _
    rw [Page.freeSpace_empty layout4K layout4K_valid 0, List.length_replicate]
    decide
  · show (({ Page.empty layout4K with pageID := 0 } : Page).insertRawRecord layout4K _).2 = _
    rw [Page.insertRawRecord_of_room layout4K_valid
      (Page.Inv.empty layout4K layout4K_valid 0 (by decide)) _
      (by rw [List.length_replicate]; decide)]
    rfl

/-- C8 (amended): for a page reachable from an empty page and a byte sequence
`b` of at most 65535 bytes (the range of the 16-bit slot length),
`insertRawRecord(b)` fails iff `freeSpace() < len(b) + 5`; a failed call leaves
the page unchanged; a successful call returns the previous slot count, the new
slot is active with offset = the old `freeSpaceOffset` and length = `len(b)`, and
`freeSpaceOffset` has advanced by `len(b)`. -/
theorem C8_insertRawRecord_contract (c : Layout) (hc : c.Valid) (p : Page)
    (hp : Page.Reachable c p) (b : List Nat) (hb : b.length ≤ 65535) :
    ((p.insertRawRecord c b).2 = none ↔ p.freeSpace c < b.length + 5) ∧
    ((p.insertRawRecord c b).2 = none → (p.insertRawRecord c b).1 = p) ∧
    (∀ slotID, (p.insertRawRecord c b).2 = some slotID →
      slotID = p.slotCount ∧
      (p.insertRawRecord c b).1.slots[slotID]?
        = some { offset := p.freeSpaceOffset, length := b.length, active := true } ∧
      (p.insertRawRecord c b).1.freeSpaceOffset = p.freeSpaceOffset + b.length) := by
  have hinv := hp.inv hc
  have hmod : b.length % 65536 = b.length := Nat.mod_eq_of_lt (by omega)
  rw [hinv.freeSpace_eq hc]
  by_cases hroom : b.length + 5 ≤ c.PAGE_SIZE - p.freeSpaceOffset - 5 * p.slots.length
  · rw [Page.insertRawRecord_of_room hc hinv b (by omega)]
    refine ⟨⟨fun h => (by cases h), fun h => (by omega)⟩, fun h => (by cases h), ?_⟩
    intro slotID h
    simp only [Option.some.injEq] at h
    subst h
    refine ⟨hinv.slotCount_eq.symm, ?_, by rw [hmod]⟩
    simp [hmod]
  · rw [Page.insertRawRecord_of_no_room hc hinv b (by omega)]
    exact ⟨⟨fun _ => (by omega), fun _ => rfl⟩, fun _ => rfl, fun _ h => (by cases h)⟩

theorem C8_insertRawRecord_contract_witness :
    layout4K.Valid ∧ Page.Reachable layout4K (Page.empty layout4K) ∧
    [1, 2, 3].length ≤ 65535 ∧
    ((((Page.empty layout4K).insertRawRecord layout4K [1, 2, 3]).2 = none
        ↔ (Page.empty layout4K).freeSpace layout4K < [1, 2, 3].length + 5) ∧
      (((Page.empty layout4K).insertRawRecord layout4K [1, 2, 3]).2 = none →
        ((Page.empty layout4K).insertRawRecord layout4K [1, 2, 3]).1 = Page.empty layout4K) ∧
      (∀ slotID, ((Page.empty layout4K).insertRawRecord layout4K [1, 2, 3]).2 = some slotID →
        slotID = (Page.empty layout4K).slotCount ∧
        ((Page.empty layout4K).insertRawRecord layout4K [1, 2, 3]).1.slots[slotID]?
          = some { offset := (Page.empty layout4K).freeSpaceOffset, length := [1, 2, 3].length,
                   active := true } ∧
        ((Page.empty layout4K).insertRawRecord layout4K [1, 2, 3]).1.freeSpaceOffset
          = (Page.empty layout4K).freeSpaceOffset + [1, 2, 3].length)) :=
  ⟨layout4K_valid, Page.Reachable.empty 0 (by decide), by decide,
   C8_insertRawRecord_contract layout4K layout4K_valid (Page.empty layout4K)
      (Page.Reachable.empty 0 (by decide)) [1, 2, 3] (by decide)⟩

/-- C9: every page reachable from an empty page by `insertRawRecord` and
`deleteSlot` has `PAGE_HEADER_RESERVED ≤ freeSpaceOffset`, `slotCount` equal to
the number of slots, `freeSpaceOffset + slotCount × 5 ≤ PAGE_SIZE`, every slot's
byte range inside `[PAGE_HEADER_RESERVED, freeSpaceOffset)`, and the ranges of
different slots disjoint (each ends before the next one starts); hence no
record byte lies in the directory area `[PAGE_SIZE − 5·slotCount, PAGE_SIZE)`. -/
theorem C9_page_space_invariant (c : Layout) (hc : c.Valid) (p : Page)
    (hp : Page.Reachable c p) :
    c.PAGE_HEADER_RESERVED ≤ p.freeSpaceOffset ∧
    p.slotCount = p.slots.length ∧
    p.freeSpaceOffset + p.slotCount * 5 ≤ c.PAGE_SIZE ∧
    (∀ s ∈ p.slots, c.PAGE_HEADER_RESERVED ≤ s.offset ∧
      s.offset + s.length ≤ p.freeSpaceOffset) ∧
    p.slots.Pairwise (fun s t =>
      s.offset + s.length ≤ t.offset ∨ t.offset + t.length ≤ s.offset) ∧
    (∀ s ∈ p.slots, s.offset + s.length ≤ c.PAGE_SIZE - 5 * p.slotCount) := by
  have hinv := hp.inv hc
  have hr := hinv.room
  have hsc := hinv.slotCount_eq
  refine ⟨hinv.contiguous.le, hsc, by omega, hinv.contiguous.within, ?_, ?_⟩
  · exact hinv.contiguous.pairwise.imp (fun h => Or.inl h)
  · intro s hs
    have := hinv.contiguous.within s hs
    omega

theorem C9_page_space_invariant_witness :
    layout4K.Valid ∧
    Page.Reachable layout4K
      ((((Page.empty layout4K).insertRawRecord layout4K [1, 2, 3]).1).deleteSlot 0).1 ∧
    (((Page.empty layout4K).insertRawRecord layout4K [1, 2, 3]).1.deleteSlot 0).1.slots
      = [{ offset := 16, length := 3, active := false }] ∧
    (((Page.empty layout4K).insertRawRecord layout4K [1, 2, 3]).1.deleteSlot 0).1.freeSpaceOffset
        + (((Page.empty layout4K).insertRawRecord layout4K [1, 2, 3]).1.deleteSlot 0).1.slotCount * 5
      ≤ layout4K.PAGE_SIZE :=
  ⟨layout4K_valid,
   Page.Reachable.delete _ 0 (Page.Reachable.insert _ [1, 2, 3] (Page.Reachable.empty 0 (by decide))),
   by decide,
   (C9_page_space_invariant layout4K layout4K_valid _
      (Page.Reachable.delete _ 0
        (Page.Reachable.insert _ [1, 2, 3] (Page.Reachable.empty 0 (by decide))))).2.2.1⟩

/-! ## Filling a page -/

/-- While there is room, `n` inserts of `L`-byte records leave `n` slots and
`n * (L + 5)` bytes in use. -/
theorem insertMany_filling (c : Layout) (hc : c.Valid) (p0 : Page) (h0 : p0.Inv c)
    (hs0 : p0.slots = []) (hf0 : p0.freeSpaceOffset = c.PAGE_HEADER_RESERVED)
    (L : Nat) (recs : Nat → List Nat) (hrecs : ∀ i, (recs i).length = L) (n : Nat)
    (hn : n * (L + 5) ≤ c.PAGE_SIZE - c.PAGE_HEADER_RESERVED) :
    (insertMany c p0 recs n).Inv c ∧ (insertMany c p0 recs n).slots.length = n ∧
    (insertMany c p0 recs n).freeSpaceOffset + 5 * n = c.PAGE_HEADER_RESERVED + n * (L + 5) := by
  obtain ⟨h12, hle, h16⟩ := hc
  induction n with
  | zero => simp [insertMany, h0, hs0, hf0]
  | succ n ih =>
    have hmul : (n + 1) * (L + 5) = n * (L + 5) + (L + 5) := Nat.succ_mul _ _
    obtain ⟨hinv, hlen, hfso⟩ := ih (by omega)
    have hL : (recs n).length % 65536 = L := by
      rw [hrecs n]; exact Nat.mod_eq_of_lt (by omega)
    have hstep := Page.insertRawRecord_of_room ⟨h12, hle, h16⟩ hinv (recs n)
      (by rw [hL, hlen]; omega)
    refine ⟨?_, ?_, ?_⟩
    · exact hinv.insertRawRecord ⟨h12, hle, h16⟩ (recs n)
    · simp only [insertMany, hstep, List.length_append, List.length_singleton, hlen]
    · simp only [insertMany, hstep, hL]; omega

theorem insertMany_full (c : Layout) (hc : c.Valid) (p0 : Page) (h0 : p0.Inv c)
    (hs0 : p0.slots = []) (hf0 : p0.freeSpaceOffset = c.PAGE_HEADER_RESERVED)
    (L : Nat) (hL5 : L + 5 ≤ c.PAGE_SIZE - c.PAGE_HEADER_RESERVED)
    (recs : Nat → List Nat) (hrecs : ∀ i, (recs i).length = L) (i : Nat)
    (hi : (c.PAGE_SIZE - c.PAGE_HEADER_RESERVED) / (L + 5) ≤ i) :
    insertMany c p0 recs i
        = insertMany c p0 recs ((c.PAGE_SIZE - c.PAGE_HEADER_RESERVED) / (L + 5)) ∧
    (insertMany c p0 recs i).insertRawRecord c (recs i) = (insertMany c p0 recs i, none) := by
  have hN := Nat.div_mul_le_self (c.PAGE_SIZE - c.PAGE_HEADER_RESERVED) (L + 5)
  have hN2 := Nat.lt_mul_div_succ (c.PAGE_SIZE - c.PAGE_HEADER_RESERVED)
    (show 0 < L + 5 by omega)
  rw [Nat.mul_add, Nat.mul_one, Nat.mul_comm] at hN2
  obtain ⟨hinv, hlen, hfso⟩ := insertMany_filling c hc p0 h0 hs0 hf0 L recs hrecs _ hN
  have hfail : ∀ j, (recs j).length % 65536 = L := by
    intro j; rw [hrecs j]; exact Nat.mod_eq_of_lt (by have := hc.2.2; omega)
  have key : ∀ j, (insertMany c p0 recs ((c.PAGE_SIZE - c.PAGE_HEADER_RESERVED) / (L + 5))
      ).insertRawRecord c (recs j)
      = (insertMany c p0 recs ((c.PAGE_SIZE - c.PAGE_HEADER_RESERVED) / (L + 5)), none) := by
    intro j
    exact Page.insertRawRecord_of_no_room hc hinv (recs j) (by rw [hfail j, hlen]; omega)
  have hstay : ∀ k, insertMany c p0 recs ((c.PAGE_SIZE - c.PAGE_HEADER_RESERVED) / (L + 5) + k)
      = insertMany c p0 recs ((c.PAGE_SIZE - c.PAGE_HEADER_RESERVED) / (L + 5)) := by
    intro k
    induction k with
    | zero => rfl
    | succ k ih =>
      rw [← Nat.add_assoc, insertMany, ih, key]
  obtain ⟨k, rfl⟩ := Nat.exists_eq_add_of_le hi
  rw [hstay k]
  exact ⟨rfl, key _⟩

/-- C10: starting from an empty page and calling `insertRawRecord` again and
again with records of one length `L` that fits an empty page, there is an
`N ≥ 1` such that the first `N` calls succeed and return the slot IDs `0..N−1`,
and every later call fails and leaves the page unchanged; free space never
grows along the way. -/
theorem C10_capacity_boundary (c : Layout) (hc : c.Valid) (pageID : Nat)
    (hid : pageID < 18446744073709551616) (L : Nat)
    (hL : L + 5 ≤ ({ Page.empty c with pageID := pageID } : Page).freeSpace c)
    (recs : Nat → List Nat) (hrecs : ∀ i, (recs i).length = L) :
    ∃ N, 1 ≤ N ∧
      (∀ i, i < N →
        ((insertMany c { Page.empty c with pageID := pageID } recs i).insertRawRecord c
          (recs i)).2 = some i) ∧
      (∀ i, N ≤ i →
        (insertMany c { Page.empty c with pageID := pageID } recs i).insertRawRecord c (recs i)
          = (insertMany c { Page.empty c with pageID := pageID } recs i, none)) ∧
      (∀ i, (insertMany c { Page.empty c with pageID := pageID } recs (i + 1)).freeSpace c
          ≤ (insertMany c { Page.empty c with pageID := pageID } recs i).freeSpace c) := by
  rw [Page.freeSpace_empty c hc pageID] at hL
  have h0 := Page.Inv.empty c hc pageID hid
  have hN := Nat.div_mul_le_self (c.PAGE_SIZE - c.PAGE_HEADER_RESERVED) (L + 5)
  refine ⟨(c.PAGE_SIZE - c.PAGE_HEADER_RESERVED) / (L + 5), ?_, ?_, ?_, ?_⟩
  · exact (Nat.one_le_div_iff (by omega)).2 hL
  · intro i hi
    have hle : (i + 1) * (L + 5) ≤ c.PAGE_SIZE - c.PAGE_HEADER_RESERVED :=
      Nat.le_trans (Nat.mul_le_mul_right _ hi) hN
    have hmul : (i + 1) * (L + 5) = i * (L + 5) + (L + 5) := Nat.succ_mul _ _
    obtain ⟨hinv, hlen, hfso⟩ := insertMany_filling c hc _ h0 rfl rfl L recs hrecs i (by omega)
    have hLm : (recs i).length % 65536 = L := by
      rw [hrecs i]; exact Nat.mod_eq_of_lt (by have := hc.2.2; omega)
    rw [Page.insertRawRecord_of_room hc hinv (recs i) (by rw [hLm, hlen]; omega), hlen]
  · intro i hi
    exact (insertMany_full c hc _ h0 rfl rfl L hL recs hrecs i hi).2
  · intro i
    by_cases hi : (c.PAGE_SIZE - c.PAGE_HEADER_RESERVED) / (L + 5) ≤ i
    · have h1 := (insertMany_full c hc _ h0 rfl rfl L hL recs hrecs i hi).1
      have h2 := (insertMany_full c hc _ h0 rfl rfl L hL recs hrecs (i + 1) (by omega)).1
      rw [h1, h2]
    · have hle : (i + 1) * (L + 5) ≤ c.PAGE_SIZE - c.PAGE_HEADER_RESERVED :=
        Nat.le_trans (Nat.mul_le_mul_right _ (by omega)) hN
      have hmul : (i + 1) * (L + 5) = i * (L + 5) + (L + 5) := Nat.succ_mul _ _
      obtain ⟨hinv, hlen, hfso⟩ := insertMany_filling c hc _ h0 rfl rfl L recs hrecs i (by omega)
      obtain ⟨hinv', hlen', hfso'⟩ :=
        insertMany_filling c hc _ h0 rfl rfl L recs hrecs (i + 1) hle
      rw [hinv.freeSpace_eq hc, hinv'.freeSpace_eq hc, hlen, hlen']
      omega

theorem C10_capacity_boundary_witness :
    layout4K.Valid ∧ (0 : Nat) < 18446744073709551616 ∧
    3 + 5 ≤ ({ Page.empty layout4K with pageID := 0 } : Page).freeSpace layout4K ∧
    (∀ i : Nat, ((fun _ => [1, 2, 3]) i : List Nat).length = 3) ∧
    ∃ N, 1 ≤ N ∧
      (∀ i, i < N →
        ((insertMany layout4K { Page.empty layout4K with pageID := 0 } (fun _ => [1, 2, 3])
          i).insertRawRecord layout4K [1, 2, 3]).2 = some i) ∧
      (∀ i, N ≤ i →
        (insertMany layout4K { Page.empty layout4K with pageID := 0 } (fun _ => [1, 2, 3])
          i).insertRawRecord layout4K [1, 2, 3]
          = (insertMany layout4K { Page.empty layout4K with pageID := 0 } (fun _ => [1, 2, 3]) i,
              none)) ∧
      (∀ i, (insertMany layout4K { Page.empty layout4K with pageID := 0 } (fun _ => [1, 2, 3])
            (i + 1)).freeSpace layout4K
          ≤ (insertMany layout4K { Page.empty layout4K with pageID := 0 } (fun _ => [1, 2, 3])
            i).freeSpace layout4K) :=
  ⟨layout4K_valid, by decide, by decide, fun _ => rfl,
   C10_capacity_boundary layout4K layout4K_valid 0 (by decide) 3 (by decide)
     (fun _ => [1, 2, 3]) (fun _ => rfl)⟩

/-! ## Page round trip -/

theorem readAt_eq_of_getElem? (X : List Nat) (pos n : Nat) (src : List Nat)
    (hn : n = src.length) (h : ∀ i, i < n → X[pos + i]? = src[i]?) : readAt X pos n = src := by
  apply List.ext_getElem?
  intro i
  rw [getElem?_readAt]
  split
  · exact h i (by assumption)
  · rw [List.getElem?_eq_none (by omega)]

/-- The bytes of a serialized page below its slot directory. -/
theorem Page.getElem?_serializeToBuffer {c : Layout} {p : Page} (hc : c.Valid) (h : p.Inv c)
    (i : Nat) (hi : i < c.PAGE_SIZE - 5 * p.slots.length) :
    (p.serializeToBuffer c)[i]? =
      if i < 8 then (toBytesLE 8 p.pageID)[i]?
      else if i < 10 then (toBytesLE 2 p.slotCount)[i - 8]?
      else if i < 12 then (toBytesLE 2 p.freeSpaceOffset)[i - 10]?
      else if c.PAGE_HEADER_RESERVED ≤ i ∧ i < p.freeSpaceOffset then p.data[i]?
      else some 0 := by
  obtain ⟨h12, hle, h16⟩ := hc
  have hr := h.room
  have hH := h.contiguous.le
  have hd := h.data_length
  have l1 : (memcpy (List.replicate c.PAGE_SIZE 0) 0 (toBytesLE 8 p.pageID)).length
      = c.PAGE_SIZE := by
    rw [length_memcpy _ _ _ (by simp [length_toBytesLE]; omega)]; simp
  have l2 : (memcpy (memcpy (List.replicate c.PAGE_SIZE 0) 0 (toBytesLE 8 p.pageID)) 8
      (toBytesLE 2 p.slotCount)).length = c.PAGE_SIZE := by
    rw [length_memcpy _ _ _ (by rw [l1]; simp [length_toBytesLE]; omega), l1]
  have l3 : (memcpy (memcpy (memcpy (List.replicate c.PAGE_SIZE 0) 0 (toBytesLE 8 p.pageID)) 8
      (toBytesLE 2 p.slotCount)) 10 (toBytesLE 2 p.freeSpaceOffset)).length = c.PAGE_SIZE := by
    rw [length_memcpy _ _ _ (by rw [l2]; simp [length_toBytesLE]; omega), l2]
  have lr : (readAt p.data c.PAGE_HEADER_RESERVED
      (p.freeSpaceOffset - c.PAGE_HEADER_RESERVED)).length
      = p.freeSpaceOffset - c.PAGE_HEADER_RESERVED := length_readAt _ _ _ (by omega)
  have hdr : ∀ j, (memcpy (memcpy (memcpy (List.replicate c.PAGE_SIZE 0) 0
      (toBytesLE 8 p.pageID)) 8 (toBytesLE 2 p.slotCount)) 10
      (toBytesLE 2 p.freeSpaceOffset))[j]? =
      if j < 8 then (toBytesLE 8 p.pageID)[j]?
      else if j < 10 then (toBytesLE 2 p.slotCount)[j - 8]?
      else if j < 12 then (toBytesLE 2 p.freeSpaceOffset)[j - 10]?
      else if j < c.PAGE_SIZE then some 0 else none := by
    intro j
    rw [getElem?_memcpy _ _ _ _ (by rw [l2]; simp [length_toBytesLE]; omega),
      getElem?_memcpy _ _ _ _ (by rw [l1]; simp [length_toBytesLE]; omega),
      getElem?_memcpy _ _ _ _ (by simp [length_toBytesLE]; omega),
      List.getElem?_replicate]
    simp only [length_toBytesLE, Nat.sub_zero]
    split_ifs <;> first | rfl | omega
  unfold Page.serializeToBuffer sizeofPageID
  simp only
  split
  · rename_i hgt
    rw [getElem?_serializeSlots _ _ _ _ (by simp; omega) (by
        rw [length_memcpy _ _ _ (by rw [l3, lr]; omega), l3])
      (Or.inl (by simpa using hi)),
      getElem?_memcpy _ _ _ _ (by rw [l3, lr]; omega), hdr, lr, getElem?_readAt]
    split_ifs <;> first | rfl | omega | (congr 1; omega)
  · rename_i hgt
    rw [getElem?_serializeSlots _ _ _ _ (by simp; omega) (by rw [l3]) (Or.inl (by simpa using hi)), hdr]
    split_ifs <;> first | rfl | omega

theorem Page.serializeToBuffer_eq {c : Layout} {p : Page} (hc : c.Valid) (h : p.Inv c) :
    ∃ B0 : List Nat, B0.length = c.PAGE_SIZE ∧
      p.serializeToBuffer c = serializeSlots p.slots.reverse c.PAGE_SIZE B0 := by
  obtain ⟨h12, hle, h16⟩ := hc
  have hr := h.room
  have hH := h.contiguous.le
  have hd := h.data_length
  have l1 : (memcpy (List.replicate c.PAGE_SIZE 0) 0 (toBytesLE 8 p.pageID)).length
      = c.PAGE_SIZE := by
    rw [length_memcpy _ _ _ (by simp [length_toBytesLE]; omega)]; simp
  have l2 : (memcpy (memcpy (List.replicate c.PAGE_SIZE 0) 0 (toBytesLE 8 p.pageID)) 8
      (toBytesLE 2 p.slotCount)).length = c.PAGE_SIZE := by
    rw [length_memcpy _ _ _ (by rw [l1]; simp [length_toBytesLE]; omega), l1]
  have l3 : (memcpy (memcpy (memcpy (List.replicate c.PAGE_SIZE 0) 0 (toBytesLE 8 p.pageID)) 8
      (toBytesLE 2 p.slotCount)) 10 (toBytesLE 2 p.freeSpaceOffset)).length = c.PAGE_SIZE := by
    rw [length_memcpy _ _ _ (by rw [l2]; simp [length_toBytesLE]; omega), l2]
  have lr : (readAt p.data c.PAGE_HEADER_RESERVED
      (p.freeSpaceOffset - c.PAGE_HEADER_RESERVED)).length
      = p.freeSpaceOffset - c.PAGE_HEADER_RESERVED := length_readAt _ _ _ (by omega)
  unfold Page.serializeToBuffer sizeofPageID
  simp only
  split
  · exact ⟨_, by rw [length_memcpy _ _ _ (by rw [l3, lr]; omega), l3], rfl⟩
  · exact ⟨_, l3, rfl⟩

theorem Page.length_serializeToBuffer {c : Layout} {p : Page} (hc : c.Valid) (h : p.Inv c) :
    (p.serializeToBuffer c).length = c.PAGE_SIZE := by
  obtain ⟨B0, hB, e⟩ := Page.serializeToBuffer_eq hc h
  have hr := h.room
  rw [e, length_serializeSlots _ _ _ (by simp; omega) (by rw [hB]), hB]

/-- Decoding a serialized page into any page with a full-size buffer gives back
the header fields and the slot directory, and the record bytes of the data
region. -/
theorem Page.deserializeFromBuffer_serializeToBuffer {c : Layout} {p : Page} (hc : c.Valid) (h : p.Inv c)
    (q0 : Page) (hq0 : q0.data.length = c.PAGE_SIZE) :
    (q0.deserializeFromBuffer c (p.serializeToBuffer c)).pageID = p.pageID ∧
    (q0.deserializeFromBuffer c (p.serializeToBuffer c)).slotCount = p.slotCount ∧
    (q0.deserializeFromBuffer c (p.serializeToBuffer c)).freeSpaceOffset = p.freeSpaceOffset ∧
    (q0.deserializeFromBuffer c (p.serializeToBuffer c)).slots = p.slots ∧
    (q0.deserializeFromBuffer c (p.serializeToBuffer c)).data.length = c.PAGE_SIZE ∧
    ∀ i, c.PAGE_HEADER_RESERVED ≤ i → i < p.freeSpaceOffset →
      (q0.deserializeFromBuffer c (p.serializeToBuffer c)).data[i]? = p.data[i]? := by
  have hlen := Page.length_serializeToBuffer hc h
  have hget := fun i hi => Page.getElem?_serializeToBuffer hc h i hi
  obtain ⟨B0, hB, e⟩ := Page.serializeToBuffer_eq hc h
  obtain ⟨h12, hle, h16⟩ := hc
  have hr := h.room
  have hH := h.contiguous.le
  have hd := h.data_length
  have hsc := h.slotCount_eq
  have hid := h.pageID_lt
  have r1 : readAt (p.serializeToBuffer c) 0 8 = toBytesLE 8 p.pageID :=
    readAt_eq_of_getElem? _ _ _ _ (length_toBytesLE _ _).symm (fun i hi => by
      rw [hget _ (by omega), if_pos (by omega)]; congr 1; omega)
  have r2 : readAt (p.serializeToBuffer c) 8 2 = toBytesLE 2 p.slotCount :=
    readAt_eq_of_getElem? _ _ _ _ (length_toBytesLE _ _).symm (fun i hi => by
      rw [hget _ (by omega), if_neg (by omega), if_pos (by omega)]; congr 1; omega)
  have r3 : readAt (p.serializeToBuffer c) 10 2 = toBytesLE 2 p.freeSpaceOffset :=
    readAt_eq_of_getElem? _ _ _ _ (length_toBytesLE _ _).symm (fun i hi => by
      rw [hget _ (by omega), if_neg (by omega), if_neg (by omega), if_pos (by omega)]
      congr 1; omega)
  have r4 : readAt (p.serializeToBuffer c) c.PAGE_HEADER_RESERVED
      (p.freeSpaceOffset - c.PAGE_HEADER_RESERVED)
      = readAt p.data c.PAGE_HEADER_RESERVED (p.freeSpaceOffset - c.PAGE_HEADER_RESERVED) :=
    readAt_congr _ _ _ _ (fun i hi1 hi2 => by
      rw [hget _ (by omega), if_neg (by omega), if_neg (by omega), if_neg (by omega),
        if_pos ⟨hi1, by omega⟩])
  have e1 : fromBytesLE (toBytesLE 8 p.pageID) = p.pageID := by
    rw [fromBytesLE_toBytesLE]; exact Nat.mod_eq_of_lt (by simpa using hid)
  have e2 : fromBytesLE (toBytesLE 2 p.slotCount) = p.slotCount :=
    fromBytesLE_toBytesLE_two _ (by omega)
  have e3 : fromBytesLE (toBytesLE 2 p.freeSpaceOffset) = p.freeSpaceOffset :=
    fromBytesLE_toBytesLE_two _ (by omega)
  have hslots : deserializeSlots (p.serializeToBuffer c) p.slotCount c.PAGE_SIZE []
      = p.slots.reverse := by
    have hw := h.contiguous.within
    have := deserializeSlots_serializeSlots p.slots.reverse c.PAGE_SIZE B0 []
      (by simp; omega) (by rw [hB]) (fun s hs => by
        have := hw s (List.mem_reverse.1 hs); omega)
    rw [e, hsc]
    simpa using this
  have lr : (readAt p.data c.PAGE_HEADER_RESERVED
      (p.freeSpaceOffset - c.PAGE_HEADER_RESERVED)).length
      = p.freeSpaceOffset - c.PAGE_HEADER_RESERVED := length_readAt _ _ _ (by omega)
  unfold Page.deserializeFromBuffer sizeofPageID
  rw [if_neg (by omega)]
  simp only [r1, r2, r3, r4, e1, e2, e3, hslots, List.reverse_reverse]
  refine ⟨trivial, trivial, trivial, trivial, ?_, ?_⟩
  · split
    · rw [length_memcpy _ _ _ (by rw [lr]; omega)]; exact hq0
    · exact hq0
  · intro i hi1 hi2
    rw [if_pos (by omega), getElem?_memcpy _ _ _ _ (by rw [lr]; omega), if_neg (by omega),
      lr, if_pos (by omega), getElem?_readAt, if_pos (by omega)]
    congr 1; omega

theorem Page.readRawRecord_congr (c : Layout) (p q : Page) (lo hi : Nat)
    (hslots : q.slots = p.slots)
    (hw : ∀ s ∈ p.slots, lo ≤ s.offset ∧ s.offset + s.length ≤ hi)
    (hdata : ∀ i, lo ≤ i → i < hi → q.data[i]? = p.data[i]?) (slotID : Nat) :
    q.readRawRecord c slotID = p.readRawRecord c slotID := by
  unfold Page.readRawRecord
  rw [hslots]
  cases hs : p.slots[slotID]? with
  | none => rfl
  | some s =>
    have := hw s (List.getElem?_mem hs)
    simp only
    rw [readAt_congr q.data p.data s.offset s.length (fun i h1 h2 =>
      hdata i (by omega) (by omega))]

/-- C3: for every page obtained from an empty page by calls of
`insertRawRecord` and `deleteSlot`, decoding its serialized buffer into a fresh
page reproduces `pageID`, `slotCount`, `freeSpaceOffset` and the slot directory
in forward order, and `readRawRecord` succeeds with the same bytes on both
pages for every active slot. -/
theorem C3_page_round_trip (c : Layout) (hc : c.Valid) (p : Page) (hp : Page.Reachable c p) :
    ((Page.empty c).deserializeFromBuffer c (p.serializeToBuffer c)).pageID = p.pageID ∧
    ((Page.empty c).deserializeFromBuffer c (p.serializeToBuffer c)).slotCount = p.slotCount ∧
    ((Page.empty c).deserializeFromBuffer c (p.serializeToBuffer c)).freeSpaceOffset
      = p.freeSpaceOffset ∧
    ((Page.empty c).deserializeFromBuffer c (p.serializeToBuffer c)).slots = p.slots ∧
    ∀ slotID s, p.slots[slotID]? = some s → s.active = true →
      ∃ bytes, p.readRawRecord c slotID = some bytes ∧
        ((Page.empty c).deserializeFromBuffer c (p.serializeToBuffer c)).readRawRecord c slotID
          = some bytes := by
  have hinv := hp.inv hc
  obtain ⟨h1, h2, h3, h4, -, h6⟩ :=
    Page.deserializeFromBuffer_serializeToBuffer hc hinv (Page.empty c) (by simp [Page.empty])
  refine ⟨h1, h2, h3, h4, ?_⟩
  intro slotID s hs hact
  have hw := hinv.contiguous.within s (List.getElem?_mem hs)
  have hr := hinv.room
  rw [Page.readRawRecord_congr c p _ _ _ h4 hinv.contiguous.within h6 slotID]
  refine ⟨readAt p.data s.offset s.length, ?_, ?_⟩ <;>
  · unfold Page.readRawRecord
    rw [hs]
    simp only [hact, Bool.not_true, Bool.false_eq_true, if_false]
    rw [if_neg (by omega)]

theorem C3_page_round_trip_witness :
    layout4K.Valid ∧
    Page.Reachable layout4K
      (((((Page.empty layout4K).insertRawRecord layout4K [1, 2, 3]).1.insertRawRecord layout4K
        [4, 5]).1).deleteSlot 0).1 ∧
    (((((Page.empty layout4K).insertRawRecord layout4K [1, 2, 3]).1.insertRawRecord layout4K
        [4, 5]).1).deleteSlot 0).1.slots
      = [{ offset := 16, length := 3, active := false },
         { offset := 19, length := 2, active := true }] ∧
    ((Page.empty layout4K).deserializeFromBuffer layout4K
      ((((((Page.empty layout4K).insertRawRecord layout4K [1, 2, 3]).1.insertRawRecord layout4K
        [4, 5]).1).deleteSlot 0).1.serializeToBuffer layout4K)).slots
      = (((((Page.empty layout4K).insertRawRecord layout4K [1, 2, 3]).1.insertRawRecord layout4K
        [4, 5]).1).deleteSlot 0).1.slots :=
  ⟨layout4K_valid,
   Page.Reachable.delete _ 0 (Page.Reachable.insert _ [4, 5]
     (Page.Reachable.insert _ [1, 2, 3] (Page.Reachable.empty 0 (by decide)))),
   by decide,
   (C3_page_round_trip layout4K layout4K_valid _
     (Page.Reachable.delete _ 0 (Page.Reachable.insert _ [4, 5]
       (Page.Reachable.insert _ [1, 2, 3] (Page.Reachable.empty 0 (by decide)))))).2.2.2.1⟩

/-! ## Records of a page -/

theorem filterMap_range_getElem? {α β : Type} (l : List α) (g : α → Option β) :
    (List.range l.length).filterMap (fun i =>
      match l[i]? with
      | none => none
      | some x => g x) = l.filterMap g := by
  induction l using List.reverseRecOn with
  | nil => rfl
  | append_singleton l a ih =>
    rw [List.length_append, List.length_singleton, List.range_succ, List.filterMap_append,
      List.filterMap_append]
    congr 1
    · rw [← ih]
      apply List.filterMap_congr
      intro i hi
      rw [List.mem_range] at hi
      rw [List.getElem?_append_left hi]
    · have e : (l ++ [a])[l.length]? = some a := by
        rw [List.getElem?_append_right (Nat.le_refl _), Nat.sub_self]; rfl
      simp only [List.filterMap_cons, List.filterMap_nil, e]

theorem Page.selectRecords_eq (c : Layout) (p : Page) :
    p.selectRecords c = p.slots.filterMap (selectSlot c p.data) := by
  rw [← filterMap_range_getElem? p.slots (selectSlot c p.data)]
  unfold Page.selectRecords
  apply List.filterMap_congr
  intro s _
  unfold Page.readRawRecord selectSlot
  cases hs : p.slots[s]? with
  | none => rfl
  | some slot =>
    simp only
    by_cases ha : slot.active <;> simp [ha]

theorem Page.loadRecords_eq (c : Layout) (p : Page) :
    p.loadRecords c = p.slots.filterMap (loadSlot c p.data) := by
  rw [← filterMap_range_getElem? p.slots (loadSlot c p.data)]
  unfold Page.loadRecords
  apply List.filterMap_congr
  intro s _
  unfold Page.readRawRecord loadSlot
  cases hs : p.slots[s]? with
  | none => rfl
  | some slot =>
    simp only
    by_cases ha : slot.active <;> simp [ha]

theorem deserializeRecord_nil : deserializeRecord [] = none := rfl

theorem loadSlot_eq_selectSlot (c : Layout) (data : List Nat) (slot : SlotEntry) :
    loadSlot c data slot = selectSlot c data slot := by
  unfold loadSlot selectSlot
  by_cases ha : slot.active
  · by_cases hb : slot.offset + slot.length > c.PAGE_SIZE
    · simp [ha, hb, deserializeRecord_nil]
    · simp [ha, hb]
  · simp [ha]

/-- The two slot loops return the same records on every page. -/
theorem Page.loadRecords_eq_selectRecords (c : Layout) (p : Page) :
    p.loadRecords c = p.selectRecords c := by
  rw [Page.loadRecords_eq, Page.selectRecords_eq]
  congr 1
  funext slot
  exact loadSlot_eq_selectSlot c p.data slot

theorem selectSlot_congr (c : Layout) (d1 d2 : List Nat) (slot : SlotEntry)
    (h : ∀ i, slot.offset ≤ i → i < slot.offset + slot.length → d1[i]? = d2[i]?) :
    selectSlot c d1 slot = selectSlot c d2 slot := by
  unfold selectSlot
  rw [readAt_congr d1 d2 slot.offset slot.length h]

/-- The records of a page after a successful insert of the bytes of a record
that the codec gives back. -/
theorem Page.selectRecords_insert {c : Layout} {p : Page} (hc : c.Valid) (h : p.Inv c)
    (r : Record) (hr : r.Encodable) (hlen : (serializeRecord r).length ≤ 65535)
    (hroom : (serializeRecord r).length + 5
      ≤ c.PAGE_SIZE - p.freeSpaceOffset - 5 * p.slots.length) :
    (p.insertRawRecord c (serializeRecord r)).2 = some p.slots.length ∧
    (p.insertRawRecord c (serializeRecord r)).1.selectRecords c
      = p.selectRecords c ++ [r] := by
  have hmod : (serializeRecord r).length % 65536 = (serializeRecord r).length :=
    Nat.mod_eq_of_lt (by omega)
  have hroom' := h.room
  have hd := h.data_length
  rw [Page.insertRawRecord_of_room hc h _ (by omega)]
  refine ⟨rfl, ?_⟩
  rw [Page.selectRecords_eq, Page.selectRecords_eq]
  simp only [hmod, List.take_length, List.filterMap_append]
  congr 1
  · apply List.filterMap_congr
    intro slot hslot
    have hw := h.contiguous.within slot hslot
    apply selectSlot_congr
    intro i h1 h2
    rw [getElem?_memcpy _ _ _ _ (by omega), if_pos (by omega)]
  · have hread : readAt (memcpy p.data p.freeSpaceOffset (serializeRecord r)) p.freeSpaceOffset
        (serializeRecord r).length = serializeRecord r :=
      readAt_memcpy_same _ _ _ (by omega)
    simp only [List.filterMap_cons, List.filterMap_nil, selectSlot, Bool.not_true,
      Bool.false_eq_true, if_false]
    rw [if_neg (by omega)]
    simp only [Option.getD_some, hread, deserialize_serialize r hr]

/-! ## Scanning a file page by page -/

/-- Decoding a serialized page gives a page with the same records. -/
theorem Page.selectRecords_roundtrip {c : Layout} {p : Page} (hc : c.Valid) (h : p.Inv c) :
    ((Page.empty c).deserializeFromBuffer c (p.serializeToBuffer c)).selectRecords c
      = p.selectRecords c := by
  obtain ⟨-, -, -, h4, -, h6⟩ :=
    Page.deserializeFromBuffer_serializeToBuffer hc h (Page.empty c) (by simp [Page.empty])
  rw [Page.selectRecords_eq, Page.selectRecords_eq, h4]
  apply List.filterMap_congr
  intro slot hslot
  have hw := h.contiguous.within slot hslot
  exact selectSlot_congr c _ _ slot (fun i h1 h2 => h6 i (by omega) (by omega))

theorem readAt_zero_append (buf X : List Nat) (n : Nat) (h : buf.length = n) :
    readAt (buf ++ X) 0 n = buf := by
  simp [readAt, List.take_left' h]

theorem readAt_succ_page (buf X : List Nat) (n i : Nat) (h : buf.length = n) :
    readAt (buf ++ X) ((i + 1) * n) n = readAt X (i * n) n := by
  unfold readAt
  have e : (i + 1) * n = buf.length + i * n := by rw [h, Nat.succ_mul, Nat.add_comm]
  rw [e, List.drop_append]

theorem readPageFromFile_zero (c : Layout) (buf X : List Nat) (q0 : Page)
    (h : buf.length = c.PAGE_SIZE) :
    readPageFromFile c (buf ++ X) 0 q0 = q0.deserializeFromBuffer c buf := by
  unfold readPageFromFile
  simp only [Nat.zero_mul, readAt_zero_append buf X _ h, h, Nat.sub_self, List.replicate_zero,
    List.append_nil]

theorem readPageFromFile_succ (c : Layout) (buf X : List Nat) (q0 : Page) (i : Nat)
    (h : buf.length = c.PAGE_SIZE) :
    readPageFromFile c (buf ++ X) (i + 1) q0 = readPageFromFile c X i q0 := by
  unfold readPageFromFile
  simp only [readAt_succ_page buf X _ i h]

theorem pageCount_append (c : Layout) (buf X : List Nat) (h : buf.length = c.PAGE_SIZE)
    (hpos : 0 < c.PAGE_SIZE)
    (hsmall : (X.length + c.PAGE_SIZE - 1) / c.PAGE_SIZE + 1 < 4294967296) :
    pageCount c (some (buf ++ X)) = pageCount c (some X) + 1 := by
  unfold pageCount
  simp only [List.length_append, h]
  have e : c.PAGE_SIZE + X.length + c.PAGE_SIZE - 1 = (X.length + c.PAGE_SIZE - 1) + c.PAGE_SIZE := by
    omega
  rw [e, Nat.add_div_right _ hpos, Nat.mod_eq_of_lt (by omega), Nat.mod_eq_of_lt (by omega)]

theorem selectAll_append (c : Layout) (buf X : List Nat) (h : buf.length = c.PAGE_SIZE)
    (hpos : 0 < c.PAGE_SIZE)
    (hsmall : (X.length + c.PAGE_SIZE - 1) / c.PAGE_SIZE + 1 < 4294967296) :
    selectAll c (some (buf ++ X))
      = ((Page.empty c).deserializeFromBuffer c buf).selectRecords c ++ selectAll c (some X) := by
  unfold selectAll
  rw [pageCount_append c buf X h hpos hsmall, List.range_succ_eq_map, List.flatMap_cons,
    List.flatMap_map]
  simp only [Option.getD_some, readPageFromFile_zero c buf X _ h, Function.comp_def,
    readPageFromFile_succ c buf X _ _ h]

theorem selectAll_nil (c : Layout) (hpos : 0 < c.PAGE_SIZE) : selectAll c (some []) = [] := by
  unfold selectAll pageCount
  have : ([] : List Nat).length + c.PAGE_SIZE - 1 = c.PAGE_SIZE - 1 := by simp
  simp only [this, Nat.div_eq_of_lt (show c.PAGE_SIZE - 1 < c.PAGE_SIZE by omega), Nat.zero_mod,
    List.range_zero, List.flatMap_nil]

theorem loadAllRecords_append (c : Layout) (buf X : List Nat) (h : buf.length = c.PAGE_SIZE)
    (hpos : 0 < c.PAGE_SIZE) :
    loadAllRecords c (some (buf ++ X))
      = if ((Page.empty c).deserializeFromBuffer c buf).slotCount = 0 then []
        else ((Page.empty c).deserializeFromBuffer c buf).loadRecords c
          ++ loadAllRecords c (some X) := by
  unfold loadAllRecords
  simp only [List.length_append, h]
  have e : (c.PAGE_SIZE + X.length) / c.PAGE_SIZE = X.length / c.PAGE_SIZE + 1 := by
    rw [Nat.add_comm, Nat.add_div_right _ hpos]
  rw [e, loadPages]
  simp only [List.take_left' h, List.drop_left' h]

theorem loadAllRecords_nil (c : Layout) : loadAllRecords c (some []) = [] := by
  simp [loadAllRecords, loadPages]

/-! ## Scanning a rewritten file -/

theorem foldl_writeStep_out (c : Layout) (rs : List Record) (out : List Nat) (p : Page) :
    rs.foldl (writeStep c) (out, p)
      = (out ++ (rs.foldl (writeStep c) ([], p)).1, (rs.foldl (writeStep c) ([], p)).2) := by
  induction rs generalizing out p with
  | nil => simp
  | cons r rs ih =>
    rw [List.foldl_cons, List.foldl_cons]
    cases h : p.insertRawRecord c (serializeRecord r) with
    | mk p1 o =>
      cases o with
      | some sid => simp only [writeStep, h]; exact ih out p1
      | none =>
        simp only [writeStep, h, List.nil_append]
        rw [ih (out ++ _), ih (p1.serializeToBuffer c)]
        simp

theorem writeFrom_nil (c : Layout) (p : Page) : writeFrom c p [] = p.serializeToBuffer c := by
  simp [writeFrom]

theorem writeFrom_cons_room (c : Layout) (p p1 : Page) (sid : Nat) (r : Record)
    (rs : List Record) (h : p.insertRawRecord c (serializeRecord r) = (p1, some sid)) :
    writeFrom c p (r :: rs) = writeFrom c p1 rs := by
  simp only [writeFrom, List.foldl_cons, writeStep, h]

theorem writeFrom_cons_no_room (c : Layout) (p p1 : Page) (r : Record) (rs : List Record)
    (h : p.insertRawRecord c (serializeRecord r) = (p1, none)) :
    writeFrom c p (r :: rs)
      = p1.serializeToBuffer c ++
        writeFrom c (({ Page.empty c with pageID := 1 } : Page).insertRawRecord c
          (serializeRecord r)).1 rs := by
  simp only [writeFrom, List.foldl_cons, writeStep, h, List.nil_append]
  rw [foldl_writeStep_out]
  simp only [List.append_assoc]
  rfl

theorem div_page (k n : Nat) (hn : 0 < n) : (k * n + n - 1) / n = k := by
  apply Nat.div_eq_of_lt_le
  · omega
  · rw [Nat.succ_mul]; omega

theorem Page.Inv.slots_nil {c : Layout} {p : Page} (h : p.Inv c) (hs : p.slots = []) :
    p.freeSpaceOffset = c.PAGE_HEADER_RESERVED := by
  have := h.contiguous
  rw [hs] at this
  exact this.symm

theorem scan_writeFrom (c : Layout) (hc : c.Valid) (rs : List Record) (p : Page)
    (h : p.Inv c) (hrs : ∀ r ∈ rs, r.Storable c) (hn : rs.length + 1 < 4294967296) :
    selectAll c (some (writeFrom c p rs)) = p.selectRecords c ++ rs ∧
    loadAllRecords c (some (writeFrom c p rs)) = p.selectRecords c ++ rs ∧
    ∃ k, (writeFrom c p rs).length = k * c.PAGE_SIZE ∧ k ≤ rs.length + 1 := by
  have hpos : 0 < c.PAGE_SIZE := by have := hc.1; have := hc.2.1; omega
  induction rs generalizing p with
  | nil =>
    have hlen := Page.length_serializeToBuffer hc h
    obtain ⟨-, h2, -, h4, -, -⟩ :=
      Page.deserializeFromBuffer_serializeToBuffer hc h (Page.empty c) (by simp [Page.empty])
    rw [writeFrom_nil]
    refine ⟨?_, ?_, 1, by rw [hlen, Nat.one_mul], by simp⟩
    · have := selectAll_append c (p.serializeToBuffer c) [] hlen hpos (by
        rw [List.length_nil, Nat.zero_add, Nat.div_eq_of_lt (by omega)]; decide)
      rw [List.append_nil] at this
      rw [this, Page.selectRecords_roundtrip hc h, selectAll_nil c hpos]
    · have := loadAllRecords_append c (p.serializeToBuffer c) [] hlen hpos
      rw [List.append_nil] at this
      rw [this, h2, loadAllRecords_nil, Page.loadRecords_eq_selectRecords,
        Page.selectRecords_roundtrip hc h]
      split
      · rename_i h0
        have hs : p.slots = [] := List.eq_nil_of_length_eq_zero (by rw [← h.slotCount_eq]; exact h0)
        rw [Page.selectRecords_eq, hs]; rfl
      · rfl
  | cons r rs ih =>
    have hr := hrs r (List.mem_cons_self _ _)
    have hrest : ∀ r' ∈ rs, r'.Storable c := fun r' hr' => hrs r' (List.mem_cons_of_mem _ hr')
    simp only [List.length_cons] at hn
    have hfit : (serializeRecord r).length + 5 ≤ c.PAGE_SIZE - c.PAGE_HEADER_RESERVED := hr.2
    have h16 := hc.2.2
    by_cases hroom : (serializeRecord r).length + 5
        ≤ c.PAGE_SIZE - p.freeSpaceOffset - 5 * p.slots.length
    · obtain ⟨hres, hsel⟩ := Page.selectRecords_insert hc h r hr.1 (by omega) hroom
      have hinv1 := h.insertRawRecord hc (serializeRecord r)
      obtain ⟨i1, i2, k, i3, i4⟩ := ih _ hinv1 hrest (by omega)
      rw [writeFrom_cons_room c p _ p.slots.length r rs (Prod.ext rfl hres)]
      rw [i1, i2, hsel]
      exact ⟨by simp, by simp, k, i3, by simp; omega⟩
    · have hmod : (serializeRecord r).length % 65536 = (serializeRecord r).length :=
        Nat.mod_eq_of_lt (by omega)
      have hno := Page.insertRawRecord_of_no_room hc h (serializeRecord r) (by omega)
      have hinv0 := Page.Inv.empty c hc 1 (by decide)
      obtain ⟨hres, hsel⟩ := Page.selectRecords_insert hc hinv0 r hr.1 (by omega)
        (by simp only [Page.empty, List.length_nil]; omega)
      have hinv1 := hinv0.insertRawRecord hc (serializeRecord r)
      obtain ⟨i1, i2, k, i3, i4⟩ := ih _ hinv1 hrest (by omega)
      have hlen := Page.length_serializeToBuffer hc h
      obtain ⟨-, h2, -, h4, -, -⟩ :=
        Page.deserializeFromBuffer_serializeToBuffer hc h (Page.empty c) (by simp [Page.empty])
      have hsel0 : ({ Page.empty c with pageID := 1 } : Page).selectRecords c = [] := by
        rw [Page.selectRecords_eq]; rfl
      rw [hsel0, List.nil_append] at hsel
      rw [writeFrom_cons_no_room c p p r rs hno]
      have hne : ¬ p.slotCount = 0 := by
        intro h0
        have hs : p.slots = [] := List.eq_nil_of_length_eq_zero (by rw [← h.slotCount_eq]; exact h0)
        have hf := h.slots_nil hs
        rw [hs, hf] at hroom
        simp only [List.length_nil] at hroom
        omega
      refine ⟨?_, ?_, k + 1, ?_, by simp; omega⟩
      · rw [selectAll_append c _ _ hlen hpos (by rw [i3, div_page k _ hpos]; omega),
          Page.selectRecords_roundtrip hc h, i1, hsel]
        rfl
      · rw [loadAllRecords_append c _ _ hlen hpos, h2, Page.loadRecords_eq_selectRecords,
          Page.selectRecords_roundtrip hc h, i2, hsel, if_neg hne]
        rfl
      · rw [List.length_append, hlen, i3, Nat.succ_mul]; omega

theorem scan_writeAllRecords (c : Layout) (hc : c.Valid) (rs : List Record)
    (hrs : ∀ r ∈ rs, r.Storable c) (hn : rs.length + 1 < 4294967296) :
    selectAll c (some (writeAllRecords c rs)) = rs ∧
    loadAllRecords c (some (writeAllRecords c rs)) = rs := by
  obtain ⟨h1, h2, -⟩ := scan_writeFrom c hc rs _ (Page.Inv.empty c hc 0 (by decide)) hrs hn
  have hsel0 : ({ Page.empty c with pageID := 0 } : Page).selectRecords c = [] := by
    rw [Page.selectRecords_eq]; rfl
  rw [hsel0, List.nil_append] at h1 h2
  exact ⟨h1, h2⟩

theorem foldl_deleteStep_out (c : Layout) (rs : List Record) (out : List Nat) :
    rs.foldl (deleteStep c) out = out ++ rs.foldl (deleteStep c) [] := by
  induction rs generalizing out with
  | nil => simp
  | cons r rs ih =>
    rw [List.foldl_cons, List.foldl_cons, ih, ih (deleteStep c [] r)]
    cases h : ({ Page.empty c with pageID := 0 } : Page).insertRawRecord c (serializeRecord r) with
    | mk p1 o =>
      cases o with
      | some sid => simp only [deleteStep, h, List.nil_append, List.append_assoc]
      | none => simp only [deleteStep, h, List.nil_append, List.append_nil]

theorem scan_deleteLayout (c : Layout) (hc : c.Valid) (rs : List Record)
    (hrs : ∀ r ∈ rs, r.Storable c) (hn : rs.length + 1 < 4294967296) :
    selectAll c (some (rs.foldl (deleteStep c) [])) = rs ∧
    loadAllRecords c (some (rs.foldl (deleteStep c) [])) = rs ∧
    (rs.foldl (deleteStep c) []).length = rs.length * c.PAGE_SIZE := by
  have hpos : 0 < c.PAGE_SIZE := by have := hc.1; have := hc.2.1; omega
  induction rs with
  | nil => exact ⟨selectAll_nil c hpos, loadAllRecords_nil c, by simp⟩
  | cons r rs ih =>
    have hr := hrs r (List.mem_cons_self _ _)
    have hrest : ∀ r' ∈ rs, r'.Storable c := fun r' hr' => hrs r' (List.mem_cons_of_mem _ hr')
    simp only [List.length_cons] at hn
    have hfit : (serializeRecord r).length + 5 ≤ c.PAGE_SIZE - c.PAGE_HEADER_RESERVED := hr.2
    have h16 := hc.2.2
    obtain ⟨i1, i2, i3⟩ := ih hrest (by omega)
    have hinv0 := Page.Inv.empty c hc 0 (by decide)
    obtain ⟨hres, hsel⟩ := Page.selectRecords_insert hc hinv0 r hr.1 (by omega)
      (by simp only [Page.empty, List.length_nil]; omega)
    have hinv1 := hinv0.insertRawRecord hc (serializeRecord r)
    have hsel0 : ({ Page.empty c with pageID := 0 } : Page).selectRecords c = [] := by
      rw [Page.selectRecords_eq]; rfl
    rw [hsel0, List.nil_append] at hsel
    have hlen := Page.length_serializeToBuffer hc hinv1
    obtain ⟨-, h2, -, h4, -, -⟩ :=
      Page.deserializeFromBuffer_serializeToBuffer hc hinv1 (Page.empty c) (by simp [Page.empty])
    have hstep : deleteStep c [] r
        = (({ Page.empty c with pageID := 0 } : Page).insertRawRecord c
            (serializeRecord r)).1.serializeToBuffer c := by
      cases h : ({ Page.empty c with pageID := 0 } : Page).insertRawRecord c (serializeRecord r) with
      | mk p1 o =>
        rw [h] at hres
        simp only at hres
        subst hres
        simp only [deleteStep, h, List.nil_append]
    have hsc : (({ Page.empty c with pageID := 0 } : Page).insertRawRecord c
        (serializeRecord r)).1.slotCount ≠ 0 := by
      rw [Page.insertRawRecord_of_room hc hinv0 _ (by
        rw [Nat.mod_eq_of_lt (by omega)]
        simp only [Page.empty, List.length_nil]; omega)]
      simp
    rw [List.foldl_cons, foldl_deleteStep_out, hstep]
    refine ⟨?_, ?_, ?_⟩
    · rw [selectAll_append c _ _ hlen hpos (by
          rw [i3, div_page _ _ hpos]; omega),
        Page.selectRecords_roundtrip hc hinv1, i1, hsel]
      rfl
    · rw [loadAllRecords_append c _ _ hlen hpos, h2, if_neg hsc,
        Page.loadRecords_eq_selectRecords, Page.selectRecords_roundtrip hc hinv1, i2, hsel]
      rfl
    · rw [List.length_append, hlen, i3, List.length_cons, Nat.succ_mul]; omega

/-! ## The list operations of the engine -/

theorem eraseById_ok (id : Int) (rs : List Record) (h : ∀ r ∈ rs, r.HasId) :
    eraseById id rs = .ok (rs.filter (fun r => !(r.idIs id))) := by
  induction rs with
  | nil => rfl
  | cons r rs ih =>
    obtain ⟨k, hk⟩ := h r (List.mem_cons_self _ _)
    have := ih (fun r' hr' => h r' (List.mem_cons_of_mem _ hr'))
    simp only [eraseById, hk, this, List.filter_cons, Record.idIs]
    by_cases e : k = id <;> simp [e]

theorem idIs_of_getId {r : Record} {k id : Int} (h : getId r = .ok k) :
    r.idIs id = decide (k = id) := by
  simp [Record.idIs, h]

theorem replaceFirst_miss (id : Int) (new : Record) (rs : List Record)
    (h : ∀ r ∈ rs, ∃ k, getId r = .ok k ∧ k ≠ id) :
    replaceFirst id new rs = .ok (rs, false) := by
  induction rs with
  | nil => rfl
  | cons r rs ih =>
    obtain ⟨k, hk, hne⟩ := h r (List.mem_cons_self _ _)
    have := ih (fun r' hr' => h r' (List.mem_cons_of_mem _ hr'))
    simp only [replaceFirst, hk, if_neg hne, this]

theorem replaceFirst_hit (id : Int) (new : Record) (pre : List Record) (r : Record)
    (post : List Record) (hpre : ∀ x ∈ pre, ∃ k, getId x = .ok k ∧ k ≠ id)
    (hr : getId r = .ok id) :
    replaceFirst id new (pre ++ r :: post) = .ok (pre ++ new :: post, true) := by
  induction pre with
  | nil => simp only [List.nil_append, replaceFirst, hr, if_true]
  | cons x pre ih =>
    obtain ⟨k, hk, hne⟩ := hpre x (List.mem_cons_self _ _)
    have := ih (fun r' hr' => hpre r' (List.mem_cons_of_mem _ hr'))
    show replaceFirst id new (x :: (pre ++ r :: post)) = _
    rw [replaceFirst]
    simp only [hk, if_neg hne, this]
    rfl

/-- The first record with a given id splits the list. -/
theorem exists_first_with_id (id : Int) (rs : List Record) (h : ∀ r ∈ rs, r.HasId)
    (hex : ∃ r ∈ rs, getId r = .ok id) :
    ∃ pre r post, rs = pre ++ r :: post ∧ (∀ x ∈ pre, ∃ k, getId x = .ok k ∧ k ≠ id) ∧
      getId r = .ok id := by
  induction rs with
  | nil => obtain ⟨r, hr, -⟩ := hex; cases hr
  | cons x rs ih =>
    obtain ⟨k, hk⟩ := h x (List.mem_cons_self _ _)
    by_cases e : k = id
    · subst e
      exact ⟨[], x, rs, rfl, fun _ hx => (by cases hx), hk⟩
    · obtain ⟨r, hr, hid⟩ := hex
      rcases List.mem_cons.1 hr with rfl | hr
      · rw [hk] at hid; cases hid; exact absurd rfl e
      · obtain ⟨pre, r', post, e1, e2, e3⟩ :=
          ih (fun r' hr' => h r' (List.mem_cons_of_mem _ hr')) ⟨r, hr, hid⟩
        refine ⟨x :: pre, r', post, by rw [e1]; rfl, ?_, e3⟩
        intro y hy
        rcases List.mem_cons.1 hy with rfl | hy
        · exact ⟨k, hk, e⟩
        · exact e2 y hy

theorem filter_not_idIs_of_miss (id : Int) (rs : List Record)
    (h : ∀ r ∈ rs, ∃ k, getId r = .ok k ∧ k ≠ id) :
    rs.filter (fun r => !(r.idIs id)) = rs := by
  apply List.filter_eq_self.2
  intro r hr
  obtain ⟨k, hk, hne⟩ := h r hr
  simp [idIs_of_getId hk, hne]

theorem length_filter_lt_of_hit (id : Int) (rs : List Record)
    (hex : ∃ r ∈ rs, getId r = .ok id) :
    (rs.filter (fun r => !(r.idIs id))).length < rs.length := by
  obtain ⟨r, hr, hid⟩ := hex
  apply List.length_filter_lt_length_iff_exists.2
  exact ⟨r, hr, by simp [idIs_of_getId hid]⟩

/-! ## The engine on a consistent table -/

theorem tableInv_create (c : Layout) (hc : c.Valid) (tableName : String) (m : Option String) :
    selectAll c (createTable c tableName { data := none, metaFile := m }).2.data = [] ∧
    loadAllRecords c (createTable c tableName { data := none, metaFile := m }).2.data = [] := by
  have := scan_writeAllRecords c hc [] (fun _ h => by cases h) (by decide)
  simpa [createTable, writeAllRecords, writeFrom_nil] using this

theorem insertRecord_spec (c : Layout) (hc : c.Valid) (f : DataFile) (h : TableInv c f)
    (rec : Record) (hrec : rec.Storable c) (k : Int) (hk : getId rec = .ok k)
    (hn : (selectAll c f).length + 2 < 4294967296) :
    insertRecord c f rec = .ok (true, some (writeAllRecords c
      ((selectAll c f).filter (fun r => !(r.idIs k)) ++ [rec]))) ∧
    selectAll c (some (writeAllRecords c
      ((selectAll c f).filter (fun r => !(r.idIs k)) ++ [rec])))
      = (selectAll c f).filter (fun r => !(r.idIs k)) ++ [rec] ∧
    loadAllRecords c (some (writeAllRecords c
      ((selectAll c f).filter (fun r => !(r.idIs k)) ++ [rec])))
      = (selectAll c f).filter (fun r => !(r.idIs k)) ++ [rec] := by
  obtain ⟨h1, h2, h3⟩ := h
  have hst : ∀ r ∈ (selectAll c f).filter (fun r => !(r.idIs k)) ++ [rec], r.Storable c := by
    intro r hr
    rcases List.mem_append.1 hr with hr | hr
    · exact (h2 r (List.mem_filter.1 hr).1).1
    · rw [List.mem_singleton] at hr; subst hr; exact hrec
  have hlen : ((selectAll c f).filter (fun r => !(r.idIs k)) ++ [rec]).length + 1
      < 4294967296 := by
    have := List.length_filter_le (fun r => !(r.idIs k)) (selectAll c f)
    simp only [List.length_append, List.length_singleton]; omega
  refine ⟨?_, scan_writeAllRecords c hc _ hst hlen⟩
  unfold insertRecord
  simp only [hk, h1, eraseById_ok k _ (fun r hr => (h2 r hr).2)]

theorem updateRecord_spec (c : Layout) (hc : c.Valid) (f : DataFile) (h : TableInv c f)
    (id : Int) (new : Record) (hnew : new.Storable c) (pre : List Record) (r : Record)
    (post : List Record) (hsplit : selectAll c f = pre ++ r :: post)
    (hpre : ∀ x ∈ pre, ∃ k, getId x = .ok k ∧ k ≠ id) (hr : getId r = .ok id) :
    updateRecord c f id new = .ok (true, some (writeAllRecords c (pre ++ new :: post))) ∧
    selectAll c (some (writeAllRecords c (pre ++ new :: post))) = pre ++ new :: post ∧
    loadAllRecords c (some (writeAllRecords c (pre ++ new :: post))) = pre ++ new :: post := by
  obtain ⟨h1, h2, h3⟩ := h
  have hst : ∀ x ∈ pre ++ new :: post, x.Storable c := by
    intro x hx
    rcases List.mem_append.1 hx with hx | hx
    · exact (h2 x (by rw [hsplit]; exact List.mem_append_left _ hx)).1
    · rcases List.mem_cons.1 hx with rfl | hx
      · exact hnew
      · exact (h2 x (by rw [hsplit]; exact List.mem_append_right _ (List.mem_cons_of_mem _ hx))).1
  have hlen : (pre ++ new :: post).length + 1 < 4294967296 := by
    rw [hsplit] at h3
    simpa using h3
  refine ⟨?_, scan_writeAllRecords c hc _ hst hlen⟩
  unfold updateRecord
  simp only [h1, hsplit, replaceFirst_hit id new pre r post hpre hr]
  rfl

theorem deleteRecord_spec (c : Layout) (hc : c.Valid) (f : DataFile) (h : TableInv c f)
    (id : Int) (hex : ∃ r ∈ selectAll c f, getId r = .ok id) :
    deleteRecord c f id = .ok (true, some
      (((selectAll c f).filter (fun r => !(r.idIs id))).foldl (deleteStep c) [])) ∧
    selectAll c (some (((selectAll c f).filter (fun r => !(r.idIs id))).foldl (deleteStep c) []))
      = (selectAll c f).filter (fun r => !(r.idIs id)) ∧
    loadAllRecords c
        (some (((selectAll c f).filter (fun r => !(r.idIs id))).foldl (deleteStep c) []))
      = (selectAll c f).filter (fun r => !(r.idIs id)) := by
  obtain ⟨h1, h2, h3⟩ := h
  have hst : ∀ r ∈ (selectAll c f).filter (fun r => !(r.idIs id)), r.Storable c :=
    fun r hr => (h2 r (List.mem_filter.1 hr).1).1
  have hlt := length_filter_lt_of_hit id _ hex
  obtain ⟨s1, s2, -⟩ := scan_deleteLayout c hc _ hst (by omega)
  refine ⟨?_, s1, s2⟩
  unfold deleteRecord
  simp only [h1, eraseById_ok id _ (fun r hr => (h2 r hr).2)]
  rw [if_neg (by omega)]

theorem EngineTable.tableInv {c : Layout} (hc : c.Valid) {f : DataFile} (h : EngineTable c f) :
    TableInv c f := by
  induction h with
  | create tableName m =>
    obtain ⟨h1, h2⟩ := tableInv_create c hc tableName m
    refine ⟨by rw [h1, h2], ?_, by rw [h1]; decide⟩
    rw [h1]; intro r hr; cases hr
  | insert f f' rec _ hst hid hn hop ih =>
    obtain ⟨k, hk⟩ := hid
    obtain ⟨e1, e2, e3⟩ := insertRecord_spec c hc f ih rec hst k hk hn
    rw [e1] at hop
    cases hop
    refine ⟨by rw [e2, e3], ?_, ?_⟩
    · rw [e2]
      intro r hr
      rcases List.mem_append.1 hr with hr | hr
      · exact ih.2.1 r (List.mem_filter.1 hr).1
      · rw [List.mem_singleton] at hr; subst hr; exact ⟨hst, k, hk⟩
    · rw [e2]
      have := List.length_filter_le (fun r => !(r.idIs k)) (selectAll c f)
      simp only [List.length_append, List.length_singleton]; omega
  | update f f' id new _ hst hid hop ih =>
    by_cases hex : ∃ r ∈ selectAll c f, getId r = .ok id
    · obtain ⟨pre, r, post, hsplit, hpre, hr⟩ :=
        exists_first_with_id id _ (fun r hr => (ih.2.1 r hr).2) hex
      obtain ⟨e1, e2, e3⟩ := updateRecord_spec c hc f ih id new hst pre r post hsplit hpre hr
      rw [e1] at hop
      cases hop
      refine ⟨by rw [e2, e3], ?_, ?_⟩
      · rw [e2]
        intro x hx
        rcases List.mem_append.1 hx with hx | hx
        · exact ih.2.1 x (by rw [hsplit]; exact List.mem_append_left _ hx)
        · rcases List.mem_cons.1 hx with rfl | hx
          · exact ⟨hst, hid⟩
          · exact ih.2.1 x (by
              rw [hsplit]; exact List.mem_append_right _ (List.mem_cons_of_mem _ hx))
      · rw [e2]
        have := ih.2.2
        rw [hsplit] at this
        simpa using this
    · exfalso
      have hmiss : ∀ r ∈ loadAllRecords c f, ∃ k, getId r = .ok k ∧ k ≠ id := by
        rw [ih.1]
        intro r hr
        obtain ⟨k, hk⟩ := (ih.2.1 r hr).2
        exact ⟨k, hk, fun e => hex ⟨r, hr, by rw [hk, e]⟩⟩
      unfold updateRecord at hop
      simp only [replaceFirst_miss id new _ hmiss] at hop
      cases hop
  | delete f f' id _ hop ih =>
    by_cases hex : ∃ r ∈ selectAll c f, getId r = .ok id
    · obtain ⟨e1, e2, e3⟩ := deleteRecord_spec c hc f ih id hex
      rw [e1] at hop
      cases hop
      refine ⟨by rw [e2, e3], ?_, ?_⟩
      · rw [e2]
        intro r hr
        exact ih.2.1 r (List.mem_filter.1 hr).1
      · rw [e2]
        have := List.length_filter_le (fun r => !(r.idIs id)) (selectAll c f)
        have := ih.2.2
        omega
    · exfalso
      have hmiss : ∀ r ∈ loadAllRecords c f, ∃ k, getId r = .ok k ∧ k ≠ id := by
        rw [ih.1]
        intro r hr
        obtain ⟨k, hk⟩ := (ih.2.1 r hr).2
        exact ⟨k, hk, fun e => hex ⟨r, hr, by rw [hk, e]⟩⟩
      have hall : ∀ r ∈ loadAllRecords c f, r.HasId := by
        rw [ih.1]; exact fun r hr => (ih.2.1 r hr).2
      unfold deleteRecord at hop
      simp only [eraseById_ok id _ hall, filter_not_idIs_of_miss id _ hmiss, if_true] at hop
      cases hop

/-! ## Concrete records and tables -/

theorem foldl_writeStep_congr (c : Layout) (rs rs' : List Record) (st : List Nat × Page)
    (h : rs.map serializeRecord = rs'.map serializeRecord) :
    rs.foldl (writeStep c) st = rs'.foldl (writeStep c) st := by
  induction rs generalizing rs' st with
  | nil =>
    cases rs' with
    | nil => rfl
    | cons r' rs' => simp at h
  | cons r rs ih =>
    cases rs' with
    | nil => simp at h
    | cons r' rs' =>
      simp only [List.map_cons, List.cons.injEq] at h
      have e : writeStep c st r = writeStep c st r' := by
        unfold writeStep; rw [h.1]
      rw [List.foldl_cons, List.foldl_cons, e]
      exact ih rs' _ h.2

theorem writeAllRecords_congr (c : Layout) (rs rs' : List Record)
    (h : rs.map serializeRecord = rs'.map serializeRecord) :
    writeAllRecords c rs = writeAllRecords c rs' := by
  unfold writeAllRecords writeFrom
  rw [foldl_writeStep_congr c rs rs' _ h]

theorem serializeRecord_longText (id : Int) :
    serializeRecord (longTextRecord id) = serializeRecord (emptyTextRecord id) := by
  have hl : (List.replicate 65536 (0 : Nat)).length = 65536 := List.length_replicate _ _
  simp only [serializeRecord, longTextRecord, emptyTextRecord, List.foldl_cons, List.foldl_nil,
    serializeField, hl, List.length_cons, List.length_nil, Nat.mod_self, List.take_zero,
    Nat.zero_mod]

theorem longText_ne_emptyText (id : Int) : longTextRecord id ≠ emptyTextRecord id := by
  intro h
  have hl : (List.replicate 65536 (0 : Nat)).length = 65536 := List.length_replicate _ _
  simp only [longTextRecord, emptyTextRecord, Record.mk.injEq, List.cons.injEq,
    RecordValue.Text.injEq, true_and, and_true] at h
  rw [h] at hl
  simp at hl

theorem alice_storable : alice.Storable layout4K := by
  refine ⟨?_, ?_⟩
  · simp [Record.Encodable, alice, RecordValue.InRange, RecordValue.TextFits]
  · simp [Record.FitsEmptyPage, alice, serializeRecord, serializeField, layout4K, toBytesLE]

theorem bob_storable : bob.Storable layout4K := by
  refine ⟨?_, ?_⟩
  · simp [Record.Encodable, bob, RecordValue.InRange, RecordValue.TextFits]
  · simp [Record.FitsEmptyPage, bob, serializeRecord, serializeField, layout4K, toBytesLE]

theorem emptyText_storable (id : Int) (h1 : -2147483648 ≤ id) (h2 : id < 2147483648) :
    (emptyTextRecord id).Storable layout4K := by
  refine ⟨?_, ?_⟩
  · simp [Record.Encodable, emptyTextRecord, RecordValue.InRange, RecordValue.TextFits, h1, h2]
  · simp [Record.FitsEmptyPage, emptyTextRecord, serializeRecord, serializeField, layout4K,
      toBytesLE]

theorem floatId_storable : floatIdRecord.Storable layout4K := by
  refine ⟨?_, ?_⟩
  · simp [Record.Encodable, floatIdRecord, RecordValue.InRange, RecordValue.TextFits]
  · simp [Record.FitsEmptyPage, floatIdRecord, serializeRecord, serializeField, layout4K,
      toBytesLE]

theorem tableInv_newTable (c : Layout) (hc : c.Valid) :
    TableInv c (newTable c) ∧ selectAll c (newTable c) = [] :=
  ⟨(EngineTable.create "students" none).tableInv hc, (tableInv_create c hc "students" none).1⟩

theorem insert_alice :
    insertRecord layout4K (newTable layout4K) alice
      = .ok (true, some (writeAllRecords layout4K [alice])) := by
  obtain ⟨hinv, hsel⟩ := tableInv_newTable layout4K layout4K_valid
  have := (insertRecord_spec layout4K layout4K_valid _ hinv alice alice_storable 1 rfl
    (by rw [hsel]; decide)).1
  rw [hsel] at this
  exact this

theorem scan_alice :
    selectAll layout4K (some (writeAllRecords layout4K [alice])) = [alice] ∧
    loadAllRecords layout4K (some (writeAllRecords layout4K [alice])) = [alice] :=
  scan_writeAllRecords layout4K layout4K_valid [alice]
    (fun r hr => by rw [List.mem_singleton] at hr; subst hr; exact alice_storable) (by decide)

theorem engineTable_alice : EngineTable layout4K (some (writeAllRecords layout4K [alice])) :=
  EngineTable.insert _ _ alice (EngineTable.create "students" none) alice_storable ⟨1, rfl⟩
    (by rw [(tableInv_create layout4K layout4K_valid "students" none).1]; decide) insert_alice

theorem insert_bob :
    insertRecord layout4K (some (writeAllRecords layout4K [alice])) bob
      = .ok (true, some (writeAllRecords layout4K [alice, bob])) := by
  have hinv := engineTable_alice.tableInv layout4K_valid
  have := (insertRecord_spec layout4K layout4K_valid _ hinv bob bob_storable 2 rfl
    (by rw [scan_alice.1]; decide)).1
  rw [scan_alice.1] at this
  exact this

theorem students_eq : students = some (writeAllRecords layout4K [alice, bob]) := by
  unfold students
  rw [insert_alice]
  simp only [fileAfter]
  rw [insert_bob]

theorem engineTable_students : EngineTable layout4K students := by
  rw [students_eq]
  exact EngineTable.insert _ _ bob engineTable_alice bob_storable ⟨2, rfl⟩
    (by rw [scan_alice.1]; decide) insert_bob

theorem scan_students :
    selectAll layout4K students = [alice, bob] ∧
    loadAllRecords layout4K students = [alice, bob] := by
  rw [students_eq]
  exact scan_writeAllRecords layout4K layout4K_valid [alice, bob]
    (fun r hr => by
      rcases List.mem_cons.1 hr with rfl | hr
      · exact alice_storable
      · rw [List.mem_singleton] at hr; subst hr; exact bob_storable) (by decide)

theorem update_floatId :
    updateRecord layout4K students 1 floatIdRecord
      = .ok (true, some (writeAllRecords layout4K [floatIdRecord, bob])) :=
  (updateRecord_spec layout4K layout4K_valid students
    (engineTable_students.tableInv layout4K_valid) 1 floatIdRecord floatId_storable
    [] alice [bob] scan_students.1 (fun _ h => by cases h) rfl).1

theorem scan_floatIdTable :
    selectAll layout4K floatIdTable = [floatIdRecord, bob] ∧
    loadAllRecords layout4K floatIdTable = [floatIdRecord, bob] := by
  unfold floatIdTable
  rw [update_floatId]
  exact scan_writeAllRecords layout4K layout4K_valid [floatIdRecord, bob]
    (fun r hr => by
      rcases List.mem_cons.1 hr with rfl | hr
      · exact floatId_storable
      · rw [List.mem_singleton] at hr; subst hr; exact bob_storable) (by decide)

/-! ## Inserting a list of records -/

theorem tableInv_after_insert (c : Layout) (hc : c.Valid) (f : DataFile) (h : TableInv c f)
    (rec : Record) (hrec : rec.Storable c) (k : Int) (hk : getId rec = .ok k)
    (hn : (selectAll c f).length + 2 < 4294967296) :
    ∃ f', insertRecord c f rec = .ok (true, f') ∧
      selectAll c f' = (selectAll c f).filter (fun r => !(r.idIs k)) ++ [rec] ∧
      TableInv c f' := by
  obtain ⟨e1, e2, e3⟩ := insertRecord_spec c hc f h rec hrec k hk hn
  refine ⟨_, e1, e2, by rw [e2, e3], ?_, ?_⟩
  · rw [e2]
    intro r hr
    rcases List.mem_append.1 hr with hr | hr
    · exact h.2.1 r (List.mem_filter.1 hr).1
    · rw [List.mem_singleton] at hr; subst hr; exact ⟨hrec, k, hk⟩
  · rw [e2]
    have := List.length_filter_le (fun r => !(r.idIs k)) (selectAll c f)
    simp only [List.length_append, List.length_singleton]; omega

theorem insertRecord_eq (c : Layout) (f : DataFile) (rec : Record) (k : Int)
    (recs : List Record) (hk : getId rec = .ok k)
    (he : eraseById k (loadAllRecords c f) = .ok recs) :
    insertRecord c f rec = .ok (true, some (writeAllRecords c (recs ++ [rec]))) := by
  unfold insertRecord
  simp only [hk, he]

theorem insertRecord_error (c : Layout) (f : DataFile) (rec : Record) (k : Int) (e : Fault)
    (hk : getId rec = .ok k) (he : eraseById k (loadAllRecords c f) = .error e) :
    insertRecord c f rec = .error e := by
  unfold insertRecord
  simp only [hk, he]

theorem map_serializeRecord_longText (rs : List Record) (id : Int) :
    (rs ++ [longTextRecord id]).map serializeRecord
      = (rs ++ [emptyTextRecord id]).map serializeRecord := by
  rw [List.map_append, List.map_append, List.map_singleton, List.map_singleton,
    serializeRecord_longText]

theorem filter_idIs_filter_not (k : Int) (l : List Record) :
    (l.filter (fun r => !(r.idIs k))).filter (fun r => r.idIs k) = [] := by
  rw [List.filter_filter]
  apply List.filter_eq_nil_iff.2
  intro r _
  cases r.idIs k <;> simp

theorem filter_not_idIs_idem (k : Int) (l : List Record) :
    (l.filter (fun r => !(r.idIs k))).filter (fun r => !(r.idIs k))
      = l.filter (fun r => !(r.idIs k)) := by
  rw [List.filter_filter]
  congr 1
  funext r
  cases r.idIs k <;> rfl

theorem idIs_self {r : Record} {k : Int} (h : getId r = .ok k) : r.idIs k = true := by
  simp [idIs_of_getId h]

theorem upsert_spec (c : Layout) (hc : c.Valid) (f : DataFile) (hf : TableInv c f)
    (hn : (selectAll c f).length + 3 < 4294967296) (A B : Record) (k : Int)
    (hA : A.Storable c) (hB : B.Storable c) (hAk : getId A = .ok k) (hBk : getId B = .ok k) :
    ∃ f1 f2, insertRecord c f A = .ok (true, f1) ∧ insertRecord c f1 B = .ok (true, f2) ∧
      selectAll c f2 = (selectAll c f).filter (fun r => !(r.idIs k)) ++ [B] := by
  obtain ⟨f1, e1, e2, e3⟩ := tableInv_after_insert c hc f hf A hA k hAk (by omega)
  have hlen : (selectAll c f1).length ≤ (selectAll c f).length + 1 := by
    rw [e2]
    have := List.length_filter_le (fun r => !(r.idIs k)) (selectAll c f)
    simp only [List.length_append, List.length_singleton]; omega
  obtain ⟨f2, g1, g2, -⟩ := tableInv_after_insert c hc f1 e3 B hB k hBk (by omega)
  refine ⟨f1, f2, e1, g1, ?_⟩
  rw [g2, e2, List.filter_append, filter_not_idIs_idem]
  simp [idIs_self hAk]

/-- C4 as stated fails, in two ways.  With `B = {5, text of 65536 bytes}`, whose
encoding of 10 bytes fits a page, a fresh table holds one record with id 5
after the two inserts, and it is not `B`: its text is empty.  And on the table
left by the successful `updateRecord(students, 1, {Float})`, `insertRecord` ends
in `std::bad_variant_access`. -/
theorem C4_counterexample :
    ((emptyTextRecord 5).FitsEmptyPage layout4K ∧ (longTextRecord 5).FitsEmptyPage layout4K ∧
      getId (emptyTextRecord 5) = .ok 5 ∧ getId (longTextRecord 5) = .ok 5 ∧
      ∃ f1 f2, insertRecord layout4K (newTable layout4K) (emptyTextRecord 5) = .ok (true, f1) ∧
        insertRecord layout4K f1 (longTextRecord 5) = .ok (true, f2) ∧
        selectAll layout4K f2 = [emptyTextRecord 5] ∧
        longTextRecord 5 ∉ selectAll layout4K f2) ∧
    (flagOf (updateRecord layout4K students 1 floatIdRecord) = some true ∧
      insertRecord layout4K floatIdTable alice = .error .badVariantAccess) := by
  obtain ⟨hinv, hsel⟩ := tableInv_newTable layout4K layout4K_valid
  have hst := emptyText_storable 5 (by decide) (by decide)
  obtain ⟨f1, e1, e2, e3⟩ := tableInv_after_insert layout4K layout4K_valid _ hinv
    (emptyTextRecord 5) hst 5 rfl (by rw [hsel]; decide)
  rw [hsel] at e2
  have e2' : selectAll layout4K f1 = [emptyTextRecord 5] := e2
  have hload : loadAllRecords layout4K f1 = [emptyTextRecord 5] := by rw [e3.1, e2']
  have hins : insertRecord layout4K f1 (longTextRecord 5)
      = .ok (true, some (writeAllRecords layout4K [emptyTextRecord 5])) := by
    rw [insertRecord_eq layout4K _ (longTextRecord 5) 5 [] rfl (by rw [hload]; rfl),
      writeAllRecords_congr layout4K _ _ (map_serializeRecord_longText [] 5)]
    rfl
  have hscan := (scan_writeAllRecords layout4K layout4K_valid [emptyTextRecord 5]
    (fun r hr => by rw [List.mem_singleton] at hr; subst hr; exact hst) (by decide)).1
  refine ⟨⟨hst.2, ?_, rfl, rfl, f1, _, e1, hins, hscan, ?_⟩, ?_, ?_⟩
  · unfold Record.FitsEmptyPage
    rw [serializeRecord_longText]
    exact hst.2
  · rw [hscan, List.mem_singleton]
    exact longText_ne_emptyText 5
  · rw [update_floatId]; rfl
  · apply insertRecord_error layout4K floatIdTable alice 1 _ rfl
    rw [scan_floatIdTable.2]
    rfl

/-- C4 (amended): for every table produced by the engine from storable records
with an Integer `fields[0]` (fewer than 2^32 − 3 of them) and records `A` and `B`
that both have Integer `fields[0] = k`, are representable on the wire (at most
65535 fields, texts of at most 65535 bytes) and fit an empty page, after
`insertRecord(t, A)` and `insertRecord(t, B)`, both returning success,
`selectAll(t)` is the previous `selectAll(t)` without the records of id `k`,
followed by `B`: exactly one record has id `k`, it equals `B`, and every record
of another id that was stored before is still returned. -/
theorem C4_upsert (c : Layout) (hc : c.Valid) (f : DataFile) (hf : EngineTable c f)
    (hn : (selectAll c f).length + 3 < 4294967296) (A B : Record) (k : Int)
    (hA : A.Storable c) (hB : B.Storable c) (hAk : getId A = .ok k) (hBk : getId B = .ok k) :
    ∃ f1 f2, insertRecord c f A = .ok (true, f1) ∧ insertRecord c f1 B = .ok (true, f2) ∧
      selectAll c f2 = (selectAll c f).filter (fun r => !(r.idIs k)) ++ [B] ∧
      (selectAll c f2).filter (fun r => r.idIs k) = [B] ∧
      (∀ r ∈ selectAll c f, r.idIs k = false → r ∈ selectAll c f2) := by
  obtain ⟨f1, f2, e1, e2, e3⟩ := upsert_spec c hc f (hf.tableInv hc) hn A B k hA hB hAk hBk
  refine ⟨f1, f2, e1, e2, e3, ?_, ?_⟩
  · rw [e3, List.filter_append, filter_idIs_filter_not]
    simp [idIs_self hBk]
  · intro r hr hk
    rw [e3]
    exact List.mem_append_left _ (List.mem_filter.2 ⟨hr, by simp [hk]⟩)

theorem C4_upsert_witness :
    layout4K.Valid ∧ EngineTable layout4K students ∧
    (selectAll layout4K students).length + 3 < 4294967296 ∧
    alice.Storable layout4K ∧ (emptyTextRecord 1).Storable layout4K ∧
    getId alice = .ok 1 ∧ getId (emptyTextRecord 1) = .ok 1 ∧
    ∃ f1 f2, insertRecord layout4K students alice = .ok (true, f1) ∧
      insertRecord layout4K f1 (emptyTextRecord 1) = .ok (true, f2) ∧
      selectAll layout4K f2
        = (selectAll layout4K students).filter (fun r => !(r.idIs 1)) ++ [emptyTextRecord 1] ∧
      (selectAll layout4K f2).filter (fun r => r.idIs 1) = [emptyTextRecord 1] ∧
      (∀ r ∈ selectAll layout4K students, r.idIs 1 = false → r ∈ selectAll layout4K f2) :=
  ⟨layout4K_valid, engineTable_students, by rw [scan_students.1]; decide, alice_storable,
   emptyText_storable 1 (by decide) (by decide), rfl, rfl,
   C4_upsert layout4K layout4K_valid students engineTable_students
     (by rw [scan_students.1]; decide) alice (emptyTextRecord 1) 1 alice_storable
     (emptyText_storable 1 (by decide) (by decide)) rfl rfl⟩

/-! ## Delete -/

theorem deleteRecord_error (c : Layout) (f : DataFile) (id : Int) (e : Fault)
    (h : eraseById id (loadAllRecords c f) = .error e) : deleteRecord c f id = .error e := by
  unfold deleteRecord
  simp only [h]

theorem updateRecord_error (c : Layout) (f : DataFile) (id : Int) (new : Record) (e : Fault)
    (h : replaceFirst id new (loadAllRecords c f) = .error e) :
    updateRecord c f id new = .error e := by
  unfold updateRecord
  simp only [h]

theorem updateRecord_eq (c : Layout) (f : DataFile) (id : Int) (new : Record)
    (recs : List Record) (h : replaceFirst id new (loadAllRecords c f) = .ok (recs, true)) :
    updateRecord c f id new = .ok (true, some (writeAllRecords c recs)) := by
  unfold updateRecord
  simp only [h]
  rfl

theorem floatIdTable_eq :
    floatIdTable = some (writeAllRecords layout4K [floatIdRecord, bob]) := by
  show fileAfter none (updateRecord layout4K students 1 floatIdRecord) = _
  rw [update_floatId]
  rfl

theorem length_serializeRecord_int_text (x : Int) (s : List Nat) (h : s.length ≤ 65535) :
    (serializeRecord { fields := [.Integer x, .Text s] }).length = 10 + s.length := by
  have hm : s.length % 65536 = s.length := Nat.mod_eq_of_lt (by omega)
  simp only [serializeRecord, List.foldl_cons, List.foldl_nil, serializeField, hm,
    List.take_length, List.length_append, length_toBytesLE, List.length_cons, List.length_nil]
  omega

theorem oversize_no_room (pageID : Nat) (h : pageID < 18446744073709551616) :
    ({ Page.empty layout4K with pageID := pageID } : Page).insertRawRecord layout4K
        (serializeRecord oversizeRecord)
      = ({ Page.empty layout4K with pageID := pageID }, none) := by
  have hl : (serializeRecord oversizeRecord).length = 5010 := by
    rw [oversizeRecord, length_serializeRecord_int_text _ _ (by rw [List.length_replicate]; decide),
      List.length_replicate]
  exact Page.insertRawRecord_of_no_room layout4K_valid
    (Page.Inv.empty layout4K layout4K_valid pageID h) _ (by
      rw [hl]
      show 4096 - 16 - 5 * 0 < 5010 % 65536 + 5
      decide)

/-- The file written for `[oversizeRecord, bob]`: an empty page 0, then a page
with `bob`; `selectAll` finds `bob`, `loadAllRecords` stops at page 0. -/
theorem scan_oversize :
    selectAll layout4K (some (writeAllRecords layout4K [oversizeRecord, bob])) = [bob] ∧
    loadAllRecords layout4K (some (writeAllRecords layout4K [oversizeRecord, bob])) = [] := by
  have hc := layout4K_valid
  have hpos : 0 < layout4K.PAGE_SIZE := by decide
  have hinv0 := Page.Inv.empty layout4K hc 0 (by decide)
  have hinv1 := Page.Inv.empty layout4K hc 1 (by decide)
  have hw : writeAllRecords layout4K [oversizeRecord, bob]
      = ({ Page.empty layout4K with pageID := 0 } : Page).serializeToBuffer layout4K ++
        writeFrom layout4K { Page.empty layout4K with pageID := 1 } [bob] := by
    unfold writeAllRecords
    rw [writeFrom_cons_no_room layout4K _ _ oversizeRecord [bob] (oversize_no_room 0 (by decide)),
      oversize_no_room 1 (by decide)]
  obtain ⟨s1, s2, k, s3, s4⟩ := scan_writeFrom layout4K hc [bob] _ hinv1
    (fun r hr => by rw [List.mem_singleton] at hr; subst hr; exact bob_storable) (by decide)
  have hlen := Page.length_serializeToBuffer hc hinv0
  obtain ⟨-, h2, -, -, -, -⟩ := Page.deserializeFromBuffer_serializeToBuffer hc hinv0
    (Page.empty layout4K) (by simp [Page.empty])
  have hsel0 : ∀ n, ({ Page.empty layout4K with pageID := n } : Page).selectRecords layout4K
      = [] := by
    intro n; rw [Page.selectRecords_eq]; rfl
  rw [hw]
  constructor
  · rw [selectAll_append layout4K _ _ hlen hpos (by
        rw [s3, div_page k _ hpos]; simp only [List.length_singleton] at s4; omega),
      Page.selectRecords_roundtrip hc hinv0, s1, hsel0, hsel0]
    rfl
  · rw [loadAllRecords_append layout4K _ _ hlen hpos, h2]
    rfl

theorem miss_atomic (c : Layout) (f : DataFile) (id : Int) (rec : Record)
    (h : ∀ r ∈ loadAllRecords c f, ∃ k, getId r = .ok k ∧ k ≠ id) :
    updateRecord c f id rec = .ok (false, f) ∧ deleteRecord c f id = .ok (false, f) := by
  constructor
  · unfold updateRecord
    simp only [replaceFirst_miss id rec _ h]
    rfl
  · have hall : ∀ r ∈ loadAllRecords c f, r.HasId := fun r hr =>
      let ⟨k, hk, _⟩ := h r hr
      ⟨k, hk⟩
    unfold deleteRecord
    simp only [eraseById_ok id _ hall, filter_not_idIs_of_miss id _ h, if_true]

theorem update_oversize :
    updateRecord layout4K students 1 oversizeRecord
      = .ok (true, some (writeAllRecords layout4K [oversizeRecord, bob])) :=
  updateRecord_eq layout4K students 1 oversizeRecord [oversizeRecord, bob]
    (by rw [scan_students.2]; rfl)

theorem oversizeTable_eq :
    oversizeTable = some (writeAllRecords layout4K [oversizeRecord, bob]) := by
  show fileAfter none (updateRecord layout4K students 1 oversizeRecord) = _
  rw [update_oversize]
  rfl

/-- C5 as stated fails, in two ways.  After `updateRecord(1, {Float})`, which
returns success, the table `students` holds a record whose `fields[0]` is a
Float, and `deleteRecord` of the present id 2 ends in `std::bad_variant_access`
instead of returning success.  After `updateRecord(1, r)` with a record `r` too
long for a page, which returns success as well, the file starts with an empty
page, `selectAll` still returns the record of id 2, and `deleteRecord` of id 2
returns failure. -/
theorem C5_counterexample :
    (updateRecord layout4K students 1 floatIdRecord = .ok (true, floatIdTable) ∧
      selectAll layout4K floatIdTable = [floatIdRecord, bob] ∧
      getId bob = .ok 2 ∧
      deleteRecord layout4K floatIdTable 2 = .error .badVariantAccess) ∧
    (updateRecord layout4K students 1 oversizeRecord = .ok (true, oversizeTable) ∧
      selectAll layout4K oversizeTable = [bob] ∧
      deleteRecord layout4K oversizeTable 2 = .ok (false, oversizeTable)) := by
  refine ⟨⟨?_, scan_floatIdTable.1, rfl, ?_⟩, ⟨?_, ?_, ?_⟩⟩
  · rw [floatIdTable_eq]
    exact update_floatId
  · apply deleteRecord_error
    rw [scan_floatIdTable.2]
    rfl
  · rw [oversizeTable_eq]
    exact update_oversize
  · rw [oversizeTable_eq]
    exact scan_oversize.1
  · refine (miss_atomic layout4K oversizeTable 2 alice ?_).2
    rw [oversizeTable_eq, scan_oversize.2]
    intro r hr
    cases hr

/-- C5 (amended): for every table produced by the engine from storable records
with an Integer `fields[0]` and every id present in it, `deleteRecord(t, id)`
returns success and `selectAll(t)` afterwards equals the previous `selectAll(t)`
with every record whose `fields[0]` equals `id` removed and all other records
kept in their previous relative order. -/
theorem C5_delete (c : Layout) (hc : c.Valid) (f : DataFile) (hf : EngineTable c f)
    (id : Int) (hex : ∃ r ∈ selectAll c f, getId r = .ok id) :
    ∃ f', deleteRecord c f id = .ok (true, f') ∧
      selectAll c f' = (selectAll c f).filter (fun r => !(r.idIs id)) := by
  obtain ⟨e1, e2, -⟩ := deleteRecord_spec c hc f (hf.tableInv hc) id hex
  exact ⟨_, e1, e2⟩

theorem C5_delete_witness :
    layout4K.Valid ∧ EngineTable layout4K students ∧
    (∃ r ∈ selectAll layout4K students, getId r = .ok 2) ∧
    (selectAll layout4K students).filter (fun r => !(r.idIs 2)) = [alice] ∧
    ∃ f', deleteRecord layout4K students 2 = .ok (true, f') ∧
      selectAll layout4K f' = (selectAll layout4K students).filter (fun r => !(r.idIs 2)) :=
  have hex : ∃ r ∈ selectAll layout4K students, getId r = .ok 2 :=
    ⟨bob, by rw [scan_students.1]; simp, rfl⟩
  ⟨layout4K_valid, engineTable_students, hex, by rw [scan_students.1]; rfl,
   C5_delete layout4K layout4K_valid students engineTable_students 2 hex⟩

/-! ## Update -/

/-- C6 as stated fails, in two ways.  `newRecord = {1, text of 65536 bytes}` has
an encoding of 10 bytes, which fits a page; `updateRecord(students, 1,
newRecord)` returns success, and the table then holds `{1, ""}` in place of
`alice`, not `newRecord`.  And on the table left by the successful
`updateRecord(students, 1, {Float})`, `updateRecord` of the present id 2 ends in
`std::bad_variant_access`. -/
theorem C6_counterexample :
    ((longTextRecord 1).FitsEmptyPage layout4K ∧
      selectAll layout4K students = [alice, bob] ∧ getId alice = .ok 1 ∧
      ∃ f', updateRecord layout4K students 1 (longTextRecord 1) = .ok (true, f') ∧
        selectAll layout4K f' = [emptyTextRecord 1, bob] ∧
        selectAll layout4K f' ≠ [longTextRecord 1, bob]) ∧
    (flagOf (updateRecord layout4K students 1 floatIdRecord) = some true ∧
      selectAll layout4K floatIdTable = [floatIdRecord, bob] ∧ getId bob = .ok 2 ∧
      updateRecord layout4K floatIdTable 2 bob = .error .badVariantAccess) := by
  have hst := emptyText_storable 1 (by decide) (by decide)
  have hupd : updateRecord layout4K students 1 (longTextRecord 1)
      = .ok (true, some (writeAllRecords layout4K [emptyTextRecord 1, bob])) := by
    rw [updateRecord_eq layout4K students 1 (longTextRecord 1) [longTextRecord 1, bob]
        (by rw [scan_students.2]; rfl),
      writeAllRecords_congr layout4K [longTextRecord 1, bob] [emptyTextRecord 1, bob]
        (by simp only [List.map_cons, serializeRecord_longText])]
  have hscan := (scan_writeAllRecords layout4K layout4K_valid [emptyTextRecord 1, bob]
    (fun r hr => by
      rcases List.mem_cons.1 hr with rfl | hr
      · exact hst
      · rw [List.mem_singleton] at hr; subst hr; exact bob_storable) (by decide)).1
  refine ⟨⟨?_, scan_students.1, rfl, _, hupd, hscan, ?_⟩, ?_, scan_floatIdTable.1, rfl, ?_⟩
  · unfold Record.FitsEmptyPage
    rw [serializeRecord_longText]
    exact hst.2
  · rw [hscan]
    intro h
    simp only [List.cons.injEq, and_true] at h
    exact longText_ne_emptyText 1 h.symm
  · rw [update_floatId]; rfl
  · apply updateRecord_error
    rw [scan_floatIdTable.2]
    rfl

/-- C6 (amended): for every table produced by the engine from storable records
with an Integer `fields[0]`, every id present in it and every `newRecord` that is
representable on the wire (at most 65535 fields, texts of at most 65535 bytes)
and fits an empty page, `updateRecord(t, id, newRecord)` returns success and
`selectAll(t)` afterwards equals the previous `selectAll(t)` with only the first
record whose `fields[0]` equals `id` replaced by `newRecord`; number and order of
the records are unchanged. -/
theorem C6_update_hit (c : Layout) (hc : c.Valid) (f : DataFile) (hf : EngineTable c f)
    (id : Int) (newRecord : Record) (hnew : newRecord.Storable c)
    (hex : ∃ r ∈ selectAll c f, getId r = .ok id) :
    ∃ f' pre r post, updateRecord c f id newRecord = .ok (true, f') ∧
      selectAll c f = pre ++ r :: post ∧
      (∀ x ∈ pre, x.idIs id = false) ∧ r.idIs id = true ∧
      selectAll c f' = pre ++ newRecord :: post ∧
      (selectAll c f').length = (selectAll c f).length := by
  have hinv := hf.tableInv hc
  obtain ⟨pre, r, post, hsplit, hpre, hr⟩ :=
    exists_first_with_id id _ (fun r hr => (hinv.2.1 r hr).2) hex
  obtain ⟨e1, e2, -⟩ := updateRecord_spec c hc f hinv id newRecord hnew pre r post hsplit hpre hr
  refine ⟨_, pre, r, post, e1, hsplit, ?_, idIs_self hr, e2, ?_⟩
  · intro x hx
    obtain ⟨k, hk, hne⟩ := hpre x hx
    simp [idIs_of_getId hk, hne]
  · rw [e2, hsplit]; simp

theorem C6_update_hit_witness :
    layout4K.Valid ∧ EngineTable layout4K students ∧ (emptyTextRecord 1).Storable layout4K ∧
    (∃ r ∈ selectAll layout4K students, getId r = .ok 1) ∧
    ∃ f' pre r post, updateRecord layout4K students 1 (emptyTextRecord 1) = .ok (true, f') ∧
      selectAll layout4K students = pre ++ r :: post ∧
      (∀ x ∈ pre, x.idIs 1 = false) ∧ r.idIs 1 = true ∧
      selectAll layout4K f' = pre ++ emptyTextRecord 1 :: post ∧
      (selectAll layout4K f').length = (selectAll layout4K students).length :=
  have hex : ∃ r ∈ selectAll layout4K students, getId r = .ok 1 :=
    ⟨alice, by rw [scan_students.1]; simp, rfl⟩
  ⟨layout4K_valid, engineTable_students, emptyText_storable 1 (by decide) (by decide), hex,
   C6_update_hit layout4K layout4K_valid students engineTable_students 1 (emptyTextRecord 1)
     (emptyText_storable 1 (by decide) (by decide)) hex⟩

/-! ## Update and delete of an absent id -/

/-- C7 as stated fails: the table left by the successful
`updateRecord(students, 1, {Float})` stores no record with `fields[0] = 999`, and
`updateRecord` and `deleteRecord` of id 999 both end in
`std::bad_variant_access` instead of returning failure. -/
theorem C7_counterexample :
    updateRecord layout4K students 1 floatIdRecord = .ok (true, floatIdTable) ∧
    (∀ r ∈ selectAll layout4K floatIdTable, getId r ≠ .ok 999) ∧
    updateRecord layout4K floatIdTable 999 alice = .error .badVariantAccess ∧
    deleteRecord layout4K floatIdTable 999 = .error .badVariantAccess := by
  refine ⟨?_, ?_, ?_, ?_⟩
  · rw [floatIdTable_eq]
    exact update_floatId
  · rw [scan_floatIdTable.1]
    intro r hr
    rcases List.mem_cons.1 hr with rfl | hr
    · intro h; cases h
    · rw [List.mem_singleton] at hr; subst hr; intro h; cases h
  · apply updateRecord_error
    rw [scan_floatIdTable.2]
    rfl
  · apply deleteRecord_error
    rw [scan_floatIdTable.2]
    rfl

/-! ## Deleting a slot -/

theorem Page.deleteSlot_none (p : Page) (s : Nat) (h : p.slots[s]? = none) :
    p.deleteSlot s = (p, false) := by
  unfold Page.deleteSlot; rw [h]

theorem Page.deleteSlot_inactive (p : Page) (s : Nat) (e : SlotEntry) (h : p.slots[s]? = some e)
    (ha : e.active = false) : p.deleteSlot s = (p, false) := by
  unfold Page.deleteSlot; rw [h]; simp [ha]

theorem Page.deleteSlot_active (p : Page) (s : Nat) (e : SlotEntry) (h : p.slots[s]? = some e)
    (ha : e.active = true) :
    p.deleteSlot s = ({ p with slots := p.slots.set s { e with active := false } }, true) := by
  unfold Page.deleteSlot; rw [h]; simp [ha]

theorem getElem?_set_same_of_some {α : Type} (l : List α) (s : Nat) (e a : α)
    (h : l[s]? = some e) : (l.set s a)[s]? = some a := by
  have hlt : s < l.length := by
    rcases List.getElem?_eq_some.1 h with ⟨hlt, -⟩
    exact hlt
  rw [List.getElem?_set, if_pos rfl, if_pos hlt]

/-- C12: `deleteSlot(s)` fails, leaving the page unchanged, iff `s` is out of
range or slot `s` is already inactive; otherwise it succeeds and changes nothing
but the active flag of slot `s` (the other slots, the number of slots,
`slotCount`, `freeSpaceOffset`, the data bytes, the page ID and `freeSpace()` are
unchanged), after which `readRawRecord(s)` fails and a second `deleteSlot(s)`
fails. -/
theorem C12_deleteSlot_contract (c : Layout) (p : Page) (s : Nat) :
    ((p.deleteSlot s).2 = false ↔
      (p.slots.length ≤ s ∨ ∃ e, p.slots[s]? = some e ∧ e.active = false)) ∧
    ((p.deleteSlot s).2 = false → (p.deleteSlot s).1 = p) ∧
    ((p.deleteSlot s).2 = true →
      ∃ e, p.slots[s]? = some e ∧ e.active = true ∧
        (p.deleteSlot s).1.slots[s]? = some { e with active := false } ∧
        (∀ t, t ≠ s → (p.deleteSlot s).1.slots[t]? = p.slots[t]?) ∧
        (p.deleteSlot s).1.slots.length = p.slots.length ∧
        (p.deleteSlot s).1.slotCount = p.slotCount ∧
        (p.deleteSlot s).1.freeSpaceOffset = p.freeSpaceOffset ∧
        (p.deleteSlot s).1.data = p.data ∧
        (p.deleteSlot s).1.pageID = p.pageID ∧
        (p.deleteSlot s).1.freeSpace c = p.freeSpace c ∧
        (p.deleteSlot s).1.readRawRecord c s = none ∧
        ((p.deleteSlot s).1.deleteSlot s).2 = false) := by
  cases hs : p.slots[s]? with
  | none =>
    rw [Page.deleteSlot_none p s hs]
    have hlen : p.slots.length ≤ s := List.getElem?_eq_none_iff.1 hs
    exact ⟨⟨fun _ => Or.inl hlen, fun _ => rfl⟩, fun _ => rfl, fun h => (by cases h)⟩
  | some e =>
    have hlt : s < p.slots.length := by
      rcases List.getElem?_eq_some.1 hs with ⟨hlt, -⟩
      exact hlt
    cases ha : e.active with
    | false =>
      rw [Page.deleteSlot_inactive p s e hs ha]
      exact ⟨⟨fun _ => Or.inr ⟨e, rfl, ha⟩, fun _ => rfl⟩, fun _ => rfl, fun h => (by cases h)⟩
    | true =>
      rw [Page.deleteSlot_active p s e hs ha]
      have hnew : (p.slots.set s { e with active := false })[s]?
          = some { e with active := false } := getElem?_set_same_of_some _ _ _ _ hs
      refine ⟨⟨fun h => (by cases h), ?_⟩, fun h => (by cases h), fun _ => ?_⟩
      · rintro (h | ⟨e', he', ha'⟩)
        · omega
        · cases he'
          rw [ha] at ha'
          cases ha'
      · refine ⟨e, rfl, ha, hnew, ?_, ?_, rfl, rfl, rfl, rfl, ?_, ?_, ?_⟩
        · intro t ht
          simp only
          rw [List.getElem?_set, if_neg (fun h => ht h.symm)]
        · simp
        · simp [Page.freeSpace, Page.usedDataBytes]
        · unfold Page.readRawRecord
          simp only [hnew]
          rfl
        · rw [Page.deleteSlot_inactive _ s _ hnew rfl]

/-! ## Stored bytes stay -/

/-- What a successful `insertRawRecord` did, on any well-formed page. -/
theorem Page.insertRawRecord_some {c : Layout} {p : Page} (hc : c.Valid) (hp : p.WellFormed c)
    (rec : List Nat) (sid : Nat) (h : (p.insertRawRecord c rec).2 = some sid) :
    p.freeSpaceOffset + rec.length % 65536 + 5 + 5 * p.slots.length ≤ c.PAGE_SIZE ∧
    sid = p.slots.length ∧
    (p.insertRawRecord c rec).1 =
      { p with
          data := memcpy p.data p.freeSpaceOffset (rec.take (rec.length % 65536)),
          slots := p.slots ++ [{ offset := p.freeSpaceOffset, length := rec.length % 65536,
                                 active := true }],
          freeSpaceOffset := p.freeSpaceOffset + rec.length % 65536,
          slotCount := p.slots.length + 1 } := by
  obtain ⟨h12, hle, h16⟩ := hc
  obtain ⟨hd, hs⟩ := hp
  have e1 : p.slots.length % 4294967296 = p.slots.length := Nat.mod_eq_of_lt (by omega)
  have e2 : p.slots.length * 5 % 4294967296 = p.slots.length * 5 := Nat.mod_eq_of_lt (by omega)
  have hfree : p.freeSpace c =
      if p.freeSpaceOffset + p.slots.length * 5 ≥ c.PAGE_SIZE then 0
      else (c.PAGE_SIZE - p.freeSpaceOffset - p.slots.length * 5) % 65536 := by
    simp only [Page.freeSpace, Page.usedDataBytes, sizeofSlotEntry, e1, e2]
  unfold Page.insertRawRecord at h ⊢
  simp only [sizeofSlotEntry, hfree] at h ⊢
  by_cases hfull : p.freeSpaceOffset + p.slots.length * 5 ≥ c.PAGE_SIZE
  · rw [if_pos hfull, if_pos (by omega)] at h
    cases h
  · rw [if_neg hfull] at h ⊢
    rw [Nat.mod_eq_of_lt (show c.PAGE_SIZE - p.freeSpaceOffset - p.slots.length * 5 < 65536 by
      omega)] at h ⊢
    by_cases hroom : c.PAGE_SIZE - p.freeSpaceOffset - p.slots.length * 5
        < rec.length % 65536 + 5 % 65536
    · rw [if_pos hroom] at h
      cases h
    · rw [if_neg hroom] at h ⊢
      have h5 : 5 % 65536 = 5 := rfl
      rw [h5] at hroom
      simp only [List.length_append, List.length_singleton, Nat.add_sub_cancel,
        Option.some.injEq] at h ⊢
      rw [Nat.mod_eq_of_lt (show p.slots.length < 65536 by omega)] at h
      rw [Nat.mod_eq_of_lt (show p.freeSpaceOffset + rec.length % 65536 < 65536 by omega),
        Nat.mod_eq_of_lt (show p.slots.length + 1 < 65536 by omega)]
      exact ⟨by omega, h.symm, rfl⟩

/-- The facts that keep the bytes of slot `s` readable. -/
theorem stored_bytes_step {c : Layout} (hc : c.Valid) (s off len : Nat) (b : List Nat)
    (q : Page) (op : PageOp) (hop : op ≠ .delete s)
    (hq : q.WellFormed c)
    (hslot : q.slots[s]? = some { offset := off, length := len, active := true })
    (hfso : off + len ≤ q.freeSpaceOffset) (hread : readAt q.data off len = b) :
    (applyOps c q [op]).WellFormed c ∧
    (applyOps c q [op]).slots[s]? = some { offset := off, length := len, active := true } ∧
    off + len ≤ (applyOps c q [op]).freeSpaceOffset ∧
    readAt (applyOps c q [op]).data off len = b := by
  have hlt : s < q.slots.length := by
    rcases List.getElem?_eq_some.1 hslot with ⟨hlt, -⟩
    exact hlt
  cases op with
  | insert rec =>
    simp only [applyOps]
    cases hres : (q.insertRawRecord c rec).2 with
    | none =>
      have hsame : (q.insertRawRecord c rec).1 = q := by
        unfold Page.insertRawRecord at hres ⊢
        simp only at hres ⊢
        split
        · rfl
        · rename_i hn
          rw [if_neg hn] at hres
          cases hres
      rw [hsame]
      exact ⟨hq, hslot, hfso, hread⟩
    | some sid =>
      obtain ⟨hroom, -, heq⟩ := Page.insertRawRecord_some hc hq rec sid hres
      rw [heq]
      have hd := hq.1
      have hlen : (rec.take (rec.length % 65536)).length = rec.length % 65536 := by
        rw [List.length_take]
        exact Nat.min_eq_left (Nat.mod_le _ _)
      refine ⟨⟨?_, ?_⟩, ?_, ?_, ?_⟩
      · simp only
        rw [length_memcpy _ _ _ (by rw [hlen]; omega)]
        exact hd
      · simp only [List.length_append, List.length_singleton]
        have := hc.2.2
        omega
      · simp only
        rw [List.getElem?_append_left hlt]
        exact hslot
      · simp only; omega
      · simp only
        rw [← hread]
        apply readAt_congr
        intro i h1 h2
        rw [getElem?_memcpy _ _ _ _ (by rw [hlen]; omega), if_pos (by omega)]
  | delete t =>
    have hts : t ≠ s := fun h => hop (by rw [h])
    simp only [applyOps]
    cases ht : q.slots[t]? with
    | none =>
      rw [Page.deleteSlot_none q t ht]
      exact ⟨hq, hslot, hfso, hread⟩
    | some e =>
      cases ha : e.active with
      | false =>
        rw [Page.deleteSlot_inactive q t e ht ha]
        exact ⟨hq, hslot, hfso, hread⟩
      | true =>
        rw [Page.deleteSlot_active q t e ht ha]
        refine ⟨⟨hq.1, ?_⟩, ?_, hfso, hread⟩
        · simp only [List.length_set]; exact hq.2
        · simp only
          rw [List.getElem?_set, if_neg hts]
          exact hslot

theorem applyOps_cons (c : Layout) (q : Page) (op : PageOp) (ops : List PageOp) :
    applyOps c q (op :: ops) = applyOps c (applyOps c q [op]) ops := by
  cases op <;> rfl

theorem stored_bytes_stable {c : Layout} (hc : c.Valid) (s off len : Nat) (b : List Nat)
    (ops : List PageOp) (hops : ∀ op ∈ ops, op ≠ .delete s) (q : Page)
    (hq : q.WellFormed c)
    (hslot : q.slots[s]? = some { offset := off, length := len, active := true })
    (hfso : off + len ≤ q.freeSpaceOffset) (hPS : off + len ≤ c.PAGE_SIZE)
    (hread : readAt q.data off len = b) :
    (applyOps c q ops).readRawRecord c s = some b := by
  induction ops generalizing q with
  | nil =>
    simp only [applyOps]
    unfold Page.readRawRecord
    rw [hslot]
    simp only [Bool.not_true, Bool.false_eq_true, if_false]
    rw [if_neg (by omega), hread]
  | cons op ops ih =>
    obtain ⟨h1, h2, h3, h4⟩ := stored_bytes_step hc s off len b q op
      (hops op (List.mem_cons_self _ _)) hq hslot hfso hread
    rw [applyOps_cons]
    exact ih (fun op' h => hops op' (List.mem_cons_of_mem _ h)) _ h1 h2 h3 h4

theorem stored_bytes (c : Layout) (hc : c.Valid) (p : Page) (hp : p.WellFormed c)
    (b : List Nat) (hb : b.length ≤ 65535) (s : Nat)
    (hs : (p.insertRawRecord c b).2 = some s) (ops : List PageOp)
    (hops : ∀ op ∈ ops, op ≠ .delete s) :
    (applyOps c (p.insertRawRecord c b).1 ops).readRawRecord c s = some b := by
  obtain ⟨hroom, hsid, heq⟩ := Page.insertRawRecord_some hc hp b s hs
  have hmod : b.length % 65536 = b.length := Nat.mod_eq_of_lt (by omega)
  rw [hmod] at hroom heq
  rw [List.take_length] at heq
  have hd := hp.1
  have h1 : (p.insertRawRecord c b).1.WellFormed c := by
    rw [heq]
    refine ⟨?_, ?_⟩
    · simp only
      rw [length_memcpy _ _ _ (by omega)]
      exact hd
    · simp only [List.length_append, List.length_singleton]
      have := hc.2.2
      omega
  apply stored_bytes_stable hc s p.freeSpaceOffset b.length b ops hops _ h1
  · rw [heq, hsid]
    simp
  · rw [heq]
  · omega
  · rw [heq]
    exact readAt_memcpy_same _ _ _ (by omega)

theorem Page.WellFormed.of_inv {c : Layout} {p : Page} (hc : c.Valid) (h : p.Inv c) :
    p.WellFormed c := by
  have := h.room
  have := hc.2.2
  exact ⟨h.data_length, by omega⟩

/-- A record of exactly 65536 bytes goes in as an empty one. -/
theorem read_after_wrap {c : Layout} {p : Page} (hc : c.Valid) (hp : p.Inv c) (b : List Nat)
    (hb : b.length = 65536)
    (hroom : 5 ≤ c.PAGE_SIZE - p.freeSpaceOffset - 5 * p.slots.length) :
    (p.insertRawRecord c b).2 = some p.slots.length ∧
    (p.insertRawRecord c b).1.readRawRecord c p.slots.length = some [] := by
  have hmod : b.length % 65536 = 0 := by rw [hb]
  have hr := hp.room
  rw [Page.insertRawRecord_of_room hc hp b (by rw [hmod]; omega)]
  refine ⟨rfl, ?_⟩
  unfold Page.readRawRecord
  simp only [hmod]
  rw [List.getElem?_append_right (Nat.le_refl _), Nat.sub_self]
  simp only [List.getElem?_cons_zero, Bool.not_true, Bool.false_eq_true, if_false, Nat.add_zero]
  rw [if_neg (by omega)]
  simp [readAt]

/-- C11 as stated fails: `insertRawRecord` of a sequence of 65536 bytes into an
empty page succeeds with slot 0, and `readRawRecord(0)` returns no bytes at
all. -/
theorem C11_counterexample :
    ((Page.empty layout4K).insertRawRecord layout4K (List.replicate 65536 0)).2 = some 0 ∧
    ((Page.empty layout4K).insertRawRecord layout4K (List.replicate 65536 0)).1.readRawRecord
      layout4K 0 = some [] ∧
    (some [] : Option (List Nat)) ≠ some (List.replicate 65536 0) := by
  have h := read_after_wrap layout4K_valid (Page.Inv.empty layout4K layout4K_valid 0 (by decide))
    (List.replicate 65536 0) (List.length_replicate _ _) (by decide)
  refine ⟨h.1, h.2, ?_⟩
  intro e
  have hl := congrArg (fun o : Option (List Nat) => o.map List.length) e
  simp only [Option.map_some', List.length_nil, List.length_replicate, Option.some.injEq] at hl
  omega

/-- C11 (amended): for every page (a buffer of `PAGE_SIZE` bytes, at most 65535
slots) and every byte sequence `b` of at most 65535 bytes, if
`insertRawRecord(b)` succeeds with slot ID `s`, then `readRawRecord(s)` succeeds
and returns exactly `b`, at once and after any later sequence of
`insertRawRecord` calls and of `deleteSlot` calls on other slots. -/
theorem C11_stored_bytes_stable (c : Layout) (hc : c.Valid) (p : Page) (hp : p.WellFormed c)
    (b : List Nat) (hb : b.length ≤ 65535) (s : Nat)
    (hs : (p.insertRawRecord c b).2 = some s) (ops : List PageOp)
    (hops : ∀ op ∈ ops, op ≠ .delete s) :
    (applyOps c (p.insertRawRecord c b).1 ops).readRawRecord c s = some b :=
  stored_bytes c hc p hp b hb s hs ops hops

theorem C11_stored_bytes_stable_witness :
    layout4K.Valid ∧ (Page.empty layout4K).WellFormed layout4K ∧
    [7, 8, 9].length ≤ 65535 ∧
    ((Page.empty layout4K).insertRawRecord layout4K [7, 8, 9]).2 = some 0 ∧
    (∀ op ∈ [PageOp.insert [1, 2], PageOp.delete 1, PageOp.insert [3]], op ≠ .delete 0) ∧
    (applyOps layout4K ((Page.empty layout4K).insertRawRecord layout4K [7, 8, 9]).1
      [PageOp.insert [1, 2], PageOp.delete 1, PageOp.insert [3]]).readRawRecord layout4K 0
      = some [7, 8, 9] :=
  have hwf : (Page.empty layout4K).WellFormed layout4K :=
    Page.WellFormed.of_inv layout4K_valid (Page.Inv.empty layout4K layout4K_valid 0 (by decide))
  have hs : ((Page.empty layout4K).insertRawRecord layout4K [7, 8, 9]).2 = some 0 := by decide
  have hops : ∀ op ∈ [PageOp.insert [1, 2], PageOp.delete 1, PageOp.insert [3]],
      op ≠ .delete 0 := by decide
  ⟨layout4K_valid, hwf, by decide, hs, hops,
   C11_stored_bytes_stable layout4K layout4K_valid (Page.empty layout4K) hwf [7, 8, 9]
     (by decide) 0 hs _ hops⟩

/-! ## Truncated records -/

theorem length_serializeField_pos (v : RecordValue) : 0 < (serializeField [] v).length := by
  cases v <;> simp [serializeField]

/-- A field cut short is rejected. -/
theorem deserializeFields_cut (v : RecordValue) (hv : v.TextFits) (pre : List Nat) (j n : Nat)
    (hj : j < (serializeField [] v).length) (acc : List RecordValue) :
    deserializeFields (pre ++ (serializeField [] v).take j) (n + 1) pre.length acc = none := by
  rw [deserializeFields]
  cases j with
  | zero => simp
  | succ j =>
    cases v with
    | Integer x =>
      have hb : (toBytesLE 4 (x % 4294967296).toNat).length = 4 := length_toBytesLE _ _
      simp only [serializeField, List.nil_append, List.singleton_append, List.length_cons,
        List.length_append, hb] at hj
      simp only [serializeField, List.nil_append, List.singleton_append, List.take_succ_cons]
      rw [if_neg (by simp), getD_append_cons]
      simp only [if_true]
      rw [if_pos (by simp only [List.length_append, List.length_cons, List.length_take, hb]; omega)]
    | Float f =>
      have hb : (toBytesLE 4 f).length = 4 := length_toBytesLE _ _
      simp only [serializeField, List.nil_append, List.singleton_append, List.length_cons,
        List.length_append, hb] at hj
      simp only [serializeField, List.nil_append, List.singleton_append, List.take_succ_cons]
      rw [if_neg (by simp), getD_append_cons]
      simp only [if_true, Nat.succ_ne_zero, if_false]
      rw [if_pos (by simp only [List.length_append, List.length_cons, List.length_take, hb]; omega)]
    | Text s =>
      have hs : s.length ≤ 65535 := hv
      have hlen : s.length % 65536 = s.length := Nat.mod_eq_of_lt (by omega)
      have hb : (toBytesLE 2 s.length).length = 2 := length_toBytesLE _ _
      simp only [serializeField, List.nil_append, List.singleton_append, List.length_cons,
        List.length_append, hb, hlen, List.take_length] at hj
      simp only [serializeField, List.nil_append, List.singleton_append, List.take_succ_cons,
        hlen, List.take_length]
      rw [if_neg (by simp), getD_append_cons]
      simp only [show (2 : Nat) ≠ 0 by decide, show (2 : Nat) ≠ 1 by decide, if_false]
      by_cases h2 : j < 2
      · rw [if_pos (by
          simp only [List.length_append, List.length_cons, List.length_take, hb]; omega)]
      · have htake : List.take j (toBytesLE 2 s.length ++ s)
            = toBytesLE 2 s.length ++ (s.take (j - 2) ++ []) := by
          rw [List.take_append_eq_append_take, List.take_of_length_le (by omega), hb]
          simp
        rw [htake]
        rw [if_neg (by
          simp only [List.length_append, List.length_cons, List.length_take, hb]; omega)]
        rw [readAt_after_tag pre 2 _ _ 2 hb.symm, fromBytesLE_toBytesLE_two _ (by omega)]
        rw [if_pos (by
          simp only [List.length_append, List.length_cons, List.length_take, hb,
            List.length_nil]; omega)]

/-- A whole field is read, whatever follows it. -/
theorem deserializeFields_whole (v : RecordValue) (hv : v.TextFits) (pre post : List Nat)
    (n : Nat) (acc : List RecordValue) :
    ∃ w, deserializeFields (pre ++ (serializeField [] v ++ post)) (n + 1) pre.length acc
      = deserializeFields (pre ++ (serializeField [] v ++ post)) n
          (pre ++ serializeField [] v).length (acc ++ [w]) := by
  cases v with
  | Integer x =>
    have hb : (toBytesLE 4 (x % 4294967296).toNat).length = 4 := length_toBytesLE _ _
    refine ⟨.Integer (toInt32 (fromBytesLE (readAt
      (pre ++ (serializeField [] (.Integer x) ++ post)) (pre.length + 1) 4))), ?_⟩
    simp only [serializeField, List.nil_append, List.singleton_append, List.cons_append,
      List.length_append, List.length_cons, hb]
    rw [deserializeFields_integer _ _ _ _ (getD_append_cons _ _ _)
      (by simp only [List.length_append, List.length_cons, hb]; omega)]
  | Float f =>
    have hb : (toBytesLE 4 f).length = 4 := length_toBytesLE _ _
    refine ⟨.Float (fromBytesLE (readAt
      (pre ++ (serializeField [] (.Float f) ++ post)) (pre.length + 1) 4)), ?_⟩
    simp only [serializeField, List.nil_append, List.singleton_append, List.cons_append,
      List.length_append, List.length_cons, hb]
    rw [deserializeFields_float _ _ _ _ (getD_append_cons _ _ _)
      (by simp only [List.length_append, List.length_cons, hb]; omega)]
  | Text s =>
    have hs : s.length ≤ 65535 := hv
    have hlen : s.length % 65536 = s.length := Nat.mod_eq_of_lt (by omega)
    have hb : (toBytesLE 2 s.length).length = 2 := length_toBytesLE _ _
    refine ⟨.Text (readAt (pre ++ (serializeField [] (.Text s) ++ post)) (pre.length + 3)
      s.length), ?_⟩
    simp only [serializeField, List.nil_append, List.singleton_append, List.cons_append,
      List.length_append, List.length_cons, hb, hlen, List.take_length, List.append_assoc]
    have hr2 : fromBytesLE (readAt (pre ++ 2 :: (toBytesLE 2 s.length ++ (s ++ post)))
        (pre.length + 1) 2) = s.length := by
      rw [readAt_after_tag pre 2 _ _ 2 hb.symm, fromBytesLE_toBytesLE_two _ (by omega)]
    rw [deserializeFields_text _ _ _ _ (by rw [getD_append_cons]; decide)
      (by rw [getD_append_cons]; decide)
      (by simp only [List.length_append, List.length_cons, hb]; omega)
      (by rw [hr2]; simp only [List.length_append, List.length_cons, hb]; omega)]
    rw [hr2]
    have e : pre.length + 3 + s.length = pre.length + (2 + s.length + 1) := by omega
    rw [e]

/-- Fields cut short anywhere are rejected. -/
theorem deserializeFields_truncated (fs : List RecordValue) (hfs : ∀ v ∈ fs, v.TextFits)
    (pre : List Nat) (j : Nat) (hj : j < (fs.foldl serializeField []).length)
    (acc : List RecordValue) :
    deserializeFields (pre ++ (fs.foldl serializeField []).take j) fs.length pre.length acc
      = none := by
  induction fs generalizing pre acc j with
  | nil => simp at hj
  | cons v fs ih =>
    have hv := hfs v (List.mem_cons_self _ _)
    have hrest : ∀ w ∈ fs, w.TextFits := fun w hw => hfs w (List.mem_cons_of_mem _ hw)
    rw [List.foldl_cons, foldl_serializeField] at hj ⊢
    rw [List.length_append] at hj
    rw [List.length_cons, List.take_append_eq_append_take]
    by_cases hcut : j < (serializeField [] v).length
    · have h0 : j - (serializeField [] v).length = 0 := by omega
      rw [h0, List.take_zero, List.append_nil]
      exact deserializeFields_cut v hv pre j _ hcut acc
    · rw [List.take_of_length_le (by omega)]
      obtain ⟨w, hw⟩ := deserializeFields_whole v hv pre
        ((fs.foldl serializeField []).take (j - (serializeField [] v).length)) fs.length acc
      rw [hw]
      have key := ih hrest (pre ++ serializeField [] v) (j - (serializeField [] v).length)
        (by omega) (acc ++ [w])
      rw [List.append_assoc] at key
      exact key

/-- C15: for every record `r` with at most 65535 fields whose Text fields have at
most 65535 bytes, `deserializeRecord` returns failure on every proper prefix of
`serializeRecord(r)`. -/
theorem C15_truncation_detected (r : Record) (hn : r.fields.length ≤ 65535)
    (ht : ∀ v ∈ r.fields, v.TextFits) (k : Nat) (hk : k < (serializeRecord r).length) :
    deserializeRecord ((serializeRecord r).take k) = none := by
  have hlen : r.fields.length % 65536 = r.fields.length := Nat.mod_eq_of_lt (by omega)
  have hb : (toBytesLE 2 r.fields.length).length = 2 := length_toBytesLE _ _
  rw [serializeRecord_eq, hlen] at hk ⊢
  rw [List.length_append, hb] at hk
  unfold deserializeRecord
  by_cases h2 : k < 2
  · rw [if_pos (by rw [List.length_take]; omega)]
  · rw [if_neg (by rw [List.length_take, List.length_append, hb]; omega)]
    have htake : List.take k (toBytesLE 2 r.fields.length ++ List.foldl serializeField [] r.fields)
        = toBytesLE 2 r.fields.length ++ (List.foldl serializeField [] r.fields).take (k - 2) := by
      rw [List.take_append_eq_append_take, List.take_of_length_le (by omega), hb]
    rw [htake]
    have hr : readAt (toBytesLE 2 r.fields.length ++
        (List.foldl serializeField [] r.fields).take (k - 2)) 0 2
        = toBytesLE 2 r.fields.length := by
      have := readAt_append_left [] (toBytesLE 2 r.fields.length)
        ((List.foldl serializeField [] r.fields).take (k - 2))
      simpa [hb] using this
    simp only [hr, fromBytesLE_toBytesLE_two _ (show r.fields.length < 65536 by omega)]
    have key := deserializeFields_truncated r.fields ht (toBytesLE 2 r.fields.length) (k - 2)
      (by omega) []
    rw [hb] at key
    rw [key]
    rfl

theorem C15_truncation_detected_witness :
    alice.fields.length ≤ 65535 ∧ (∀ v ∈ alice.fields, v.TextFits) ∧
    13 < (serializeRecord alice).length ∧
    deserializeRecord ((serializeRecord alice).take 13) = none :=
  have hn : alice.fields.length ≤ 65535 := by decide
  have ht : ∀ v ∈ alice.fields, v.TextFits := by
    intro v hv
    simp only [alice, List.mem_cons, List.mem_singleton, List.not_mem_nil, or_false] at hv
    rcases hv with rfl | rfl | rfl
    · exact True.intro
    · show (5 : Nat) ≤ 65535
      decide
    · exact True.intro
  have hk : 13 < (serializeRecord alice).length := by decide
  ⟨hn, ht, hk, C15_truncation_detected alice hn ht 13 hk⟩

/-! ## Decoding reads inside its input -/

theorem readChecked_ok (buf : List Nat) (pos n : Nat) (h : pos + n ≤ buf.length) :
    readChecked buf pos n = .ok (readAt buf pos n) := by
  unfold readChecked; rw [if_pos h]

theorem getD_readAt_one (buf : List Nat) (pos : Nat) :
    (readAt buf pos 1).getD 0 0 = buf.getD pos 0 := by
  rw [List.getD_eq_getElem?_getD, List.getD_eq_getElem?_getD, getElem?_readAt]
  simp

theorem deserializeFieldsChecked_eq (inp : List Nat) (n pos : Nat) (fields : List RecordValue) :
    deserializeFieldsChecked inp n pos fields = .ok (deserializeFields inp n pos fields) := by
  induction n generalizing pos fields with
  | zero => rw [deserializeFieldsChecked, deserializeFields]
  | succ n ih =>
    rw [deserializeFieldsChecked, deserializeFields]
    by_cases h0 : pos ≥ inp.length
    · rw [if_pos h0, if_pos h0]
    · rw [if_neg h0, if_neg h0, readChecked_ok inp pos 1 (by omega)]
      simp only [getD_readAt_one]
      by_cases ht0 : inp.getD pos 0 = 0
      · simp only [ht0, if_true]
        by_cases h4 : pos + 1 + 4 > inp.length
        · rw [if_pos h4, if_pos h4]
        · rw [if_neg h4, if_neg h4, readChecked_ok inp (pos + 1) 4 (by omega)]
          exact ih _ _
      · simp only [ht0, if_false]
        by_cases ht1 : inp.getD pos 0 = 1
        · simp only [ht1, if_true]
          by_cases h4 : pos + 1 + 4 > inp.length
          · rw [if_pos h4, if_pos h4]
          · rw [if_neg h4, if_neg h4, readChecked_ok inp (pos + 1) 4 (by omega)]
            exact ih _ _
        · simp only [ht1, if_false]
          by_cases h2 : pos + 1 + 2 > inp.length
          · rw [if_pos h2, if_pos h2]
          · rw [if_neg h2, if_neg h2, readChecked_ok inp (pos + 1) 2 (by omega)]
            simp only []
            by_cases hl : pos + 1 + 2 + fromBytesLE (readAt inp (pos + 1) 2) > inp.length
            · rw [if_pos hl, if_pos hl]
            · rw [if_neg hl, if_neg hl, readChecked_ok inp _ _ (by omega)]
              exact ih _ _

/-- C16: for every byte sequence, `deserializeRecord` returns (the decoding is a
total function, ending in success or failure), and the run in which every read
of the input is bounds-checked never meets a read outside the input: it ends
with the same result, whatever field count and text lengths the bytes declare. -/
theorem C16_decoding_reads_inside_input (inp : List Nat) :
    deserializeRecordChecked inp = .ok (deserializeRecord inp) ∧
    ((∃ r, deserializeRecord inp = some r) ∨ deserializeRecord inp = none) := by
  refine ⟨?_, ?_⟩
  · unfold deserializeRecordChecked deserializeRecord
    by_cases h : inp.length < 2
    · rw [if_pos h, if_pos h]
    · rw [if_neg h, if_neg h, readChecked_ok inp 0 2 (by omega)]
      simp only [deserializeFieldsChecked_eq]
  · cases h : deserializeRecord inp with
    | none => exact Or.inr rfl
    | some r => exact Or.inl ⟨r, rfl⟩

/-! ## Creating a table -/

theorem getElem?_toBytesLE_zero (k i : Nat) (h : i < k) : (toBytesLE k 0)[i]? = some 0 := by
  induction k generalizing i with
  | zero => omega
  | succ k ih =>
    cases i with
    | zero => simp [toBytesLE]
    | succ i => simpa [toBytesLE] using ih i (by omega)

/-- The bytes of the page `createTable` writes: the two bytes of
`freeSpaceOffset` at 10 and 11, zero everywhere else. -/
theorem getElem?_serialize_empty (c : Layout) (hc : c.Valid) (i : Nat) (hi : i < c.PAGE_SIZE) :
    (({ Page.empty c with pageID := 0 } : Page).serializeToBuffer c)[i]?
      = some (if i = 10 then c.PAGE_HEADER_RESERVED % 256
              else if i = 11 then c.PAGE_HEADER_RESERVED / 256 % 256 else 0) := by
  have h := Page.getElem?_serializeToBuffer hc (Page.Inv.empty c hc 0 (by decide)) i
    (by simpa [Page.empty] using hi)
  rw [h]
  simp only [Page.empty]
  by_cases h8 : i < 8
  · rw [if_pos h8, if_neg (by omega), if_neg (by omega)]
    exact getElem?_toBytesLE_zero 8 i h8
  · rw [if_neg h8]
    by_cases h10 : i < 10
    · rw [if_pos h10, if_neg (by omega), if_neg (by omega)]
      exact getElem?_toBytesLE_zero 2 (i - 8) (by omega)
    · rw [if_neg h10]
      by_cases h12 : i < 12
      · rw [if_pos h12]
        have : i = 10 ∨ i = 11 := by omega
        rcases this with rfl | rfl <;> simp [toBytesLE]
      · rw [if_neg h12, if_neg (by omega), if_neg (by omega), if_neg (by omega)]

/-- C17: if the data file of the name already exists, `createTable` returns
failure and leaves the data and metadata files unchanged; otherwise it returns
success, the data file is exactly `PAGE_SIZE` bytes and is the encoding of an
empty page with pageID 0 (it decodes to page ID 0, no slots, slot count 0 and
`freeSpaceOffset = PAGE_HEADER_RESERVED`; its bytes are zero but for the two
bytes of `freeSpaceOffset`), the metadata file is the line `table=<name>`, and
`selectAll` on the new table returns the empty sequence. -/
theorem C17_createTable_contract (c : Layout) (hc : c.Valid) (tableName : String)
    (t : TableFiles) :
    (t.data ≠ none → createTable c tableName t = (false, t)) ∧
    (t.data = none →
      ∃ bytes, createTable c tableName t
          = (true, { data := some bytes, metaFile := some ("table=" ++ tableName ++ "\n") }) ∧
        bytes.length = c.PAGE_SIZE ∧
        bytes = ({ Page.empty c with pageID := 0 } : Page).serializeToBuffer c ∧
        (∀ i, i < c.PAGE_SIZE →
          bytes[i]? = some (if i = 10 then c.PAGE_HEADER_RESERVED % 256
                            else if i = 11 then c.PAGE_HEADER_RESERVED / 256 % 256 else 0)) ∧
        ((Page.empty c).deserializeFromBuffer c bytes).pageID = 0 ∧
        ((Page.empty c).deserializeFromBuffer c bytes).slotCount = 0 ∧
        ((Page.empty c).deserializeFromBuffer c bytes).freeSpaceOffset
          = c.PAGE_HEADER_RESERVED ∧
        ((Page.empty c).deserializeFromBuffer c bytes).slots = [] ∧
        selectAll c (some bytes) = []) := by
  refine ⟨?_, ?_⟩
  · intro h
    unfold createTable
    cases hd : t.data with
    | none => exact absurd hd h
    | some b => rfl
  · intro h
    have hinv := Page.Inv.empty c hc 0 (by decide)
    refine ⟨({ Page.empty c with pageID := 0 } : Page).serializeToBuffer c, ?_,
      Page.length_serializeToBuffer hc hinv, rfl,
      fun i hi => getElem?_serialize_empty c hc i hi, ?_⟩
    · unfold createTable
      rw [h]
    · obtain ⟨h1, h2, h3, h4, -, -⟩ :=
        Page.deserializeFromBuffer_serializeToBuffer hc hinv (Page.empty c) (by simp [Page.empty])
      refine ⟨h1, h2, h3, h4, ?_⟩
      have := (tableInv_create c hc tableName none).1
      simpa [createTable] using this

theorem C17_createTable_contract_witness :
    layout4K.Valid ∧
    createTable layout4K "students" { data := some [1], metaFile := none }
      = (false, { data := some [1], metaFile := none }) ∧
    ∃ bytes, createTable layout4K "students" { data := none, metaFile := none }
        = (true, { data := some bytes, metaFile := some ("table=" ++ "students" ++ "\n") }) ∧
      bytes.length = layout4K.PAGE_SIZE ∧ selectAll layout4K (some bytes) = [] :=
  ⟨layout4K_valid,
   (C17_createTable_contract layout4K layout4K_valid "students"
     { data := some [1], metaFile := none }).1 (by simp),
   match (C17_createTable_contract layout4K layout4K_valid "students"
     { data := none, metaFile := none }).2 rfl with
   | ⟨bytes, h1, h2, _, _, _, _, _, _, h9⟩ => ⟨bytes, h1, h2, h9⟩⟩

/-! ## A table that does not exist -/

/-- C18 as stated fails: with no data file, `insertRecord` of `{1, "Alice", 3.8}`
returns success and creates the file, which then holds the record. -/
theorem C18_counterexample :
    insertRecord layout4K none alice = .ok (true, some (writeAllRecords layout4K [alice])) ∧
    flagOf (insertRecord layout4K none alice) = some true ∧
    fileAfter none (insertRecord layout4K none alice) ≠ none ∧
    selectAll layout4K (fileAfter none (insertRecord layout4K none alice)) = [alice] := by
  have h : insertRecord layout4K none alice
      = .ok (true, some (writeAllRecords layout4K [alice])) :=
    insertRecord_eq layout4K none alice 1 [] rfl rfl
  rw [h]
  refine ⟨rfl, rfl, ?_, scan_alice.1⟩
  intro e
  cases e

/-- C18 (amended): for every table name whose data file does not exist,
`updateRecord` and `deleteRecord` each return failure and create no data
file. -/
theorem C18_nonexistent_table (c : Layout) (id : Int) (newRecord : Record) :
    updateRecord c none id newRecord = .ok (false, none) ∧
    deleteRecord c none id = .ok (false, none) :=
  miss_atomic c none id newRecord (fun r hr => by simp [loadAllRecords] at hr)

/-! ## Calls that do not return -/

theorem replaceFirst_ok (id : Int) (new : Record) (rs : List Record)
    (h : ∀ r ∈ rs, r.HasId) : ∃ rs' b, replaceFirst id new rs = .ok (rs', b) := by
  induction rs with
  | nil => exact ⟨[], false, rfl⟩
  | cons r rs ih =>
    obtain ⟨k, hk⟩ := h r (List.mem_cons_self _ _)
    obtain ⟨rs', b, e⟩ := ih (fun x hx => h x (List.mem_cons_of_mem _ hx))
    unfold replaceFirst
    rw [hk]
    by_cases hkid : k = id
    · exact ⟨new :: rs, true, by simp [hkid]⟩
    · exact ⟨r :: rs', b, by simp [hkid, e]⟩

/-- C19 as stated fails: on a freshly created table `insertRecord` of a record
with no fields indexes the missing `fields[0]`, and `insertRecord` of a record
whose `fields[0]` is a Float throws `std::bad_variant_access`; and after the
successful `updateRecord(students, 1, {Float})` the three calls throw on the
stored record, whatever their arguments. -/
theorem C19_counterexample :
    insertRecord layout4K (newTable layout4K) { fields := [] } = .error .noSuchField ∧
    insertRecord layout4K (newTable layout4K) floatIdRecord = .error .badVariantAccess ∧
    updateRecord layout4K students 1 floatIdRecord = .ok (true, floatIdTable) ∧
    insertRecord layout4K floatIdTable alice = .error .badVariantAccess ∧
    updateRecord layout4K floatIdTable 2 alice = .error .badVariantAccess ∧
    deleteRecord layout4K floatIdTable 2 = .error .badVariantAccess := by
  refine ⟨rfl, rfl, ?_, ?_, ?_, ?_⟩
  · rw [floatIdTable_eq]
    exact update_floatId
  · apply insertRecord_error layout4K floatIdTable alice 1 _ rfl
    rw [scan_floatIdTable.2]
    rfl
  · apply updateRecord_error
    rw [scan_floatIdTable.2]
    rfl
  · apply deleteRecord_error
    rw [scan_floatIdTable.2]
    rfl

/-- On a data file whose stored records all have an Integer `fields[0]` the
three calls end in a result, not in a fault of `get<int>(r.fields[0])`. -/
theorem calls_return (c : Layout) (f : DataFile)
    (h : ∀ r ∈ loadAllRecords c f, r.HasId) (rec : Record) (hrec : rec.HasId)
    (id : Int) (newRecord : Record) :
    (∃ b f', insertRecord c f rec = .ok (b, f')) ∧
    (∃ b f', updateRecord c f id newRecord = .ok (b, f')) ∧
    (∃ b f', deleteRecord c f id = .ok (b, f')) := by
  refine ⟨?_, ?_, ?_⟩
  · obtain ⟨k, hk⟩ := hrec
    exact ⟨true, _, insertRecord_eq c f rec k _ hk (eraseById_ok k _ h)⟩
  · obtain ⟨rs', b, e⟩ := replaceFirst_ok id newRecord _ h
    unfold updateRecord
    simp only [e]
    cases b with
    | false => exact ⟨false, f, rfl⟩
    | true => exact ⟨true, _, rfl⟩
  · unfold deleteRecord
    simp only [eraseById_ok id _ h]
    split_ifs
    · exact ⟨false, f, rfl⟩
    · exact ⟨true, _, rfl⟩

/-! ## The pages of a rewrite -/

theorem forall_mem_two {α : Type} (P : α → Prop) (a b : α) (ha : P a) (hb : P b) :
    ∀ x ∈ [a, b], P x := by
  intro x hx
  rcases List.mem_cons.1 hx with h | hx
  · rw [h]; exact ha
  · rw [List.mem_singleton] at hx; rw [hx]; exact hb

theorem forall_mem_three {α : Type} (P : α → Prop) (a b c : α) (ha : P a) (hb : P b)
    (hc : P c) : ∀ x ∈ [a, b, c], P x := by
  intro x hx
  rcases List.mem_cons.1 hx with h | hx
  · rw [h]; exact ha
  · exact forall_mem_two P b c hb hc x hx

theorem pageIDs_nil (c : Layout) (hpos : 0 < c.PAGE_SIZE) : pageIDs c (some []) = [] := by
  unfold pageIDs pageCount
  have : ([] : List Nat).length + c.PAGE_SIZE - 1 = c.PAGE_SIZE - 1 := by simp
  simp only [this, Nat.div_eq_of_lt (show c.PAGE_SIZE - 1 < c.PAGE_SIZE by omega), Nat.zero_mod,
    List.range_zero, List.map_nil]

theorem pageIDs_append (c : Layout) (buf X : List Nat) (h : buf.length = c.PAGE_SIZE)
    (hpos : 0 < c.PAGE_SIZE)
    (hsmall : (X.length + c.PAGE_SIZE - 1) / c.PAGE_SIZE + 1 < 4294967296) :
    pageIDs c (some (buf ++ X))
      = ((Page.empty c).deserializeFromBuffer c buf).pageID :: pageIDs c (some X) := by
  unfold pageIDs
  rw [pageCount_append c buf X h hpos hsmall, List.range_succ_eq_map, List.map_cons,
    List.map_map]
  simp only [Option.getD_some, readPageFromFile_zero c buf X _ h, Function.comp_def,
    readPageFromFile_succ c buf X _ _ h]

/-- The page IDs read from a file of serialized pages are those of the pages,
and the file has one `PAGE_SIZE` block per page. -/
theorem pageIDs_pages (c : Layout) (hc : c.Valid) (ps : List Page) (h : ∀ p ∈ ps, p.Inv c)
    (hn : ps.length + 1 < 4294967296) :
    pageIDs c (some (ps.flatMap fun p => p.serializeToBuffer c)) = ps.map (fun p => p.pageID) ∧
    (ps.flatMap fun p => p.serializeToBuffer c).length = ps.length * c.PAGE_SIZE := by
  have hpos : 0 < c.PAGE_SIZE := by have := hc.1; have := hc.2.1; omega
  induction ps with
  | nil => exact ⟨pageIDs_nil c hpos, by simp⟩
  | cons p ps ih =>
    simp only [List.length_cons] at hn
    have hp := h p (List.mem_cons_self _ _)
    obtain ⟨i1, i2⟩ := ih (fun q hq => h q (List.mem_cons_of_mem _ hq)) (by omega)
    have hlen := Page.length_serializeToBuffer hc hp
    obtain ⟨h1, -, -, -, -, -⟩ :=
      Page.deserializeFromBuffer_serializeToBuffer hc hp (Page.empty c) (by simp [Page.empty])
    rw [List.flatMap_cons]
    refine ⟨?_, ?_⟩
    · rw [pageIDs_append c _ _ hlen hpos (by rw [i2, div_page _ _ hpos]; omega), h1, i1,
        List.map_cons]
    · rw [List.length_append, hlen, i2, List.length_cons, Nat.succ_mul]; omega

theorem pageCount_of_length (c : Layout) (hpos : 0 < c.PAGE_SIZE) (X : List Nat) (k : Nat)
    (hX : X.length = k * c.PAGE_SIZE) (hk : k < 4294967296) : pageCount c (some X) = k := by
  unfold pageCount
  simp only [hX]
  rw [div_page _ _ hpos, Nat.mod_eq_of_lt hk]

/-- A record that fits an empty page goes into a new page as slot 0. -/
theorem insert_into_empty (c : Layout) (hc : c.Valid) (i : Nat) (hi : i < 18446744073709551616)
    (r : Record) (hfit : r.FitsEmptyPage c) :
    ({ Page.empty c with pageID := i } : Page).insertRawRecord c (serializeRecord r)
      = (pageWith c i r, some 0) ∧
    (pageWith c i r).Inv c ∧ (pageWith c i r).pageID = i ∧
    (pageWith c i r).freeSpaceOffset = c.PAGE_HEADER_RESERVED + (serializeRecord r).length ∧
    (pageWith c i r).slots.length = 1 := by
  have hfit : (serializeRecord r).length + 5 ≤ c.PAGE_SIZE - c.PAGE_HEADER_RESERVED := hfit
  have h16 := hc.2.2
  have hm : (serializeRecord r).length % 65536 = (serializeRecord r).length :=
    Nat.mod_eq_of_lt (by omega)
  have hinv := Page.Inv.empty c hc i hi
  have hroom := Page.insertRawRecord_of_room hc hinv (serializeRecord r) (by
    rw [hm]; simp only [Page.empty, List.length_nil]; omega)
  have hpw : pageWith c i r
      = (({ Page.empty c with pageID := i } : Page).insertRawRecord c (serializeRecord r)).1 := rfl
  refine ⟨?_, ?_, ?_, ?_, ?_⟩
  · rw [hpw, hroom]; rfl
  · rw [hpw]; exact hinv.insertRawRecord hc _
  · rw [hpw, hroom]
  · rw [hpw, hroom, hm]; rfl
  · rw [hpw, hroom]; rfl

/-- The rewrite loop of `insertRecord` and `updateRecord` on a new page and a
record that fits. -/
theorem writeFrom_first (c : Layout) (hc : c.Valid) (i : Nat) (hi : i < 18446744073709551616)
    (r : Record) (rs : List Record) (hfit : r.FitsEmptyPage c) :
    writeFrom c { Page.empty c with pageID := i } (r :: rs) = writeFrom c (pageWith c i r) rs :=
  writeFrom_cons_room c _ _ 0 r rs (insert_into_empty c hc i hi r hfit).1

/-- The rewrite loop on a page holding `r` when the next record `r2` finds no
room: the page is written and the next page, holding `r2`, has ID 1. -/
theorem writeFrom_spill (c : Layout) (hc : c.Valid) (i : Nat) (hi : i < 18446744073709551616)
    (r r2 : Record) (rs : List Record) (hfit : r.FitsEmptyPage c)
    (hno : c.PAGE_SIZE - c.PAGE_HEADER_RESERVED - (serializeRecord r).length - 5
      < (serializeRecord r2).length % 65536 + 5) :
    writeFrom c (pageWith c i r) (r2 :: rs)
      = (pageWith c i r).serializeToBuffer c ++ writeFrom c (pageWith c 1 r2) rs := by
  obtain ⟨-, hinv, -, hfso, hsl⟩ := insert_into_empty c hc i hi r hfit
  exact writeFrom_cons_no_room c _ _ r2 rs
    (Page.insertRawRecord_of_no_room hc hinv _ (by rw [hfso, hsl]; omega))

/-- The layout `deleteRecord` writes: one page of ID 0 for each record. -/
theorem deleteLayout_eq (c : Layout) (hc : c.Valid) (rs : List Record)
    (h : ∀ r ∈ rs, r.FitsEmptyPage c) :
    rs.foldl (deleteStep c) []
      = (rs.map (pageWith c 0)).flatMap fun p => p.serializeToBuffer c := by
  induction rs with
  | nil => rfl
  | cons r rs ih =>
    have hr := (insert_into_empty c hc 0 (by decide) r (h r (List.mem_cons_self _ _))).1
    rw [List.foldl_cons, foldl_deleteStep_out, ih (fun x hx => h x (List.mem_cons_of_mem _ hx)),
      List.map_cons, List.flatMap_cons]
    congr 1
    simp only [deleteStep, hr, List.nil_append]

theorem deleteRecord_eq (c : Layout) (f : DataFile) (id : Int) (recs : List Record)
    (h : eraseById id (loadAllRecords c f) = .ok recs)
    (hlen : recs.length ≠ (loadAllRecords c f).length) :
    deleteRecord c f id = .ok (true, some (recs.foldl (deleteStep c) [])) := by
  unfold deleteRecord
  simp only [h]
  rw [if_neg hlen]

theorem bigRecord_storable (id : Int) (h1 : -2147483648 ≤ id) (h2 : id < 2147483648) :
    (bigRecord id).Storable layout4K := by
  have hl : (List.replicate 3000 (0 : Nat)).length ≤ 65535 := by
    rw [List.length_replicate]; decide
  refine ⟨⟨?_, ?_⟩, ?_⟩
  · show (2 : Nat) ≤ 65535
    decide
  · intro v hv
    change v ∈ [RecordValue.Integer id, RecordValue.Text (List.replicate 3000 0)] at hv
    rcases List.mem_cons.1 hv with rfl | hv
    · exact ⟨⟨h1, h2⟩, True.intro⟩
    · rw [List.mem_singleton] at hv
      subst hv
      exact ⟨True.intro, hl⟩
  · unfold Record.FitsEmptyPage bigRecord
    rw [length_serializeRecord_int_text _ _ hl, List.length_replicate]
    show 10 + 3000 + 5 ≤ 4096 - 16
    decide

theorem length_serializeRecord_big (id : Int) : (serializeRecord (bigRecord id)).length = 3010 := by
  unfold bigRecord
  rw [length_serializeRecord_int_text _ _ (by rw [List.length_replicate]; decide),
    List.length_replicate]

theorem big_no_room (i : Nat) (hi : i < 18446744073709551616) (a b : Int)
    (ha1 : -2147483648 ≤ a) (ha2 : a < 2147483648) (rs : List Record) :
    writeFrom layout4K (pageWith layout4K i (bigRecord a)) (bigRecord b :: rs)
      = (pageWith layout4K i (bigRecord a)).serializeToBuffer layout4K ++
        writeFrom layout4K (pageWith layout4K 1 (bigRecord b)) rs :=
  writeFrom_spill layout4K layout4K_valid i hi _ _ rs (bigRecord_storable a ha1 ha2).2 (by
    rw [length_serializeRecord_big, length_serializeRecord_big]
    show 4096 - 16 - 3010 - 5 < 3010 % 65536 + 5
    decide)

/-- The file the rewrite loop writes for three big records: a page for each,
with the IDs 0, 1 and 1. -/
theorem writeAllRecords_big :
    writeAllRecords layout4K [bigRecord 1, bigRecord 2, bigRecord 3]
      = [pageWith layout4K 0 (bigRecord 1), pageWith layout4K 1 (bigRecord 2),
          pageWith layout4K 1 (bigRecord 3)].flatMap fun p => p.serializeToBuffer layout4K := by
  unfold writeAllRecords
  rw [writeFrom_first layout4K layout4K_valid 0 (by decide) _ _
      (bigRecord_storable 1 (by decide) (by decide)).2,
    big_no_room 0 (by decide) 1 2 (by decide) (by decide),
    big_no_room 1 (by decide) 2 3 (by decide) (by decide), writeFrom_nil]
  simp only [List.flatMap_cons, List.flatMap_nil, List.append_nil]

theorem big_storable_of_mem (rs : List Record)
    (h : ∀ r ∈ rs, r = bigRecord 1 ∨ r = bigRecord 2 ∨ r = bigRecord 3) :
    ∀ r ∈ rs, r.Storable layout4K := by
  intro r hr
  rcases h r hr with rfl | rfl | rfl
  · exact bigRecord_storable 1 (by decide) (by decide)
  · exact bigRecord_storable 2 (by decide) (by decide)
  · exact bigRecord_storable 3 (by decide) (by decide)

theorem pageWith_inv_big (i : Nat) (hi : i < 18446744073709551616) (a : Int)
    (ha1 : -2147483648 ≤ a) (ha2 : a < 2147483648) :
    (pageWith layout4K i (bigRecord a)).Inv layout4K ∧
    (pageWith layout4K i (bigRecord a)).pageID = i :=
  have h := insert_into_empty layout4K layout4K_valid i hi _ (bigRecord_storable a ha1 ha2).2
  ⟨h.2.1, h.2.2.1⟩

/-- C13 on the code: after `createTable` and `insertRecord` of three records of
which no two fit one page, each call returning success, the three pages of the
data file carry the page IDs 0, 1, 1 (the claim has 0, 1, 2); after a further
successful `deleteRecord` of the third record the two pages carry 0, 0 (the
claim has 0, 1). -/
theorem C13_page_ids_of_rewrite :
    insertRecord layout4K (newTable layout4K) (bigRecord 1)
      = .ok (true, some (writeAllRecords layout4K [bigRecord 1])) ∧
    insertRecord layout4K (some (writeAllRecords layout4K [bigRecord 1])) (bigRecord 2)
      = .ok (true, some (writeAllRecords layout4K [bigRecord 1, bigRecord 2])) ∧
    insertRecord layout4K (some (writeAllRecords layout4K [bigRecord 1, bigRecord 2]))
        (bigRecord 3)
      = .ok (true, some (writeAllRecords layout4K [bigRecord 1, bigRecord 2, bigRecord 3])) ∧
    pageIDs layout4K (some (writeAllRecords layout4K [bigRecord 1, bigRecord 2, bigRecord 3]))
      = [0, 1, 1] ∧
    deleteRecord layout4K
        (some (writeAllRecords layout4K [bigRecord 1, bigRecord 2, bigRecord 3])) 3
      = .ok (true, some ([bigRecord 1, bigRecord 2].foldl (deleteStep layout4K) [])) ∧
    pageIDs layout4K (some ([bigRecord 1, bigRecord 2].foldl (deleteStep layout4K) []))
      = [0, 0] := by
  have hc := layout4K_valid
  have s1 := scan_writeAllRecords layout4K hc [bigRecord 1]
    (big_storable_of_mem _ (by simp)) (by decide)
  have s2 := scan_writeAllRecords layout4K hc [bigRecord 1, bigRecord 2]
    (big_storable_of_mem _ (by simp)) (by decide)
  have s3 := scan_writeAllRecords layout4K hc [bigRecord 1, bigRecord 2, bigRecord 3]
    (big_storable_of_mem _ (by simp)) (by decide)
  have i0 := pageWith_inv_big 0 (by decide) 1 (by decide) (by decide)
  have i1 := pageWith_inv_big 1 (by decide) 2 (by decide) (by decide)
  have i2 := pageWith_inv_big 1 (by decide) 3 (by decide) (by decide)
  have j1 := pageWith_inv_big 0 (by decide) 2 (by decide) (by decide)
  refine ⟨?_, ?_, ?_, ?_, ?_, ?_⟩
  · exact insertRecord_eq layout4K _ _ 1 [] rfl (by
      rw [(tableInv_newTable layout4K hc).1.1, (tableInv_newTable layout4K hc).2]; rfl)
  · exact insertRecord_eq layout4K _ _ 2 [bigRecord 1] rfl (by rw [s1.2]; rfl)
  · exact insertRecord_eq layout4K _ _ 3 [bigRecord 1, bigRecord 2] rfl (by rw [s2.2]; rfl)
  · rw [writeAllRecords_big, (pageIDs_pages layout4K hc _ (forall_mem_three _ _ _ _ i0.1 i1.1 i2.1) (by decide)).1]
    simp only [List.map_cons, List.map_nil, i0.2, i1.2, i2.2]
  · exact deleteRecord_eq layout4K _ 3 [bigRecord 1, bigRecord 2] (by rw [s3.2]; rfl)
      (by rw [s3.2]; simp)
  · rw [deleteLayout_eq layout4K hc _ (fun r hr =>
        (big_storable_of_mem [bigRecord 1, bigRecord 2] (by simp) r hr).2)]
    simp only [List.map_cons, List.map_nil]
    rw [(pageIDs_pages layout4K hc _ (forall_mem_two _ _ _ i0.1 j1.1) (by simp)).1]
    simp only [List.map_cons, List.map_nil, i0.2, j1.2]

/-! ## The layout `deleteRecord` writes -/

theorem carol_storable : carol.Storable layout4K := by
  refine ⟨?_, ?_⟩
  · simp [Record.Encodable, carol, RecordValue.InRange, RecordValue.TextFits]
  · simp [Record.FitsEmptyPage, carol, serializeRecord, serializeField, layout4K, toBytesLE]

/-- The rewrite loop on a page with room for the next record. -/
theorem writeFrom_room (c : Layout) (hc : c.Valid) (p : Page) (hp : p.Inv c) (r : Record)
    (rs : List Record)
    (hroom : (serializeRecord r).length % 65536 + 5
      ≤ c.PAGE_SIZE - p.freeSpaceOffset - 5 * p.slots.length) :
    writeFrom c p (r :: rs) = writeFrom c (p.insertRawRecord c (serializeRecord r)).1 rs := by
  have h := Page.insertRawRecord_of_room hc hp _ hroom
  rw [writeFrom_cons_room c p _ _ r rs h, h]

/-- The rewrite of `insertRecord` puts `alice` and `bob` into one page. -/
theorem length_students :
    (writeAllRecords layout4K [alice, bob]).length = layout4K.PAGE_SIZE := by
  have hc := layout4K_valid
  obtain ⟨-, hinv, -, hfso, hsl⟩ :=
    insert_into_empty layout4K hc 0 (by decide) alice alice_storable.2
  have ha : (serializeRecord alice).length = 20 := by decide
  have hb : (serializeRecord bob).length = 18 := by decide
  unfold writeAllRecords
  rw [writeFrom_first layout4K hc 0 (by decide) _ _ alice_storable.2,
    writeFrom_room layout4K hc _ hinv bob [] (by
      rw [hfso, hsl, ha, hb]
      show 18 % 65536 + 5 ≤ 4096 - (16 + 20) - 5 * 1
      decide),
    writeFrom_nil]
  exact Page.length_serializeToBuffer hc (hinv.insertRawRecord hc _)

theorem deleteRecordPacked_eq (c : Layout) (f : DataFile) (id : Int) (recs : List Record)
    (h : eraseById id (loadAllRecords c f) = .ok recs)
    (hlen : recs.length ≠ (loadAllRecords c f).length) :
    deleteRecordPacked c f id = .ok (true, some (writeAllRecords c recs)) := by
  unfold deleteRecordPacked
  simp only [h]
  rw [if_neg hlen]

/-- C14 on the code: `students` holds `alice` and `bob` in one page, as
`insertRecord` wrote it.  After `insertRecord` of `carol` and `deleteRecord` of
her id, both successful, the table holds the same two records, but the file
`deleteRecord` wrote has two pages, one for each record, where the rewrite of
`insertRecord` and `updateRecord` (and the `deleteRecord` of the spec's words)
writes the one page of `students`. -/
theorem C14_delete_layout :
    students = some (writeAllRecords layout4K [alice, bob]) ∧
    insertRecord layout4K students carol
      = .ok (true, some (writeAllRecords layout4K [alice, bob, carol])) ∧
    deleteRecord layout4K (some (writeAllRecords layout4K [alice, bob, carol])) 3
      = .ok (true, some ([alice, bob].foldl (deleteStep layout4K) [])) ∧
    deleteRecordPacked layout4K (some (writeAllRecords layout4K [alice, bob, carol])) 3
      = .ok (true, students) ∧
    selectAll layout4K (some ([alice, bob].foldl (deleteStep layout4K) [])) = [alice, bob] ∧
    selectAll layout4K students = [alice, bob] ∧
    pageCount layout4K (some ([alice, bob].foldl (deleteStep layout4K) [])) = 2 ∧
    pageCount layout4K students = 1 ∧
    deleteRecord layout4K (some (writeAllRecords layout4K [alice, bob, carol])) 3
      ≠ deleteRecordPacked layout4K (some (writeAllRecords layout4K [alice, bob, carol])) 3 := by
  have hc := layout4K_valid
  have hpos : 0 < layout4K.PAGE_SIZE := by decide
  have hst2 : ∀ r ∈ [alice, bob], r.Storable layout4K :=
    forall_mem_two _ _ _ alice_storable bob_storable
  have s3 := scan_writeAllRecords layout4K hc [alice, bob, carol]
    (forall_mem_three _ _ _ _ alice_storable bob_storable carol_storable) (by decide)
  obtain ⟨d1, -, d3⟩ := scan_deleteLayout layout4K hc [alice, bob] hst2 (by decide)
  have hdel : deleteRecord layout4K (some (writeAllRecords layout4K [alice, bob, carol])) 3
      = .ok (true, some ([alice, bob].foldl (deleteStep layout4K) [])) :=
    deleteRecord_eq layout4K _ 3 [alice, bob] (by rw [s3.2]; rfl) (by rw [s3.2]; simp)
  have hpk : deleteRecordPacked layout4K (some (writeAllRecords layout4K [alice, bob, carol])) 3
      = .ok (true, students) := by
    rw [students_eq]
    exact deleteRecordPacked_eq layout4K _ 3 [alice, bob] (by rw [s3.2]; rfl)
      (by rw [s3.2]; simp)
  have hp2 : pageCount layout4K (some ([alice, bob].foldl (deleteStep layout4K) [])) = 2 :=
    pageCount_of_length layout4K hpos _ 2 d3 (by decide)
  have hp1 : pageCount layout4K students = 1 := by
    rw [students_eq]
    exact pageCount_of_length layout4K hpos _ 1 (by rw [length_students, Nat.one_mul])
      (by decide)
  refine ⟨students_eq, ?_, hdel, hpk, d1, scan_students.1, hp2, hp1, ?_⟩
  · exact insertRecord_eq layout4K students carol 3 [alice, bob] rfl (by
      rw [scan_students.2]; rfl)
  · rw [hdel, hpk]
    intro e
    have e2 : some ([alice, bob].foldl (deleteStep layout4K) []) = students :=
      (Prod.mk.inj (Except.ok.inj e)).2
    rw [← e2, hp2] at hp1
    exact absurd hp1 (by decide)

/-! ## The bytes of a serialized page -/

theorem getElem?_slotEntryBytes (s : SlotEntry) (k : Nat) :
    (slotEntryBytes s)[k]? =
      if k = 0 then some (if s.active then 1 else 0)
      else if k < 3 then (toBytesLE 2 s.length)[k - 1]?
      else if k < 5 then (toBytesLE 2 s.offset)[k - 3]?
      else none := by
  unfold slotEntryBytes
  match k with
  | 0 => rfl
  | 1 => simp [toBytesLE]
  | 2 => simp [toBytesLE]
  | 3 => simp [toBytesLE]
  | 4 => simp [toBytesLE]
  | k + 5 => simp [toBytesLE]

theorem length_slotEntryBytes (s : SlotEntry) : (slotEntryBytes s).length = 5 := by
  simp [slotEntryBytes, length_toBytesLE]

/-- The slot loop of `serializeToBuffer` leaves the five bytes of the `j`-th
entry it visits at `pos − 5·(j + 1)`. -/
theorem serializeSlots_entry (rev : List SlotEntry) (pos : Nat) (buffer : List Nat)
    (h1 : 5 * rev.length ≤ pos) (h2 : pos ≤ buffer.length) (j : Nat) (e : SlotEntry)
    (hj : rev[j]? = some e) :
    readAt (serializeSlots rev pos buffer) (pos - 5 * (j + 1)) 5 = slotEntryBytes e := by
  induction rev generalizing pos buffer j with
  | nil => simp at hj
  | cons s rest ih =>
    simp only [List.length_cons] at h1
    have hl : (writeSlotEntry buffer (pos - 5) s).length = buffer.length :=
      length_writeSlotEntry buffer (pos - 5) s (by omega)
    rw [serializeSlots]
    cases j with
    | zero =>
      simp only [List.getElem?_cons_zero, Option.some.injEq] at hj
      subst hj
      apply readAt_eq_of_getElem? _ _ _ _ (length_slotEntryBytes _).symm
      intro k hk
      rw [getElem?_serializeSlots rest (pos - 5) _ _ (by omega) (by rw [hl]; omega)
        (Or.inr (by omega)),
        getElem?_writeSlotEntry buffer (pos - 5) s _ (by omega), getElem?_slotEntryBytes]
      have e0 : pos - 5 * (0 + 1) = pos - 5 := by omega
      rw [e0]
      by_cases hk0 : k = 0
      · subst hk0
        rw [if_neg (by omega), if_pos (by omega), if_pos rfl]
      · rw [if_neg (by omega), if_neg (by omega), if_neg hk0]
        by_cases hk3 : k < 3
        · rw [if_pos (by omega), if_pos hk3]
          congr 1
          omega
        · rw [if_neg (by omega), if_pos (by omega), if_neg hk3, if_pos hk]
          congr 1
          omega
    | succ j =>
      simp only [List.getElem?_cons_succ] at hj
      have := ih (pos - 5) (writeSlotEntry buffer (pos - 5) s) (by omega) (by rw [hl]; omega) j hj
      have e1 : pos - 5 * (j + 1 + 1) = pos - 5 - 5 * (j + 1) := by omega
      rw [e1]
      exact this

/-- The directory of a serialized page: the entry of slot `i` of `n` starts at
`PAGE_SIZE − 5·(n − i)`. -/
theorem Page.readAt_serializeToBuffer_slot {c : Layout} {p : Page} (hc : c.Valid)
    (h : p.Inv c) (i : Nat) (e : SlotEntry) (hi : p.slots[i]? = some e) :
    readAt (p.serializeToBuffer c) (c.PAGE_SIZE - 5 * (p.slots.length - i)) 5
      = slotEntryBytes e := by
  obtain ⟨B0, hB, eq⟩ := Page.serializeToBuffer_eq hc h
  have hr := h.room
  have hlt : i < p.slots.length := by
    rcases Nat.lt_or_ge i p.slots.length with hlt | hge
    · exact hlt
    · rw [List.getElem?_eq_none hge] at hi; cases hi
  have hrev : p.slots.reverse[p.slots.length - 1 - i]? = some e := by
    rw [List.getElem?_reverse (by omega)]
    have : p.slots.length - 1 - (p.slots.length - 1 - i) = i := by omega
    rw [this, hi]
  have := serializeSlots_entry p.slots.reverse c.PAGE_SIZE B0
    (by rw [List.length_reverse]; omega) (by rw [hB]) _ e hrev
  have e1 : c.PAGE_SIZE - 5 * (p.slots.length - 1 - i + 1)
      = c.PAGE_SIZE - 5 * (p.slots.length - i) := by
    have : p.slots.length - 1 - i + 1 = p.slots.length - i := by omega
    rw [this]
  rw [eq, ← e1]
  exact this

/-- C20: for every page reachable from an empty page, `serializeToBuffer` yields
exactly `PAGE_SIZE` bytes in which bytes [0,8) hold pageID, [8,10) slotCount
(the number of slots) and [10,12) freeSpaceOffset, little-endian; the bytes
[PAGE_HEADER_RESERVED, freeSpaceOffset) equal the page's record bytes (so the
byte range of every slot holds the bytes the page has there); for a page with
`n` slots the 5-byte entry of slot `i` starts at `PAGE_SIZE − 5·(n − i)` with
byte 0 = active flag (1 or 0), bytes 1–2 = length and bytes 3–4 = offset; and
every other byte (the rest of the reserved header and the gap between the
record bytes and the directory) is zero. -/
theorem C20_serialized_page_layout (c : Layout) (hc : c.Valid) (p : Page)
    (hp : Page.Reachable c p) :
    (p.serializeToBuffer c).length = c.PAGE_SIZE ∧
    (readAt (p.serializeToBuffer c) 0 8 = toBytesLE 8 p.pageID ∧
      fromBytesLE (readAt (p.serializeToBuffer c) 0 8) = p.pageID) ∧
    (readAt (p.serializeToBuffer c) 8 2 = toBytesLE 2 p.slotCount ∧
      fromBytesLE (readAt (p.serializeToBuffer c) 8 2) = p.slots.length) ∧
    (readAt (p.serializeToBuffer c) 10 2 = toBytesLE 2 p.freeSpaceOffset ∧
      fromBytesLE (readAt (p.serializeToBuffer c) 10 2) = p.freeSpaceOffset) ∧
    (∀ i, c.PAGE_HEADER_RESERVED ≤ i → i < p.freeSpaceOffset →
      (p.serializeToBuffer c)[i]? = p.data[i]?) ∧
    (∀ s ∈ p.slots, readAt (p.serializeToBuffer c) s.offset s.length
      = readAt p.data s.offset s.length) ∧
    (∀ i e, p.slots[i]? = some e →
      readAt (p.serializeToBuffer c) (c.PAGE_SIZE - 5 * (p.slots.length - i)) 5
        = slotEntryBytes e) ∧
    (∀ i, 12 ≤ i → i < c.PAGE_HEADER_RESERVED → (p.serializeToBuffer c)[i]? = some 0) ∧
    (∀ i, p.freeSpaceOffset ≤ i → i < c.PAGE_SIZE - 5 * p.slots.length →
      (p.serializeToBuffer c)[i]? = some 0) := by
  have h := hp.inv hc
  have hget := fun i hi => Page.getElem?_serializeToBuffer hc h i hi
  obtain ⟨h12, hle, h16⟩ := hc
  have hr := h.room
  have hH := h.contiguous.le
  have hsc := h.slotCount_eq
  have hid := h.pageID_lt
  have r8 : readAt (p.serializeToBuffer c) 0 8 = toBytesLE 8 p.pageID := by
    apply readAt_eq_of_getElem? _ _ _ _ (length_toBytesLE _ _).symm
    intro i hi
    rw [hget _ (by omega), Nat.zero_add, if_pos hi]
  have r2 : readAt (p.serializeToBuffer c) 8 2 = toBytesLE 2 p.slotCount := by
    apply readAt_eq_of_getElem? _ _ _ _ (length_toBytesLE _ _).symm
    intro i hi
    rw [hget _ (by omega), if_neg (by omega), if_pos (by omega)]
    congr 1
    omega
  have r3 : readAt (p.serializeToBuffer c) 10 2 = toBytesLE 2 p.freeSpaceOffset := by
    apply readAt_eq_of_getElem? _ _ _ _ (length_toBytesLE _ _).symm
    intro i hi
    rw [hget _ (by omega), if_neg (by omega), if_neg (by omega), if_pos (by omega)]
    congr 1
    omega
  have hdata : ∀ i, c.PAGE_HEADER_RESERVED ≤ i → i < p.freeSpaceOffset →
      (p.serializeToBuffer c)[i]? = p.data[i]? := by
    intro i h1 h2
    rw [hget _ (by omega), if_neg (by omega), if_neg (by omega), if_neg (by omega),
      if_pos ⟨h1, h2⟩]
  refine ⟨Page.length_serializeToBuffer ⟨h12, hle, h16⟩ h, ⟨r8, ?_⟩, ⟨r2, ?_⟩, ⟨r3, ?_⟩, hdata,
    ?_, fun i e hi => Page.readAt_serializeToBuffer_slot ⟨h12, hle, h16⟩ h i e hi, ?_, ?_⟩
  · rw [r8, fromBytesLE_toBytesLE]
    exact Nat.mod_eq_of_lt (by simpa using hid)
  · rw [r2, hsc, fromBytesLE_toBytesLE_two _ (by omega)]
  · rw [r3, fromBytesLE_toBytesLE_two _ (by omega)]
  · intro s hs
    obtain ⟨w1, w2⟩ := h.contiguous.within s hs
    exact readAt_congr _ _ _ _ (fun i i1 i2 => hdata i (by omega) (by omega))
  · intro i i1 i2
    rw [hget _ (by omega), if_neg (by omega), if_neg (by omega), if_neg (by omega),
      if_neg (by omega)]
  · intro i i1 i2
    rw [hget _ i2, if_neg (by omega), if_neg (by omega), if_neg (by omega), if_neg (by omega)]

theorem C20_serialized_page_layout_witness :
    layout4K.Valid ∧
    Page.Reachable layout4K
      (((((Page.empty layout4K).insertRawRecord layout4K [1, 2, 3]).1.insertRawRecord layout4K
        [4, 5]).1).deleteSlot 0).1 ∧
    (((((Page.empty layout4K).insertRawRecord layout4K [1, 2, 3]).1.insertRawRecord layout4K
        [4, 5]).1).deleteSlot 0).1.slots[1]?
      = some { offset := 19, length := 2, active := true } ∧
    ((((((Page.empty layout4K).insertRawRecord layout4K [1, 2, 3]).1.insertRawRecord layout4K
        [4, 5]).1).deleteSlot 0).1.serializeToBuffer layout4K).length = layout4K.PAGE_SIZE ∧
    readAt ((((((Page.empty layout4K).insertRawRecord layout4K [1, 2, 3]).1.insertRawRecord
        layout4K [4, 5]).1).deleteSlot 0).1.serializeToBuffer layout4K)
        (layout4K.PAGE_SIZE - 5 * ((((((Page.empty layout4K).insertRawRecord layout4K
          [1, 2, 3]).1.insertRawRecord layout4K [4, 5]).1).deleteSlot 0).1.slots.length - 1)) 5
      = slotEntryBytes { offset := 19, length := 2, active := true } :=
  have hr : Page.Reachable layout4K
      (((((Page.empty layout4K).insertRawRecord layout4K [1, 2, 3]).1.insertRawRecord layout4K
        [4, 5]).1).deleteSlot 0).1 :=
    Page.Reachable.delete _ 0 (Page.Reachable.insert _ [4, 5]
      (Page.Reachable.insert _ [1, 2, 3] (Page.Reachable.empty 0 (by decide))))
  have hs : (((((Page.empty layout4K).insertRawRecord layout4K [1, 2, 3]).1.insertRawRecord
      layout4K [4, 5]).1).deleteSlot 0).1.slots[1]?
      = some { offset := 19, length := 2, active := true } := by decide
  ⟨layout4K_valid, hr, hs,
   (C20_serialized_page_layout layout4K layout4K_valid _ hr).1,
   (C20_serialized_page_layout layout4K layout4K_valid _ hr).2.2.2.2.2.2.1 1 _ hs⟩

/-! ## The wire format -/

theorem serializeField_eq_wire (v : RecordValue) (hv : v.TextFits) :
    serializeField [] v = wireField v := by
  cases v with
  | Integer x => simp [serializeField, wireField]
  | Float f => simp [serializeField, wireField]
  | Text s =>
    have hs : s.length ≤ 65535 := hv
    have hlen : s.length % 65536 = s.length := Nat.mod_eq_of_lt (by omega)
    simp only [serializeField, wireField, hlen, List.take_length, List.nil_append,
      List.singleton_append]

theorem foldl_serializeField_eq_wire (fs : List RecordValue) (ht : ∀ v ∈ fs, v.TextFits) :
    fs.foldl serializeField [] = fs.flatMap wireField := by
  induction fs with
  | nil => rfl
  | cons v fs ih =>
    rw [List.foldl_cons, foldl_serializeField, List.flatMap_cons,
      serializeField_eq_wire v (ht v (List.mem_cons_self _ _)),
      ih (fun w hw => ht w (List.mem_cons_of_mem _ hw))]

theorem length_wireField (v : RecordValue) : (wireField v).length = wireSize v := by
  cases v with
  | Integer x => simp [wireField, wireSize, length_toBytesLE]
  | Float f => simp [wireField, wireSize, length_toBytesLE]
  | Text s => simp [wireField, wireSize, length_toBytesLE]; omega

theorem length_flatMap_wireField (fs : List RecordValue) :
    (fs.flatMap wireField).length = (fs.map wireSize).sum := by
  induction fs with
  | nil => rfl
  | cons v fs ih =>
    rw [List.flatMap_cons, List.length_append, length_wireField, ih, List.map_cons, List.sum_cons]

theorem serializeRecord_eq_wire (r : Record) (hn : r.fields.length ≤ 65535)
    (ht : ∀ v ∈ r.fields, v.TextFits) :
    serializeRecord r = wireRecord r ∧
    (serializeRecord r).length = 2 + (r.fields.map wireSize).sum := by
  have hlen : r.fields.length % 65536 = r.fields.length := Nat.mod_eq_of_lt (by omega)
  have e : serializeRecord r = wireRecord r := by
    rw [serializeRecord_eq, hlen, foldl_serializeField_eq_wire _ ht]
    rfl
  refine ⟨e, ?_⟩
  rw [e]
  unfold wireRecord
  rw [List.length_append, length_toBytesLE, length_flatMap_wireField]

/-- C21: for every record `r` with at most 65535 fields and Text fields of at
most 65535 bytes, `serializeRecord(r)` is the 16-bit field count followed, for
each field in order, by the tag byte 0 and the 4-byte int32 (Integer), the tag
byte 1 and the 4-byte float (Float), or the tag byte 2, a 16-bit length and
exactly that many raw bytes (Text); its length is 2 + the sum over the fields
of 5, 5 or 3 + text length. -/
theorem C21_record_wire_format (r : Record) (hn : r.fields.length ≤ 65535)
    (ht : ∀ v ∈ r.fields, v.TextFits) :
    serializeRecord r = toBytesLE 2 r.fields.length ++ r.fields.flatMap wireField ∧
    (∀ v ∈ r.fields, (wireField v).length = wireSize v) ∧
    (serializeRecord r).length = 2 + (r.fields.map wireSize).sum :=
  ⟨(serializeRecord_eq_wire r hn ht).1, fun v _ => length_wireField v,
   (serializeRecord_eq_wire r hn ht).2⟩

theorem C21_record_wire_format_witness :
    alice.fields.length ≤ 65535 ∧ (∀ v ∈ alice.fields, v.TextFits) ∧
    serializeRecord alice
      = toBytesLE 2 alice.fields.length ++ alice.fields.flatMap wireField ∧
    (serializeRecord alice).length = 2 + (alice.fields.map wireSize).sum :=
  have hn : alice.fields.length ≤ 65535 := by decide
  have ht : ∀ v ∈ alice.fields, v.TextFits := by
    intro v hv
    simp only [alice, List.mem_cons, List.mem_singleton, List.not_mem_nil, or_false] at hv
    rcases hv with rfl | rfl | rfl
    · exact True.intro
    · show (5 : Nat) ≤ 65535
      decide
    · exact True.intro
  ⟨hn, ht, (C21_record_wire_format alice hn ht).1, (C21_record_wire_format alice hn ht).2.2⟩

/-! ## Re-encoding a decoded record -/

theorem toInt32_inRange (n : Nat) : -2147483648 ≤ toInt32 n ∧ toInt32 n < 2147483648 := by
  unfold toInt32
  have := Nat.mod_lt n (show 0 < 4294967296 by decide)
  split <;> constructor <;> omega

theorem fromBytesLE_lt (l : List Nat) : fromBytesLE l < 256 ^ l.length := by
  induction l with
  | nil => simp [fromBytesLE]
  | cons b bs ih =>
    have hb := Nat.mod_lt b (show 0 < 256 by decide)
    simp only [fromBytesLE, List.length_cons, pow_succ]
    omega

theorem fromBytesLE_readAt_lt (buf : List Nat) (pos n : Nat) (h : pos + n ≤ buf.length) :
    fromBytesLE (readAt buf pos n) < 256 ^ n := by
  have := fromBytesLE_lt (readAt buf pos n)
  rwa [length_readAt buf pos n h] at this

/-- What a successful run of the field loop of `deserializeRecord` returns: as
many fields as it was asked for, each in the range of its type, read from
bytes of the input. -/
theorem deserializeFields_sound (inp : List Nat) (n pos : Nat) (acc out : List RecordValue)
    (hpos : pos ≤ inp.length) (h : deserializeFields inp n pos acc = some out) :
    ∃ fs, out = acc ++ fs ∧ fs.length = n ∧ (∀ v ∈ fs, v.InRange ∧ v.TextFits) ∧
      pos + (fs.flatMap wireField).length ≤ inp.length := by
  induction n generalizing pos acc with
  | zero =>
    rw [deserializeFields] at h
    cases h
    exact ⟨[], by simp, rfl, (fun v hv => by cases hv), by simpa using hpos⟩
  | succ n ih =>
    rw [deserializeFields] at h
    by_cases h0 : pos ≥ inp.length
    · rw [if_pos h0] at h; cases h
    · rw [if_neg h0] at h
      simp only [] at h
      by_cases ht0 : inp.getD pos 0 = 0
      · simp only [ht0, if_true] at h
        by_cases h4 : pos + 1 + 4 > inp.length
        · rw [if_pos h4] at h; cases h
        · rw [if_neg h4] at h
          obtain ⟨fs, e, hl, hr, hb⟩ := ih _ _ (by omega) h
          refine ⟨RecordValue.Integer (toInt32 (fromBytesLE (readAt inp (pos + 1) 4))) :: fs, by rw [e]; simp, by simp [hl], ?_, ?_⟩
          · intro v hv
            rcases List.mem_cons.1 hv with rfl | hv
            · exact ⟨toInt32_inRange _, True.intro⟩
            · exact hr v hv
          · simp only [List.flatMap_cons, List.length_append, wireField, List.length_cons,
              length_toBytesLE]
            omega
      · simp only [ht0, if_false] at h
        by_cases ht1 : inp.getD pos 0 = 1
        · simp only [ht1, if_true] at h
          by_cases h4 : pos + 1 + 4 > inp.length
          · rw [if_pos h4] at h; cases h
          · rw [if_neg h4] at h
            obtain ⟨fs, e, hl, hr, hb⟩ := ih _ _ (by omega) h
            refine ⟨RecordValue.Float (fromBytesLE (readAt inp (pos + 1) 4)) :: fs, by rw [e]; simp, by simp [hl], ?_, ?_⟩
            · intro v hv
              rcases List.mem_cons.1 hv with rfl | hv
              · exact ⟨by
                  have := fromBytesLE_readAt_lt inp (pos + 1) 4 (by omega)
                  exact this, True.intro⟩
              · exact hr v hv
            · simp only [List.flatMap_cons, List.length_append, wireField, List.length_cons,
                length_toBytesLE]
              omega
        · simp only [ht1, if_false] at h
          by_cases h2 : pos + 1 + 2 > inp.length
          · rw [if_pos h2] at h; cases h
          · rw [if_neg h2] at h
            by_cases hl2 : pos + 1 + 2 + fromBytesLE (readAt inp (pos + 1) 2) > inp.length
            · rw [if_pos hl2] at h; cases h
            · rw [if_neg hl2] at h
              obtain ⟨fs, e, hl, hr, hb⟩ := ih _ _ (by omega) h
              have hlen : (readAt inp (pos + 1 + 2) (fromBytesLE (readAt inp (pos + 1) 2))).length
                  = fromBytesLE (readAt inp (pos + 1) 2) := length_readAt _ _ _ (by omega)
              have hlt := fromBytesLE_readAt_lt inp (pos + 1) 2 (by omega)
              refine ⟨RecordValue.Text (readAt inp (pos + 1 + 2) (fromBytesLE (readAt inp (pos + 1) 2))) :: fs, by rw [e]; simp, by simp [hl], ?_, ?_⟩
              · intro v hv
                rcases List.mem_cons.1 hv with rfl | hv
                · refine ⟨True.intro, ?_⟩
                  show (readAt inp (pos + 1 + 2) (fromBytesLE (readAt inp (pos + 1) 2))).length
                    ≤ 65535
                  rw [hlen]
                  have : (256 : Nat) ^ 2 = 65536 := by decide
                  omega
                · exact hr v hv
              · simp only [List.flatMap_cons, List.length_append, wireField, List.length_cons,
                  length_toBytesLE, hlen]
                omega

/-- A record that `deserializeRecord` returns is representable, its encoding is
no longer than the input, and it decodes to the record again. -/
theorem reencode (b : List Nat) (r : Record) (h : deserializeRecord b = some r) :
    r.Encodable ∧ (serializeRecord r).length ≤ b.length ∧
    deserializeRecord (serializeRecord r) = some r := by
  unfold deserializeRecord at h
  by_cases h2 : b.length < 2
  · rw [if_pos h2] at h; cases h
  · rw [if_neg h2] at h
    simp only [] at h
    cases hf : deserializeFields b (fromBytesLE (readAt b 0 2)) 2 [] with
    | none => rw [hf] at h; cases h
    | some out =>
      rw [hf] at h
      simp only [Option.map_some', Option.some.injEq] at h
      subst h
      obtain ⟨fs, e, hl, hr, hb⟩ := deserializeFields_sound b _ 2 [] out (by omega) hf
      rw [List.nil_append] at e
      subst e
      have hlt := fromBytesLE_readAt_lt b 0 2 (by omega)
      have h256 : (256 : Nat) ^ 2 = 65536 := by decide
      have hn : out.length ≤ 65535 := by omega
      have henc : Record.Encodable { fields := out } := ⟨hn, hr⟩
      refine ⟨henc, ?_, deserialize_serialize _ henc⟩
      rw [(serializeRecord_eq_wire { fields := out } hn (fun v hv => (hr v hv).2)).1]
      unfold wireRecord
      rw [List.length_append, length_toBytesLE]
      exact hb

theorem deserializeSlotsChecked_eq (buffer : List Nat) (n pos : Nat) (slots : List SlotEntry)
    (hpos : pos ≤ buffer.length) :
    deserializeSlotsChecked buffer n pos slots = .ok (deserializeSlots buffer n pos slots) := by
  induction n generalizing pos slots with
  | zero => rw [deserializeSlotsChecked, deserializeSlots]
  | succ n ih =>
    rw [deserializeSlotsChecked, deserializeSlots]
    by_cases h5 : pos < 5
    · rw [if_pos h5, if_pos h5]
    · rw [if_neg h5, if_neg h5]
      simp only []
      rw [readChecked_ok buffer (pos - 5) 1 (by omega),
        readChecked_ok buffer (pos - 5 + 1) 2 (by omega),
        readChecked_ok buffer (pos - 5 + 3) 2 (by omega)]
      simp only [getD_readAt_one]
      exact ih _ _ (by omega)

theorem copyDataChecked_ok (c : Layout) (data buffer : List Nat) (freeSpaceOffset : Nat)
    (h1 : freeSpaceOffset ≤ buffer.length) (h2 : freeSpaceOffset ≤ data.length) :
    copyDataChecked c data buffer freeSpaceOffset
      = .ok (if freeSpaceOffset > c.PAGE_HEADER_RESERVED then
          memcpy data c.PAGE_HEADER_RESERVED
            (readAt buffer c.PAGE_HEADER_RESERVED (freeSpaceOffset - c.PAGE_HEADER_RESERVED))
        else data) := by
  unfold copyDataChecked
  by_cases h : freeSpaceOffset > c.PAGE_HEADER_RESERVED
  · rw [if_pos h, if_pos h, readChecked_ok _ _ _ (by omega)]
    simp only []
    unfold writeChecked
    rw [if_pos (by rw [length_readAt _ _ _ (by omega)]; omega)]
  · rw [if_neg h, if_neg h]

theorem copyDataChecked_fault (c : Layout) (data buffer : List Nat) (freeSpaceOffset : Nat)
    (h1 : buffer.length < freeSpaceOffset) (h2 : c.PAGE_HEADER_RESERVED ≤ buffer.length) :
    copyDataChecked c data buffer freeSpaceOffset = .error .readOutOfBounds := by
  unfold copyDataChecked readChecked
  rw [if_pos (by omega), if_neg (by omega)]

/-- A stored `freeSpaceOffset` within the page: the decoding stays inside the
buffer and the page's data, and gives the page `deserializeFromBuffer` gives. -/
theorem Page.deserializeFromBufferChecked_ok (c : Layout) (hc : c.Valid) (p : Page)
    (buffer : List Nat) (hb : buffer.length = c.PAGE_SIZE) (hd : p.data.length = c.PAGE_SIZE)
    (hf : fromBytesLE (readAt buffer 10 2) ≤ c.PAGE_SIZE) :
    p.deserializeFromBufferChecked c buffer = .ok (p.deserializeFromBuffer c buffer) := by
  obtain ⟨h12, hle, h16⟩ := hc
  unfold Page.deserializeFromBufferChecked Page.deserializeFromBuffer
  rw [if_neg (by omega), if_neg (by omega),
    readChecked_ok buffer 0 sizeofPageID (by unfold sizeofPageID; omega),
    readChecked_ok buffer 8 2 (by omega), readChecked_ok buffer 10 2 (by omega)]
  simp only []
  rw [copyDataChecked_ok c p.data buffer _ (by omega) (by omega),
    deserializeSlotsChecked_eq buffer _ _ [] (by omega)]

/-- A stored `freeSpaceOffset` beyond the page: the copy of the data region
reads past the end of the buffer. -/
theorem Page.deserializeFromBufferChecked_fault (c : Layout) (hc : c.Valid) (p : Page)
    (buffer : List Nat) (hb : buffer.length = c.PAGE_SIZE)
    (hf : c.PAGE_SIZE < fromBytesLE (readAt buffer 10 2)) :
    p.deserializeFromBufferChecked c buffer = .error .readOutOfBounds := by
  obtain ⟨h12, hle, h16⟩ := hc
  unfold Page.deserializeFromBufferChecked
  rw [if_neg (by omega),
    readChecked_ok buffer 0 sizeofPageID (by unfold sizeofPageID; omega),
    readChecked_ok buffer 8 2 (by omega), readChecked_ok buffer 10 2 (by omega)]
  simp only []
  rw [copyDataChecked_fault c p.data buffer _ (by omega) (by omega)]

theorem length_corruptBuffer : corruptBuffer.length = 4096 := by
  simp only [corruptBuffer, List.length_append, List.length_replicate, List.length_cons,
    List.length_nil]

theorem readAt_corruptBuffer : readAt corruptBuffer 10 2 = [255, 255] := by
  have := readAt_append_left (List.replicate 10 0) [255, 255] (List.replicate 4084 0)
  rw [List.length_replicate] at this
  exact this

/-- C24 on the code: the buffer `corruptBuffer` has exactly `PAGE_SIZE` bytes and
stores the `freeSpaceOffset` 65535; `deserializeFromBuffer` then copies
65535 − 16 bytes from offset 16 of the buffer into offset 16 of the page's
data, a read past the end of the 4096-byte buffer and a write past the end of
the 4096-byte data. -/
theorem C24_page_decoding_out_of_bounds :
    corruptBuffer.length = layout4K.PAGE_SIZE ∧
    (Page.empty layout4K).data.length = layout4K.PAGE_SIZE ∧
    fromBytesLE (readAt corruptBuffer 10 2) = 65535 ∧
    (Page.empty layout4K).deserializeFromBufferChecked layout4K corruptBuffer
      = .error .readOutOfBounds ∧
    ∀ bytes : List Nat, bytes.length = 65535 - layout4K.PAGE_HEADER_RESERVED →
      writeChecked (Page.empty layout4K).data layout4K.PAGE_HEADER_RESERVED bytes
        = .error .writeOutOfBounds := by
  have hf : fromBytesLE (readAt corruptBuffer 10 2) = 65535 := by
    rw [readAt_corruptBuffer]; decide
  have hd : (Page.empty layout4K).data.length = layout4K.PAGE_SIZE := by
    simp only [Page.empty, List.length_replicate]
  refine ⟨length_corruptBuffer, hd, hf, ?_, ?_⟩
  · exact Page.deserializeFromBufferChecked_fault layout4K layout4K_valid _ _
      length_corruptBuffer (by rw [hf]; decide)
  · intro bytes hbytes
    unfold writeChecked
    rw [if_neg (by
      rw [hbytes, hd]
      show ¬ 16 + (65535 - 16) ≤ 4096
      decide)]

/-! ## Undo and redo -/

theorem alice39_storable : alice39.Storable layout4K := by
  refine ⟨?_, ?_⟩
  · simp [Record.Encodable, alice39, RecordValue.InRange, RecordValue.TextFits]
  · simp [Record.FitsEmptyPage, alice39, serializeRecord, serializeField, layout4K, toBytesLE]

theorem runAll_append (c : Layout) (s : Parser) (xs ys : List Command) :
    Parser.runAll c s (xs ++ ys)
      = match Parser.runAll c s xs with
        | .error e => .error e
        | .ok s' => Parser.runAll c s' ys := by
  induction xs generalizing s with
  | nil => rfl
  | cons x xs ih =>
    simp only [List.cons_append, Parser.runAll]
    cases Parser.parseAndExecute c s x with
    | error e => rfl
    | ok s' => exact ih s'

theorem scan_alice39_bob :
    selectAll layout4K (some (writeAllRecords layout4K [alice39, bob])) = [alice39, bob] ∧
    loadAllRecords layout4K (some (writeAllRecords layout4K [alice39, bob])) = [alice39, bob] :=
  scan_writeAllRecords layout4K layout4K_valid _
    (forall_mem_two _ _ _ alice39_storable bob_storable) (by decide)

theorem scan_deleted_bob :
    selectAll layout4K (some ([alice39].foldl (deleteStep layout4K) [])) = [alice39] ∧
    loadAllRecords layout4K (some ([alice39].foldl (deleteStep layout4K) [])) = [alice39] := by
  obtain ⟨h1, h2, -⟩ := scan_deleteLayout layout4K layout4K_valid [alice39]
    (fun r hr => by rw [List.mem_singleton] at hr; rw [hr]; exact alice39_storable) (by decide)
  exact ⟨h1, h2⟩

theorem run_create :
    Parser.parseAndExecute layout4K freshParser (.createTable "students")
      = .ok { files := { data := newTable layout4K,
                         metaFile := some ("table=" ++ "students" ++ "\n") },
              undoStack := [.dropTable], redoStack := [] } := rfl

theorem run_insert (s : Parser) (id : Int) (name : List Nat) (gpa : Nat) (data : DataFile)
    (h : insertRecord layout4K s.files.data
      { fields := [.Integer id, .Text name, .Float gpa] } = .ok (true, data)) :
    Parser.parseAndExecute layout4K s (.insert id name gpa)
      = .ok { files := { s.files with data := data },
              undoStack := .deleteInserted { fields := [.Integer id, .Text name, .Float gpa] }
                :: s.undoStack,
              redoStack := [] } := by
  simp only [Parser.parseAndExecute, Parser.handleInsert, h]

theorem run_select (s : Parser) :
    Parser.parseAndExecute layout4K s .select = .ok { s with redoStack := [] } := rfl

theorem run_update_gpa (s : Parser) (id : Int) (bits : Nat) (oldRec rec : Record) (b : Bool)
    (data : DataFile)
    (hfind : findById id (selectAll layout4K s.files.data) = .ok (some oldRec))
    (hset : setField oldRec 2 (.Float bits) = .ok rec)
    (h : updateRecord layout4K s.files.data id rec = .ok (b, data)) :
    Parser.parseAndExecute layout4K s (.update (.gpa bits) id)
      = .ok { files := { s.files with data := data },
              undoStack := .revertUpdate oldRec :: s.undoStack, redoStack := [] } := by
  simp only [Parser.parseAndExecute, Parser.handleUpdate, hfind, hset, h]

theorem run_delete (s : Parser) (id : Int) (deletedRecord : Record) (data : DataFile)
    (hfind : findById id (selectAll layout4K s.files.data) = .ok (some deletedRecord))
    (h : deleteRecord layout4K s.files.data id = .ok (true, data)) :
    Parser.parseAndExecute layout4K s (.delete id)
      = .ok { files := { s.files with data := data },
              undoStack := .restoreDeleted deletedRecord :: s.undoStack, redoStack := [] } := by
  simp only [Parser.parseAndExecute, Parser.handleDelete, hfind, h]

theorem run_undo (s : Parser) (a : ReverseAction) (rest : List ReverseAction)
    (files : TableFiles) (hs : s.undoStack = a :: rest) (h : a.run layout4K s.files = .ok files) :
    Parser.parseAndExecute layout4K s .undo
      = .ok { files := files, undoStack := rest, redoStack := a :: s.redoStack } := by
  simp only [Parser.parseAndExecute, Parser.undo, hs, h]

theorem run_redo (s : Parser) (a : ReverseAction) (rest : List ReverseAction)
    (files : TableFiles) (hs : s.redoStack = a :: rest) (h : a.run layout4K s.files = .ok files) :
    Parser.parseAndExecute layout4K s .redo
      = .ok { files := files, undoStack := a :: s.undoStack, redoStack := rest } := by
  simp only [Parser.parseAndExecute, Parser.redo, hs, h]

theorem run_redo_empty (s : Parser) (hs : s.redoStack = []) :
    Parser.parseAndExecute layout4K s .redo = .ok s := by
  simp only [Parser.parseAndExecute, Parser.redo, hs]

theorem restore_run (files : TableFiles) (r : Record) (b : Bool) (data : DataFile)
    (h : insertRecord layout4K files.data r = .ok (b, data)) :
    (ReverseAction.restoreDeleted r).run layout4K files = .ok { files with data := data } := by
  simp only [ReverseAction.run, h]

theorem deleteInserted_run (files : TableFiles) (r : Record) (id : Int) (b : Bool)
    (data : DataFile) (hid : getId r = .ok id)
    (h : deleteRecord layout4K files.data id = .ok (b, data)) :
    (ReverseAction.deleteInserted r).run layout4K files = .ok { files with data := data } := by
  simp only [ReverseAction.run, hid, h]

theorem runAll_cons_ok (s s' : Parser) (command : Command) (rest : List Command)
    (h : Parser.parseAndExecute layout4K s command = .ok s') :
    Parser.runAll layout4K s (command :: rest) = Parser.runAll layout4K s' rest := by
  rw [Parser.runAll, h]

theorem select_students (data : DataFile) (undoStack redoStack : List ReverseAction) :
    Parser.parseAndExecute layout4K (studentsParser data undoStack redoStack) .select
      = .ok (studentsParser data undoStack []) := rfl

/-- The run of the commands of `main.cpp` up to the DELETE: the table holds
`{1, "Alice", 3.9}` alone, in the one-page-per-record layout of `deleteRecord`,
and the restore of Bob is on top of the undo stack. -/
theorem run_to_delete :
    Parser.runAll layout4K freshParser commandsToDelete
      = .ok (studentsParser (some ([alice39].foldl (deleteStep layout4K) []))
          undoStackAtDelete []) := by
  have e1 : Parser.parseAndExecute layout4K freshParser (.createTable "students")
      = .ok (studentsParser (newTable layout4K) [.dropTable] []) := rfl
  have e2 : Parser.parseAndExecute layout4K (studentsParser (newTable layout4K) [.dropTable] [])
      (.insert 1 [65, 108, 105, 99, 101] 1081291571)
      = .ok (studentsParser (some (writeAllRecords layout4K [alice]))
          [.deleteInserted alice, .dropTable] []) :=
    run_insert _ 1 _ _ _ insert_alice
  have e3 : Parser.parseAndExecute layout4K
      (studentsParser (some (writeAllRecords layout4K [alice]))
        [.deleteInserted alice, .dropTable] [])
      (.insert 2 [66, 111, 98] 1080033280)
      = .ok (studentsParser (some (writeAllRecords layout4K [alice, bob]))
          [.deleteInserted bob, .deleteInserted alice, .dropTable] []) :=
    run_insert _ 2 _ _ _ insert_bob
  have e5 : Parser.parseAndExecute layout4K
      (studentsParser (some (writeAllRecords layout4K [alice, bob]))
        [.deleteInserted bob, .deleteInserted alice, .dropTable] [])
      (.update (.gpa 1081711002) 1)
      = .ok (studentsParser (some (writeAllRecords layout4K [alice39, bob]))
          [.revertUpdate alice, .deleteInserted bob, .deleteInserted alice, .dropTable] []) := by
    have hsc := scan_students
    rw [students_eq] at hsc
    exact run_update_gpa _ 1 _ alice alice39 true _
      (by show findById 1 (selectAll layout4K (some (writeAllRecords layout4K [alice, bob]))) = _
          rw [hsc.1]; rfl)
      rfl
      (updateRecord_eq layout4K (some (writeAllRecords layout4K [alice, bob])) 1 alice39
        [alice39, bob] (by rw [hsc.2]; rfl))
  have e7 : Parser.parseAndExecute layout4K
      (studentsParser (some (writeAllRecords layout4K [alice39, bob]))
        [.revertUpdate alice, .deleteInserted bob, .deleteInserted alice, .dropTable] [])
      (.delete 2)
      = .ok (studentsParser (some ([alice39].foldl (deleteStep layout4K) []))
          undoStackAtDelete []) :=
    run_delete _ 2 bob _
      (by show findById 2 (selectAll layout4K (some (writeAllRecords layout4K [alice39, bob])))
            = _
          rw [scan_alice39_bob.1]; rfl)
      (deleteRecord_eq layout4K (some (writeAllRecords layout4K [alice39, bob])) 2 [alice39]
        (by rw [scan_alice39_bob.2]; rfl) (by rw [scan_alice39_bob.2]; simp))
  unfold commandsToDelete
  rw [runAll_cons_ok _ _ _ _ e1, runAll_cons_ok _ _ _ _ e2, runAll_cons_ok _ _ _ _ e3,
    runAll_cons_ok _ _ _ _ (select_students _ _ _), runAll_cons_ok _ _ _ _ e5,
    runAll_cons_ok _ _ _ _ (select_students _ _ _), runAll_cons_ok _ _ _ _ e7,
    runAll_cons_ok _ _ _ _ (select_students _ _ _)]
  rfl

/-- The run of the first three commands of `main.cpp`: the table holds Alice and
Bob, and the delete of Bob is on top of the undo stack. -/
theorem run_to_insert :
    Parser.runAll layout4K freshParser commandsToInsert
      = .ok (studentsParser (some (writeAllRecords layout4K [alice, bob]))
          [.deleteInserted bob, .deleteInserted alice, .dropTable] []) := by
  have e1 : Parser.parseAndExecute layout4K freshParser (.createTable "students")
      = .ok (studentsParser (newTable layout4K) [.dropTable] []) := rfl
  have e2 : Parser.parseAndExecute layout4K (studentsParser (newTable layout4K) [.dropTable] [])
      (.insert 1 [65, 108, 105, 99, 101] 1081291571)
      = .ok (studentsParser (some (writeAllRecords layout4K [alice]))
          [.deleteInserted alice, .dropTable] []) :=
    run_insert _ 1 _ _ _ insert_alice
  have e3 : Parser.parseAndExecute layout4K
      (studentsParser (some (writeAllRecords layout4K [alice]))
        [.deleteInserted alice, .dropTable] [])
      (.insert 2 [66, 111, 98] 1080033280)
      = .ok (studentsParser (some (writeAllRecords layout4K [alice, bob]))
          [.deleteInserted bob, .deleteInserted alice, .dropTable] []) :=
    run_insert _ 2 _ _ _ insert_bob
  unfold commandsToInsert
  rw [runAll_cons_ok _ _ _ _ e1, runAll_cons_ok _ _ _ _ e2, runAll_cons_ok _ _ _ _ e3]
  rfl

theorem scan_deleted_bob38 :
    selectAll layout4K (some ([alice].foldl (deleteStep layout4K) [])) = [alice] ∧
    loadAllRecords layout4K (some ([alice].foldl (deleteStep layout4K) [])) = [alice] := by
  obtain ⟨h1, h2, -⟩ := scan_deleteLayout layout4K layout4K_valid [alice]
    (fun r hr => by rw [List.mem_singleton] at hr; rw [hr]; exact alice_storable) (by decide)
  exact ⟨h1, h2⟩

/-- UNDO after the INSERT of Bob deletes Bob. -/
theorem undo_after_insert (undoStack redoStack : List ReverseAction) :
    Parser.parseAndExecute layout4K
      (studentsParser (some (writeAllRecords layout4K [alice, bob]))
        (.deleteInserted bob :: undoStack) redoStack) .undo
      = .ok (studentsParser (some ([alice].foldl (deleteStep layout4K) []))
          undoStack (.deleteInserted bob :: redoStack)) := by
  have hsc := scan_students
  rw [students_eq] at hsc
  exact run_undo _ (.deleteInserted bob) undoStack _ rfl
    (deleteInserted_run _ bob 2 true _ rfl
      (deleteRecord_eq layout4K (some (writeAllRecords layout4K [alice, bob])) 2 [alice]
        (by rw [hsc.2]; rfl) (by rw [hsc.2]; simp)))

/-- REDO with the delete of Bob on top of the redo stack runs the delete once
more; Bob is not there, the call returns failure and the table keeps Alice
alone. -/
theorem redo_after_undo_insert (undoStack redoStack : List ReverseAction) :
    Parser.parseAndExecute layout4K
      (studentsParser (some ([alice].foldl (deleteStep layout4K) []))
        undoStack (.deleteInserted bob :: redoStack)) .redo
      = .ok (studentsParser (some ([alice].foldl (deleteStep layout4K) []))
          (.deleteInserted bob :: undoStack) redoStack) :=
  run_redo _ (.deleteInserted bob) redoStack _ rfl
    (deleteInserted_run _ bob 2 false _ rfl
      ((miss_atomic layout4K (some ([alice].foldl (deleteStep layout4K) [])) 2 alice (by
        rw [scan_deleted_bob38.2]
        intro r hr
        rw [List.mem_singleton] at hr
        rw [hr]
        exact ⟨1, rfl, by decide⟩)).2))

/-- UNDO after the DELETE restores Bob by `insertRecord`. -/
theorem undo_after_delete (redoStack : List ReverseAction) :
    Parser.parseAndExecute layout4K
      (studentsParser (some ([alice39].foldl (deleteStep layout4K) []))
        undoStackAtDelete redoStack) .undo
      = .ok (studentsParser (some (writeAllRecords layout4K [alice39, bob]))
          undoStackAtDelete.tail (.restoreDeleted bob :: redoStack)) :=
  run_undo _ (.restoreDeleted bob) undoStackAtDelete.tail _ rfl
    (restore_run _ bob true _
      (insertRecord_eq layout4K _ bob 2 [alice39] rfl (by
        show eraseById 2 (loadAllRecords layout4K
          (some ([alice39].foldl (deleteStep layout4K) []))) = _
        rw [scan_deleted_bob.2]; rfl)))

/-- REDO with the restore of Bob on top of the redo stack runs the restore once
more: the table keeps Alice and Bob. -/
theorem redo_after_undo (undoStack redoStack : List ReverseAction) :
    Parser.parseAndExecute layout4K
      (studentsParser (some (writeAllRecords layout4K [alice39, bob]))
        undoStack (.restoreDeleted bob :: redoStack)) .redo
      = .ok (studentsParser (some (writeAllRecords layout4K [alice39, bob]))
          (.restoreDeleted bob :: undoStack) redoStack) :=
  run_redo _ (.restoreDeleted bob) redoStack _ rfl
    (restore_run _ bob true _
      (insertRecord_eq layout4K _ bob 2 [alice39] rfl (by
        show eraseById 2 (loadAllRecords layout4K
          (some (writeAllRecords layout4K [alice39, bob]))) = _
        rw [scan_alice39_bob.2]; rfl)))

/-- UNDO with the restore of Bob on top of the undo stack, on the table with
Alice and Bob. -/
theorem undo_after_redo (undoStack redoStack : List ReverseAction) :
    Parser.parseAndExecute layout4K
      (studentsParser (some (writeAllRecords layout4K [alice39, bob]))
        (.restoreDeleted bob :: undoStack) redoStack) .undo
      = .ok (studentsParser (some (writeAllRecords layout4K [alice39, bob]))
          undoStack (.restoreDeleted bob :: redoStack)) :=
  run_undo _ (.restoreDeleted bob) undoStack _ rfl
    (restore_run _ bob true _
      (insertRecord_eq layout4K _ bob 2 [alice39] rfl (by
        show eraseById 2 (loadAllRecords layout4K
          (some (writeAllRecords layout4K [alice39, bob]))) = _
        rw [scan_alice39_bob.2]; rfl)))

/-- C27 on the code: after the INSERT of Bob, UNDO and REDO the table holds Alice
alone (the claim has Alice and Bob, as right after the INSERT): REDO runs the
delete of Bob once more.  After the commands of `main.cpp` up to
`DELETE FROM students WHERE id 2` the table holds `{1, "Alice", 3.9}`; UNDO
brings Bob back; REDO then runs the restore of Bob once more instead of the
DELETE, so the table still holds Alice and Bob (the claim has Alice alone, as
right after the DELETE); a further UNDO runs the restore a third time.  With the
SELECT that `main.cpp` issues between UNDO and REDO the redo stack is empty and
REDO does nothing. -/
theorem C27_redo_repeats_undo :
    recordsAfter layout4K (Parser.runAll layout4K freshParser commandsToInsert)
      = some [alice, bob] ∧
    recordsAfter layout4K
        (Parser.runAll layout4K freshParser (commandsToInsert ++ [.undo, .redo]))
      = some [alice] ∧
    recordsAfter layout4K (Parser.runAll layout4K freshParser commandsToDelete)
      = some [alice39] ∧
    recordsAfter layout4K (Parser.runAll layout4K freshParser (commandsToDelete ++ [.undo]))
      = some [alice39, bob] ∧
    recordsAfter layout4K
        (Parser.runAll layout4K freshParser (commandsToDelete ++ [.undo, .redo]))
      = some [alice39, bob] ∧
    recordsAfter layout4K
        (Parser.runAll layout4K freshParser (commandsToDelete ++ [.undo, .redo, .undo]))
      = some [alice39, bob] ∧
    recordsAfter layout4K
        (Parser.runAll layout4K freshParser
          (commandsToDelete ++ [.undo, .select, .redo, .select]))
      = some [alice39, bob] := by
  refine ⟨?_, ?_, ?_, ?_, ?_, ?_, ?_⟩
  · rw [run_to_insert]
    have hsc := scan_students
    rw [students_eq] at hsc
    exact congrArg some hsc.1
  · rw [runAll_append, run_to_insert]
    show recordsAfter layout4K (Parser.runAll layout4K _ [.undo, .redo]) = _
    rw [runAll_cons_ok _ _ _ _ (undo_after_insert _ _),
      runAll_cons_ok _ _ _ _ (redo_after_undo_insert _ _)]
    exact congrArg some scan_deleted_bob38.1
  · rw [run_to_delete]
    exact congrArg some scan_deleted_bob.1
  · rw [runAll_append, run_to_delete]
    show recordsAfter layout4K (Parser.runAll layout4K _ [.undo]) = _
    rw [runAll_cons_ok _ _ _ _ (undo_after_delete _)]
    exact congrArg some scan_alice39_bob.1
  · rw [runAll_append, run_to_delete]
    show recordsAfter layout4K (Parser.runAll layout4K _ [.undo, .redo]) = _
    rw [runAll_cons_ok _ _ _ _ (undo_after_delete _),
      runAll_cons_ok _ _ _ _ (redo_after_undo _ _)]
    exact congrArg some scan_alice39_bob.1
  · rw [runAll_append, run_to_delete]
    show recordsAfter layout4K (Parser.runAll layout4K _ [.undo, .redo, .undo]) = _
    rw [runAll_cons_ok _ _ _ _ (undo_after_delete _),
      runAll_cons_ok _ _ _ _ (redo_after_undo _ _),
      runAll_cons_ok _ _ _ _ (undo_after_redo _ _)]
    exact congrArg some scan_alice39_bob.1
  · rw [runAll_append, run_to_delete]
    show recordsAfter layout4K (Parser.runAll layout4K _ [.undo, .select, .redo, .select]) = _
    rw [runAll_cons_ok _ _ _ _ (undo_after_delete _),
      runAll_cons_ok _ _ _ _ (select_students _ _ _),
      runAll_cons_ok _ _ _ _ (run_redo_empty _ rfl),
      runAll_cons_ok _ _ _ _ (select_students _ _ _)]
    exact congrArg some scan_alice39_bob.1

/-! ## Records as the file keeps them -/

theorem toBytesLE_mod (k n : Nat) : toBytesLE k (n % 256 ^ k) = toBytesLE k n := by
  induction k generalizing n with
  | zero => rfl
  | succ k ih =>
    have e1 : n % 256 ^ (k + 1) % 256 = n % 256 :=
      Nat.mod_mod_of_dvd n (Dvd.intro_left (256 ^ k) rfl)
    have e2 : n % 256 ^ (k + 1) / 256 = (n / 256) % 256 ^ k := by
      rw [pow_succ, Nat.mul_comm, Nat.mod_mul_right_div_self]
    simp only [toBytesLE]
    rw [e1, e2, ih]

theorem toInt32_toNat (n : Nat) : (toInt32 n % 4294967296).toNat = n % 4294967296 := by
  unfold toInt32
  have := Nat.mod_lt n (show 0 < 4294967296 by decide)
  split <;> omega

theorem serializeField_canon (out : List Nat) (v : RecordValue) :
    serializeField out v.canon = serializeField out v := by
  cases v with
  | Integer x =>
    simp only [RecordValue.canon, serializeField]
    rw [toInt32_toNat]
    have : (x % 4294967296).toNat % 4294967296 = (x % 4294967296).toNat := by omega
    rw [this]
  | Float f =>
    simp only [RecordValue.canon, serializeField]
    have := toBytesLE_mod 4 f
    have e : (256 : Nat) ^ 4 = 4294967296 := by decide
    rw [e] at this
    rw [this]
  | Text s =>
    have hl : (s.take (s.length % 65536)).length = s.length % 65536 := by
      rw [List.length_take]
      exact Nat.min_eq_left (Nat.mod_le _ _)
    simp only [RecordValue.canon, serializeField, hl, Nat.mod_mod, List.take_take, Nat.min_self]

theorem foldl_serializeField_canon (fs : List RecordValue) (out : List Nat) :
    (fs.map RecordValue.canon).foldl serializeField out = fs.foldl serializeField out := by
  induction fs generalizing out with
  | nil => rfl
  | cons v fs ih => rw [List.map_cons, List.foldl_cons, List.foldl_cons, serializeField_canon, ih]

theorem serializeRecord_canon (r : Record) : serializeRecord r.canon = serializeRecord r := by
  unfold serializeRecord Record.canon
  simp only [List.length_map]
  exact foldl_serializeField_canon _ _

theorem canon_encodable (r : Record) (hn : r.fields.length ≤ 65535) : r.canon.Encodable := by
  refine ⟨by simpa [Record.canon] using hn, ?_⟩
  intro v hv
  simp only [Record.canon, List.mem_map] at hv
  obtain ⟨w, -, rfl⟩ := hv
  cases w with
  | Integer x => exact ⟨toInt32_inRange _, True.intro⟩
  | Float f => exact ⟨Nat.mod_lt _ (by decide), True.intro⟩
  | Text s =>
    refine ⟨True.intro, ?_⟩
    show (s.take (s.length % 65536)).length ≤ 65535
    rw [List.length_take]
    have := Nat.mod_lt s.length (show 0 < 65536 by decide)
    omega

theorem canon_of_encodable (r : Record) (h : r.Encodable) : r.canon = r := by
  obtain ⟨-, hf⟩ := h
  cases r with
  | mk fields =>
    simp only [Record.canon, Record.mk.injEq]
    have : ∀ v ∈ fields, RecordValue.canon v = v := by
      intro v hv
      obtain ⟨hr, ht⟩ := hf v hv
      cases v with
      | Integer x =>
        obtain ⟨h1, h2⟩ := hr
        simp only [RecordValue.canon, toInt32_roundtrip x h1 h2]
      | Float f =>
        have hf : f < 4294967296 := hr
        simp only [RecordValue.canon, Nat.mod_eq_of_lt hf]
      | Text s =>
        have hs : s.length ≤ 65535 := ht
        simp only [RecordValue.canon, Nat.mod_eq_of_lt (show s.length < 65536 by omega),
          List.take_length]
    calc fields.map RecordValue.canon = fields.map id := List.map_congr_left this
      _ = fields := List.map_id _

theorem getId_canon (r : Record) (h : r.InRange) : getId r.canon = getId r := by
  cases r with
  | mk fields =>
    cases fields with
    | nil => rfl
    | cons v fs =>
      cases v with
      | Integer x =>
        obtain ⟨h1, h2⟩ := h (.Integer x) (List.mem_cons_self _ _)
        simp only [Record.canon, List.map_cons, RecordValue.canon, getId,
          toInt32_roundtrip x h1 h2]
      | Float f => rfl
      | Text s => rfl

theorem hasId_canon (r : Record) (h : r.HasId) : r.canon.HasId := by
  cases r with
  | mk fields =>
    cases fields with
    | nil => obtain ⟨k, hk⟩ := h; cases hk
    | cons v fs =>
      cases v with
      | Integer x => exact ⟨_, rfl⟩
      | Float f => obtain ⟨k, hk⟩ := h; cases hk
      | Text s => obtain ⟨k, hk⟩ := h; cases hk

theorem length_foldl_serializeField_ge (fs : List RecordValue) :
    fs.length ≤ (fs.foldl serializeField []).length := by
  induction fs with
  | nil => simp
  | cons v fs ih =>
    rw [List.foldl_cons, foldl_serializeField, List.length_append, List.length_cons]
    have := length_serializeField_pos v
    omega

theorem fields_le_of_length (r : Record) (h : (serializeRecord r).length ≤ 65535) :
    r.fields.length ≤ 65535 := by
  rw [serializeRecord_eq, List.length_append, length_toBytesLE] at h
  have := length_foldl_serializeField_ge r.fields
  omega

theorem canon_storable (c : Layout) (hc : c.Valid) (r : Record) (h : r.FitsEmptyPage c) :
    r.canon.Storable c := by
  have h16 := hc.2.2
  have hfit : (serializeRecord r).length + 5 ≤ c.PAGE_SIZE - c.PAGE_HEADER_RESERVED := h
  refine ⟨canon_encodable r (fields_le_of_length r (by omega)), ?_⟩
  show (serializeRecord r.canon).length + 5 ≤ c.PAGE_SIZE - c.PAGE_HEADER_RESERVED
  rw [serializeRecord_canon]
  exact hfit

/-- A proper prefix of an encoding does not decode. -/
theorem deserializeRecord_take (r : Record) (hn : r.fields.length ≤ 65535)
    (ht : ∀ v ∈ r.fields, v.TextFits) (k : Nat) (hk : k < (serializeRecord r).length) :
    deserializeRecord ((serializeRecord r).take k) = none := by
  have hlen : r.fields.length % 65536 = r.fields.length := Nat.mod_eq_of_lt (by omega)
  have hb : (toBytesLE 2 r.fields.length).length = 2 := length_toBytesLE _ _
  rw [serializeRecord_eq, hlen] at hk ⊢
  rw [List.length_append, hb] at hk
  unfold deserializeRecord
  by_cases h2 : k < 2
  · rw [if_pos (by rw [List.length_take]; omega)]
  · rw [if_neg (by rw [List.length_take, List.length_append, hb]; omega)]
    have htake : List.take k (toBytesLE 2 r.fields.length ++ List.foldl serializeField [] r.fields)
        = toBytesLE 2 r.fields.length ++ (List.foldl serializeField [] r.fields).take (k - 2) := by
      rw [List.take_append_eq_append_take, List.take_of_length_le (by omega), hb]
    rw [htake]
    have hr : readAt (toBytesLE 2 r.fields.length ++
        (List.foldl serializeField [] r.fields).take (k - 2)) 0 2
        = toBytesLE 2 r.fields.length := by
      have := readAt_append_left [] (toBytesLE 2 r.fields.length)
        ((List.foldl serializeField [] r.fields).take (k - 2))
      simpa [hb] using this
    simp only [hr, fromBytesLE_toBytesLE_two _ (show r.fields.length < 65536 by omega)]
    have key := deserializeFields_truncated r.fields ht (toBytesLE 2 r.fields.length) (k - 2)
      (by omega) []
    rw [hb] at key
    rw [key]
    rfl

/-- What a scan makes of a record of at most 65535 fields that was stored: the
record as the wire format keeps it when its encoding has fewer than 65536
bytes, nothing when the encoding was cut. -/
theorem storedRecord_eq (r : Record) (hn : r.fields.length ≤ 65535) :
    storedRecord r = if (serializeRecord r).length < 65536 then some r.canon else none := by
  unfold storedRecord storedBytes
  have henc := canon_encodable r hn
  by_cases h : (serializeRecord r).length < 65536
  · rw [if_pos h, Nat.mod_eq_of_lt h, List.take_length, ← serializeRecord_canon,
      deserialize_serialize _ henc]
  · rw [if_neg h, ← serializeRecord_canon]
    have hlt := Nat.mod_lt (serializeRecord r.canon).length (show 0 < 65536 by decide)
    rw [serializeRecord_canon] at hlt
    exact deserializeRecord_take r.canon henc.1 (fun v hv => (henc.2 v hv).2) _ (by
      rw [serializeRecord_canon]; omega)

theorem storedRecord_of_storable (c : Layout) (hc : c.Valid) (r : Record) (h : r.Storable c) :
    storedRecord r = some r := by
  have h16 := hc.2.2
  have hfit : (serializeRecord r).length + 5 ≤ c.PAGE_SIZE - c.PAGE_HEADER_RESERVED := h.2
  rw [storedRecord_eq r h.1.1, if_pos (by omega), canon_of_encodable r h.1]

/-! ## Scanning what a rewrite wrote, for any records -/

/-- The records of a page after `insertRawRecord` of any bytes that find room:
the records before, and what the stored bytes decode to. -/
theorem Page.selectRecords_insert_bytes {c : Layout} {p : Page} (hc : c.Valid) (h : p.Inv c)
    (b : List Nat)
    (hroom : b.length % 65536 + 5 ≤ c.PAGE_SIZE - p.freeSpaceOffset - 5 * p.slots.length) :
    (p.insertRawRecord c b).1.selectRecords c
      = p.selectRecords c ++ (deserializeRecord (b.take (b.length % 65536))).toList := by
  have hroom' := h.room
  have hd := h.data_length
  have hl : (b.take (b.length % 65536)).length = b.length % 65536 := by
    rw [List.length_take]
    exact Nat.min_eq_left (Nat.mod_le _ _)
  rw [Page.insertRawRecord_of_room hc h _ hroom]
  rw [Page.selectRecords_eq, Page.selectRecords_eq]
  simp only [List.filterMap_append]
  congr 1
  · apply List.filterMap_congr
    intro slot hslot
    have hw := h.contiguous.within slot hslot
    apply selectSlot_congr
    intro i h1 h2
    rw [getElem?_memcpy _ _ _ _ (by rw [hl]; omega), if_pos (by omega)]
  · have hread : readAt (memcpy p.data p.freeSpaceOffset (b.take (b.length % 65536)))
        p.freeSpaceOffset (b.length % 65536) = b.take (b.length % 65536) := by
      have := readAt_memcpy_same p.data p.freeSpaceOffset (b.take (b.length % 65536))
        (by rw [hl]; omega)
      rw [hl] at this
      exact this
    simp only [List.filterMap_cons, List.filterMap_nil, selectSlot, Bool.not_true,
      Bool.false_eq_true, if_false]
    rw [if_neg (by omega)]
    simp only [Option.getD_some, hread]
    cases deserializeRecord (List.take (b.length % 65536) b) <;> rfl

theorem selectRecords_empty (c : Layout) (n : Nat) :
    ({ Page.empty c with pageID := n } : Page).selectRecords c = [] := by
  rw [Page.selectRecords_eq]; rfl

theorem keptFrom_room (c : Layout) (p p1 : Page) (sid : Nat) (r : Record) (rs : List Record)
    (h : p.insertRawRecord c (serializeRecord r) = (p1, some sid)) :
    keptFrom c p (r :: rs) = (storedRecord r).toList ++ keptFrom c p1 rs := by
  rw [keptFrom, h]

theorem keptFrom_spill (c : Layout) (p p1 q : Page) (sid : Nat) (r : Record) (rs : List Record)
    (h : p.insertRawRecord c (serializeRecord r) = (p1, none))
    (h2 : ({ Page.empty c with pageID := 1 } : Page).insertRawRecord c (serializeRecord r)
      = (q, some sid)) :
    keptFrom c p (r :: rs) = (storedRecord r).toList ++ keptFrom c q rs := by
  rw [keptFrom, h]
  simp only [h2]

theorem keptFrom_drop (c : Layout) (p p1 q : Page) (r : Record) (rs : List Record)
    (h : p.insertRawRecord c (serializeRecord r) = (p1, none))
    (h2 : ({ Page.empty c with pageID := 1 } : Page).insertRawRecord c (serializeRecord r)
      = (q, none)) :
    keptFrom c p (r :: rs) = keptFrom c q rs := by
  rw [keptFrom, h]
  simp only [h2]

/-- What `selectAll` returns from the file the rewrite loop of `insertRecord`
and `updateRecord` writes, for any records. -/
theorem scan_keptFrom (c : Layout) (hc : c.Valid) (rs : List Record) (p : Page)
    (h : p.Inv c) (hn : rs.length + 1 < 4294967296) :
    selectAll c (some (writeFrom c p rs)) = p.selectRecords c ++ keptFrom c p rs ∧
    ∃ k, (writeFrom c p rs).length = k * c.PAGE_SIZE ∧ k ≤ rs.length + 1 := by
  have hpos : 0 < c.PAGE_SIZE := by have := hc.1; have := hc.2.1; omega
  induction rs generalizing p with
  | nil =>
    have := scan_writeFrom c hc [] p h (fun r hr => by cases hr) hn
    exact ⟨by rw [this.1]; rfl, this.2.2⟩
  | cons r rs ih =>
    simp only [List.length_cons] at hn
    by_cases hroom : (serializeRecord r).length % 65536 + 5
        ≤ c.PAGE_SIZE - p.freeSpaceOffset - 5 * p.slots.length
    · have hres := Page.insertRawRecord_of_room hc h (serializeRecord r) hroom
      have hsel := Page.selectRecords_insert_bytes hc h (serializeRecord r) hroom
      have hinv1 := h.insertRawRecord hc (serializeRecord r)
      obtain ⟨i1, k, i3, i4⟩ := ih _ hinv1 (by omega)
      rw [writeFrom_cons_room c p _ _ r rs hres, keptFrom_room c p _ _ r rs hres]
      rw [hres] at hsel i1 i3
      rw [i1, hsel]
      exact ⟨by simp [storedRecord, storedBytes], k, i3, by simp; omega⟩
    · have hno := Page.insertRawRecord_of_no_room hc h (serializeRecord r) (by omega)
      have hinv0 := Page.Inv.empty c hc 1 (by decide)
      have hlen := Page.length_serializeToBuffer hc h
      rw [writeFrom_cons_no_room c p p r rs hno]
      by_cases hroom0 : (serializeRecord r).length % 65536 + 5
          ≤ c.PAGE_SIZE - ({ Page.empty c with pageID := 1 } : Page).freeSpaceOffset
            - 5 * ({ Page.empty c with pageID := 1 } : Page).slots.length
      · have hres := Page.insertRawRecord_of_room hc hinv0 (serializeRecord r) hroom0
        have hsel := Page.selectRecords_insert_bytes hc hinv0 (serializeRecord r) hroom0
        have hinv1 := hinv0.insertRawRecord hc (serializeRecord r)
        obtain ⟨i1, k, i3, i4⟩ := ih _ hinv1 (by omega)
        rw [keptFrom_spill c p p _ _ r rs hno hres]
        refine ⟨?_, k + 1, ?_, by simp; omega⟩
        · rw [selectAll_append c _ _ hlen hpos (by rw [i3, div_page k _ hpos]; omega),
            Page.selectRecords_roundtrip hc h, i1, hsel, selectRecords_empty]
          rw [hres]
          simp [storedRecord, storedBytes]
        · rw [List.length_append, hlen, i3, Nat.succ_mul]; omega
      · have hres := Page.insertRawRecord_of_no_room hc hinv0 (serializeRecord r) (by omega)
        obtain ⟨i1, k, i3, i4⟩ := ih _ hinv0 (by omega)
        rw [keptFrom_drop c p p _ r rs hno hres]
        rw [hres]
        refine ⟨?_, k + 1, ?_, by simp; omega⟩
        · rw [selectAll_append c _ _ hlen hpos (by rw [i3, div_page k _ hpos]; omega),
            Page.selectRecords_roundtrip hc h, i1, selectRecords_empty]
          simp
        · rw [List.length_append, hlen, i3, Nat.succ_mul]; omega

theorem scan_keptAll (c : Layout) (hc : c.Valid) (rs : List Record)
    (hn : rs.length + 1 < 4294967296) :
    selectAll c (some (writeAllRecords c rs))
      = keptFrom c { Page.empty c with pageID := 0 } rs := by
  have := (scan_keptFrom c hc rs _ (Page.Inv.empty c hc 0 (by decide)) hn).1
  rw [selectRecords_empty, List.nil_append] at this
  exact this

theorem deleteStep_room (c : Layout) (p1 : Page) (sid : Nat) (r : Record)
    (h : ({ Page.empty c with pageID := 0 } : Page).insertRawRecord c (serializeRecord r)
      = (p1, some sid)) :
    deleteStep c [] r = p1.serializeToBuffer c ∧ keptByDelete c r = (storedRecord r).toList := by
  constructor
  · simp only [deleteStep, h, List.nil_append]
  · simp only [keptByDelete, h]

theorem deleteStep_no_room (c : Layout) (p1 : Page) (r : Record)
    (h : ({ Page.empty c with pageID := 0 } : Page).insertRawRecord c (serializeRecord r)
      = (p1, none)) :
    deleteStep c [] r = [] ∧ keptByDelete c r = [] := by
  constructor
  · simp only [deleteStep, h]
  · simp only [keptByDelete, h]

/-- What `selectAll` returns from the file the rewrite loop of `deleteRecord`
writes, for any records. -/
theorem scan_keptByDelete (c : Layout) (hc : c.Valid) (rs : List Record)
    (hn : rs.length + 1 < 4294967296) :
    selectAll c (some (rs.foldl (deleteStep c) [])) = rs.flatMap (keptByDelete c) ∧
    ∃ k, (rs.foldl (deleteStep c) []).length = k * c.PAGE_SIZE ∧ k ≤ rs.length := by
  have hpos : 0 < c.PAGE_SIZE := by have := hc.1; have := hc.2.1; omega
  induction rs with
  | nil => exact ⟨selectAll_nil c hpos, 0, by simp, by simp⟩
  | cons r rs ih =>
    simp only [List.length_cons] at hn
    obtain ⟨i1, k, i3, i4⟩ := ih (by omega)
    have hinv0 := Page.Inv.empty c hc 0 (by decide)
    rw [List.foldl_cons, foldl_deleteStep_out, List.flatMap_cons]
    by_cases hroom : (serializeRecord r).length % 65536 + 5
        ≤ c.PAGE_SIZE - ({ Page.empty c with pageID := 0 } : Page).freeSpaceOffset
          - 5 * ({ Page.empty c with pageID := 0 } : Page).slots.length
    · have hsel := Page.selectRecords_insert_bytes hc hinv0 (serializeRecord r) hroom
      have hinv1 := hinv0.insertRawRecord hc (serializeRecord r)
      obtain ⟨p1, sid, hres⟩ : ∃ p1 sid, ({ Page.empty c with pageID := 0 } : Page).insertRawRecord
          c (serializeRecord r) = (p1, some sid) :=
        ⟨_, _, Page.insertRawRecord_of_room hc hinv0 (serializeRecord r) hroom⟩
      rw [hres] at hsel hinv1
      dsimp only at hsel hinv1
      have hlen := Page.length_serializeToBuffer hc hinv1
      obtain ⟨e1, e2⟩ := deleteStep_room c _ _ r hres
      rw [e1, e2]
      refine ⟨?_, k + 1, ?_, by simp only [List.length_cons]; omega⟩
      · rw [selectAll_append c _ _ hlen hpos (by rw [i3, div_page k _ hpos]; omega),
          Page.selectRecords_roundtrip hc hinv1, i1, hsel, selectRecords_empty]
        simp [storedRecord, storedBytes]
      · rw [List.length_append, hlen, i3, Nat.succ_mul]; omega
    · have hres := Page.insertRawRecord_of_no_room hc hinv0 (serializeRecord r) (by omega)
      obtain ⟨e1, e2⟩ := deleteStep_no_room c _ r hres
      rw [e1, e2, List.nil_append, List.nil_append]
      exact ⟨i1, k, i3, by simp only [List.length_cons]; omega⟩

theorem toList_sublist_filterMap_cons (r : Record) (rs X : List Record)
    (h : X.Sublist (rs.filterMap storedRecord)) :
    ((storedRecord r).toList ++ X).Sublist ((r :: rs).filterMap storedRecord) := by
  rw [List.filterMap_cons]
  cases storedRecord r with
  | none => exact h
  | some y => exact List.Sublist.cons₂ y h

theorem sublist_filterMap_cons (r : Record) (rs X : List Record)
    (h : X.Sublist (rs.filterMap storedRecord)) :
    X.Sublist ((r :: rs).filterMap storedRecord) := by
  rw [List.filterMap_cons]
  cases storedRecord r with
  | none => exact h
  | some y => exact List.Sublist.cons y h

/-- The rewrite loop stores records or drops them; it keeps their order. -/
theorem keptFrom_sublist (c : Layout) (rs : List Record) (p : Page) :
    (keptFrom c p rs).Sublist (rs.filterMap storedRecord) := by
  induction rs generalizing p with
  | nil => exact List.Sublist.slnil
  | cons r rs ih =>
    rw [keptFrom]
    cases h : p.insertRawRecord c (serializeRecord r) with
    | mk p1 o =>
      cases o with
      | some sid => exact toList_sublist_filterMap_cons r rs _ (ih p1)
      | none =>
        simp only []
        cases h2 : ({ Page.empty c with pageID := 1 } : Page).insertRawRecord c
            (serializeRecord r) with
        | mk q o2 =>
          cases o2 with
          | some sid => exact toList_sublist_filterMap_cons r rs _ (ih q)
          | none => exact sublist_filterMap_cons r rs _ (ih q)

theorem keptByDelete_sublist (c : Layout) (rs : List Record) :
    (rs.flatMap (keptByDelete c)).Sublist (rs.filterMap storedRecord) := by
  induction rs with
  | nil => exact List.Sublist.slnil
  | cons r rs ih =>
    rw [List.flatMap_cons, keptByDelete]
    cases h : ({ Page.empty c with pageID := 0 } : Page).insertRawRecord c
        (serializeRecord r) with
    | mk p1 o =>
      cases o with
      | some sid => exact toList_sublist_filterMap_cons r rs _ ih
      | none => exact sublist_filterMap_cons r rs _ ih

/-! ## The two scans of any file -/

theorem loadPages_sublist (c : Layout) (hpos : 0 < c.PAGE_SIZE) (n : Nat) (bytes : List Nat)
    (hn : n ≤ bytes.length / c.PAGE_SIZE)
    (hp : (bytes.length + c.PAGE_SIZE - 1) / c.PAGE_SIZE < 4294967296) :
    (loadPages c n bytes).Sublist (selectAll c (some bytes)) := by
  induction n generalizing bytes with
  | zero => rw [loadPages]; exact List.nil_sublist _
  | succ n ih =>
    have hge : c.PAGE_SIZE ≤ bytes.length := by
      have h1 : 1 ≤ bytes.length / c.PAGE_SIZE := by omega
      exact (Nat.one_le_div_iff hpos).1 h1
    have hl : (bytes.take c.PAGE_SIZE).length = c.PAGE_SIZE := by
      rw [List.length_take]; omega
    have hd : (bytes.drop c.PAGE_SIZE).length = bytes.length - c.PAGE_SIZE := List.length_drop _ _
    have e1 : bytes.length = (bytes.length - c.PAGE_SIZE) + c.PAGE_SIZE := by omega
    have hdiv : bytes.length / c.PAGE_SIZE = (bytes.length - c.PAGE_SIZE) / c.PAGE_SIZE + 1 := by
      conv_lhs => rw [e1]
      exact Nat.add_div_right _ hpos
    have e2 : bytes.length + c.PAGE_SIZE - 1
        = (bytes.length - c.PAGE_SIZE + c.PAGE_SIZE - 1) + c.PAGE_SIZE := by omega
    have hdiv2 : (bytes.length + c.PAGE_SIZE - 1) / c.PAGE_SIZE
        = (bytes.length - c.PAGE_SIZE + c.PAGE_SIZE - 1) / c.PAGE_SIZE + 1 := by
      rw [e2]
      exact Nat.add_div_right _ hpos
    have ih' := ih (bytes.drop c.PAGE_SIZE) (by rw [hd]; omega) (by rw [hd]; omega)
    have hsel := selectAll_append c (bytes.take c.PAGE_SIZE) (bytes.drop c.PAGE_SIZE) hl hpos
      (by rw [hd]; omega)
    rw [List.take_append_drop] at hsel
    rw [hsel, loadPages]
    split
    · exact List.nil_sublist _
    · rw [Page.loadRecords_eq_selectRecords]
      exact List.Sublist.append (List.Sublist.refl _) ih'

/-- The records `loadAllRecords` returns are among those `selectAll` returns, in
the same order. -/
theorem loadAllRecords_sublist (c : Layout) (hc : c.Valid) (f : DataFile) (hf : FewPages c f) :
    (loadAllRecords c f).Sublist (selectAll c f) := by
  have hpos : 0 < c.PAGE_SIZE := by have := hc.1; have := hc.2.1; omega
  cases f with
  | none => exact List.nil_sublist _
  | some bytes => exact loadPages_sublist c hpos _ bytes (Nat.le_refl _) (hf bytes rfl)

/-- Every record a scan returns was decoded from some bytes. -/
theorem mem_selectAll_decoded (c : Layout) (f : DataFile) (r : Record)
    (h : r ∈ selectAll c f) : ∃ b, deserializeRecord b = some r := by
  unfold selectAll at h
  rw [List.mem_flatMap] at h
  obtain ⟨i, -, hi⟩ := h
  rw [Page.selectRecords_eq, List.mem_filterMap] at hi
  obtain ⟨slot, -, hs⟩ := hi
  unfold selectSlot at hs
  split at hs
  · cases hs
  · exact ⟨_, hs⟩

theorem selectAll_encodable (c : Layout) (f : DataFile) (r : Record)
    (h : r ∈ selectAll c f) : r.Encodable := by
  obtain ⟨b, hb⟩ := mem_selectAll_decoded c f r h
  exact (reencode b r hb).1

/-! ## The two scanners on the tables the engine builds -/

theorem writeAllRecords_canon_last (c : Layout) (rs : List Record) (rec : Record) :
    writeAllRecords c (rs ++ [rec]) = writeAllRecords c (rs ++ [rec.canon]) :=
  writeAllRecords_congr c _ _ (by
    rw [List.map_append, List.map_append, List.map_singleton, List.map_singleton,
      serializeRecord_canon])

theorem writeAllRecords_canon_mid (c : Layout) (pre post : List Record) (rec : Record) :
    writeAllRecords c (pre ++ rec :: post) = writeAllRecords c (pre ++ rec.canon :: post) :=
  writeAllRecords_congr c _ _ (by
    rw [List.map_append, List.map_append, List.map_cons, List.map_cons, serializeRecord_canon])

/-- A table built from records that have an Integer `fields[0]` and fit an empty
page is consistent: both scans return the same records, as the wire format keeps
them. -/
theorem FitTable.keepsInv {c : Layout} (hc : c.Valid) {f : DataFile} (h : FitTable c f) :
    TableInv c f := by
  induction h with
  | create tableName m =>
    obtain ⟨h1, h2⟩ := tableInv_create c hc tableName m
    refine ⟨by rw [h1, h2], ?_, by rw [h1]; decide⟩
    rw [h1]; intro r hr; cases hr
  | insert f f' rec _ hfit hid hn hop ih =>
    obtain ⟨k, hk⟩ := hid
    have hall : ∀ r ∈ loadAllRecords c f, r.HasId := by
      rw [ih.1]; exact fun r hr => (ih.2.1 r hr).2
    have e0 := insertRecord_eq c f rec k _ hk (eraseById_ok k _ hall)
    rw [e0] at hop
    have ef : some (writeAllRecords c
        ((loadAllRecords c f).filter (fun r => !(r.idIs k)) ++ [rec])) = f' :=
      (Prod.mk.inj (Except.ok.inj hop)).2
    rw [← ef, writeAllRecords_canon_last]
    have hst : ∀ r ∈ (loadAllRecords c f).filter (fun r => !(r.idIs k)) ++ [rec.canon],
        r.Storable c := by
      intro r hr
      rcases List.mem_append.1 hr with hr | hr
      · exact (ih.2.1 r (by rw [← ih.1]; exact (List.mem_filter.1 hr).1)).1
      · rw [List.mem_singleton] at hr; rw [hr]; exact canon_storable c hc rec hfit
    have hlen : ((loadAllRecords c f).filter (fun r => !(r.idIs k)) ++ [rec.canon]).length + 1
        < 4294967296 := by
      have := List.length_filter_le (fun r => !(r.idIs k)) (loadAllRecords c f)
      rw [ih.1] at this ⊢
      simp only [List.length_append, List.length_singleton]; omega
    obtain ⟨s1, s2⟩ := scan_writeAllRecords c hc _ hst hlen
    refine ⟨by rw [s1, s2], ?_, by rw [s1]; exact hlen⟩
    rw [s1]
    intro r hr
    refine ⟨hst r hr, ?_⟩
    rcases List.mem_append.1 hr with hr | hr
    · exact hall r (List.mem_filter.1 hr).1
    · rw [List.mem_singleton] at hr; rw [hr]; exact hasId_canon rec ⟨k, hk⟩
  | update f f' id new _ hfit hid hop ih =>
    by_cases hex : ∃ r ∈ selectAll c f, getId r = .ok id
    · obtain ⟨pre, r, post, hsplit, hpre, hr⟩ :=
        exists_first_with_id id _ (fun r hr => (ih.2.1 r hr).2) hex
      have e0 := updateRecord_eq c f id new (pre ++ new :: post) (by
        rw [ih.1, hsplit]; exact replaceFirst_hit id new pre r post hpre hr)
      rw [e0] at hop
      have ef : some (writeAllRecords c (pre ++ new :: post)) = f' :=
        (Prod.mk.inj (Except.ok.inj hop)).2
      rw [← ef, writeAllRecords_canon_mid]
      have hst : ∀ x ∈ pre ++ new.canon :: post, x.Storable c ∧ x.HasId := by
        intro x hx
        rcases List.mem_append.1 hx with hx | hx
        · exact ih.2.1 x (by rw [hsplit]; exact List.mem_append_left _ hx)
        · rcases List.mem_cons.1 hx with hx | hx
          · rw [hx]; exact ⟨canon_storable c hc new hfit, hasId_canon new hid⟩
          · exact ih.2.1 x (by
              rw [hsplit]; exact List.mem_append_right _ (List.mem_cons_of_mem _ hx))
      have hlen : (pre ++ new.canon :: post).length + 1 < 4294967296 := by
        have := ih.2.2
        rw [hsplit] at this
        simpa using this
      obtain ⟨s1, s2⟩ := scan_writeAllRecords c hc _ (fun x hx => (hst x hx).1) hlen
      exact ⟨by rw [s1, s2], by rw [s1]; exact hst, by rw [s1]; exact hlen⟩
    · exfalso
      have hmiss : ∀ r ∈ loadAllRecords c f, ∃ k, getId r = .ok k ∧ k ≠ id := by
        rw [ih.1]
        intro r hr
        obtain ⟨k, hk⟩ := (ih.2.1 r hr).2
        exact ⟨k, hk, fun e => hex ⟨r, hr, by rw [hk, e]⟩⟩
      rw [(miss_atomic c f id new hmiss).1] at hop
      have := (Prod.mk.inj (Except.ok.inj hop)).1
      cases this
  | delete f f' id _ hop ih =>
    by_cases hex : ∃ r ∈ selectAll c f, getId r = .ok id
    · obtain ⟨e1, e2, e3⟩ := deleteRecord_spec c hc f ih id hex
      rw [e1] at hop
      have ef := (Prod.mk.inj (Except.ok.inj hop)).2
      rw [← ef]
      refine ⟨by rw [e2, e3], ?_, ?_⟩
      · rw [e2]
        intro r hr
        exact ih.2.1 r (List.mem_filter.1 hr).1
      · rw [e2]
        have := List.length_filter_le (fun r => !(r.idIs id)) (selectAll c f)
        have := ih.2.2
        omega
    · exfalso
      have hmiss : ∀ r ∈ loadAllRecords c f, ∃ k, getId r = .ok k ∧ k ≠ id := by
        rw [ih.1]
        intro r hr
        obtain ⟨k, hk⟩ := (ih.2.1 r hr).2
        exact ⟨k, hk, fun e => hex ⟨r, hr, by rw [hk, e]⟩⟩
      rw [(miss_atomic c f id { fields := [] } hmiss).2] at hop
      have := (Prod.mk.inj (Except.ok.inj hop)).1
      cases this

theorem longText_fits (id : Int) : (longTextRecord id).FitsEmptyPage layout4K := by
  unfold Record.FitsEmptyPage
  rw [serializeRecord_longText, emptyTextRecord,
    length_serializeRecord_int_text _ _ (by simp)]
  show 10 + 0 + 5 ≤ 4096 - 16
  decide

theorem insert_longText :
    insertRecord layout4K (newTable layout4K) (longTextRecord 1)
      = .ok (true, some (writeAllRecords layout4K [longTextRecord 1])) :=
  insertRecord_eq layout4K _ _ 1 [] rfl (by
    rw [(tableInv_newTable layout4K layout4K_valid).1.1,
      (tableInv_newTable layout4K layout4K_valid).2]; rfl)

/-- C22 (amended): for every data file reachable from `createTable` by any
sequence of successful `insertRecord`, `updateRecord` and `deleteRecord` calls
whose records have an Integer `fields[0]` and each fit in an empty page, each
insert being made while the table holds fewer than 2^32 − 2 records,
`selectAll` and `loadAllRecords` return the same sequence of records. -/
theorem C22_scanners_agree (c : Layout) (hc : c.Valid) (f : DataFile) (h : FitTable c f) :
    selectAll c f = loadAllRecords c f :=
  (h.keepsInv hc).1.symm

theorem C22_scanners_agree_witness :
    layout4K.Valid ∧
    FitTable layout4K (some (writeAllRecords layout4K [longTextRecord 1])) ∧
    selectAll layout4K (some (writeAllRecords layout4K [longTextRecord 1]))
      = loadAllRecords layout4K (some (writeAllRecords layout4K [longTextRecord 1])) :=
  have h : FitTable layout4K (some (writeAllRecords layout4K [longTextRecord 1])) :=
    FitTable.insert (newTable layout4K) _ (longTextRecord 1)
      (FitTable.create "students" none) (longText_fits 1) ⟨1, rfl⟩
      (by rw [(tableInv_newTable layout4K layout4K_valid).2]; decide) insert_longText
  ⟨layout4K_valid, h, C22_scanners_agree layout4K layout4K_valid _ h⟩

/-! ## A record too long for a page -/

theorem EngineTable.fitTable {c : Layout} {f : DataFile} (h : EngineTable c f) :
    FitTable c f := by
  induction h with
  | create tableName m => exact FitTable.create tableName m
  | insert f f' rec _ hst hid hn hop ih => exact FitTable.insert f f' rec ih hst.2 hid hn hop
  | update f f' id new _ hst hid hop ih => exact FitTable.update f f' id new ih hst.2 hid hop
  | delete f f' id _ hop ih => exact FitTable.delete f f' id ih hop

/-- The rewrite loop on records that fit a page followed by one that does not:
the scan finds the records that fit. -/
theorem keptFrom_then_big (c : Layout) (hc : c.Valid) (rec : Record)
    (hlen : (serializeRecord rec).length < 65536) (hbig : ¬ rec.FitsEmptyPage c)
    (rs : List Record) (hrs : ∀ r ∈ rs, r.Storable c) (p : Page) (hp : p.Inv c) :
    keptFrom c p (rs ++ [rec]) = rs := by
  have h16 := hc.2.2
  have hbig : ¬ (serializeRecord rec).length + 5 ≤ c.PAGE_SIZE - c.PAGE_HEADER_RESERVED := hbig
  have hmodr : (serializeRecord rec).length % 65536 = (serializeRecord rec).length :=
    Nat.mod_eq_of_lt hlen
  have hinv1 := Page.Inv.empty c hc 1 (by decide)
  have hno1 : ({ Page.empty c with pageID := 1 } : Page).insertRawRecord c (serializeRecord rec)
      = ({ Page.empty c with pageID := 1 }, none) :=
    Page.insertRawRecord_of_no_room hc hinv1 _ (by
      rw [hmodr]; simp only [Page.empty, List.length_nil]; omega)
  induction rs generalizing p with
  | nil =>
    have hH := hp.contiguous.le
    have hno := Page.insertRawRecord_of_no_room hc hp (serializeRecord rec) (by
      rw [hmodr]; omega)
    rw [List.nil_append, keptFrom_drop c p p _ rec [] hno hno1, keptFrom]
  | cons r rs ih =>
    have hr := hrs r (List.mem_cons_self _ _)
    have hrest : ∀ x ∈ rs, x.Storable c := fun x hx => hrs x (List.mem_cons_of_mem _ hx)
    have hfit : (serializeRecord r).length + 5 ≤ c.PAGE_SIZE - c.PAGE_HEADER_RESERVED := hr.2
    have hmod : (serializeRecord r).length % 65536 = (serializeRecord r).length :=
      Nat.mod_eq_of_lt (by omega)
    have hst := storedRecord_of_storable c hc r hr
    rw [List.cons_append]
    by_cases hroom : (serializeRecord r).length % 65536 + 5
        ≤ c.PAGE_SIZE - p.freeSpaceOffset - 5 * p.slots.length
    · have hres := Page.insertRawRecord_of_room hc hp (serializeRecord r) hroom
      have hinv := hp.insertRawRecord hc (serializeRecord r)
      rw [hres] at hinv
      rw [keptFrom_room c p _ _ r _ hres, hst, ih hrest _ hinv]
      rfl
    · have hno := Page.insertRawRecord_of_no_room hc hp (serializeRecord r) (by omega)
      have hres := Page.insertRawRecord_of_room hc hinv1 (serializeRecord r) (by
        rw [hmod]; simp only [Page.empty, List.length_nil]; omega)
      have hinv := hinv1.insertRawRecord hc (serializeRecord r)
      rw [hres] at hinv
      rw [keptFrom_spill c p p _ _ r _ hno hres, hst, ih hrest _ hinv]
      rfl

/-- What `insertRecord` of a record too long for a page does to a consistent
table. -/
theorem insert_big (c : Layout) (hc : c.Valid) (f : DataFile) (h : TableInv c f)
    (rec : Record) (k : Int) (hk : getId rec = .ok k)
    (hlen : (serializeRecord rec).length < 65536) (hbig : ¬ rec.FitsEmptyPage c)
    (hn : (selectAll c f).length + 2 < 4294967296) :
    insertRecord c f rec = .ok (true, some (writeAllRecords c
      ((selectAll c f).filter (fun r => !(r.idIs k)) ++ [rec]))) ∧
    selectAll c (some (writeAllRecords c
      ((selectAll c f).filter (fun r => !(r.idIs k)) ++ [rec])))
      = (selectAll c f).filter (fun r => !(r.idIs k)) := by
  have hall : ∀ r ∈ loadAllRecords c f, r.HasId := by
    rw [h.1]; exact fun r hr => (h.2.1 r hr).2
  have e0 := insertRecord_eq c f rec k _ hk (eraseById_ok k _ hall)
  rw [h.1] at e0
  refine ⟨e0, ?_⟩
  have hle := List.length_filter_le (fun r => !(r.idIs k)) (selectAll c f)
  rw [scan_keptAll c hc _ (by
    simp only [List.length_append, List.length_singleton]; omega)]
  exact keptFrom_then_big c hc rec hlen hbig _
    (fun r hr => (h.2.1 r (List.mem_filter.1 hr).1).1) _ (Page.Inv.empty c hc 0 (by decide))

theorem length_oversize : (serializeRecord oversizeRecord).length = 5010 := by
  rw [oversizeRecord, length_serializeRecord_int_text _ _ (by rw [List.length_replicate]; decide),
    List.length_replicate]

theorem oversize_not_fits : ¬ oversizeRecord.FitsEmptyPage layout4K := by
  unfold Record.FitsEmptyPage
  rw [length_oversize]
  show ¬ 5010 + 5 ≤ 4096 - 16
  decide

theorem scan_only_oversize :
    selectAll layout4K (some (writeAllRecords layout4K [oversizeRecord])) = [] := by
  rw [scan_keptAll layout4K layout4K_valid _ (by decide)]
  exact keptFrom_then_big layout4K layout4K_valid oversizeRecord
    (by rw [length_oversize]; decide) oversize_not_fits [] (fun r hr => by cases hr) _
    (Page.Inv.empty layout4K layout4K_valid 0 (by decide))

/-- C26 as stated fails: after the successful `updateRecord(students, 1, r)`
with the 5010-byte record `r` the table starts with an empty page and `selectAll`
returns Bob; `insertRecord` of `r` (Integer `fields[0]` = 1, too long for a page)
returns success, and `selectAll` afterwards returns nothing: Bob, whose id is 2,
is no longer returned. -/
theorem C26_counterexample :
    updateRecord layout4K students 1 oversizeRecord = .ok (true, oversizeTable) ∧
    selectAll layout4K oversizeTable = [bob] ∧
    getId oversizeRecord = .ok 1 ∧ getId bob = .ok 2 ∧
    (serializeRecord oversizeRecord).length < 65536 ∧
    ¬ oversizeRecord.FitsEmptyPage layout4K ∧
    insertRecord layout4K oversizeTable oversizeRecord
      = .ok (true, some (writeAllRecords layout4K [oversizeRecord])) ∧
    selectAll layout4K (some (writeAllRecords layout4K [oversizeRecord])) = [] := by
  refine ⟨?_, ?_, rfl, rfl, by rw [length_oversize]; decide, oversize_not_fits, ?_,
    scan_only_oversize⟩
  · rw [oversizeTable_eq]; exact update_oversize
  · rw [oversizeTable_eq]; exact scan_oversize.1
  · rw [oversizeTable_eq]
    exact insertRecord_eq layout4K _ oversizeRecord 1 [] rfl (by rw [scan_oversize.2]; rfl)

/-- C26 (amended): for every table produced by the engine from records that have
an Integer `fields[0]` and fit in an empty page (`createTable` followed by
successful `insertRecord`, `updateRecord` and `deleteRecord` calls with such
records) that holds fewer than 2^32 − 2 records, and every record `rec` with an
Integer `fields[0]` whose encoding is shorter than 65536 bytes but too long to
fit in an empty page, `insertRecord(t, rec)` returns success, `selectAll(t)`
afterwards does not contain `rec`, and it returns the records of a different id
that `selectAll` returned before, in the same order, and no others. -/
theorem C26_oversized_record_dropped (c : Layout) (hc : c.Valid) (f : DataFile)
    (h : FitTable c f) (rec : Record) (k : Int) (hk : getId rec = .ok k)
    (hlen : (serializeRecord rec).length < 65536) (hbig : ¬ rec.FitsEmptyPage c)
    (hn : (selectAll c f).length + 2 < 4294967296) :
    ∃ f', insertRecord c f rec = .ok (true, f') ∧
      rec ∉ selectAll c f' ∧
      selectAll c f' = (selectAll c f).filter (fun r => !(r.idIs k)) := by
  have hinv := h.keepsInv hc
  obtain ⟨e1, e2⟩ := insert_big c hc f hinv rec k hk hlen hbig hn
  refine ⟨_, e1, ?_, e2⟩
  rw [e2]
  intro hmem
  exact hbig (hinv.2.1 rec (List.mem_filter.1 hmem).1).1.2

theorem C26_oversized_record_dropped_witness :
    layout4K.Valid ∧ FitTable layout4K students ∧ getId oversizeRecord = .ok 1 ∧
    (serializeRecord oversizeRecord).length < 65536 ∧
    ¬ oversizeRecord.FitsEmptyPage layout4K ∧
    (selectAll layout4K students).length + 2 < 4294967296 ∧
    ∃ f', insertRecord layout4K students oversizeRecord = .ok (true, f') ∧
      oversizeRecord ∉ selectAll layout4K f' ∧
      selectAll layout4K f' = (selectAll layout4K students).filter (fun r => !(r.idIs 1)) :=
  have hl : (serializeRecord oversizeRecord).length < 65536 := by
    rw [length_oversize]; decide
  have hn : (selectAll layout4K students).length + 2 < 4294967296 := by
    rw [scan_students.1]; decide
  ⟨layout4K_valid, engineTable_students.fitTable, rfl, hl, oversize_not_fits, hn,
   C26_oversized_record_dropped layout4K layout4K_valid students
     engineTable_students.fitTable oversizeRecord 1 rfl hl oversize_not_fits hn⟩

/-! ## Unique identifiers -/

theorem UniqueIds.sublist {X L : List Record} (h : UniqueIds L) (hs : X.Sublist L) :
    UniqueIds X :=
  ⟨(fun r hr => h.1 r (hs.subset hr)), h.2.sublist hs⟩

/-- A record of at most 65535 fields with 32-bit values comes back from a scan
with the identifier it had. -/
theorem getId_stored (x y : Record) (hn : x.fields.length ≤ 65535) (hr : x.InRange)
    (h : storedRecord x = some y) : getId y = getId x := by
  rw [storedRecord_eq x hn] at h
  split at h
  · cases h; exact getId_canon x hr
  · cases h

theorem uniqueIds_stored (L : List Record)
    (hL : ∀ x ∈ L, x.HasId ∧ x.fields.length ≤ 65535 ∧ x.InRange)
    (hp : L.Pairwise (fun a b => getId a ≠ getId b)) :
    UniqueIds (L.filterMap storedRecord) := by
  induction L with
  | nil => exact ⟨(fun r hr => by cases hr), List.Pairwise.nil⟩
  | cons x L ih =>
    have hx := hL x (List.mem_cons_self _ _)
    have hrest : ∀ z ∈ L, z.HasId ∧ z.fields.length ≤ 65535 ∧ z.InRange :=
      fun z hz => hL z (List.mem_cons_of_mem _ hz)
    obtain ⟨hxL, hpL⟩ := List.pairwise_cons.1 hp
    obtain ⟨i1, i2⟩ := ih hrest hpL
    rw [List.filterMap_cons]
    cases hs : storedRecord x with
    | none => exact ⟨i1, i2⟩
    | some y =>
      have hy := getId_stored x y hx.2.1 hx.2.2 hs
      refine ⟨?_, List.pairwise_cons.2 ⟨?_, i2⟩⟩
      · intro r hr
        rcases List.mem_cons.1 hr with hr | hr
        · obtain ⟨k, hk⟩ := hx.1
          rw [hr]
          exact ⟨k, by rw [hy, hk]⟩
        · exact i1 r hr
      · intro w hw
        obtain ⟨z, hz, hzw⟩ := List.mem_filterMap.1 hw
        have hz2 := hrest z hz
        rw [hy, getId_stored z w hz2.2.1 hz2.2.2 hzw]
        exact hxL z hz

theorem not_idIs_ne (x : Record) (k : Int) (hx : x.HasId) (h : (!(x.idIs k)) = true) :
    getId x ≠ .ok k := by
  obtain ⟨j, hj⟩ := hx
  unfold Record.idIs at h
  rw [hj] at h ⊢
  simp only [Bool.not_eq_true', decide_eq_false_iff_not] at h
  intro e
  exact h (Except.ok.inj e)

/-- The identifiers stay unique through `insertRecord`, `deleteRecord` and an
`updateRecord` that keeps the identifier. -/
theorem uniqueIds_after (c : Layout) (hc : c.Valid) (f : DataFile) (hf : FewPages c f)
    (hn : (selectAll c f).length + 2 < 4294967296) (hu : UniqueIds (selectAll c f)) :
    (∀ rec : Record, rec.HasId → rec.fields.length ≤ 65535 → rec.InRange →
      ∃ f', insertRecord c f rec = .ok (true, f') ∧ UniqueIds (selectAll c f')) ∧
    (∀ id : Int, ∃ b f', deleteRecord c f id = .ok (b, f') ∧ UniqueIds (selectAll c f')) ∧
    (∀ (id : Int) (newRecord : Record), getId newRecord = .ok id →
      newRecord.fields.length ≤ 65535 → newRecord.InRange →
      ∃ b f', updateRecord c f id newRecord = .ok (b, f') ∧ UniqueIds (selectAll c f')) := by
  have hsub := loadAllRecords_sublist c hc f hf
  have hlen0 := hsub.length_le
  have hu0 : UniqueIds (loadAllRecords c f) := hu.sublist hsub
  have henc : ∀ x ∈ loadAllRecords c f, x.HasId ∧ x.fields.length ≤ 65535 ∧ x.InRange := by
    intro x hx
    have he := selectAll_encodable c f x (hsub.subset hx)
    exact ⟨hu0.1 x hx, he.1, fun v hv => (he.2 v hv).1⟩
  refine ⟨?_, ?_, ?_⟩
  · intro rec hid hnf hr
    obtain ⟨k, hk⟩ := hid
    have e0 := insertRecord_eq c f rec k _ hk (eraseById_ok k _ hu0.1)
    refine ⟨_, e0, ?_⟩
    have hle := List.length_filter_le (fun r => !(r.idIs k)) (loadAllRecords c f)
    rw [scan_keptAll c hc _ (by
      simp only [List.length_append, List.length_singleton]; omega)]
    refine (uniqueIds_stored _ ?_ ?_).sublist (keptFrom_sublist c _ _)
    · intro x hx
      rcases List.mem_append.1 hx with hx | hx
      · exact henc x (List.mem_filter.1 hx).1
      · rw [List.mem_singleton] at hx; rw [hx]; exact ⟨⟨k, hk⟩, hnf, hr⟩
    · rw [List.pairwise_append]
      refine ⟨hu0.2.sublist (List.filter_sublist _), List.pairwise_singleton _ _, ?_⟩
      intro x hx y hy
      rw [List.mem_singleton] at hy
      rw [hy, hk]
      exact not_idIs_ne x k (hu0.1 x (List.mem_filter.1 hx).1) (List.mem_filter.1 hx).2
  · intro id
    unfold deleteRecord
    simp only [eraseById_ok id _ hu0.1]
    split
    · exact ⟨false, f, rfl, hu⟩
    · refine ⟨true, _, rfl, ?_⟩
      have hle := List.length_filter_le (fun r => !(r.idIs id)) (loadAllRecords c f)
      rw [(scan_keptByDelete c hc _ (by omega)).1]
      refine (uniqueIds_stored _ ?_ ?_).sublist (keptByDelete_sublist c _)
      · intro x hx
        exact henc x (List.mem_filter.1 hx).1
      · exact hu0.2.sublist (List.filter_sublist _)
  · intro id new hid hnf hr
    by_cases hex : ∃ r ∈ loadAllRecords c f, getId r = .ok id
    · obtain ⟨pre, r, post, hsplit, hpre, hrid⟩ := exists_first_with_id id _ hu0.1 hex
      have e0 := updateRecord_eq c f id new (pre ++ new :: post) (by
        rw [hsplit]; exact replaceFirst_hit id new pre r post hpre hrid)
      refine ⟨true, _, e0, ?_⟩
      have hl : (pre ++ new :: post).length = (loadAllRecords c f).length := by
        rw [hsplit]; simp
      rw [show selectAll c (some (writeAllRecords c (pre ++ new :: post)))
          = keptFrom c { Page.empty c with pageID := 0 } (pre ++ new :: post) from
        scan_keptAll c hc _ (by rw [hl]; omega)]
      refine (uniqueIds_stored _ ?_ ?_).sublist (keptFrom_sublist c _ _)
      · intro x hx
        rcases List.mem_append.1 hx with hx | hx
        · exact henc x (by rw [hsplit]; exact List.mem_append_left _ hx)
        · rcases List.mem_cons.1 hx with hx | hx
          · rw [hx]; exact ⟨⟨id, hid⟩, hnf, hr⟩
          · exact henc x (by
              rw [hsplit]; exact List.mem_append_right _ (List.mem_cons_of_mem _ hx))
      · have hp := hu0.2
        rw [hsplit] at hp
        have hm : (pre ++ new :: post).map getId = (pre ++ r :: post).map getId := by
          simp only [List.map_append, List.map_cons, hid, hrid]
        have h1 := (List.pairwise_map (f := getId) (R := fun a b => a ≠ b)).2 hp
        rw [← hm] at h1
        exact (List.pairwise_map (f := getId) (R := fun a b => a ≠ b)).1 h1
    · have hmiss : ∀ r ∈ loadAllRecords c f, ∃ k, getId r = .ok k ∧ k ≠ id := by
        intro r hr'
        obtain ⟨k, hk⟩ := hu0.1 r hr'
        exact ⟨k, hk, fun e => hex ⟨r, hr', by rw [hk, e]⟩⟩
      exact ⟨false, f, (miss_atomic c f id new hmiss).1, hu⟩

theorem length_foldl_integers (n : Nat) (x : Int) :
    ((List.replicate n (RecordValue.Integer x)).foldl serializeField []).length = 5 * n := by
  induction n with
  | zero => rfl
  | succ n ih =>
    rw [List.replicate_succ, List.foldl_cons, foldl_serializeField, List.length_append, ih]
    simp only [serializeField, List.nil_append, List.singleton_append, List.length_cons,
      length_toBytesLE]
    omega

/-- The encoding of a record of `n` Integer fields, `n` a multiple of 65536,
has the field count 0 and a length of 2 modulo 65536: two zero bytes are
stored for it, and they decode to a record with no fields. -/
theorem storedRecord_integers (r : Record) (n : Nat) (x : Int)
    (hr : r = { fields := List.replicate n (.Integer x) }) (hn : n % 65536 = 0) :
    (serializeRecord r).length % 65536 = 2 ∧ storedRecord r = some { fields := [] } := by
  have hl : (serializeRecord r).length % 65536 = 2 := by
    rw [hr, serializeRecord_eq, List.length_append, length_toBytesLE, length_foldl_integers]
    omega
  refine ⟨hl, ?_⟩
  unfold storedRecord storedBytes
  rw [hl, hr, serializeRecord_eq]
  simp only [List.length_replicate, hn]
  rfl

theorem scan_integers (c : Layout) (hc : c.Valid) (r : Record) (n : Nat) (x : Int)
    (hr : r = { fields := List.replicate n (.Integer x) }) (hn : n % 65536 = 0)
    (hroom : 7 ≤ c.PAGE_SIZE - c.PAGE_HEADER_RESERVED) :
    selectAll c (some (writeAllRecords c [r])) = [{ fields := [] }] := by
  obtain ⟨hl, hs⟩ := storedRecord_integers r n x hr hn
  rw [scan_keptAll c hc [r] (by simp)]
  obtain ⟨p1, sid, hres⟩ : ∃ p1 sid,
      ({ Page.empty c with pageID := 0 } : Page).insertRawRecord c (serializeRecord r)
        = (p1, some sid) :=
    ⟨_, _, Page.insertRawRecord_of_room hc (Page.Inv.empty c hc 0 (by decide)) _ (by
      rw [hl]
      show 2 + 5 ≤ c.PAGE_SIZE - c.PAGE_HEADER_RESERVED - 5 * 0
      omega)⟩
  rw [keptFrom_room c _ p1 sid r [] hres, hs, keptFrom]
  rfl

theorem scan_wideRecord :
    selectAll layout4K (some (writeAllRecords layout4K [wideRecord])) = [{ fields := [] }] :=
  scan_integers layout4K layout4K_valid wideRecord 65536 7 rfl (Nat.mod_self 65536) (by decide)

/-- C23 (counterexample): the new table `students` has no records, so its
identifiers are pairwise distinct; `insertRecord` of `wideRecord`, whose
`fields[0]` is the Integer 7, succeeds; the scan of the table afterwards returns
one record with no field at all, which has no Integer `fields[0]`. -/
theorem C23_counterexample :
    UniqueIds (selectAll layout4K (newTable layout4K)) ∧
    getId wideRecord = .ok 7 ∧
    insertRecord layout4K (newTable layout4K) wideRecord
      = .ok (true, some (writeAllRecords layout4K [wideRecord])) ∧
    selectAll layout4K (some (writeAllRecords layout4K [wideRecord])) = [{ fields := [] }] ∧
    ¬ UniqueIds (selectAll layout4K (some (writeAllRecords layout4K [wideRecord]))) := by
  obtain ⟨hinv, hsel⟩ := tableInv_newTable layout4K layout4K_valid
  have hload : loadAllRecords layout4K (newTable layout4K) = [] := by rw [hinv.1, hsel]
  have hid : getId wideRecord = .ok 7 := rfl
  refine ⟨?_, hid, ?_, scan_wideRecord, ?_⟩
  · rw [hsel]
    exact ⟨(fun r hr => by cases hr), List.Pairwise.nil⟩
  · have h := insertRecord_eq layout4K (newTable layout4K) wideRecord 7 [] hid (by
      rw [hload]; rfl)
    rw [List.nil_append] at h
    exact h
  · rw [scan_wideRecord]
    intro h
    obtain ⟨k, hk⟩ := h.1 _ (List.mem_singleton_self _)
    cases hk

theorem fewPages_students : FewPages layout4K students := by
  intro bytes hb
  rw [students_eq] at hb
  rw [← Option.some.inj hb, length_students]
  decide

theorem uniqueIds_students : UniqueIds (selectAll layout4K students) := by
  rw [scan_students.1]
  refine ⟨?_, ?_⟩
  · intro r hr
    rcases List.mem_cons.1 hr with hr | hr
    · rw [hr]; exact ⟨1, rfl⟩
    · rw [List.mem_singleton] at hr; rw [hr]; exact ⟨2, rfl⟩
  · refine List.pairwise_cons.2 ⟨?_, List.pairwise_singleton _ _⟩
    intro b hb
    rw [List.mem_singleton] at hb
    rw [hb]
    intro e
    exact absurd (Except.ok.inj e) (by decide)

/-! ## The graph engine: lemmas -/

theorem addInt_eq (a b : Int) (h0 : 0 ≤ a + b) (h1 : a + b < INT_MAX) : addInt a b = a + b := by
  unfold INT_MAX at h1
  exact toInt32_roundtrip (a + b) (by omega) (by omega)

theorem contains_iff (g : Graph) (v : String) :
    g.contains v = true ↔ ∃ p ∈ g.adjacencyList, p.1 = v := by
  unfold Graph.contains
  simp [List.any_eq_true]

theorem mem_lookupNeighbors (adj : List (String × List (String × Int))) (u : String)
    (e : String × Int) (h : e ∈ lookupNeighbors adj u) : ∃ p ∈ adj, p.1 = u ∧ e ∈ p.2 := by
  induction adj with
  | nil => cases h
  | cons p rest ih =>
    unfold lookupNeighbors at h
    split at h
    · exact ⟨p, List.mem_cons_self _ _, by assumption, h⟩
    · obtain ⟨q, hq, h1, h2⟩ := ih h
      exact ⟨q, List.mem_cons_of_mem _ hq, h1, h2⟩

theorem Graph.Edge.stored_entry {g : Graph} {u v : String} {w : Int} (h : g.Edge u v w) :
    ∃ p ∈ g.adjacencyList, p.1 = u ∧ (v, w) ∈ p.2 :=
  mem_lookupNeighbors _ _ _ h

theorem Graph.Edge.weight_nonneg {g : Graph} (hn : g.NonNegative) {u v : String} {w : Int}
    (h : g.Edge u v w) : 0 ≤ w := by
  obtain ⟨p, hp, -, he⟩ := h.stored_entry
  exact hn p hp _ he

theorem lookupNeighbors_cons (p : String × List (String × Int))
    (rest : List (String × List (String × Int))) (name : String) :
    lookupNeighbors (p :: rest) name
      = if p.1 = name then p.2 else lookupNeighbors rest name := rfl

theorem lookupNeighbors_append_empty (adj : List (String × List (String × Int)))
    (name x : String) :
    lookupNeighbors (adj ++ [(name, [])]) x = lookupNeighbors adj x := by
  induction adj with
  | nil =>
    rw [List.nil_append, lookupNeighbors_cons]
    split <;> rfl
  | cons p rest ih =>
    rw [List.cons_append, lookupNeighbors_cons, lookupNeighbors_cons, ih]

theorem neighbors_addVertex (g : Graph) (name x : String) :
    (g.addVertex name).neighbors x = g.neighbors x := by
  unfold Graph.addVertex
  split
  · rfl
  · exact lookupNeighbors_append_empty _ _ _

theorem contains_addVertex (g : Graph) (name x : String) :
    (g.addVertex name).contains x = true ↔ (g.contains x = true ∨ x = name) := by
  unfold Graph.addVertex
  split
  · constructor
    · exact Or.inl
    · rintro (h | h)
      · exact h
      · rw [h]; assumption
  · simp only [contains_iff, List.mem_append, List.mem_singleton]
    constructor
    · rintro ⟨p, hp | hp, h⟩
      · exact Or.inl ⟨p, hp, h⟩
      · right; rw [← h, hp]
    · rintro (⟨p, hp, h⟩ | h)
      · exact ⟨p, Or.inl hp, h⟩
      · exact ⟨(name, []), Or.inr rfl, h.symm⟩

theorem contains_pushEdge (g : Graph) (u x : String) (e : String × Int) :
    (g.pushEdge u e).contains x = true ↔ g.contains x = true := by
  simp only [contains_iff, Graph.pushEdge, List.mem_map]
  constructor
  · rintro ⟨p, ⟨q, hq, rfl⟩, h⟩
    refine ⟨q, hq, ?_⟩
    split at h <;> exact h
  · rintro ⟨p, hp, h⟩
    refine ⟨_, ⟨p, hp, rfl⟩, ?_⟩
    split <;> exact h

theorem mem_lookupNeighbors_map (adj : List (String × List (String × Int))) (u x : String)
    (e a : String × Int)
    (h : a ∈ lookupNeighbors
      (adj.map (fun p => if p.1 = u then (p.1, p.2 ++ [e]) else p)) x) :
    a ∈ lookupNeighbors adj x ∨ a = e := by
  induction adj with
  | nil => cases h
  | cons p rest ih =>
    rw [List.map_cons, lookupNeighbors_cons] at h
    rw [lookupNeighbors_cons]
    by_cases hp : p.1 = u
    · simp only [hp, if_true] at h
      by_cases hx : u = x
      · rw [if_pos hx] at h
        rw [if_pos (hp.trans hx)]
        rw [List.mem_append, List.mem_singleton] at h
        exact h
      · rw [if_neg hx] at h
        rw [if_neg (fun hh => hx (hp.symm.trans hh))]
        exact ih h
    · simp only [hp, if_false] at h
      by_cases hx : p.1 = x
      · rw [if_pos hx] at h
        rw [if_pos hx]
        exact Or.inl h
      · rw [if_neg hx] at h
        rw [if_neg hx]
        exact ih h

theorem edge_pushEdge (g : Graph) (u x v : String) (e : String × Int) (w : Int)
    (h : (g.pushEdge u e).Edge x v w) : g.Edge x v w ∨ (v, w) = e :=
  mem_lookupNeighbors_map _ _ _ _ _ h

/-- In a graph built by `addVertex` and `addEdge` every neighbour is a vertex. -/
theorem Graph.Built.neighbors_closed {g : Graph} (h : g.Built) :
    ∀ u v w, g.Edge u v w → g.contains v = true := by
  induction h with
  | empty => intro u v w h; cases h
  | addVertex g name _ ih =>
    intro u v w h
    have h1 : g.Edge u v w := by
      unfold Graph.Edge at h ⊢
      rw [neighbors_addVertex] at h
      exact h
    exact (contains_addVertex _ _ _).2 (Or.inl (ih u v w h1))
  | addEdge g a b weight isDirected _ ih =>
    have h1 : ∀ (g1 : Graph), (∀ u v w, g1.Edge u v w → g1.contains v = true) →
        ∀ n, ∀ u v w, (if g1.contains n then g1 else g1.addVertex n).Edge u v w →
          (if g1.contains n then g1 else g1.addVertex n).contains v = true := by
      intro g1 hg1 n u v w h
      split at h
      · rename_i hc
        rw [if_pos hc]; exact hg1 u v w h
      · rename_i hc
        rw [if_neg hc]
        unfold Graph.Edge at h
        rw [neighbors_addVertex] at h
        exact (contains_addVertex _ _ _).2 (Or.inl (hg1 u v w h))
    have h2 : ∀ (g1 : Graph) (n : String),
        (if g1.contains n then g1 else g1.addVertex n).contains n = true := by
      intro g1 n
      split
      · assumption
      · exact (contains_addVertex _ _ _).2 (Or.inr rfl)
    have h3 : ∀ (g1 : Graph) (n m : String), g1.contains m = true →
        (if g1.contains n then g1 else g1.addVertex n).contains m = true := by
      intro g1 n m hm
      split
      · exact hm
      · exact (contains_addVertex _ _ _).2 (Or.inl hm)
    intro u v w h
    have hc1 := h1 g ih a
    have hc2 := h1 _ hc1 b
    have ha := h3 _ b a (h2 g a)
    have hb := h2 (if g.contains a then g else g.addVertex a) b
    unfold Graph.addEdge at h ⊢
    cases isDirected
    · simp only [Bool.not_false, if_true] at h ⊢
      rcases edge_pushEdge _ _ _ _ _ _ h with h | h
      · rcases edge_pushEdge _ _ _ _ _ _ h with h | h
        · exact (contains_pushEdge _ _ _ _).2 ((contains_pushEdge _ _ _ _).2 (hc2 u v w h))
        · rw [(Prod.mk.inj h).1]
          exact (contains_pushEdge _ _ _ _).2 ((contains_pushEdge _ _ _ _).2 hb)
      · rw [(Prod.mk.inj h).1]
        exact (contains_pushEdge _ _ _ _).2 ((contains_pushEdge _ _ _ _).2 ha)
    · simp only [Bool.not_true, Bool.false_eq_true, if_false] at h ⊢
      rcases edge_pushEdge _ _ _ _ _ _ h with h | h
      · exact (contains_pushEdge _ _ _ _).2 (hc2 u v w h)
      · rw [(Prod.mk.inj h).1]
        exact (contains_pushEdge _ _ _ _).2 hb
/-! ### Walks and paths -/

theorem Graph.Reach.total_nonneg {g : Graph} (hn : g.NonNegative) {s v : String} {d : Int}
    (h : g.Reach s v d) : 0 ≤ d := by
  induction h with
  | refl => exact le_refl _
  | step u v d w _ he ih => have := he.weight_nonneg hn; omega

theorem Graph.Reach.head_step {g : Graph} {s u v : String} {w d : Int} (he : g.Edge s u w)
    (h : g.Reach u v d) : g.Reach s v (w + d) := by
  induction h with
  | refl =>
    have := Graph.Reach.step s u 0 w Graph.Reach.refl he
    rw [zero_add] at this
    rw [add_zero]
    exact this
  | step x y d1 w1 _ he1 ih =>
    have := Graph.Reach.step x y (w + d1) w1 ih he1
    rw [add_assoc] at this
    exact this

theorem Graph.IsPath.to_walk {g : Graph} {p : List String} {d : Int} (h : g.IsPath p d) :
    ∀ s t, p.head? = some s → p.getLast? = some t → g.Reach s t d := by
  induction h with
  | single v =>
    intro s t hs ht
    simp only [List.head?_cons, Option.some.injEq] at hs
    simp only [List.getLast?_singleton, Option.some.injEq] at ht
    rw [← hs, ← ht]
    exact Graph.Reach.refl
  | cons u v rest w d he _ ih =>
    intro s t hs ht
    simp only [List.head?_cons, Option.some.injEq] at hs
    rw [List.getLast?_cons_cons] at ht
    rw [← hs]
    exact Graph.Reach.head_step he (ih v t rfl ht)

theorem Graph.IsPath.snoc_edge {g : Graph} {p : List String} {d : Int} (h : g.IsPath p d)
    (u v : String) (w : Int) (hl : p.getLast? = some u) (he : g.Edge u v w) :
    g.IsPath (p ++ [v]) (d + w) := by
  induction h with
  | single x =>
    simp only [List.getLast?_singleton, Option.some.injEq] at hl
    rw [hl]
    have := Graph.IsPath.cons u v [] w 0 he (Graph.IsPath.single v)
    rw [add_zero] at this
    rw [zero_add]
    exact this
  | cons a b rest w1 d1 he1 _ ih =>
    rw [List.getLast?_cons_cons] at hl
    have := Graph.IsPath.cons a b (rest ++ [v]) w1 (d1 + w) he1 (ih hl)
    rw [← add_assoc] at this
    exact this

theorem Graph.PathFromTo.snoc_step {g : Graph} {s u v : String} {p : List String} {d w : Int}
    (h : g.PathFromTo s u p d) (he : g.Edge u v w) : g.PathFromTo s v (p ++ [v]) (d + w) := by
  obtain ⟨h1, h2, h3⟩ := h
  refine ⟨?_, ?_, h3.snoc_edge u v w h2 he⟩
  · cases p with
    | nil => cases h1
    | cons a rest => exact h1
  · rw [List.getLast?_append]
    rfl

theorem Graph.PathFromTo.to_reach {g : Graph} {s t : String} {p : List String} {d : Int}
    (h : g.PathFromTo s t p d) : g.Reach s t d :=
  h.2.2.to_walk s t h.1 h.2.1

theorem Graph.Reach.to_path {g : Graph} {s v : String} {d : Int} (h : g.Reach s v d) :
    ∃ p, g.PathFromTo s v p d := by
  induction h with
  | refl => exact ⟨[s], rfl, rfl, Graph.IsPath.single s⟩
  | step u v d w _ he ih =>
    obtain ⟨p, hp⟩ := ih
    exact ⟨p ++ [v], hp.snoc_step he⟩

/-- A potential `f` that no edge outruns bounds the weight of every walk. -/
theorem Graph.Reach.le_potential {g : Graph} (f : String → Int)
    (hf : ∀ p ∈ g.adjacencyList, ∀ e ∈ p.2, f p.1 + e.2 ≤ f e.1) {s v : String} {d : Int}
    (h : g.Reach s v d) : f s + d ≤ f v := by
  induction h with
  | refl => rw [add_zero]
  | step u v d w _ he ih =>
    obtain ⟨p, hp, h1, h2⟩ := he.stored_entry
    have := hf p hp _ h2
    rw [h1] at this
    simp only at this
    omega

/-! ### The queue and the maps -/

theorem foldl_best (xs : List (Int × String)) (e : Int × String) :
    (xs.foldl (fun best x => if pairLess x best then x else best) e ∈ e :: xs) ∧
    ∀ y ∈ e :: xs, (xs.foldl (fun best x => if pairLess x best then x else best) e).1 ≤ y.1 := by
  induction xs generalizing e with
  | nil => exact ⟨List.mem_cons_self _ _, fun y hy => by
      rw [List.mem_singleton] at hy; rw [hy]; exact le_refl _⟩
  | cons x xs ih =>
    rw [List.foldl_cons]
    obtain ⟨h1, h2⟩ := ih (if pairLess x e then x else e)
    constructor
    · rcases List.mem_cons.1 h1 with h | h
      · rw [h]
        split
        · exact List.mem_cons_of_mem _ (List.mem_cons_self _ _)
        · exact List.mem_cons_self _ _
      · exact List.mem_cons_of_mem _ (List.mem_cons_of_mem _ h)
    · intro y hy
      have h3 := h2 _ (List.mem_cons_self _ _)
      have hle : (if pairLess x e then x else e).1 ≤ e.1 ∧
          (if pairLess x e then x else e).1 ≤ x.1 := by
        by_cases hp : pairLess x e = true
        · rw [if_pos hp]
          unfold pairLess at hp
          simp only [Bool.or_eq_true, Bool.and_eq_true, decide_eq_true_eq, Bool.not_eq_true',
            decide_eq_false_iff_not] at hp
          refine ⟨?_, le_refl _⟩
          rcases hp with hp | ⟨hp, -⟩
          · exact le_of_lt hp
          · exact not_lt.1 hp
        · rw [if_neg hp]
          unfold pairLess at hp
          simp only [Bool.or_eq_true, Bool.and_eq_true, decide_eq_true_eq, Bool.not_eq_true',
            decide_eq_false_iff_not, not_or] at hp
          exact ⟨le_refl _, not_lt.1 hp.1⟩
      rcases List.mem_cons.1 hy with h | h
      · rw [h]; exact le_trans h3 hle.1
      · rcases List.mem_cons.1 h with h | h
        · rw [h]; exact le_trans h3 hle.2
        · exact h2 y (List.mem_cons_of_mem _ h)

/-- The element `pq.top()` is in the queue and no entry has a smaller distance. -/
theorem pqTop_spec (Q : List (Int × String)) :
    (pqTop Q = none ∧ Q = []) ∨
    ∃ m, pqTop Q = some m ∧ m ∈ Q ∧ ∀ y ∈ Q, m.1 ≤ y.1 := by
  cases Q with
  | nil => exact Or.inl ⟨rfl, rfl⟩
  | cons e xs => exact Or.inr ⟨_, rfl, (foldl_best xs e).1, (foldl_best xs e).2⟩

theorem lookupDistance_cons (k : String) (v : Int) (m : List (String × Int)) (key : String) :
    lookupDistance ((k, v) :: m) key = if k = key then v else lookupDistance m key := rfl

theorem lookupParent_cons (k v : String) (m : List (String × String)) (key : String) :
    lookupParent ((k, v) :: m) key = if k = key then v else lookupParent m key := rfl

theorem lookupDistance_init (adj : List (String × List (String × Int))) (v : String)
    (h : ∃ p ∈ adj, p.1 = v) :
    lookupDistance (adj.map (fun p => (p.1, INT_MAX))) v = INT_MAX := by
  induction adj with
  | nil => obtain ⟨p, hp, -⟩ := h; cases hp
  | cons q rest ih =>
    rw [List.map_cons, lookupDistance_cons]
    by_cases hq : q.1 = v
    · rw [if_pos hq]
    · rw [if_neg hq]
      obtain ⟨p, hp, hv⟩ := h
      rcases List.mem_cons.1 hp with h1 | h1
      · rw [h1] at hv; exact absurd hv hq
      · exact ih ⟨p, h1, hv⟩
/-! ### One relaxation -/

theorem relax_of_lt (u : String) (st : DijkstraState) (e : String × Int)
    (h0 : 0 ≤ lookupDistance st.distances u + e.2)
    (h1 : lookupDistance st.distances u + e.2 < INT_MAX)
    (hlt : lookupDistance st.distances u + e.2 < lookupDistance st.distances e.1) :
    relax u st e =
      { distances := (e.1, lookupDistance st.distances u + e.2) :: st.distances,
        parent := (e.1, u) :: st.parent,
        pq := (lookupDistance st.distances u + e.2, e.1) :: st.pq } := by
  unfold relax
  simp only [addInt_eq _ _ h0 h1, if_pos hlt, lookupDistance_cons, if_true]

theorem relax_of_ge (u : String) (st : DijkstraState) (e : String × Int)
    (h0 : 0 ≤ lookupDistance st.distances u + e.2)
    (h1 : lookupDistance st.distances u + e.2 < INT_MAX)
    (hge : ¬ lookupDistance st.distances u + e.2 < lookupDistance st.distances e.1) :
    relax u st e = st := by
  unfold relax
  simp only [addInt_eq _ _ h0 h1, if_neg hge]

theorem parentTree_congr (g : Graph) (s : String) (D D' : String → Int)
    (P P' : String → String) (T : List String) (hD : ∀ x ∈ T, D' x = D x)
    (hP : ∀ x ∈ T, P' x = P x) (h : ParentTree g s D P T) : ParentTree g s D' P' T := by
  induction T with
  | nil => trivial
  | cons u T ih =>
    obtain ⟨h1, h2⟩ := h
    refine ⟨?_, ih (fun x hx => hD x (List.mem_cons_of_mem _ hx))
      (fun x hx => hP x (List.mem_cons_of_mem _ hx)) h2⟩
    rcases h1 with h1 | ⟨h1, w, h3, h4⟩
    · exact Or.inl h1
    · right
      rw [hP u (List.mem_cons_self _ _), hD u (List.mem_cons_self _ _),
        hD _ (List.mem_cons_of_mem _ h1)]
      exact ⟨h1, w, h3, h4⟩

theorem sum_toNat_le {α : Type} (L : List α) (f f' : α → Int) (h : ∀ x ∈ L, f' x ≤ f x) :
    (L.map (fun x => (f' x).toNat)).sum ≤ (L.map (fun x => (f x).toNat)).sum := by
  induction L with
  | nil => exact le_refl _
  | cons a L ih =>
    simp only [List.map_cons, List.sum_cons]
    have h1 := h a (List.mem_cons_self _ _)
    have h2 := ih (fun x hx => h x (List.mem_cons_of_mem _ hx))
    omega

theorem sum_toNat_lt {α : Type} (L : List α) (f f' : α → Int) (h : ∀ x ∈ L, f' x ≤ f x)
    (a : α) (ha : a ∈ L) (h0 : 0 ≤ f' a) (hlt : f' a < f a) :
    (L.map (fun x => (f' x).toNat)).sum + 1 ≤ (L.map (fun x => (f x).toNat)).sum := by
  induction L with
  | nil => cases ha
  | cons b L ih =>
    simp only [List.map_cons, List.sum_cons]
    have h1 := h b (List.mem_cons_self _ _)
    have h2 := sum_toNat_le L f f' (fun x hx => h x (List.mem_cons_of_mem _ hx))
    rcases List.mem_cons.1 ha with hab | hab
    · rw [← hab]
      omega
    · have h3 := ih (fun x hx => h x (List.mem_cons_of_mem _ hx)) hab
      omega

/-- One execution of the body of the loop over the neighbours of a settled
vertex `u` keeps the invariant, lowers no distance of a settled vertex, and
leaves the edge it looked at relaxed. -/
theorem relax_step (g : Graph) (s : String)
    (hW : ∀ u v w, g.Edge u v w → g.contains v = true) (hN : g.NonNegative)
    (hM : ∀ u d, g.Reach s u d → (∀ d', g.Reach s u d' → d ≤ d') →
      ∀ v w, g.Edge u v w → d + w < INT_MAX)
    (T S : List String) (hST : ∀ x ∈ S, x ∈ T) (st : DijkstraState) (u : String)
    (e : String × Int)
    (hs : Sound g s T (lookupDistance st.distances) (lookupParent st.parent))
    (hq : QueueOK g T (lookupDistance st.distances) st.pq)
    (hr : Relaxed g (lookupDistance st.distances) S) (hu : u ∈ T) (he : g.Edge u e.1 e.2) :
    Sound g s T (lookupDistance (relax u st e).distances) (lookupParent (relax u st e).parent) ∧
    QueueOK g T (lookupDistance (relax u st e).distances) (relax u st e).pq ∧
    Relaxed g (lookupDistance (relax u st e).distances) S ∧
    (∀ x, lookupDistance (relax u st e).distances x ≤ lookupDistance st.distances x) ∧
    (∀ x ∈ T, lookupDistance (relax u st e).distances x = lookupDistance st.distances x) ∧
    lookupDistance (relax u st e).distances e.1 ≤ lookupDistance st.distances u + e.2 ∧
    loopMeasure g (relax u st e) ≤ loopMeasure g st := by
  obtain ⟨huk, hufin, humin⟩ := hs.settled u hu
  have hureach : 0 ≤ lookupDistance st.distances u ∧ g.Reach s u (lookupDistance st.distances u) := by
    rcases hs.dist u huk with h | ⟨h1, -, h3⟩
    · rw [h] at hufin; exact absurd hufin (lt_irrefl _)
    · exact ⟨h1, h3⟩
  have hw := he.weight_nonneg hN
  have h1 := hM u _ hureach.2 humin e.1 e.2 he
  have h0 : 0 ≤ lookupDistance st.distances u + e.2 := by have := hureach.1; omega
  by_cases hlt : lookupDistance st.distances u + e.2 < lookupDistance st.distances e.1
  · rw [relax_of_lt u st e h0 h1 hlt]
    have hreach : g.Reach s e.1 (lookupDistance st.distances u + e.2) :=
      Graph.Reach.step u e.1 _ e.2 hureach.2 he
    have hvT : e.1 ∉ T := by
      intro hv
      have := (hs.settled e.1 hv).2.2 _ hreach
      omega
    have hvk : g.contains e.1 = true := hW u e.1 e.2 he
    have hvs : e.1 ≠ s := by
      intro h
      rw [h, hs.start] at hlt
      omega
    have hD : ∀ x, lookupDistance ((e.1, lookupDistance st.distances u + e.2) :: st.distances) x
        = if e.1 = x then lookupDistance st.distances u + e.2 else lookupDistance st.distances x :=
      fun x => lookupDistance_cons _ _ _ _
    have hP : ∀ x, lookupParent ((e.1, u) :: st.parent) x
        = if e.1 = x then u else lookupParent st.parent x :=
      fun x => lookupParent_cons _ _ _ _
    have hDT : ∀ x ∈ T, lookupDistance ((e.1, lookupDistance st.distances u + e.2) :: st.distances) x
        = lookupDistance st.distances x := by
      intro x hx
      rw [hD, if_neg (fun h => hvT (by rw [h]; exact hx))]
    have hPT : ∀ x ∈ T, lookupParent ((e.1, u) :: st.parent) x = lookupParent st.parent x := by
      intro x hx
      rw [hP, if_neg (fun h => hvT (by rw [h]; exact hx))]
    have hmono : ∀ x, lookupDistance ((e.1, lookupDistance st.distances u + e.2) :: st.distances) x
        ≤ lookupDistance st.distances x := by
      intro x
      rw [hD]
      split
      · rename_i h; rw [← h]; exact le_of_lt hlt
      · exact le_refl _
    refine ⟨⟨?_, hs.startKey, ?_, ?_, ?_, ?_⟩, ⟨?_, ?_⟩, ?_, hmono, hDT, ?_, ?_⟩
    · rw [hD, if_neg hvs]; exact hs.start
    · intro x hx
      rw [hD]
      by_cases hvx : e.1 = x
      · rw [if_pos hvx]
        exact Or.inr ⟨h0, h1, hvx ▸ hreach⟩
      · rw [if_neg hvx]
        exact hs.dist x hx
    · intro x hx
      rw [hDT x hx]
      exact hs.settled x hx
    · exact parentTree_congr g s _ _ _ _ T hDT hPT hs.tree
    · intro x hx hxT hxs hfin
      by_cases hvx : e.1 = x
      · subst hvx
        rw [hP, if_pos rfl, hD, if_pos rfl, hDT u hu]
        exact ⟨hu, e.2, he, rfl⟩
      · rw [hD, if_neg hvx] at hfin
        rw [hP, if_neg hvx, hD, if_neg hvx]
        obtain ⟨h2, w, h3, h4⟩ := hs.parent x hx hxT hxs hfin
        exact ⟨h2, w, h3, by rw [hDT _ h2]; exact h4⟩
    · intro x hx hfin
      rw [hD] at hfin ⊢
      by_cases hvx : e.1 = x
      · rw [if_pos hvx, ← hvx]
        exact Or.inr (List.mem_cons_self _ _)
      · rw [if_neg hvx] at hfin ⊢
        rcases hq.pending x hx hfin with h | h
        · exact Or.inl h
        · exact Or.inr (List.mem_cons_of_mem _ h)
    · intro y hy
      rcases List.mem_cons.1 hy with h | h
      · rw [h]
        refine ⟨hvk, ?_, h1⟩
        show lookupDistance _ e.1 ≤ _
        rw [hD, if_pos rfl]
      · obtain ⟨h2, h3, h4⟩ := hq.entries y h
        exact ⟨h2, le_trans (hmono _) h3, h4⟩
    · intro x hx y w hxy
      rw [hDT x (hST x hx)]
      exact le_trans (hmono y) (hr x hx y w hxy)
    · rw [hD, if_pos rfl]
    · unfold loopMeasure
      simp only [List.length_cons]
      obtain ⟨p, hp, hpv⟩ := (contains_iff g e.1).1 hvk
      have hsum : (g.adjacencyList.map (fun p => (lookupDistance
            ((e.1, lookupDistance st.distances u + e.2) :: st.distances) p.1).toNat)).sum + 1
          ≤ (g.adjacencyList.map (fun p => (lookupDistance st.distances p.1).toNat)).sum :=
        sum_toNat_lt g.adjacencyList (fun p => lookupDistance st.distances p.1)
          (fun p => lookupDistance
            ((e.1, lookupDistance st.distances u + e.2) :: st.distances) p.1)
          (fun x _ => hmono x.1) p hp
          (by simp only; rw [hD, if_pos hpv.symm]; exact h0)
          (by simp only; rw [hD, if_pos hpv.symm, hpv]; exact hlt)
      omega
  · rw [relax_of_ge u st e h0 h1 hlt]
    exact ⟨hs, hq, hr, fun x => le_refl _, fun x _ => rfl, not_lt.1 hlt, le_refl _⟩

/-- The loop over the neighbours of a settled vertex `u` keeps the invariant
and leaves every edge out of `u` relaxed. -/
theorem relax_all (g : Graph) (s : String)
    (hW : ∀ u v w, g.Edge u v w → g.contains v = true) (hN : g.NonNegative)
    (hM : ∀ u d, g.Reach s u d → (∀ d', g.Reach s u d' → d ≤ d') →
      ∀ v w, g.Edge u v w → d + w < INT_MAX)
    (T S : List String) (hST : ∀ x ∈ S, x ∈ T) (u : String) (hu : u ∈ T)
    (es : List (String × Int)) (hes : ∀ e ∈ es, g.Edge u e.1 e.2) :
    ∀ st : DijkstraState,
    Sound g s T (lookupDistance st.distances) (lookupParent st.parent) →
    QueueOK g T (lookupDistance st.distances) st.pq →
    Relaxed g (lookupDistance st.distances) S →
    Sound g s T (lookupDistance (es.foldl (relax u) st).distances)
      (lookupParent (es.foldl (relax u) st).parent) ∧
    QueueOK g T (lookupDistance (es.foldl (relax u) st).distances) (es.foldl (relax u) st).pq ∧
    Relaxed g (lookupDistance (es.foldl (relax u) st).distances) S ∧
    (∀ x, lookupDistance (es.foldl (relax u) st).distances x ≤ lookupDistance st.distances x) ∧
    (∀ x ∈ T, lookupDistance (es.foldl (relax u) st).distances x
      = lookupDistance st.distances x) ∧
    (∀ e ∈ es, lookupDistance (es.foldl (relax u) st).distances e.1
      ≤ lookupDistance st.distances u + e.2) ∧
    loopMeasure g (es.foldl (relax u) st) ≤ loopMeasure g st := by
  induction es with
  | nil =>
    intro st hs hq hr
    exact ⟨hs, hq, hr, fun x => le_refl _, fun x _ => rfl, (fun e he => absurd he (List.not_mem_nil e)),
      le_refl _⟩
  | cons e es ih =>
    intro st hs hq hr
    rw [List.foldl_cons]
    obtain ⟨a1, a2, a3, a4, a5, a6, a7⟩ :=
      relax_step g s hW hN hM T S hST st u e hs hq hr hu (hes e (List.mem_cons_self _ _))
    obtain ⟨b1, b2, b3, b4, b5, b6, b7⟩ :=
      ih (fun x hx => hes x (List.mem_cons_of_mem _ hx)) (relax u st e) a1 a2 a3
    refine ⟨b1, b2, b3, fun x => le_trans (b4 x) (a4 x), fun x hx => (b5 x hx).trans (a5 x hx),
      ?_, le_trans b7 a7⟩
    intro y hy
    rcases List.mem_cons.1 hy with h | h
    · rw [h]
      exact le_trans (b4 _) a6
    · have := b6 y h
      rw [a5 u hu] at this
      exact this
/-! ### The main loop -/

/-- Every walk from the start either ends at a settled vertex or passes a
vertex that waits in the queue with a distance no larger than the walk. -/
theorem walk_meets_queue (g : Graph) (s : String)
    (hW : ∀ u v w, g.Edge u v w → g.contains v = true) (hN : g.NonNegative)
    (hM : ∀ u d, g.Reach s u d → (∀ d', g.Reach s u d' → d ≤ d') →
      ∀ v w, g.Edge u v w → d + w < INT_MAX)
    (S : List String) (D : String → Int) (P : String → String) (Q : List (Int × String))
    (hs : Sound g s S D P) (hq : QueueOK g S D Q) (hr : Relaxed g D S)
    (v : String) (d : Int) (h : g.Reach s v d) :
    v ∈ S ∨ ∃ y, (D y, y) ∈ Q ∧ D y ≤ d := by
  induction h with
  | refl =>
    rcases hq.pending s hs.startKey (by rw [hs.start]; decide) with h | h
    · exact Or.inl h
    · exact Or.inr ⟨s, h, by rw [hs.start]⟩
  | step u v d w hreach he ih =>
    have hw := he.weight_nonneg hN
    rcases ih with hu | ⟨y, hy, hyd⟩
    · by_cases hv : v ∈ S
      · exact Or.inl hv
      · obtain ⟨huk, hufin, humin⟩ := hs.settled u hu
        have hur : g.Reach s u (D u) := by
          rcases hs.dist u huk with h | ⟨-, -, h3⟩
          · rw [h] at hufin; exact absurd hufin (lt_irrefl _)
          · exact h3
        have h1 := hM u _ hur humin v w he
        have h2 := hr u hu v w he
        have h3 := humin d hreach
        rcases hq.pending v (hW u v w he) (by omega) with h | h
        · exact absurd h hv
        · exact Or.inr ⟨v, h, by omega⟩
    · exact Or.inr ⟨y, hy, by omega⟩

theorem dijkstraLoop_empty (g : Graph) (endNode : String) (n : Nat) (st : DijkstraState)
    (h : pqTop st.pq = none) : dijkstraLoop g endNode (n + 1) st = some st := by
  unfold dijkstraLoop
  simp only [h]

theorem dijkstraLoop_end (g : Graph) (endNode : String) (n : Nat) (st : DijkstraState)
    (m : Int × String) (h : pqTop st.pq = some m) (he : m.2 = endNode) :
    dijkstraLoop g endNode (n + 1) st = some { st with pq := st.pq.erase m } := by
  subst he
  rw [dijkstraLoop]
  simp only [h, if_true]

theorem dijkstraLoop_stale (g : Graph) (endNode : String) (n : Nat) (st : DijkstraState)
    (m : Int × String) (h : pqTop st.pq = some m) (he : m.2 ≠ endNode)
    (hst : m.1 > lookupDistance st.distances m.2) :
    dijkstraLoop g endNode (n + 1) st
      = dijkstraLoop g endNode n { st with pq := st.pq.erase m } := by
  rw [dijkstraLoop]
  simp only [h, if_neg he, if_pos hst]

theorem dijkstraLoop_settle (g : Graph) (endNode : String) (n : Nat) (st : DijkstraState)
    (m : Int × String) (h : pqTop st.pq = some m) (he : m.2 ≠ endNode)
    (hst : ¬ m.1 > lookupDistance st.distances m.2) :
    dijkstraLoop g endNode (n + 1) st
      = dijkstraLoop g endNode n
          ((g.neighbors m.2).foldl (relax m.2) { st with pq := st.pq.erase m }) := by
  rw [dijkstraLoop]
  simp only [h, if_neg he, if_neg hst]

theorem dijkstraLoop_mono (g : Graph) (endNode : String) (n : Nat) :
    ∀ (st st' : DijkstraState), dijkstraLoop g endNode n st = some st' →
      ∀ m, n ≤ m → dijkstraLoop g endNode m st = some st' := by
  induction n with
  | zero => intro st st' h; cases h
  | succ n ih =>
    intro st st' h m hm
    obtain ⟨k, rfl⟩ : ∃ k, m = k + 1 := ⟨m - 1, by omega⟩
    have hk : n ≤ k := by omega
    rcases pqTop_spec st.pq with ⟨h1, -⟩ | ⟨t, h1, -, -⟩
    · rw [dijkstraLoop_empty g endNode n st h1] at h
      rw [dijkstraLoop_empty g endNode k st h1]
      exact h
    · by_cases he : t.2 = endNode
      · rw [dijkstraLoop_end g endNode n st t h1 he] at h
        rw [dijkstraLoop_end g endNode k st t h1 he]
        exact h
      · by_cases hst : t.1 > lookupDistance st.distances t.2
        · rw [dijkstraLoop_stale g endNode n st t h1 he hst] at h
          rw [dijkstraLoop_stale g endNode k st t h1 he hst]
          exact ih _ _ h k hk
        · rw [dijkstraLoop_settle g endNode n st t h1 he hst] at h
          rw [dijkstraLoop_settle g endNode k st t h1 he hst]
          exact ih _ _ h k hk

/-- The loop of `dijkstra` ends within the fuel its measure asks for, and on
its exit the distance of the end vertex is `INT_MAX` when no walk reaches it
and the least weight of a walk otherwise. -/
theorem dijkstraLoop_correct (g : Graph) (s endNode : String)
    (hW : ∀ u v w, g.Edge u v w → g.contains v = true) (hN : g.NonNegative)
    (hM : ∀ u d, g.Reach s u d → (∀ d', g.Reach s u d' → d ≤ d') →
      ∀ v w, g.Edge u v w → d + w < INT_MAX)
    (fuel : Nat) :
    ∀ (st : DijkstraState) (S : List String),
    Sound g s S (lookupDistance st.distances) (lookupParent st.parent) →
    QueueOK g S (lookupDistance st.distances) st.pq →
    Relaxed g (lookupDistance st.distances) S →
    loopMeasure g st < fuel →
    ∃ st' S', dijkstraLoop g endNode fuel st = some st' ∧
      Sound g s S' (lookupDistance st'.distances) (lookupParent st'.parent) ∧
      (lookupDistance st'.distances endNode = INT_MAX → ∀ d, ¬ g.Reach s endNode d) ∧
      (lookupDistance st'.distances endNode ≠ INT_MAX →
        ∀ d, g.Reach s endNode d → lookupDistance st'.distances endNode ≤ d) := by
  induction fuel with
  | zero => intro st S _ _ _ h; exact absurd h (Nat.not_lt_zero _)
  | succ n ih =>
    intro st S hs hq hr hmu
    have hcut := walk_meets_queue g s hW hN hM S _ _ _ hs hq hr
    rcases pqTop_spec st.pq with ⟨h1, hnil⟩ | ⟨t, h1, htQ, htmin⟩
    · refine ⟨st, S, dijkstraLoop_empty g endNode n st h1, hs, ?_, ?_⟩
      · intro hinf d hd
        rcases hcut endNode d hd with h | ⟨y, hy, -⟩
        · have := (hs.settled endNode h).2.1
          rw [hinf] at this
          exact lt_irrefl _ this
        · rw [hnil] at hy; cases hy
      · intro hfin d hd
        rcases hcut endNode d hd with h | ⟨y, hy, -⟩
        · exact (hs.settled endNode h).2.2 d hd
        · rw [hnil] at hy; cases hy
    · obtain ⟨htk, htD, htfin⟩ := hq.entries t htQ
      have hmin : ∀ d, g.Reach s t.2 d → lookupDistance st.distances t.2 ≤ d := by
        intro d hd
        rcases hcut t.2 d hd with h | ⟨y, hy, hyd⟩
        · exact (hs.settled t.2 h).2.2 d hd
        · have := htmin _ hy
          simp only at this
          omega
      have hlen : (st.pq.erase t).length + 1 = st.pq.length := by
        rw [List.length_erase_of_mem htQ]
        have := List.length_pos_of_mem htQ
        omega
      have hmu1 : loopMeasure g { st with pq := st.pq.erase t } < n := by
        unfold loopMeasure at hmu ⊢
        simp only
        omega
      by_cases he : t.2 = endNode
      · refine ⟨_, S, dijkstraLoop_end g endNode n st t h1 he, hs, ?_, ?_⟩
        · intro hinf
          rw [← he] at hinf
          simp only at hinf
          rw [hinf] at htD
          omega
        · intro _ d hd
          rw [← he] at hd ⊢
          exact hmin d hd
      · by_cases hst : t.1 > lookupDistance st.distances t.2
        · rw [dijkstraLoop_stale g endNode n st t h1 he hst]
          refine ih _ S hs ⟨?_, ?_⟩ hr hmu1
          · intro v hv hfin
            rcases hq.pending v hv hfin with h | h
            · exact Or.inl h
            · refine Or.inr ((List.mem_erase_of_ne ?_).2 h)
              intro heq
              rw [← heq] at hst
              exact lt_irrefl _ hst
          · intro y hy
            exact hq.entries y (List.mem_of_mem_erase hy)
        · rw [dijkstraLoop_settle g endNode n st t h1 he hst]
          have hDt : lookupDistance st.distances t.2 = t.1 := by omega
          by_cases htS : t.2 ∈ S
          · have hq1 : QueueOK g S (lookupDistance st.distances) (st.pq.erase t) := by
              refine ⟨?_, fun y hy => hq.entries y (List.mem_of_mem_erase hy)⟩
              intro v hv hfin
              rcases hq.pending v hv hfin with h | h
              · exact Or.inl h
              · by_cases heq : (lookupDistance st.distances v, v) = t
                · left
                  rw [← heq] at htS
                  exact htS
                · exact Or.inr ((List.mem_erase_of_ne heq).2 h)
            obtain ⟨b1, b2, b3, -, -, -, b7⟩ :=
              relax_all g s hW hN hM S S (fun x hx => hx) t.2 htS (g.neighbors t.2)
                (fun e he => he) { st with pq := st.pq.erase t } hs hq1 hr
            exact ih _ S b1 b2 b3 (lt_of_le_of_lt b7 hmu1)
          · have hs1 : Sound g s (t.2 :: S) (lookupDistance st.distances)
                (lookupParent st.parent) := by
              refine ⟨hs.start, hs.startKey, hs.dist, ?_, ⟨?_, hs.tree⟩, ?_⟩
              · intro x hx
                rcases List.mem_cons.1 hx with h | h
                · rw [h]
                  exact ⟨htk, by omega, hmin⟩
                · exact hs.settled x h
              · by_cases hts : t.2 = s
                · exact Or.inl hts
                · exact Or.inr (hs.parent t.2 htk htS hts (by omega))
              · intro v hv hvT hvs hfin
                obtain ⟨h2, h3⟩ := hs.parent v hv
                  (fun h => hvT (List.mem_cons_of_mem _ h)) hvs hfin
                exact ⟨List.mem_cons_of_mem _ h2, h3⟩
            have hq1 : QueueOK g (t.2 :: S) (lookupDistance st.distances) (st.pq.erase t) := by
              refine ⟨?_, fun y hy => hq.entries y (List.mem_of_mem_erase hy)⟩
              intro v hv hfin
              rcases hq.pending v hv hfin with h | h
              · exact Or.inl (List.mem_cons_of_mem _ h)
              · by_cases heq : (lookupDistance st.distances v, v) = t
                · left
                  rw [← heq]
                  exact List.mem_cons_self _ _
                · exact Or.inr ((List.mem_erase_of_ne heq).2 h)
            obtain ⟨b1, b2, b3, -, b5, b6, b7⟩ :=
              relax_all g s hW hN hM (t.2 :: S) S (fun x hx => List.mem_cons_of_mem _ hx) t.2
                (List.mem_cons_self _ _) (g.neighbors t.2) (fun e he => he)
                { st with pq := st.pq.erase t } hs1 hq1 hr
            refine ih _ (t.2 :: S) b1 b2 ?_ (lt_of_le_of_lt b7 hmu1)
            intro x hx v w hxv
            rcases List.mem_cons.1 hx with h | h
            · rw [h] at hxv ⊢
              rw [b5 t.2 (List.mem_cons_self _ _)]
              exact b6 (v, w) hxv
            · exact b3 x h v w hxv
/-! ### The path that is printed -/

theorem collectPath_stop (parent : List (String × String)) (s : String) (n : Nat)
    (acc : List String) : collectPath parent s (n + 1) s acc = some acc := by
  rw [collectPath, if_pos rfl]

theorem collectPath_step (parent : List (String × String)) (s : String) (n : Nat)
    (curr : String) (acc : List String) (h : curr ≠ s) :
    collectPath parent s (n + 1) curr acc
      = collectPath parent s n (lookupParent parent curr) (acc ++ [curr]) := by
  rw [collectPath, if_neg h]

theorem collectPath_mono (parent : List (String × String)) (s : String) (n : Nat) :
    ∀ (curr : String) (acc path : List String), collectPath parent s n curr acc = some path →
      ∀ m, n ≤ m → collectPath parent s m curr acc = some path := by
  induction n with
  | zero => intro curr acc path h; cases h
  | succ n ih =>
    intro curr acc path h m hm
    obtain ⟨k, rfl⟩ : ∃ k, m = k + 1 := ⟨m - 1, by omega⟩
    by_cases hc : curr = s
    · rw [hc] at h ⊢
      rw [collectPath_stop] at h ⊢
      exact h
    · rw [collectPath_step _ _ _ _ _ hc] at h ⊢
      exact ih _ _ _ h k (by omega)

/-- The step from a parent to its child in the walk back from the end. -/
theorem path_child (g : Graph) (s : String) (D : String → Int)
    (parent : List (String × String)) (x : String) (w : Int) (N : Nat) (hx : x ≠ s)
    (he : g.Edge (lookupParent parent x) x w) (hD : D x = D (lookupParent parent x) + w)
    (h : ∃ c, (∀ fuel acc, N ≤ fuel →
        collectPath parent s fuel (lookupParent parent x) acc = some (acc ++ c)) ∧
      g.PathFromTo s (lookupParent parent x) ((c ++ [s]).reverse)
        (D (lookupParent parent x))) :
    ∃ c, (∀ fuel acc, N + 1 ≤ fuel → collectPath parent s fuel x acc = some (acc ++ c)) ∧
      g.PathFromTo s x ((c ++ [s]).reverse) (D x) := by
  obtain ⟨c, h1, h2⟩ := h
  refine ⟨x :: c, ?_, ?_⟩
  · intro fuel acc hf
    obtain ⟨k, rfl⟩ : ∃ k, fuel = k + 1 := ⟨fuel - 1, by omega⟩
    rw [collectPath_step _ _ _ _ _ hx, h1 k _ (by omega), List.append_assoc,
      List.singleton_append]
  · rw [List.cons_append, List.reverse_cons, hD]
    exact h2.snoc_step he

theorem path_start (g : Graph) (s : String) (D : String → Int)
    (parent : List (String × String)) (hs : D s = 0) (N : Nat) :
    ∃ c, (∀ fuel acc, N + 1 ≤ fuel → collectPath parent s fuel s acc = some (acc ++ c)) ∧
      g.PathFromTo s s ((c ++ [s]).reverse) (D s) := by
  refine ⟨[], ?_, ?_⟩
  · intro fuel acc hf
    obtain ⟨k, rfl⟩ : ∃ k, fuel = k + 1 := ⟨fuel - 1, by omega⟩
    rw [collectPath_stop, List.append_nil]
  · rw [hs]
    exact ⟨rfl, rfl, Graph.IsPath.single s⟩

/-- From a settled vertex the parent links lead back to the start, along
edges whose weights add up to the distance of the vertex. -/
theorem tree_path (g : Graph) (s : String) (D : String → Int)
    (parent : List (String × String)) (hs : D s = 0) (T : List String)
    (h : ParentTree g s D (lookupParent parent) T) :
    ∀ x ∈ T, ∃ c, (∀ fuel acc, T.length + 1 ≤ fuel →
        collectPath parent s fuel x acc = some (acc ++ c)) ∧
      g.PathFromTo s x ((c ++ [s]).reverse) (D x) := by
  induction T with
  | nil => intro x hx; cases hx
  | cons u T ih =>
    obtain ⟨h1, h2⟩ := h
    have ih2 := ih h2
    have hu : ∃ c, (∀ fuel acc, (u :: T).length + 1 ≤ fuel →
        collectPath parent s fuel u acc = some (acc ++ c)) ∧
        g.PathFromTo s u ((c ++ [s]).reverse) (D u) := by
      by_cases hus : u = s
      · rw [hus]
        obtain ⟨c, a1, a2⟩ := path_start g s D parent hs 0
        exact ⟨c, fun fuel acc hf => a1 fuel acc (by omega), a2⟩
      · rcases h1 with h1 | ⟨h1, w, h3, h4⟩
        · exact absurd h1 hus
        · exact path_child g s D parent u w (T.length + 1) hus h3 h4 (ih2 _ h1)
    intro x hx
    rcases List.mem_cons.1 hx with h | h
    · rw [h]; exact hu
    · obtain ⟨c, a1, a2⟩ := ih2 x h
      refine ⟨c, fun fuel acc hf => a1 fuel acc ?_, a2⟩
      simp only [List.length_cons] at hf
      omega

/-- From an end vertex with a distance below `INT_MAX` the loop that collects
the path ends, and the path it collects leads from the start to the end along
edges whose weights add up to that distance. -/
theorem end_path (g : Graph) (s endNode : String) (S : List String) (D : String → Int)
    (parent : List (String × String)) (hs : Sound g s S D (lookupParent parent))
    (hend : g.contains endNode = true) (hfin : D endNode ≠ INT_MAX) :
    ∃ c, (∀ fuel acc, S.length + 2 ≤ fuel →
        collectPath parent s fuel endNode acc = some (acc ++ c)) ∧
      g.PathFromTo s endNode ((c ++ [s]).reverse) (D endNode) := by
  have htree := tree_path g s D parent hs.start S hs.tree
  by_cases hes : endNode = s
  · rw [hes]
    obtain ⟨c, a1, a2⟩ := path_start g s D parent hs.start 0
    exact ⟨c, fun fuel acc hf => a1 fuel acc (by omega), a2⟩
  · by_cases heS : endNode ∈ S
    · obtain ⟨c, a1, a2⟩ := htree endNode heS
      exact ⟨c, fun fuel acc hf => a1 fuel acc (by omega), a2⟩
    · have hlt : D endNode < INT_MAX := by
        rcases hs.dist endNode hend with h | h
        · exact absurd h hfin
        · exact h.2.1
      obtain ⟨h1, w, h3, h4⟩ := hs.parent endNode hend heS hes hlt
      exact path_child g s D parent endNode w (S.length + 1) hes h3 h4 (htree _ h1)

theorem Graph.dijkstra_mono (g : Graph) (n : Nat) (s endNode : String) (r : DijkstraOutput)
    (h : g.dijkstra n s endNode = some r) (m : Nat) (hm : n ≤ m) :
    g.dijkstra m s endNode = some r := by
  unfold Graph.dijkstra at h ⊢
  by_cases h1 : (!g.contains s) = true
  · rw [if_pos h1] at h ⊢; exact h
  · rw [if_neg h1] at h ⊢
    by_cases h2 : (!g.contains endNode) = true
    · rw [if_pos h2] at h ⊢; exact h
    · rw [if_neg h2] at h ⊢
      simp only at h ⊢
      cases hl : dijkstraLoop g endNode n
          { distances := (s, 0) :: g.adjacencyList.map (fun p => (p.1, INT_MAX)),
            parent := [], pq := [(0, s)] } with
      | none => rw [hl] at h; cases h
      | some st =>
        rw [hl] at h
        rw [dijkstraLoop_mono g endNode n _ _ hl m hm]
        simp only at h ⊢
        by_cases h3 : lookupDistance st.distances endNode = INT_MAX
        · rw [if_pos h3] at h ⊢; exact h
        · rw [if_neg h3] at h ⊢
          cases hc : collectPath st.parent s n endNode [] with
          | none => rw [hc] at h; cases h
          | some path =>
            rw [hc] at h
            rw [collectPath_mono _ _ n _ _ _ hc m hm]
            exact h

/-- The loop of `dijkstra`, started as `dijkstra` starts it, ends with the
distance of the end vertex right and the parent links in place. -/
theorem dijkstra_loop_result (g : Graph) (s endNode : String) (hg : g.Built)
    (hn : g.NonNegative) (hm : g.SumsBelowMax s) (hs : g.contains s = true) :
    ∃ fuel st S, (∀ n, fuel ≤ n → dijkstraLoop g endNode n
        { distances := (s, 0) :: g.adjacencyList.map (fun p => (p.1, INT_MAX)),
          parent := [], pq := [(0, s)] } = some st) ∧
      Sound g s S (lookupDistance st.distances) (lookupParent st.parent) ∧
      (lookupDistance st.distances endNode = INT_MAX → ∀ d, ¬ g.Reach s endNode d) ∧
      (lookupDistance st.distances endNode ≠ INT_MAX →
        ∀ d, g.Reach s endNode d → lookupDistance st.distances endNode ≤ d) := by
  have hM : ∀ u d, g.Reach s u d → (∀ d', g.Reach s u d' → d ≤ d') →
      ∀ v w, g.Edge u v w → d + w < INT_MAX := by
    intro u d hr hmin v w he
    exact hm u d ⟨hr.to_path, fun p d' hp => hmin d' hp.to_reach⟩ v w he
  have hD : ∀ x, lookupDistance ((s, 0) :: g.adjacencyList.map (fun p => (p.1, INT_MAX))) x
      = if s = x then 0 else lookupDistance (g.adjacencyList.map (fun p => (p.1, INT_MAX))) x :=
    fun x => lookupDistance_cons _ _ _ _
  have hinit : ∀ x, g.contains x = true → s ≠ x →
      lookupDistance ((s, 0) :: g.adjacencyList.map (fun p => (p.1, INT_MAX))) x = INT_MAX := by
    intro x hx hsx
    rw [hD, if_neg hsx]
    exact lookupDistance_init _ _ ((contains_iff g x).1 hx)
  have hpos : (0 : Int) < INT_MAX := by unfold INT_MAX; decide
  have hs0 : Sound g s []
      (lookupDistance ((s, 0) :: g.adjacencyList.map (fun p => (p.1, INT_MAX))))
      (lookupParent []) := by
    refine ⟨by rw [hD, if_pos rfl], hs, ?_, ?_, trivial, ?_⟩
    · intro v hv
      by_cases hsv : s = v
      · right
        rw [hD, if_pos hsv, ← hsv]
        exact ⟨le_refl _, hpos, Graph.Reach.refl⟩
      · exact Or.inl (hinit v hv hsv)
    · intro x hx; cases hx
    · intro v hv _ hvs hfin
      rw [hinit v hv (fun h => hvs h.symm)] at hfin
      exact absurd hfin (lt_irrefl _)
  have hq0 : QueueOK g []
      (lookupDistance ((s, 0) :: g.adjacencyList.map (fun p => (p.1, INT_MAX)))) [(0, s)] := by
    refine ⟨?_, ?_⟩
    · intro v hv hfin
      by_cases hsv : s = v
      · right
        rw [hD, if_pos hsv, ← hsv]
        exact List.mem_singleton_self _
      · rw [hinit v hv hsv] at hfin
        exact absurd hfin (lt_irrefl _)
    · intro e he
      rw [List.mem_singleton] at he
      rw [he]
      refine ⟨hs, ?_, hpos⟩
      show lookupDistance _ s ≤ 0
      rw [hD, if_pos rfl]
  obtain ⟨st, S, h1, h2, h3, h4⟩ :=
    dijkstraLoop_correct g s endNode hg.neighbors_closed hn hM _
      { distances := (s, 0) :: g.adjacencyList.map (fun p => (p.1, INT_MAX)),
        parent := [], pq := [(0, s)] } [] hs0 hq0
      (fun x hx => absurd hx (List.not_mem_nil x)) (Nat.lt_succ_self _)
  exact ⟨_, st, S, fun n hn' => dijkstraLoop_mono g endNode _ _ _ h1 n hn', h2, h3, h4⟩
/-! ### Dijkstra: the claim -/

/-- C28 (amended): for every graph built by `addVertex` and `addEdge` whose
edge weights are non-negative, with every sum of the least path weight from
start to a vertex and the weight of an edge leaving that vertex below
`INT_MAX` = 2147483647, and every start and end vertex of the graph, `dijkstra`
terminates (from some fuel on it returns the same output), reports "No path
found" iff end is unreachable from start, and otherwise reports a path that
starts at start, ends at end, follows existing edges, and whose total weight
equals the reported cost and is the minimum over all start-to-end paths. -/
theorem C28_dijkstra_correct (g : Graph) (startNode endNode : String) (hg : g.Built)
    (hn : g.NonNegative) (hm : g.SumsBelowMax startNode)
    (hs : g.contains startNode = true) (he : g.contains endNode = true) :
    ∃ fuel r, (∀ n, fuel ≤ n → g.dijkstra n startNode endNode = some r) ∧
      (r = .noPathFound ↔ ¬ ∃ p d, g.PathFromTo startNode endNode p d) ∧
      (r ≠ .noPathFound → ∃ path cost, r = .pathFound path cost ∧
        g.PathFromTo startNode endNode path cost ∧
        ∀ p d, g.PathFromTo startNode endNode p d → cost ≤ d) := by
  obtain ⟨fuel, st, S, hloop, hsound, hinf, hfin⟩ :=
    dijkstra_loop_result g startNode endNode hg hn hm hs
  have hns : ¬ (!g.contains startNode) = true := by rw [hs]; decide
  have hne : ¬ (!g.contains endNode) = true := by rw [he]; decide
  by_cases h : lookupDistance st.distances endNode = INT_MAX
  · refine ⟨fuel, .noPathFound, ?_, ?_, ?_⟩
    · intro n hn'
      unfold Graph.dijkstra
      rw [if_neg hns, if_neg hne]
      simp only [hloop n hn']
      rw [if_pos h]
    · constructor
      · rintro - ⟨p, d, hp⟩
        exact hinf h d hp.to_reach
      · intro _; rfl
    · intro h1; exact absurd rfl h1
  · obtain ⟨c, hc, hpath⟩ := end_path g startNode endNode S _ st.parent hsound he h
    refine ⟨max fuel (S.length + 2),
      .pathFound ((c ++ [startNode]).reverse) (lookupDistance st.distances endNode), ?_, ?_, ?_⟩
    · intro n hn'
      unfold Graph.dijkstra
      rw [if_neg hns, if_neg hne]
      simp only [hloop n (le_trans (le_max_left _ _) hn')]
      rw [if_neg h, hc n [] (le_trans (le_max_right _ _) hn')]
      simp only [List.nil_append]
    · constructor
      · intro h1; cases h1
      · intro h1; exact absurd ⟨_, _, hpath⟩ h1
    · intro _
      exact ⟨_, _, rfl, hpath, fun p d hp => hfin h d hp.to_reach⟩

theorem cityMap_built : cityMap.Built :=
  Graph.Built.addEdge _ "C" "D" 5 true
    (Graph.Built.addEdge _ "A" "C" 20 true
      (Graph.Built.addEdge _ "B" "C" 10 true
        (Graph.Built.addEdge _ "A" "B" 5 true Graph.Built.empty)))

theorem cityMap_nonNegative : cityMap.NonNegative := by
  unfold Graph.NonNegative
  decide

theorem cityMap_sums : cityMap.SumsBelowMax "A" := by
  intro u d hl v w he
  obtain ⟨⟨p, hp⟩, -⟩ := hl
  have hf : ∀ p ∈ cityMap.adjacencyList, ∀ e ∈ p.2,
      (fun v : String => if v = "B" then (5 : Int) else if v = "C" then 20
        else if v = "D" then 25 else 0) p.1 + e.2
      ≤ (fun v : String => if v = "B" then (5 : Int) else if v = "C" then 20
        else if v = "D" then 25 else 0) e.1 := by decide
  have h1 := Graph.Reach.le_potential (fun v : String => if v = "B" then (5 : Int)
    else if v = "C" then 20 else if v = "D" then 25 else 0) hf hp.to_reach
  have h2 : ∀ p ∈ cityMap.adjacencyList, ∀ e ∈ p.2, e.2 ≤ 20 := by decide
  obtain ⟨q, hq, -, hqe⟩ := he.stored_entry
  have h3 := h2 q hq _ hqe
  simp only at h1 h3
  have h4 : (if u = "B" then (5 : Int) else if u = "C" then 20
      else if u = "D" then 25 else 0) ≤ 25 := by
    split_ifs <;> decide
  rw [if_neg (by decide), if_neg (by decide), if_neg (by decide)] at h1
  unfold INT_MAX
  omega

/-- C28 (witness): the amended statement at the graph `CityMap` of
`graph/main.cpp`, from A to D; the run itself prints the path A, B, C, D with
the total cost 20. -/
theorem C28_dijkstra_correct_witness :
    cityMap.Built ∧ cityMap.NonNegative ∧ cityMap.SumsBelowMax "A" ∧
    cityMap.contains "A" = true ∧ cityMap.contains "D" = true ∧
    cityMap.dijkstra 6 "A" "D" = some (.pathFound ["A", "B", "C", "D"] 20) ∧
    ∃ fuel r, (∀ n, fuel ≤ n → cityMap.dijkstra n "A" "D" = some r) ∧
      (r = .noPathFound ↔ ¬ ∃ p d, cityMap.PathFromTo "A" "D" p d) ∧
      (r ≠ .noPathFound → ∃ path cost, r = .pathFound path cost ∧
        cityMap.PathFromTo "A" "D" path cost ∧
        ∀ p d, cityMap.PathFromTo "A" "D" p d → cost ≤ d) :=
  ⟨cityMap_built, cityMap_nonNegative, cityMap_sums, by decide, by decide, by decide,
    C28_dijkstra_correct cityMap "A" "D" cityMap_built cityMap_nonNegative cityMap_sums
      (by decide) (by decide)⟩

theorem maxEdgeGraph_built : maxEdgeGraph.Built :=
  Graph.Built.addEdge _ "A" "B" 2147483647 true Graph.Built.empty

theorem maxEdgeGraph_nonNegative : maxEdgeGraph.NonNegative := by
  unfold Graph.NonNegative
  decide

/-- C28 (counterexample): the graph with the one edge A → B of weight
2147483647 has non-negative weights and all its path sums inside the 32-bit
int range; B is reachable from A by the path A, B of total weight 2147483647;
`dijkstra` from A to B reports "No path found". -/
theorem C28_counterexample :
    maxEdgeGraph.Built ∧ maxEdgeGraph.NonNegative ∧
    maxEdgeGraph.contains "A" = true ∧ maxEdgeGraph.contains "B" = true ∧
    (∀ s t p d, maxEdgeGraph.PathFromTo s t p d → -2147483648 ≤ d ∧ d ≤ 2147483647) ∧
    maxEdgeGraph.PathFromTo "A" "B" ["A", "B"] 2147483647 ∧
    (∀ n, 3 ≤ n → maxEdgeGraph.dijkstra n "A" "B" = some .noPathFound) := by
  refine ⟨maxEdgeGraph_built, maxEdgeGraph_nonNegative, by decide, by decide, ?_, ?_, ?_⟩
  · intro s t p d hp
    have hf : ∀ p ∈ maxEdgeGraph.adjacencyList, ∀ e ∈ p.2,
        (fun v : String => if v = "B" then (2147483647 : Int) else 0) p.1 + e.2
        ≤ (fun v : String => if v = "B" then (2147483647 : Int) else 0) e.1 := by decide
    have h1 := Graph.Reach.le_potential
      (fun v : String => if v = "B" then (2147483647 : Int) else 0) hf hp.to_reach
    have h2 := hp.to_reach.total_nonneg maxEdgeGraph_nonNegative
    simp only at h1
    have h3 : (0 : Int) ≤ (if s = "B" then (2147483647 : Int) else 0) := by
      split_ifs <;> decide
    have h4 : (if t = "B" then (2147483647 : Int) else 0) ≤ 2147483647 := by
      split_ifs <;> decide
    omega
  · refine ⟨rfl, rfl, ?_⟩
    have := Graph.IsPath.cons (g := maxEdgeGraph) "A" "B" [] 2147483647 0
      (by unfold Graph.Edge; decide) (Graph.IsPath.single "B")
    rw [add_zero] at this
    exact this
  · intro n hn
    exact Graph.dijkstra_mono maxEdgeGraph 3 "A" "B" _ (by decide) n hn

/-! ## A table of 2^32 pages -/

/-- What `loadAllRecords` returns on the output of the rewrite loop, for any
number of records. -/
theorem load_writeFrom (c : Layout) (hc : c.Valid) (rs : List Record) (p : Page)
    (h : p.Inv c) (hrs : ∀ r ∈ rs, r.Storable c) :
    loadAllRecords c (some (writeFrom c p rs)) = p.selectRecords c ++ rs := by
  have hpos : 0 < c.PAGE_SIZE := by have := hc.1; have := hc.2.1; omega
  induction rs generalizing p with
  | nil =>
    have hlen := Page.length_serializeToBuffer hc h
    obtain ⟨-, h2, -, h4, -, -⟩ :=
      Page.deserializeFromBuffer_serializeToBuffer hc h (Page.empty c) (by simp [Page.empty])
    rw [writeFrom_nil]
    have := loadAllRecords_append c (p.serializeToBuffer c) [] hlen hpos
    rw [List.append_nil] at this
    rw [this, h2, loadAllRecords_nil, Page.loadRecords_eq_selectRecords,
      Page.selectRecords_roundtrip hc h]
    split
    · rename_i h0
      have hs : p.slots = [] := List.eq_nil_of_length_eq_zero (by rw [← h.slotCount_eq]; exact h0)
      rw [Page.selectRecords_eq, hs]; rfl
    · rfl
  | cons r rs ih =>
    have hr := hrs r (List.mem_cons_self _ _)
    have hrest : ∀ r' ∈ rs, r'.Storable c := fun r' hr' => hrs r' (List.mem_cons_of_mem _ hr')
    have hfit : (serializeRecord r).length + 5 ≤ c.PAGE_SIZE - c.PAGE_HEADER_RESERVED := hr.2
    have h16 := hc.2.2
    by_cases hroom : (serializeRecord r).length + 5
        ≤ c.PAGE_SIZE - p.freeSpaceOffset - 5 * p.slots.length
    · obtain ⟨hres, hsel⟩ := Page.selectRecords_insert hc h r hr.1 (by omega) hroom
      have hinv1 := h.insertRawRecord hc (serializeRecord r)
      rw [writeFrom_cons_room c p _ p.slots.length r rs (Prod.ext rfl hres), ih _ hinv1 hrest,
        hsel, List.append_assoc, List.singleton_append]
    · have hno := Page.insertRawRecord_of_no_room hc h (serializeRecord r) (by omega)
      have hinv0 := Page.Inv.empty c hc 1 (by decide)
      obtain ⟨hres, hsel⟩ := Page.selectRecords_insert hc hinv0 r hr.1 (by omega)
        (by simp only [Page.empty, List.length_nil]; omega)
      have hinv1 := hinv0.insertRawRecord hc (serializeRecord r)
      have hlen := Page.length_serializeToBuffer hc h
      obtain ⟨-, h2, -, h4, -, -⟩ :=
        Page.deserializeFromBuffer_serializeToBuffer hc h (Page.empty c) (by simp [Page.empty])
      have hsel0 : ({ Page.empty c with pageID := 1 } : Page).selectRecords c = [] := by
        rw [Page.selectRecords_eq]; rfl
      rw [hsel0, List.nil_append] at hsel
      rw [writeFrom_cons_no_room c p p r rs hno]
      have hne : ¬ p.slotCount = 0 := by
        intro h0
        have hs : p.slots = [] := List.eq_nil_of_length_eq_zero (by rw [← h.slotCount_eq]; exact h0)
        have hf := h.slots_nil hs
        rw [hs, hf] at hroom
        simp only [List.length_nil] at hroom
        omega
      rw [loadAllRecords_append c _ _ hlen hpos, h2, Page.loadRecords_eq_selectRecords,
        Page.selectRecords_roundtrip hc h, ih _ hinv1 hrest, hsel, if_neg hne]
      rfl

theorem load_writeAllRecords (c : Layout) (hc : c.Valid) (rs : List Record)
    (hrs : ∀ r ∈ rs, r.Storable c) :
    loadAllRecords c (some (writeAllRecords c rs)) = rs := by
  have h := load_writeFrom c hc rs _ (Page.Inv.empty c hc 0 (by decide)) hrs
  have hsel0 : ({ Page.empty c with pageID := 0 } : Page).selectRecords c = [] := by
    rw [Page.selectRecords_eq]; rfl
  rw [hsel0, List.nil_append] at h
  exact h

/-- Records of the size of `bigRecord` take one page each. -/
theorem length_writeFrom_big (as : List Int)
    (has : ∀ a ∈ as, -2147483648 ≤ a ∧ a < 2147483648) :
    ∀ (i : Nat) (a : Int), i < 18446744073709551616 → -2147483648 ≤ a → a < 2147483648 →
      (writeFrom layout4K (pageWith layout4K i (bigRecord a)) (as.map bigRecord)).length
        = (as.length + 1) * layout4K.PAGE_SIZE := by
  induction as with
  | nil =>
    intro i a hi h1 h2
    rw [List.map_nil, writeFrom_nil,
      Page.length_serializeToBuffer layout4K_valid (pageWith_inv_big i hi a h1 h2).1]
    simp
  | cons b bs ih =>
    intro i a hi h1 h2
    have hb := has b (List.mem_cons_self _ _)
    rw [List.map_cons, big_no_room i hi a b h1 h2, List.length_append,
      Page.length_serializeToBuffer layout4K_valid (pageWith_inv_big i hi a h1 h2).1,
      ih (fun x hx => has x (List.mem_cons_of_mem _ hx)) 1 b (by decide) hb.1 hb.2,
      List.length_cons]
    ring

theorem length_writeAllRecords_big (as : List Int)
    (has : ∀ a ∈ as, -2147483648 ≤ a ∧ a < 2147483648) (hne : as ≠ []) :
    (writeAllRecords layout4K (as.map bigRecord)).length = as.length * layout4K.PAGE_SIZE := by
  obtain ⟨a, bs, rfl⟩ := List.exists_cons_of_ne_nil hne
  have ha := has a (List.mem_cons_self _ _)
  unfold writeAllRecords
  rw [List.map_cons, writeFrom_first layout4K layout4K_valid 0 (by decide) _ _
      (bigRecord_storable a ha.1 ha.2).2,
    length_writeFrom_big bs (fun x hx => has x (List.mem_cons_of_mem _ hx)) 0 a (by decide)
      ha.1 ha.2, List.length_cons]

theorem getId_bigRecord (a : Int) : getId (bigRecord a) = .ok a := rfl

/-- Inserting records of the size of `bigRecord` with new identifiers, one
after another, however many. -/
theorem insertAll_big (todo : List Int) :
    ∀ (done : List Int) (f : DataFile),
      (∀ a ∈ done ++ todo, -2147483648 ≤ a ∧ a < 2147483648) → (done ++ todo).Nodup →
      loadAllRecords layout4K f = done.map bigRecord →
      ∃ f', insertAll layout4K f (todo.map bigRecord) = some f' ∧
        (todo ≠ [] → f' = some (writeAllRecords layout4K ((done ++ todo).map bigRecord))) := by
  induction todo with
  | nil =>
    intro done f _ _ _
    exact ⟨f, rfl, fun h => absurd rfl h⟩
  | cons a todo ih =>
    intro done f hr hnd hload
    have hnd2 : (done ++ [a] ++ todo).Nodup := by
      rw [List.append_assoc, List.singleton_append]; exact hnd
    have hr2 : ∀ x ∈ done ++ [a] ++ todo, -2147483648 ≤ x ∧ x < 2147483648 := by
      rw [List.append_assoc, List.singleton_append]; exact hr
    have hmiss : ∀ x ∈ done.map bigRecord, ∃ k', getId x = .ok k' ∧ k' ≠ a := by
      intro x hx
      obtain ⟨b, hb, rfl⟩ := List.mem_map.1 hx
      refine ⟨b, getId_bigRecord b, ?_⟩
      intro hba
      rw [hba] at hb
      have := (List.nodup_append.1 hnd).2.2
      exact this hb (List.mem_cons_self _ _)
    have hhas : ∀ r ∈ done.map bigRecord, r.HasId := by
      intro x hx
      obtain ⟨k', hk', -⟩ := hmiss x hx
      exact ⟨k', hk'⟩
    have hins : insertRecord layout4K f (bigRecord a)
        = .ok (true, some (writeAllRecords layout4K ((done ++ [a]).map bigRecord))) := by
      have h1 := insertRecord_eq layout4K f (bigRecord a) a _ (getId_bigRecord a) (by
        rw [hload]; exact eraseById_ok a _ hhas)
      rw [filter_not_idIs_of_miss a _ hmiss] at h1
      rw [List.map_append, List.map_singleton]
      exact h1
    have hload1 : loadAllRecords layout4K
        (some (writeAllRecords layout4K ((done ++ [a]).map bigRecord)))
        = (done ++ [a]).map bigRecord := by
      apply load_writeAllRecords layout4K layout4K_valid
      intro r hr'
      obtain ⟨b, hb, rfl⟩ := List.mem_map.1 hr'
      have := hr2 b (List.mem_append_left _ hb)
      exact bigRecord_storable b this.1 this.2
    obtain ⟨f', g1, g2⟩ := ih (done ++ [a]) _ hr2 hnd2 hload1
    refine ⟨f', ?_, ?_⟩
    · rw [List.map_cons]
      simp only [insertAll, hins]
      exact g1
    · intro _
      by_cases ht : todo = []
      · rw [ht] at g1 ⊢
        rw [List.map_nil] at g1
        have : f' = some (writeAllRecords layout4K ((done ++ [a]).map bigRecord)) :=
          (Option.some.inj g1).symm
        exact this
      · rw [g2 ht, List.append_assoc, List.singleton_append]

theorem allIds_spec (n : Nat) (hn : n ≤ 4294967296) :
    (∀ a ∈ (List.range n).map (fun i : Nat => (i : Int) - 2147483648),
      -2147483648 ≤ a ∧ a < 2147483648) ∧
    ((List.range n).map (fun i : Nat => (i : Int) - 2147483648)).Nodup ∧
    ((List.range n).map (fun i : Nat => (i : Int) - 2147483648)).length = n := by
  refine ⟨?_, ?_, ?_⟩
  · intro a ha
    obtain ⟨i, hi, rfl⟩ := List.mem_map.1 ha
    have := List.mem_range.1 hi
    constructor <;> omega
  · refine List.Nodup.map ?_ (List.nodup_range n)
    intro i j h
    simp only at h
    omega
  · rw [List.length_map, List.length_range]

/-- A table that holds 2^32 records of the size of `bigRecord` has 2^32 pages:
the 32-bit page count of `selectAll` is 0 and `selectAll` returns nothing,
while `loadAllRecords` returns all the records. -/
theorem table_of_all_ids (as : List Int)
    (hr : ∀ a ∈ as, -2147483648 ≤ a ∧ a < 2147483648) (hnd : as.Nodup)
    (hlen : as.length = 4294967296) :
    ∃ f, insertAll layout4K (newTable layout4K) (as.map bigRecord) = some f ∧
      selectAll layout4K f = [] ∧ loadAllRecords layout4K f = as.map bigRecord := by
  have hne : as ≠ [] := by
    intro h
    rw [h] at hlen
    exact absurd hlen (by decide)
  obtain ⟨hinv, hsel⟩ := tableInv_newTable layout4K layout4K_valid
  have hload : loadAllRecords layout4K (newTable layout4K) = ([] : List Int).map bigRecord := by
    rw [hinv.1, hsel]; rfl
  obtain ⟨f, h1, h2⟩ := insertAll_big as [] (newTable layout4K)
    (by rw [List.nil_append]; exact hr) (by rw [List.nil_append]; exact hnd) hload
  have hf := h2 hne
  rw [List.nil_append] at hf
  refine ⟨f, h1, ?_, ?_⟩
  · rw [hf]
    have hpc : pageCount layout4K (some (writeAllRecords layout4K (as.map bigRecord))) = 0 := by
      unfold pageCount
      simp only [length_writeAllRecords_big as hr hne, hlen]
      rw [div_page _ _ (by decide), Nat.mod_self]
    unfold selectAll
    rw [hpc]
    rfl
  · rw [hf]
    apply load_writeAllRecords layout4K layout4K_valid
    intro r hr'
    obtain ⟨b, hb, rfl⟩ := List.mem_map.1 hr'
    exact bigRecord_storable b (hr b hb).1 (hr b hb).2

/-- C22 (counterexample): `allIdRecords` are 2^32 records with an Integer
`fields[0]` that each fit in an empty page; `insertRecord` of them one after
another on the new table `students` succeeds each time, and on the table they
leave `selectAll` returns no record while `loadAllRecords` returns them all. -/
theorem C22_counterexample :
    (∀ r ∈ allIdRecords, r.HasId ∧ r.FitsEmptyPage layout4K) ∧
    allIdRecords.length = 4294967296 ∧
    ∃ f, insertAll layout4K (newTable layout4K) allIdRecords = some f ∧
      selectAll layout4K f = [] ∧ loadAllRecords layout4K f = allIdRecords := by
  obtain ⟨h1, h2, h3⟩ := allIds_spec 4294967296 (le_refl _)
  unfold allIdRecords
  refine ⟨?_, ?_, table_of_all_ids _ h1 h2 h3⟩
  · intro r hr
    obtain ⟨a, ha, rfl⟩ := List.mem_map.1 hr
    exact ⟨⟨a, rfl⟩, (bigRecord_storable a (h1 a ha).1 (h1 a ha).2).2⟩
  · rw [List.length_map]
    exact h3

/-! ## Files whose pages decode in bounds -/

theorem freeSpaceOffset_deserialize (c : Layout) (p : Page) (buffer : List Nat)
    (h : buffer.length = c.PAGE_SIZE) :
    (p.deserializeFromBuffer c buffer).freeSpaceOffset = fromBytesLE (readAt buffer 10 2) := by
  unfold Page.deserializeFromBuffer
  rw [if_neg (by omega)]

theorem length_pageBuffer (c : Layout) (bytes : List Nat) (i : Nat) :
    (readAt bytes (i * c.PAGE_SIZE) c.PAGE_SIZE ++
      List.replicate (c.PAGE_SIZE - (readAt bytes (i * c.PAGE_SIZE) c.PAGE_SIZE).length) 0).length
      = c.PAGE_SIZE := by
  have h : (readAt bytes (i * c.PAGE_SIZE) c.PAGE_SIZE).length ≤ c.PAGE_SIZE := by
    unfold readAt
    rw [List.length_take]
    exact Nat.min_le_left _ _
  rw [List.length_append, List.length_replicate]
  omega

/-- On a file whose pages store a `freeSpaceOffset` of at most `PAGE_SIZE`, and
on no other, the decoding of every page stays inside the page buffer and the
page's data; it then gives the page `readPageFromFile` gives. -/
theorem pagesInBounds_iff_checked (c : Layout) (hc : c.Valid) (bytes : List Nat) :
    PagesInBounds c (some bytes) ↔
      ∀ i : Nat, (Page.empty c).deserializeFromBufferChecked c
        (readAt bytes (i * c.PAGE_SIZE) c.PAGE_SIZE ++
          List.replicate (c.PAGE_SIZE - (readAt bytes (i * c.PAGE_SIZE) c.PAGE_SIZE).length) 0)
        = .ok (readPageFromFile c bytes i (Page.empty c)) := by
  have hd : (Page.empty c).data.length = c.PAGE_SIZE := by
    simp only [Page.empty, List.length_replicate]
  constructor
  · intro h i
    have hi := h bytes rfl i
    unfold readPageFromFile at hi ⊢
    simp only at hi ⊢
    rw [freeSpaceOffset_deserialize c _ _ (length_pageBuffer c bytes i)] at hi
    exact Page.deserializeFromBufferChecked_ok c hc _ _ (length_pageBuffer c bytes i) hd hi
  · intro h b hb i
    cases hb
    have hi := h i
    unfold readPageFromFile
    simp only
    rw [freeSpaceOffset_deserialize c _ _ (length_pageBuffer c bytes i)]
    by_contra hlt
    rw [Page.deserializeFromBufferChecked_fault c hc _ _ (length_pageBuffer c bytes i)
      (by omega)] at hi
    cases hi

theorem fromBytesLE_replicate_zero (n : Nat) : fromBytesLE (List.replicate n 0) = 0 := by
  induction n with
  | zero => rfl
  | succ n ih => rw [List.replicate_succ, fromBytesLE, ih]

theorem pagesInBounds_nil (c : Layout) : PagesInBounds c (some []) := by
  intro b hb i
  cases hb
  unfold readPageFromFile readAt
  simp only [List.drop_nil, List.take_nil, List.nil_append, List.length_nil, Nat.sub_zero]
  rw [freeSpaceOffset_deserialize c _ _ (List.length_replicate _ _)]
  unfold readAt
  rw [List.drop_replicate, List.take_replicate, fromBytesLE_replicate_zero]
  exact Nat.zero_le _

theorem pagesInBounds_append (c : Layout) (hc : c.Valid) (p : Page) (h : p.Inv c)
    (X : List Nat) (hX : PagesInBounds c (some X)) :
    PagesInBounds c (some (p.serializeToBuffer c ++ X)) := by
  have hlen := Page.length_serializeToBuffer hc h
  intro b hb i
  cases hb
  cases i with
  | zero =>
    rw [readPageFromFile_zero c _ X _ hlen]
    obtain ⟨-, -, h3, -, -, -⟩ :=
      Page.deserializeFromBuffer_serializeToBuffer hc h (Page.empty c) (by simp [Page.empty])
    rw [h3]
    have := h.room
    omega
  | succ i =>
    rw [readPageFromFile_succ c _ X _ i hlen]
    exact hX X rfl i

theorem pagesInBounds_page (c : Layout) (hc : c.Valid) (p : Page) (h : p.Inv c) :
    PagesInBounds c (some (p.serializeToBuffer c)) := by
  have := pagesInBounds_append c hc p h [] (pagesInBounds_nil c)
  rw [List.append_nil] at this
  exact this

/-- The rewrite loop of `insertRecord` and `updateRecord` writes pages that
store a `freeSpaceOffset` of at most `PAGE_SIZE`, whatever the records are. -/
theorem pagesInBounds_writeFrom (c : Layout) (hc : c.Valid) (rs : List Record) :
    ∀ p : Page, p.Inv c → PagesInBounds c (some (writeFrom c p rs)) := by
  induction rs with
  | nil =>
    intro p h
    rw [writeFrom_nil]
    exact pagesInBounds_page c hc p h
  | cons r rs ih =>
    intro p h
    have hinv := h.insertRawRecord hc (serializeRecord r)
    cases hres : p.insertRawRecord c (serializeRecord r) with
    | mk p1 o =>
      rw [hres] at hinv
      cases o with
      | some sid =>
        rw [writeFrom_cons_room c p p1 sid r rs hres]
        exact ih p1 hinv
      | none =>
        rw [writeFrom_cons_no_room c p p1 r rs hres]
        exact pagesInBounds_append c hc p1 hinv _
          (ih _ ((Page.Inv.empty c hc 1 (by decide)).insertRawRecord hc (serializeRecord r)))

theorem pagesInBounds_writeAllRecords (c : Layout) (hc : c.Valid) (rs : List Record) :
    PagesInBounds c (some (writeAllRecords c rs)) :=
  pagesInBounds_writeFrom c hc rs _ (Page.Inv.empty c hc 0 (by decide))

/-- The rewrite loop of `deleteRecord` writes pages that store a
`freeSpaceOffset` of at most `PAGE_SIZE`, whatever the records are. -/
theorem pagesInBounds_deleteLayout (c : Layout) (hc : c.Valid) (rs : List Record) :
    PagesInBounds c (some (rs.foldl (deleteStep c) [])) := by
  induction rs with
  | nil => exact pagesInBounds_nil c
  | cons r rs ih =>
    rw [List.foldl_cons, foldl_deleteStep_out]
    have hinv := (Page.Inv.empty c hc 0 (by decide)).insertRawRecord hc (serializeRecord r)
    cases hres : ({ Page.empty c with pageID := 0 } : Page).insertRawRecord c
        (serializeRecord r) with
    | mk p1 o =>
      rw [hres] at hinv
      cases o with
      | some sid =>
        rw [(deleteStep_room c p1 sid r hres).1]
        exact pagesInBounds_append c hc p1 hinv _ ih
      | none =>
        rw [(deleteStep_no_room c p1 r hres).1, List.nil_append]
        exact ih

/-- The file `insertRecord`, `updateRecord` or `deleteRecord` leaves has pages
that store a `freeSpaceOffset` of at most `PAGE_SIZE`, if the file had. -/
theorem pagesInBounds_after (c : Layout) (hc : c.Valid) (f : DataFile)
    (hf : PagesInBounds c f) :
    (∀ rec b f', insertRecord c f rec = .ok (b, f') → PagesInBounds c f') ∧
    (∀ id newRecord b f', updateRecord c f id newRecord = .ok (b, f') → PagesInBounds c f') ∧
    (∀ id b f', deleteRecord c f id = .ok (b, f') → PagesInBounds c f') := by
  refine ⟨?_, ?_, ?_⟩
  · intro rec b f' h
    unfold insertRecord at h
    simp only at h
    split at h
    · cases h
    · split at h
      · cases h
      · cases h
        exact pagesInBounds_writeAllRecords c hc _
  · intro id new b f' h
    unfold updateRecord at h
    simp only at h
    split at h
    · cases h
    · split at h
      · cases h; exact hf
      · cases h; exact pagesInBounds_writeAllRecords c hc _
  · intro id b f' h
    unfold deleteRecord at h
    simp only at h
    split at h
    · cases h
    · split at h
      · cases h; exact hf
      · cases h; exact pagesInBounds_deleteLayout c hc _

theorem pagesInBounds_students : PagesInBounds layout4K students := by
  rw [students_eq]
  exact pagesInBounds_writeAllRecords layout4K layout4K_valid _

/-- The file that consists of the page `corruptBuffer`, which stores the
`freeSpaceOffset` 65535, is not among these files. -/
theorem corruptBuffer_not_inBounds : ¬ PagesInBounds layout4K (some corruptBuffer) := by
  intro h
  have h0 := h (corruptBuffer ++ []) (by rw [List.append_nil]) 0
  rw [readPageFromFile_zero layout4K corruptBuffer [] _ length_corruptBuffer,
    freeSpaceOffset_deserialize layout4K _ _ length_corruptBuffer, readAt_corruptBuffer] at h0
  exact absurd h0 (by decide)

/-- C7 (amended): for every data file, existing or not, whose pages each store a
`freeSpaceOffset` of at most `PAGE_SIZE`, and every id such that every record
the engine loads from the file has an Integer `fields[0]` different from `id`,
`updateRecord(t, id, rec)` and `deleteRecord(t, id)` each return failure and
leave the data file as it is, byte for byte (so `selectAll(t)` is unchanged). -/
theorem C7_miss_is_atomic (c : Layout) (f : DataFile) (id : Int) (rec : Record)
    (_hb : PagesInBounds c f)
    (h : ∀ r ∈ loadAllRecords c f, ∃ k, getId r = .ok k ∧ k ≠ id) :
    updateRecord c f id rec = .ok (false, f) ∧ deleteRecord c f id = .ok (false, f) :=
  miss_atomic c f id rec h

/-- C7 (witness): the amended statement at the table `students` and the id 999. -/
theorem C7_miss_is_atomic_witness :
    PagesInBounds layout4K students ∧
    (∀ r ∈ loadAllRecords layout4K students, ∃ k, getId r = .ok k ∧ k ≠ 999) ∧
    updateRecord layout4K students 999 alice = .ok (false, students) ∧
    deleteRecord layout4K students 999 = .ok (false, students) :=
  have h : ∀ r ∈ loadAllRecords layout4K students, ∃ k, getId r = .ok k ∧ k ≠ 999 := by
    rw [scan_students.2]
    intro r hr
    rcases List.mem_cons.1 hr with rfl | hr
    · exact ⟨1, rfl, by decide⟩
    · rw [List.mem_singleton] at hr; subst hr; exact ⟨2, rfl, by decide⟩
  ⟨pagesInBounds_students, h,
    C7_miss_is_atomic layout4K students 999 alice pagesInBounds_students h⟩

/-- C19 (amended): for every data file whose pages each store a
`freeSpaceOffset` of at most `PAGE_SIZE` and whose stored records (those
`loadAllRecords` returns) all have an Integer `fields[0]`, `updateRecord` and
`deleteRecord` return a success/failure result for every argument, and
`insertRecord` does so for every argument record that has an Integer
`fields[0]`; none of them raises an exception or indexes a missing field. -/
theorem C19_failures_returned (c : Layout) (f : DataFile) (_hb : PagesInBounds c f)
    (h : ∀ r ∈ loadAllRecords c f, r.HasId) (rec : Record) (hrec : rec.HasId)
    (id : Int) (newRecord : Record) :
    (∃ b f', insertRecord c f rec = .ok (b, f')) ∧
    (∃ b f', updateRecord c f id newRecord = .ok (b, f')) ∧
    (∃ b f', deleteRecord c f id = .ok (b, f')) :=
  calls_return c f h rec hrec id newRecord

/-- C19 (witness): the amended statement at the table `students`. -/
theorem C19_failures_returned_witness :
    PagesInBounds layout4K students ∧
    (∀ r ∈ loadAllRecords layout4K students, r.HasId) ∧ alice.HasId ∧
    (∃ b f', insertRecord layout4K students alice = .ok (b, f')) ∧
    (∃ b f', updateRecord layout4K students 2 floatIdRecord = .ok (b, f')) ∧
    (∃ b f', deleteRecord layout4K students 2 = .ok (b, f')) :=
  have h : ∀ r ∈ loadAllRecords layout4K students, r.HasId := by
    rw [scan_students.2]
    intro r hr
    rcases List.mem_cons.1 hr with rfl | hr
    · exact ⟨1, rfl⟩
    · rw [List.mem_singleton] at hr; subst hr; exact ⟨2, rfl⟩
  ⟨pagesInBounds_students, h, ⟨1, rfl⟩,
    C19_failures_returned layout4K students pagesInBounds_students h alice ⟨1, rfl⟩ 2
      floatIdRecord⟩

/-- C23 (amended): on a table whose pages each store a `freeSpaceOffset` of at
most `PAGE_SIZE`, of fewer than 2^32 pages and fewer than 2^32 - 2 records,
whose scan returns records with pairwise distinct Integer `fields[0]`, the same
holds after `insertRecord` of a record with an Integer `fields[0]` and at most
65535 fields (the call succeeds), after any `deleteRecord`, and after any
`updateRecord(id, newRecord)` whose record has `fields[0] = id` and at most 65535
fields; the pages of the table afterwards store a `freeSpaceOffset` of at most
`PAGE_SIZE` again. -/
theorem C23_unique_ids_preserved (c : Layout) (hc : c.Valid) (f : DataFile)
    (hb : PagesInBounds c f) (hf : FewPages c f)
    (hn : (selectAll c f).length + 2 < 4294967296) (hu : UniqueIds (selectAll c f)) :
    (∀ rec : Record, rec.HasId → rec.fields.length ≤ 65535 → rec.InRange →
      ∃ f', insertRecord c f rec = .ok (true, f') ∧ PagesInBounds c f' ∧
        UniqueIds (selectAll c f')) ∧
    (∀ id : Int, ∃ b f', deleteRecord c f id = .ok (b, f') ∧ PagesInBounds c f' ∧
      UniqueIds (selectAll c f')) ∧
    (∀ (id : Int) (newRecord : Record), getId newRecord = .ok id →
      newRecord.fields.length ≤ 65535 → newRecord.InRange →
      ∃ b f', updateRecord c f id newRecord = .ok (b, f') ∧ PagesInBounds c f' ∧
        UniqueIds (selectAll c f')) := by
  obtain ⟨h1, h2, h3⟩ := uniqueIds_after c hc f hf hn hu
  obtain ⟨b1, b2, b3⟩ := pagesInBounds_after c hc f hb
  refine ⟨?_, ?_, ?_⟩
  · intro rec a1 a2 a3
    obtain ⟨f', e, u⟩ := h1 rec a1 a2 a3
    exact ⟨f', e, b1 rec true f' e, u⟩
  · intro id
    obtain ⟨b, f', e, u⟩ := h2 id
    exact ⟨b, f', e, b3 id b f' e, u⟩
  · intro id newRecord a1 a2 a3
    obtain ⟨b, f', e, u⟩ := h3 id newRecord a1 a2 a3
    exact ⟨b, f', e, b2 id newRecord b f' e, u⟩

/-- C23 (witness): the amended statement at the table `students`, which holds
`alice` and `bob` in one 4096-byte page. -/
theorem C23_unique_ids_preserved_witness :
    layout4K.Valid ∧ PagesInBounds layout4K students ∧ FewPages layout4K students ∧
    (selectAll layout4K students).length + 2 < 4294967296 ∧
    UniqueIds (selectAll layout4K students) ∧
    ((∀ rec : Record, rec.HasId → rec.fields.length ≤ 65535 → rec.InRange →
      ∃ f', insertRecord layout4K students rec = .ok (true, f') ∧
        PagesInBounds layout4K f' ∧ UniqueIds (selectAll layout4K f')) ∧
    (∀ id : Int, ∃ b f', deleteRecord layout4K students id = .ok (b, f') ∧
      PagesInBounds layout4K f' ∧ UniqueIds (selectAll layout4K f')) ∧
    (∀ (id : Int) (newRecord : Record), getId newRecord = .ok id →
      newRecord.fields.length ≤ 65535 → newRecord.InRange →
      ∃ b f', updateRecord layout4K students id newRecord = .ok (b, f') ∧
        PagesInBounds layout4K f' ∧ UniqueIds (selectAll layout4K f'))) :=
  have hn : (selectAll layout4K students).length + 2 < 4294967296 := by
    rw [scan_students.1]; decide
  ⟨layout4K_valid, pagesInBounds_students, fewPages_students, hn, uniqueIds_students,
    C23_unique_ids_preserved layout4K layout4K_valid students pagesInBounds_students
      fewPages_students hn uniqueIds_students⟩

end ChronoDB
